import Mathlib

/-!
# logkit: buffered line reader, runner manager and SQL reader

A shallow embedding of `reader/bufreader.go`, `mgr/mgr.go` and the templating and
offset-restore functions of `reader/sql/sql.go`.

* Go byte slices and the strings read from a File Source are lists of bytes; the SQL
  strings of `sql.go` are UTF-8 text, lists of characters.
* Go `map[string]V` values are association lists with at most one entry per key.
* The collaborators whose code lives outside these files (the File Source
  behind a `BufReader`, the regular expression engine, the character decoder,
  the path helpers, the runner constructor, the Meta store) are parameters of the
  model.
* A Go `for` loop without a bound is a recursion on a fuel counter; running out
  of fuel is reported as `Fault.outOfFuel`, a Go panic as `Fault.panic`.
-/

namespace Logkit

/-- A Go `byte`. -/
abbrev Byte := UInt8

/-- The bytes of an ASCII string literal. -/
def bytesOf (s : String) : List Byte := s.data.map (fun c => c.toNat.toUInt8)

/-- The newline delimiter that `ReadString` is called with. -/
def newline : Byte := 10

/-- Go error values that the reader and the manager tell apart. -/
inductive Error where
  | EOF
  | ErrNoProgress
  | ErrBufferFull
  | NotExist
  | other (msg : String)
  deriving DecidableEq, Repr

/-- Ways in which a run of the embedded code ends without a Go return value. -/
inductive Fault where
  | panic (msg : String)
  | outOfFuel
  deriving DecidableEq, Repr

/-! ## reader/bufreader.go -/

namespace reader

def DefaultBufSize : Nat := 4096

def MaxHeadPatternBufferSize : Nat := 20 * 1024 * 1024

def minReadBufferSize : Nat := 16

def maxConsecutiveEmptyReads : Nat := 10

structure LastSync where
  cache : List Byte
  buf : List Byte
  r : Nat
  w : Nat
  deriving DecidableEq, Repr

structure SourceIndex where
  Source : String
  Index : Int
  deriving DecidableEq, Repr

/-- What one call `Read(p)` of the File Source hands back: the `n = data.length`
bytes it produced, its error, and the File Source afterwards. -/
structure ReadResult (σ : Type) where
  data : List Byte
  err : Option Error
  next : σ

/-- The interface `LineSkipper` that a File Source may implement. -/
structure LineSkipper (σ : Type) where
  IsNewOpen : σ → Bool
  SetSkipped : σ → σ

/-- The `FileReader` interface as far as `BufReader` calls it. `Read s cap` is
`Read(p)` with `len(p) = cap` on a File Source in state `s`;
`NewLineBytesIndex` is `none` when the File Source is no `NewLineBytesRecorder`,
`Skipper` is `none` when it is no `LineSkipper`. -/
structure FileReader (σ : Type) where
  Read : σ → Nat → ReadResult σ
  Source : σ → String
  NewLineBytesIndex : Option (σ → List SourceIndex)
  SyncMeta : σ → Option Error × σ
  Skipper : Option (LineSkipper σ) := none

/-- The collaborators of a `BufReader` that are fixed while it reads: the File
Source operations, `Meta.GetEncodingWay()`, the `decoder` and the
`multiLineRegexp` (`Match` as a predicate on the line). -/
structure Env (σ : Type) where
  rd : FileReader σ
  encodingWay : String
  decoder : Option (List Byte → List Byte)
  multiLineRegexp : Option (List Byte → Bool)

/-- The mutable fields of `BufReader`; `rd` is the state of the File Source. -/
structure BufReader (σ : Type) where
  stopped : Bool
  buf : List Byte
  mutiLineCache : List (List Byte)
  rd : σ
  r : Nat
  w : Nat
  err : Option Error
  lastByte : Int
  lastRuneSize : Int
  lastSync : LastSync
  lastRdSource : List SourceIndex
  latestSource : String
  deriving DecidableEq, Repr

/-- The Go slice expression `buf[lo:hi]`. -/
def slice (buf : List Byte) (lo hi : Nat) : Except Fault (List Byte) :=
  if lo ≤ hi ∧ hi ≤ buf.length then .ok ((buf.drop lo).take (hi - lo))
  else .error (.panic "slice bounds out of range")

/-- The Go builtin `copy(dst, src)`: the new contents of `dst`. -/
def copy (dst src : List Byte) : List Byte :=
  src.take dst.length ++ dst.drop src.length

/-- The function `reset` applied to a fresh `BufReader`. -/
def reset {σ : Type} (buf : List Byte) (rd : σ) : BufReader σ :=
  { stopped := false, buf := buf, mutiLineCache := [], rd := rd, r := 0, w := 0,
    err := none, lastByte := -1, lastRuneSize := -1,
    lastSync := { cache := [], buf := [], r := 0, w := 0 },
    lastRdSource := [], latestSource := "" }

def updateLastRdSource {σ : Type} (b : BufReader σ) : BufReader σ :=
  if b.lastRdSource.length ≤ 0 then b
  else
    let shifted := b.lastRdSource.map (fun v => { v with Index := v.Index - b.r })
    let idx := (shifted.takeWhile (fun v => !decide (v.Index > 0))).length
    if idx ≥ shifted.length then { b with lastRdSource := [] }
    else if idx > 0 then { b with lastRdSource := shifted.drop idx }
    else { b with lastRdSource := shifted }

/-- The read loop of `fill`; the counter is the loop variable `i`. -/
def fillLoop {σ : Type} (env : Env σ) : Nat → BufReader σ → Except Fault (BufReader σ)
  | 0, b => .ok { b with err := some .ErrNoProgress }
  | i + 1, b =>
    if b.buf.length < b.w then .error (.panic "slice bounds out of range")
    else
      let res := env.rd.Read b.rd (b.buf.length - b.w)
      let n := res.data.length
      let b1 : BufReader σ :=
        { b with
          rd := res.next
          buf := b.buf.take b.w ++ res.data.take (b.buf.length - b.w)
                  ++ b.buf.drop (b.w + n) }
      let b2 : BufReader σ :=
        if b1.latestSource ≠ env.rd.Source b1.rd then
          match env.rd.NewLineBytesIndex with
          | some rc =>
            { b1 with
              lastRdSource := b1.lastRdSource ++
                (rc b1.rd).map (fun v => { Source := v.Source, Index := (b1.w : Int) + v.Index })
              latestSource := env.rd.Source b1.rd }
          | none => b1
        else b1
      let b3 : BufReader σ := { b2 with w := b2.w + n }
      match res.err with
      | some e => .ok { b3 with err := some e }
      | none => if n > 0 then .ok b3 else fillLoop env i b3

/-- The first block of `fill`: "Slide existing data to beginning." -/
def slide {σ : Type} (b : BufReader σ) : Except Fault (BufReader σ) :=
  if b.r > 0 then do
    let src ← slice b.buf b.r b.w
    let b0 : BufReader σ := { b with buf := copy b.buf src, w := b.w - b.r }
    pure { updateLastRdSource b0 with r := 0 }
  else pure b

/-- The step of `fill` that remembers the File Source seen first. -/
def noteLatestSource {σ : Type} (env : Env σ) (b : BufReader σ) : BufReader σ :=
  if b.latestSource = "" then { b with latestSource := env.rd.Source b.rd } else b

def fill {σ : Type} (env : Env σ) (b : BufReader σ) : Except Fault (BufReader σ) := do
  let b1 ← slide b
  if b1.w ≥ b1.buf.length then
    .error (.panic "bufio: tried to fill full buffer")
  else
    fillLoop env maxConsecutiveEmptyReads (noteLatestSource env b1)

def readErr {σ : Type} (b : BufReader σ) : Option Error × BufReader σ :=
  (b.err, { b with err := none })

def buffered {σ : Type} (b : BufReader σ) : Nat := b.w - b.r

/-- The trailing "Handle last byte" step of `readSlice`. -/
def handleLastByte {σ : Type} (line : List Byte) (b : BufReader σ) : BufReader σ :=
  match line.getLast? with
  | some c => { b with lastByte := (c.toNat : Int), lastRuneSize := -1 }
  | none => b

/-- The loop of `readSlice`: one unit of fuel per iteration. -/
def readSliceLoop {σ : Type} (env : Env σ) (delim : Byte) :
    Nat → BufReader σ → Except Fault (List Byte × Option Error × BufReader σ)
  | 0, _ => .error .outOfFuel
  | fuel + 1, b =>
    if b.stopped then .ok ([], none, b)
    else do
      let window ← slice b.buf b.r b.w
      if delim ∈ window then
        let i := window.indexOf delim
        let line ← slice b.buf b.r (b.r + i + 1)
        .ok (line, none, handleLastByte line { b with r := b.r + i + 1 })
      else if b.err.isSome then
        let (e, b1) := readErr { b with r := b.w }
        .ok (window, e, handleLastByte window b1)
      else if buffered b ≥ b.buf.length then
        .ok (b.buf, some .ErrBufferFull, handleLastByte b.buf { b with r := b.w })
      else do
        let b1 ← fill env b
        readSliceLoop env delim fuel b1

def readSlice {σ : Type} (env : Env σ) (fuel : Nat) (delim : Byte) (b : BufReader σ) :
    Except Fault (List Byte × Option Error × BufReader σ) :=
  readSliceLoop env delim fuel b

/-- The loop of `readBytes`; `full` holds the fragments collected so far. -/
def readBytesLoop {σ : Type} (env : Env σ) (fuel : Nat) (delim : Byte) :
    Nat → List (List Byte) → BufReader σ →
      Except Fault (List Byte × Option Error × BufReader σ)
  | 0, _, _ => .error .outOfFuel
  | k + 1, full, b => do
    let (frag, e, b1) ← readSlice env fuel delim b
    match e with
    | none => .ok (full.flatten ++ frag, none, b1)
    | some .ErrBufferFull => readBytesLoop env fuel delim k (full ++ [frag]) b1
    | some e1 => .ok (full.flatten ++ frag, some e1, b1)

def readBytes {σ : Type} (env : Env σ) (fuel : Nat) (delim : Byte) (b : BufReader σ) :
    Except Fault (List Byte × Option Error × BufReader σ) :=
  readBytesLoop env fuel delim fuel [] b

def ReadString {σ : Type} (env : Env σ) (fuel : Nat) (delim : Byte) (b : BufReader σ) :
    Except Fault (List Byte × Option Error × BufReader σ) := do
  let (bytes, err, b1) ← readBytes env fuel delim b
  if env.encodingWay ≠ "" ∧ env.encodingWay ≠ "utf-8" then
    match env.decoder with
    | some convertString => .ok (convertString bytes, err, b1)
    | none => .ok (bytes, err, b1)
  else .ok (bytes, err, b1)

def FormMutiLine {σ : Type} (b : BufReader σ) : List Byte :=
  if b.mutiLineCache.length ≤ 0 then []
  else b.mutiLineCache.flatten

def calcMutiLineCache {σ : Type} (b : BufReader σ) : Nat :=
  (b.mutiLineCache.map List.length).sum

/-- The `return` statement of `ReadPattern` that a result comes from: the head pattern
matched, `ReadString` failed without a line, more than ten empty reads, or the
accumulator grew beyond `MaxHeadPatternBufferSize`. -/
inductive ReturnSite where
  | headMatched
  | readFailed
  | emptyReads
  | overLimit
  deriving DecidableEq, Repr

/-- How one round of the `ReadPattern` loop ends: with the next round (`continue` or
the end of the loop body) or with a `return`. -/
inductive Round (σ : Type) where
  | next (maxTimes : Nat) (b : BufReader σ)
  | ret (line : List Byte) (err : Option Error) (b : BufReader σ) (site : ReturnSite)

/-- The body of the `ReadPattern` loop after its call of `ReadString`, which returned
`line` and `err`. -/
def ReadPatternBody {σ : Type} (env : Env σ) (maxTimes : Nat) (line : List Byte)
    (err : Option Error) (b : BufReader σ) : Except Fault (Round σ) :=
  if line.length > 0 then
    if b.mutiLineCache.length ≤ 0 then
      .ok (.next maxTimes { b with mutiLineCache := [line] })
    else
      match env.multiLineRegexp with
      | none => .error (.panic "invalid memory address or nil pointer dereference")
      | some re =>
        if re line then
          .ok (.ret (FormMutiLine b) err { b with mutiLineCache := [line] } .headMatched)
        else
          let b1 : BufReader σ := { b with mutiLineCache := b.mutiLineCache ++ [line] }
          if calcMutiLineCache b1 > MaxHeadPatternBufferSize then
            .ok (.ret (FormMutiLine b1) err { b1 with mutiLineCache := [] } .overLimit)
          else .ok (.next 0 b1)
  else if err.isSome then
    .ok (.ret (FormMutiLine b) err { b with mutiLineCache := [] } .readFailed)
  else if maxTimes + 1 > 10 then
    .ok (.ret [] none b .emptyReads)
  else if calcMutiLineCache b > MaxHeadPatternBufferSize then
    .ok (.ret (FormMutiLine b) err { b with mutiLineCache := [] } .overLimit)
  else .ok (.next (maxTimes + 1) b)

/-- The loop of `ReadPattern`: one unit of the counter per round; `fuel` is handed to
`ReadString`. -/
def ReadPatternLoop {σ : Type} (env : Env σ) (fuel : Nat) :
    Nat → Nat → BufReader σ →
      Except Fault (List Byte × Option Error × BufReader σ × ReturnSite)
  | 0, _, _ => .error .outOfFuel
  | k + 1, maxTimes, b => do
    let (line, err, b1) ← ReadString env fuel newline b
    match ← ReadPatternBody env maxTimes line err b1 with
    | .next maxTimes1 b2 => ReadPatternLoop env fuel k maxTimes1 b2
    | .ret line1 err1 b2 site => .ok (line1, err1, b2, site)

def ReadPattern {σ : Type} (env : Env σ) (fuel : Nat) (b : BufReader σ) :
    Except Fault (List Byte × Option Error × BufReader σ × ReturnSite) :=
  ReadPatternLoop env fuel fuel 0 b

/-- The method `ReadLine`: `ReadString` in single-line mode, `ReadPattern` when a
head pattern is set, then the first-line skip of a `LineSkipper`. The statistics record
that `setStatsError` writes and the throttled log line are not part of the reader
state modelled here. -/
def ReadLine {σ : Type} (env : Env σ) (fuel : Nat) (b : BufReader σ) :
    Except Fault (List Byte × Option Error × BufReader σ) := do
  let (ret, err, b1) ←
    match env.multiLineRegexp with
    | none => ReadString env fuel newline b
    | some _ => do
      let (ret, err, b1, _) ← ReadPattern env fuel b
      pure (ret, err, b1)
  match env.rd.Skipper with
  | some skp =>
    if skp.IsNewOpen b1.rd then .ok ([], err, { b1 with rd := skp.SetSkipped b1.rd })
    else .ok (ret, err, b1)
  | none => .ok (ret, err, b1)

/-- The loop of `Source` over `lastRdSource`, with the read cursor `r`; `current` is
`b.rd.Source()`. -/
def SourceLoop (r : Nat) (current : String) : List SourceIndex → String
  | [] => current
  | v :: rest =>
    if (r : Int) < v.Index ∨ (v.Index > 0 ∧ (r : Int) = v.Index) then v.Source
    else SourceLoop r current rest

/-- The method `Source`. -/
def Source {σ : Type} (env : Env σ) (b : BufReader σ) : String :=
  SourceLoop b.r (env.rd.Source b.rd) b.lastRdSource

/-- What a file of the Meta directory holds. -/
inductive Stored (α : Type) where
  | absent
  | corrupt (e : Error)
  | holds (a : α)
  deriving DecidableEq, Repr

/-- Modelled from the spec: the Meta store (its code is not part of the files
embedded here). It keeps the buffer-metadata line (readPos, writePos, bufferLen),
the raw buffer dump and the line-cache file; `ReadBufMeta`, `ReadBuf` and
`ReadCacheLine` return what the last successful `WriteBuf` and `WriteCacheLine`
stored. `isExist` and `isValid` are the answers of `IsExist()` and `IsValid()`;
`writeBufErr` and `writeCacheLineErr` are the errors the next write fails with. -/
structure Meta where
  bufMeta : Stored (Nat × Nat × Nat)
  bufDat : Stored (List Byte)
  cacheLine : Stored (List Byte)
  isExist : Bool
  isValid : Bool
  writeBufErr : Option Error
  writeCacheLineErr : Option Error
  deriving DecidableEq, Repr

/-- Modelled from the spec: `ReadBufMeta() → (r, w, len)`. -/
def Meta.ReadBufMeta (m : Meta) : (Nat × Nat × Nat) × Option Error :=
  match m.bufMeta with
  | .absent => ((0, 0, 0), some .NotExist)
  | .corrupt e => ((0, 0, 0), some e)
  | .holds x => (x, none)

/-- Modelled from the spec: `ReadBuf(dst)`, the new contents of `dst`. -/
def Meta.ReadBuf (m : Meta) (dst : List Byte) : Except Error (List Byte) :=
  match m.bufDat with
  | .absent => .error .NotExist
  | .corrupt e => .error e
  | .holds d => .ok (copy dst d)

/-- Modelled from the spec: `ReadCacheLine()`. -/
def Meta.ReadCacheLine (m : Meta) : Except Error (List Byte) :=
  match m.cacheLine with
  | .absent => .error .NotExist
  | .corrupt e => .error e
  | .holds d => .ok d

/-- Modelled from the spec: `WriteBuf(buf, r, w, len)`. -/
def Meta.WriteBuf (m : Meta) (buf : List Byte) (r w len : Nat) : Option Error × Meta :=
  match m.writeBufErr with
  | some e => (some e, m)
  | none => (none, { m with bufMeta := .holds (r, w, len), bufDat := .holds buf })

/-- Modelled from the spec: `WriteCacheLine(s)`. -/
def Meta.WriteCacheLine (m : Meta) (s : List Byte) : Option Error × Meta :=
  match m.writeCacheLineErr with
  | some e => (some e, m)
  | none => (none, { m with cacheLine := .holds s })

/-- The calls that `SyncMeta` makes on its collaborators. -/
inductive Call where
  | WriteBuf
  | WriteCacheLine
  | rdSyncMeta
  deriving DecidableEq, Repr

/-- The function `NewReaderSize(rd, meta, size)`; `meta = none` is the nil pointer. -/
def NewReaderSize {σ : Type} (rd : σ) (meta : Option Meta) (size : Nat) :
    Except Error (BufReader σ) :=
  let size := if size < minReadBufferSize then minReadBufferSize else size
  match meta with
  | none => .error (.other "meta is nil pointer error")
  | some meta =>
    let ((readPos, writePos, lastSize), err) := meta.ReadBufMeta
    let bufFromFile : Except Error Bool :=
      match err with
      | some e => if e = .NotExist then .ok false else .error e
      | none => .ok true
    match bufFromFile with
    | .error e => .error e
    | .ok bufFromFile =>
      let size := if size < lastSize then lastSize else size
      let linesbytes : List Byte :=
        match meta.ReadCacheLine with
        | .error _ => []
        | .ok l => l
      let r : BufReader σ := reset (List.replicate size 0) rd
      let r1 : Except Error (BufReader σ) :=
        if meta.isExist ∧ meta.isValid then
          let r0 : BufReader σ := { r with r := readPos, w := writePos }
          if bufFromFile then
            match meta.ReadBuf r0.buf with
            | .error e => .error e
            | .ok buf => .ok { r0 with buf := buf }
          else .ok r0
        else .ok r
      match r1 with
      | .error e => .error e
      | .ok r1 =>
        if linesbytes.length > 0 then
          .ok { r1 with mutiLineCache := r1.mutiLineCache ++ [linesbytes] }
        else .ok r1

/-- The method `SyncMeta`: the reader and the Meta store afterwards, and the calls
made on the Meta store and on the File Source, in order. -/
def SyncMeta {σ : Type} (env : Env σ) (m : Meta) (b : BufReader σ) :
    BufReader σ × Meta × List Call :=
  let linecache := FormMutiLine b
  let rdSync (b : BufReader σ) (m : Meta) (calls : List Call) :=
    ({ b with rd := (env.rd.SyncMeta b.rd).2 }, m, calls ++ [Call.rdSyncMeta])
  if b.lastSync.cache ≠ linecache ∨ b.lastSync.buf ≠ b.buf ∨ b.r ≠ b.lastSync.r
      ∨ b.w ≠ b.lastSync.w then
    match m.WriteBuf b.buf b.r b.w b.buf.length with
    | (some _, m1) => (b, m1, [Call.WriteBuf])
    | (none, m1) =>
      match m1.WriteCacheLine linecache with
      | (some _, m2) => (b, m2, [Call.WriteBuf, Call.WriteCacheLine])
      | (none, m2) =>
        rdSync { b with lastSync := { cache := linecache, buf := b.buf, r := b.r, w := b.w } }
          m2 [Call.WriteBuf, Call.WriteCacheLine]
  else rdSync b m []

/-- The snapshot that `lastSync` remembers is the one the Meta store holds. -/
def Synced {σ : Type} (b : BufReader σ) (m : Meta) : Prop :=
  m.bufMeta = .holds (b.lastSync.r, b.lastSync.w, b.lastSync.buf.length) ∧
  m.bufDat = .holds b.lastSync.buf ∧ m.cacheLine = .holds b.lastSync.cache

/-- The snapshot that `lastSync` remembers differs from the reader: `SyncMeta` writes. -/
def Dirty {σ : Type} (b : BufReader σ) : Prop :=
  b.lastSync.cache ≠ FormMutiLine b ∨ b.lastSync.buf ≠ b.buf ∨ b.r ≠ b.lastSync.r
    ∨ b.w ≠ b.lastSync.w

/-- The unread window `buf[r:w]`. -/
def window {σ : Type} (b : BufReader σ) : List Byte :=
  (b.buf.drop b.r).take (b.w - b.r)

/-- The bytes of `u` up to and including the first `delim`. -/
def throughDelim (delim : Byte) (u : List Byte) : List Byte :=
  u.take (u.indexOf delim + 1)

/-- The bytes of `u` after the first `delim`. -/
def afterDelim (delim : Byte) (u : List Byte) : List Byte :=
  u.drop (u.indexOf delim + 1)

/-- The statement `Delivers rd s bs`: a File Source in state `s` hands out the bytes
`bs` next: as long as some of `bs` is outstanding, every `Read` into a non-empty
slice returns no error and at least one byte, at most as many as the slice holds,
and these bytes are the next ones of `bs`. How the bytes are cut into chunks is
up to the File Source and may depend on the slice it is given. -/
inductive Delivers {σ : Type} (rd : FileReader σ) : σ → List Byte → Prop
  | nil (s : σ) : Delivers rd s []
  | read (s : σ) (bs : List Byte) :
      (∀ cap, 0 < cap →
        (rd.Read s cap).err = none ∧ (rd.Read s cap).data ≠ [] ∧
        (rd.Read s cap).data.length ≤ cap ∧ (rd.Read s cap).data <+: bs) →
      (∀ cap, 0 < cap →
        Delivers rd (rd.Read s cap).next (bs.drop (rd.Read s cap).data.length)) →
      Delivers rd s bs

/-- The first `n` lines of `u`, each cut after its delimiter. -/
def linesOf (delim : Byte) : Nat → List Byte → List (List Byte)
  | 0, _ => []
  | n + 1, u => throughDelim delim u :: linesOf delim n (afterDelim delim u)

/-- The results of `n` successive calls of `ReadString`, in call order. -/
def ReadStrings {σ : Type} (env : Env σ) (fuel : Nat) (delim : Byte) :
    Nat → BufReader σ → Except Fault (List (List Byte × Option Error) × BufReader σ)
  | 0, b => .ok ([], b)
  | n + 1, b => do
    let (line, err, b1) ← ReadString env fuel delim b
    let (rets, b2) ← ReadStrings env fuel delim n b1
    .ok ((line, err) :: rets, b2)

/-- A File Source over a fixed byte sequence that hands out at most `chunk` bytes
per `Read` and reports `EOF` once the sequence is used up. -/
def chunkSource (chunk : Nat) : FileReader (List Byte) :=
  { Read := fun s cap =>
      { data := s.take (min cap chunk)
        err := if s = [] then some .EOF else none
        next := s.drop (min cap chunk) }
    Source := fun _ => "a.log"
    NewLineBytesIndex := none
    SyncMeta := fun s => (none, s) }

/-- A single-line reader environment (no encoding, no head pattern) over `chunkSource 5`. -/
def plainEnv : Env (List Byte) :=
  { rd := chunkSource 5, encodingWay := "", decoder := none, multiLineRegexp := none }

/-- A reader with a 16-byte buffer whose window holds `ab`, over a source that still
has a 21-byte rest of that line and one more line. -/
def longLineReader : BufReader (List Byte) :=
  { reset (bytesOf "xxab" ++ List.replicate 12 0) (bytesOf "cdefghijklmnopqrstuv\nwx\n") with
    r := 2, w := 4 }

/-- A multi-line reader in mid-stream: two physical lines in the accumulator. -/
def cachedReader : BufReader (List Byte) :=
  { longLineReader with mutiLineCache := [bytesOf "2024-01-01 start\n", bytesOf " stack line\n"] }

/-- A Meta directory in which nothing has been written yet. -/
def emptyMeta : Meta :=
  { bufMeta := .absent, bufDat := .absent, cacheLine := .absent, isExist := true,
    isValid := true, writeBufErr := none, writeCacheLineErr := none }

/-- A byte is an ASCII decimal digit. -/
def isDigit (c : Byte) : Bool := decide (48 ≤ c.toNat) && decide (c.toNat ≤ 57)

/-- The head pattern `^\d{4}-\d{2}-\d{2}` of scenario S3 as a predicate on a line. -/
def datePattern (line : List Byte) : Bool :=
  match line with
  | y1 :: y2 :: y3 :: y4 :: d1 :: m1 :: m2 :: d2 :: t1 :: t2 :: _ =>
    isDigit y1 && isDigit y2 && isDigit y3 && isDigit y4 && d1 == 45 &&
    isDigit m1 && isDigit m2 && d2 == 45 && isDigit t1 && isDigit t2
  | _ => false

/-- A multi-line reader environment with the head pattern of scenario S3. -/
def dateEnv : Env (List Byte) :=
  { rd := chunkSource 5, encodingWay := "", decoder := none,
    multiLineRegexp := some datePattern }

/-- A fresh reader with a 16-byte buffer over the three physical lines of scenario S3. -/
def s3Reader : BufReader (List Byte) :=
  reset (List.replicate 16 0) (bytesOf "2024-01-01 start\n stack line\n2024-01-02 next\n")

/-- A fresh reader over a source that starts in the middle of a record. -/
def midRecordReader : BufReader (List Byte) :=
  reset (List.replicate 16 0) (bytesOf " stack line\n2024-01-02 next\n")

/-- The reader of scenario S3 after its first two physical lines went into the
accumulator. -/
def s3Accumulated : BufReader (List Byte) :=
  { s3Reader with mutiLineCache := [bytesOf "2024-01-01 start\n", bytesOf " stack line\n"] }

/-- A physical line of exactly `MaxHeadPatternBufferSize` bytes, the newline included. -/
def longestLine : List Byte :=
  List.replicate (MaxHeadPatternBufferSize - 1) 97 ++ [newline]

/-- A physical line of `MaxHeadPatternBufferSize + 1` bytes, the newline included. -/
def overlongLine : List Byte :=
  List.replicate MaxHeadPatternBufferSize 97 ++ [newline]

/-- A reader whose buffer holds the physical line `overlongLine` and one more physical
line, with an empty accumulator. -/
def overlongReader : BufReader (List Byte) :=
  { reset (overlongLine ++ bytesOf " x\n") [] with w := MaxHeadPatternBufferSize + 4 }

/-- A reader whose accumulator holds the one physical line `longestLine`. -/
def fullCacheReader : BufReader (List Byte) :=
  { s3Reader with mutiLineCache := [longestLine] }

/-- The reader of scenario S3 after its first call of `ReadPattern`: the third physical
line is in the accumulator and the source is used up. -/
def s3Pending : BufReader (List Byte) :=
  { reset (bytesOf "2024-01-02 next\n") [] with
    mutiLineCache := [bytesOf "2024-01-02 next\n"], r := 16, w := 16, lastByte := 10,
    latestSource := "a.log" }

/-- A reader in the middle of a record whose accumulator holds the one physical line
`longestLine`. -/
def fullCacheMidReader : BufReader (List Byte) :=
  { midRecordReader with mutiLineCache := [longestLine] }

/-- A File Source that is momentarily empty: every `Read` returns zero bytes and a nil
error. -/
def idleSource : FileReader Unit :=
  { Read := fun s _ => { data := [], err := none, next := s }
    Source := fun _ => "a.log"
    NewLineBytesIndex := none
    SyncMeta := fun s => (none, s) }

/-- A single-line reader environment over `idleSource`. -/
def idleEnv : Env Unit :=
  { rd := idleSource, encodingWay := "", decoder := none, multiLineRegexp := none }

/-- A multi-line reader environment over `idleSource`. -/
def idlePatternEnv : Env Unit :=
  { rd := idleSource, encodingWay := "", decoder := none,
    multiLineRegexp := some datePattern }

/-- A fresh reader with a 16-byte buffer over `idleSource`. -/
def idleReader : BufReader Unit := reset (List.replicate 16 0) ()

/-- A reader over `idleSource` with two physical lines in its accumulator. -/
def idleCachedReader : BufReader Unit :=
  { idleReader with
    mutiLineCache := [bytesOf "2024-01-01 start\n", bytesOf " stack line\n"] }

/-- A File Source that is momentarily empty and is a `LineSkipper`; its state tells
whether the file was newly opened and its first line has not been skipped yet. -/
def newFileSource : FileReader Bool :=
  { Read := fun s _ => { data := [], err := none, next := s }
    Source := fun _ => "a.log"
    NewLineBytesIndex := none
    SyncMeta := fun s => (none, s)
    Skipper := some { IsNewOpen := fun s => s, SetSkipped := fun _ => false } }

/-- A multi-line reader environment over `newFileSource`. -/
def newFileEnv : Env Bool :=
  { rd := newFileSource, encodingWay := "", decoder := none,
    multiLineRegexp := some datePattern }

/-- A reader over a newly opened file of `newFileSource`, with two physical lines in its
accumulator. -/
def newFileReader : BufReader Bool :=
  { reset (List.replicate 16 0) true with
    mutiLineCache := [bytesOf "2024-01-01 start\n", bytesOf " stack line\n"] }

/-- A fresh reader over a source whose last physical line has no newline yet. -/
def partialTailReader : BufReader (List Byte) :=
  reset (List.replicate 16 0) (bytesOf "2024-01-01 a\n2024-01-02 b")

/-- A File Source that rotated from `a.log` to `b.log` and has nothing more to read. -/
def rotatedSource : FileReader Unit :=
  { Read := fun s _ => { data := [], err := some .EOF, next := s }
    Source := fun _ => "b.log"
    NewLineBytesIndex := some (fun _ => [])
    SyncMeta := fun s => (none, s) }

/-- A single-line reader environment over `rotatedSource`. -/
def rotatedEnv : Env Unit :=
  { rd := rotatedSource, encodingWay := "", decoder := none, multiLineRegexp := none }

/-- A reader whose buffer holds the last line of `a.log` and the first line of `b.log`:
one rotation boundary, at buffer index 4. -/
def rotatedReader : BufReader Unit :=
  { reset (bytesOf "aaa\nbbb\n" ++ List.replicate 8 0) () with
    w := 8, lastRdSource := [{ Source := "a.log", Index := 4 }], latestSource := "b.log" }

/-- The reader `rotatedReader` with its read cursor on the rotation boundary. -/
def rotatedAtBoundary : BufReader Unit := { rotatedReader with r := 4 }

/-- A Meta directory whose buffer-meta file cannot be parsed. -/
def corruptMeta : Meta := { emptyMeta with bufMeta := .corrupt (.other "invalid buf meta") }

/-- A Meta directory in which `WriteBuf` fails. -/
def fullDiskMeta : Meta :=
  { emptyMeta with writeBufErr := some (.other "no space left on device") }

/-- The fields of a reader that reading from the File Source leaves alone. -/
def Frame {σ : Type} (b b' : BufReader σ) : Prop :=
  b'.buf.length = b.buf.length ∧ b'.err = b.err ∧ b'.stopped = b.stopped ∧
  b'.mutiLineCache = b.mutiLineCache ∧ b'.lastSync = b.lastSync

/-- The fields of a reader that no read operation touches. -/
def Keeps {σ : Type} (b b' : BufReader σ) : Prop :=
  b'.mutiLineCache = b.mutiLineCache ∧ b'.stopped = b.stopped ∧ b'.lastSync = b.lastSync

/-- The cursor invariant `r ≤ w ≤ len(buf)`. -/
def Cursors {σ : Type} (b : BufReader σ) : Prop :=
  b.r ≤ b.w ∧ b.w ≤ b.buf.length

end reader

/-! ## mgr/mgr.go -/

namespace mgr

/-- A Go `map[string]V`: an association list; `mapGet` reads the first entry of a key. -/
abbrev Map (V : Type) := List (String × V)

/-- The map read `m[k]` together with its `ok` flag. -/
def mapGet {V : Type} (m : Map V) (k : String) : Option V :=
  match m with
  | [] => none
  | (k1, v) :: rest => if k1 = k then some v else mapGet rest k

/-- The map write `m[k] = v`: the entry of `k` is replaced where it stands, a new key
is added at the end. -/
def mapSet {V : Type} (m : Map V) (k : String) (v : V) : Map V :=
  match mapGet m k with
  | some _ => m.map (fun e => if e.1 = k then (k, v) else e)
  | none => m ++ [(k, v)]

/-- The builtin `delete(m, k)`. -/
def mapDelete {V : Type} (m : Map V) (k : String) : Map V :=
  m.filter (fun e => !decide (e.1 = k))

/-- The keys of a map, in the order of the association list. -/
def mapKeys {V : Type} (m : Map V) : List String := m.map Prod.fst

structure cleanQueue where
  cleanerCount : Int
  filecount : Map Int
  key : String
  deriving DecidableEq, Repr

/-- The type `CleanInfo` that a runner's `Cleaner()` reports. -/
structure CleanInfo where
  enable : Bool
  logdir : String
  deriving DecidableEq, Repr

/-- The type `cleaner.CleanSignal`. -/
structure CleanSignal where
  Cleaner : String
  Logdir : String
  Filename : String
  ReadMode : String
  deriving DecidableEq, Repr

/-- The constant `reader.ModeTailx`. -/
def ModeTailx : String := "tailx"

/-- The helpers of other packages and of the Go library that the manager calls:
`GetRealPath` (its first result and its error), `filepath.Match`, `filepath.Join`,
`filepath.Abs`, and the constants `sender.InnerUserAgent`, `SchemaFreeTokensPrefix`,
`LogDBTokensPrefix`, `TsDBTokensPrefix` and `KodoTokensPrefix`. -/
structure Env where
  GetRealPath : String → Except Error String
  Match : String → String → Except Error Bool
  Join : String → String → String
  Abs : String → Except Error String
  InnerUserAgent : String
  SchemaFreeTokensPrefix : String
  LogDBTokensPrefix : String
  TsDBTokensPrefix : String
  KodoTokensPrefix : String

/-- The method `addCleanQueue` on the map `m.cleanQueues`. -/
def addCleanQueue (cleanQueues : Map cleanQueue) (info : CleanInfo) : Map cleanQueue :=
  if !info.enable then cleanQueues
  else
    let cq : cleanQueue :=
      match mapGet cleanQueues info.logdir with
      | some cq => { cq with cleanerCount := cq.cleanerCount + 1 }
      | none => { cleanerCount := 1, filecount := [], key := info.logdir }
    mapSet cleanQueues info.logdir cq

/-- The method `removeCleanQueue` on the map `m.cleanQueues`; the decrement of
`cq.cleanerCount` goes through the pointer held in the map. -/
def removeCleanQueue (cleanQueues : Map cleanQueue) (info : CleanInfo) : Map cleanQueue :=
  if !info.enable then cleanQueues
  else
    match mapGet cleanQueues info.logdir with
    | none => cleanQueues
    | some cq =>
      let cq1 : cleanQueue := { cq with cleanerCount := cq.cleanerCount - 1 }
      if cq1.cleanerCount ≤ 0 then mapDelete cleanQueues info.logdir
      else mapSet cleanQueues info.logdir cq1

/-- The method `getCleanQueues`. -/
def getCleanQueues (env : Env) (cleanQueues : Map cleanQueue) (dir file mode : String) :
    Except Error (List cleanQueue) :=
  if mode = ModeTailx then
    .ok ((cleanQueues.filter (fun kv =>
      match env.Match kv.1 (env.Join dir file) with
      | .error _ => false
      | .ok matched => matched)).map Prod.snd)
  else
    match mapGet cleanQueues dir with
    | none => .error (.other "cleaner dir not exist but got clean signal for delete file")
    | some q => .ok [q]

/-- The value `q.filecount[file]`, zero for a missing entry. -/
def fileCount (q : cleanQueue) (file : String) : Int :=
  (mapGet q.filecount file).getD 0

/-- The first loop of `doClean`: the queues with their counts raised, and
`canBeDeleted`. -/
def countSignal (file : String) : List cleanQueue → Bool → List cleanQueue × Bool
  | [], canBeDeleted => ([], canBeDeleted)
  | q :: rest, canBeDeleted =>
    let count := fileCount q file + 1
    let canBeDeleted1 := if count < q.cleanerCount then false else canBeDeleted
    let q1 : cleanQueue := { q with filecount := mapSet q.filecount file count }
    let (rest1, canBeDeleted2) := countSignal file rest canBeDeleted1
    (q1 :: rest1, canBeDeleted2)

/-- The method `doClean`: the map `m.cleanQueues` afterwards and the path handed to
`os.Remove`, if any. Go holds the queues by pointer; every queue is stored under its
own `key`, so storing the changed queue under `q.key`, which is what the last loop
does, is the update through the pointer. -/
def doClean (env : Env) (cleanQueues : Map cleanQueue) (sig : CleanSignal) :
    Map cleanQueue × Option String :=
  match env.GetRealPath sig.Logdir with
  | .error _ => (cleanQueues, none)
  | .ok dir =>
    let file := sig.Filename
    match getCleanQueues env cleanQueues dir file sig.ReadMode with
    | .error _ => (cleanQueues, none)
    | .ok queues =>
      let (queues1, canBeDeleted) := countSignal file queues true
      let (queues2, removed) : List cleanQueue × Option String :=
        if canBeDeleted then
          (queues1.map (fun q => { q with filecount := mapDelete q.filecount file }),
            some (env.Join dir file))
        else (queues1, none)
      (queues2.foldl (fun m q => mapSet m q.key q) cleanQueues, removed)

/-- The clean signals `sigs` handled one after the other by `doClean`: the map
afterwards and, per signal, the path handed to `os.Remove`. -/
def doCleanAll (env : Env) : Map cleanQueue → List CleanSignal →
    Map cleanQueue × List (Option String)
  | cleanQueues, [] => (cleanQueues, [])
  | cleanQueues, sig :: rest =>
    let (m1, removed) := doClean env cleanQueues sig
    let (m2, removals) := doCleanAll env m1 rest
    (m2, removed :: removals)

/-- A call of `addCleanQueue` or of `removeCleanQueue`. -/
inductive QueueOp where
  | add (info : CleanInfo)
  | remove (info : CleanInfo)
  deriving DecidableEq, Repr

def QueueOp.apply (cleanQueues : Map cleanQueue) : QueueOp → Map cleanQueue
  | .add info => addCleanQueue cleanQueues info
  | .remove info => removeCleanQueue cleanQueues info

/-- The map `m.cleanQueues` after a sequence of calls. -/
def applyQueueOps (cleanQueues : Map cleanQueue) (ops : List QueueOp) : Map cleanQueue :=
  ops.foldl QueueOp.apply cleanQueues

/-- The registrations that are outstanding after a sequence of calls that starts with
the registrations `regs` outstanding; `none` when a removal has no outstanding
registration with the same `CleanInfo` to undo. -/
def registered : List CleanInfo → List QueueOp → Option (List CleanInfo)
  | regs, [] => some regs
  | regs, .add info :: ops => registered (info :: regs) ops
  | regs, .remove info :: ops =>
    if info ∈ regs then registered (regs.erase info) ops else none

/-- The number of enabled cleaners among `regs` that target the log directory `d`. -/
def cleanersOf (d : String) : List CleanInfo → Nat
  | [] => 0
  | info :: regs => (if info.enable = true ∧ info.logdir = d then 1 else 0) + cleanersOf d regs

/-- A clean signal for `file` in `dir` that is not in `tailx` mode, from whatever
cleaner. -/
def SignalFor (env : Env) (dir file : String) (sig : CleanSignal) : Prop :=
  env.GetRealPath sig.Logdir = .ok dir ∧ sig.Filename = file ∧ sig.ReadMode ≠ ModeTailx

/-- The change of the first loop of `doClean` to one queue: `filecount[file]` goes up
by one, a missing entry counting as zero. -/
def bumpCount (file : String) (q : cleanQueue) : cleanQueue :=
  { q with filecount := mapSet q.filecount file (fileCount q file + 1) }

/-- The test `canBeDeleted` of `doClean` over the matched queues: the raised count of
every queue is at least its `cleanerCount`. -/
def allReleased (file : String) (queues : List cleanQueue) : Bool :=
  queues.all (fun q => decide (q.cleanerCount ≤ fileCount q file + 1))

/-- The change of `doClean` to one matched queue: the count of `file` is raised, or
the entry of `file` is deleted when the file is removed. -/
def settle (file : String) (released : Bool) (q : cleanQueue) : cleanQueue :=
  { q with
    filecount :=
      if released then mapDelete q.filecount file
      else mapSet q.filecount file (fileCount q file + 1) }

/-- A map stores every queue under the queue's own `key`, one entry per key. -/
def WellKeyed (cleanQueues : Map cleanQueue) : Prop :=
  (mapKeys cleanQueues).Nodup ∧ ∀ e ∈ cleanQueues, e.2.key = e.1

/-- The type `conf.MapConf`. -/
abbrev MapConf := Map String

/-- Modelled from the spec: the type `RunnerConfig` (its declaration is not part of
the files embedded here): name, create time, `is_stopped`, the reader, parser and
cleaner maps, the ordered list of sender maps, and `is_in_web_folder`. A sender
config that is the nil map is `none`. -/
structure RunnerConfig where
  RunnerName : String
  CreateTime : String
  ReaderConfig : MapConf
  CleanerConfig : MapConf
  ParserConf : MapConf
  SendersConfig : List (Option MapConf)
  IsInWebFolder : Bool
  IsStopped : Bool
  deriving DecidableEq, Repr

/-- The list `keyName` that `TrimSecretInfo` builds. -/
def keyName (env : Env) (trimSk : Bool) : List String :=
  let k1 : List String :=
    [ env.SchemaFreeTokensPrefix ++ "pipeline_get_repo_token",
      env.SchemaFreeTokensPrefix ++ "pipeline_post_data_token",
      env.SchemaFreeTokensPrefix ++ "pipeline_post_rawtext_data_token",
      env.SchemaFreeTokensPrefix ++ "pipeline_create_repo_token",
      env.SchemaFreeTokensPrefix ++ "pipeline_update_repo_token",
      env.SchemaFreeTokensPrefix ++ "pipeline_get_workflow_token",
      env.SchemaFreeTokensPrefix ++ "pipeline_stop_workflow_token",
      env.SchemaFreeTokensPrefix ++ "pipeline_start_workflow_token",
      env.SchemaFreeTokensPrefix ++ "pipeline_create_workflow_token",
      env.SchemaFreeTokensPrefix ++ "pipeline_Get_workflow_status_token" ]
  let k2 : List String := k1 ++
    [ env.LogDBTokensPrefix ++ "pipeline_get_repo_token",
      env.LogDBTokensPrefix ++ "pipeline_create_repo_token",
      env.LogDBTokensPrefix ++ "create_logdb_repo_token",
      env.LogDBTokensPrefix ++ "update_logdb_repo_token",
      env.LogDBTokensPrefix ++ "get_logdb_repo_token",
      env.LogDBTokensPrefix ++ "create_export_token",
      env.LogDBTokensPrefix ++ "update_export_token",
      env.LogDBTokensPrefix ++ "get_export_token",
      env.LogDBTokensPrefix ++ "list_export_token" ]
  let k3 : List String := k2 ++
    [ env.TsDBTokensPrefix ++ "pipeline_get_repo_token",
      env.TsDBTokensPrefix ++ "create_tsdb_repo_token",
      env.TsDBTokensPrefix ++ "list_export_token",
      env.TsDBTokensPrefix ++ "create_tsdb_series_token",
      env.TsDBTokensPrefix ++ "create_export_token",
      env.TsDBTokensPrefix ++ "update_export_token",
      env.TsDBTokensPrefix ++ "get_export_token" ]
  let k4 : List String := k3 ++
    [ env.KodoTokensPrefix ++ "pipeline_get_repo_token",
      env.KodoTokensPrefix ++ "create_export_token",
      env.KodoTokensPrefix ++ "update_export_token",
      env.KodoTokensPrefix ++ "get_export_token",
      env.KodoTokensPrefix ++ "list_export_token" ]
  if trimSk then k4 ++ ["pandora_sk"] else k4

/-- The inner loop of `TrimSecretInfo`: `delete(sc, k)` for every `k` of `keyName`;
on the nil map every `delete` is a no-op. -/
def trimSender (keys : List String) (sc : Option MapConf) : Option MapConf :=
  sc.map (fun m => keys.foldl (fun m k => mapDelete m k) m)

def TrimSecretInfo (env : Env) (conf : RunnerConfig) (trimSk : Bool) : RunnerConfig :=
  { conf with SendersConfig := conf.SendersConfig.map (trimSender (keyName env trimSk)) }

/-- What the manager sees of a `Runner`: its `Name()`, its `Cleaner()` and whether it
is `Resetable`. -/
structure Runner where
  Name : String
  Cleaner : CleanInfo
  Resetable : Bool
  deriving DecidableEq, Repr

/-- The outcome of one call of `NewCustomRunner`: a runner, of which the cleaner info
and the `Resetable` capability are given and whose name is the config's runner name,
an `*os.PathError`, or another error. -/
inductive NewRunnerResult where
  | ok (cleaner : CleanInfo) (resetable : Bool)
  | pathError
  | otherError
  deriving DecidableEq, Repr

/-- The fields of `Manager` that the runner operations read and write. -/
structure Manager where
  RestDir : String
  Version : String
  SystemInfo : String
  cleanQueues : Map cleanQueue
  runners : Map Runner
  runnerNames : Map Bool
  runnerConfigs : Map RunnerConfig
  deriving DecidableEq, Repr

/-- The result of `NewCustomManager` as far as the runner maps go: all maps empty. -/
def newManager (restDir : String) : Manager :=
  { RestDir := restDir, Version := "", SystemInfo := "", cleanQueues := [], runners := [],
    runnerNames := [], runnerConfigs := [] }

/-- The function `strings.HasSuffix`. -/
def HasSuffix (s suffix : String) : Bool := suffix.data.isSuffixOf s.data

def readRunners (m : Manager) (filename : String) : Option Runner :=
  mapGet m.runners filename

def IsRunning (m : Manager) (confPath : String) : Bool :=
  (readRunners m confPath).isSome

def setRunnerConfig (m : Manager) (filename : String) (conf : RunnerConfig) : Manager :=
  { m with runnerConfigs := mapSet m.runnerConfigs filename conf }

/-- The loop of `ForkRunner` over `config.SendersConfig` that writes the user agent
into every sender config: the config afterwards, or `none` when a sender config is the
nil map. -/
def injectUserAgent (env : Env) (m : Manager) (config : RunnerConfig) : Option RunnerConfig :=
  let webornot := if config.IsInWebFolder then "Web" else "Terminal"
  let agent := "logkit/" ++ m.Version ++ " " ++ m.SystemInfo ++ " " ++ webornot
  if config.SendersConfig.all Option.isSome then
    some { config with
      SendersConfig := config.SendersConfig.map
        (fun sc => sc.map (fun c => mapSet c env.InnerUserAgent agent)) }
  else none

/-- The writes of the user-agent loop of `ForkRunner` into the sender maps, up to the
first sender config that is the nil map, where the loop returns. -/
def writeUserAgent (key agent : String) : List (Option MapConf) → List (Option MapConf)
  | [] => []
  | none :: rest => none :: rest
  | some c :: rest => some (mapSet c key agent) :: writeUserAgent key agent rest

/-- The config of a caller of `ForkRunner` after a call that reached the user-agent
loop: a Go map is shared by every copy of the config that holds it, so the user agent
that `ForkRunner` writes into the sender maps of its argument shows in the caller's
`conf` too. -/
def afterFork (env : Env) (m : Manager) (conf : RunnerConfig) : RunnerConfig :=
  let webornot := if conf.IsInWebFolder then "Web" else "Terminal"
  let agent := "logkit/" ++ m.Version ++ " " ++ m.SystemInfo ++ " " ++ webornot
  { conf with SendersConfig := writeUserAgent env.InnerUserAgent agent conf.SendersConfig }

/-- The part of `ForkRunner` after its loop, on a runner that was built. -/
def registerRunner (m : Manager) (confPath : String) (config : RunnerConfig)
    (cleaner : CleanInfo) (resetable : Bool) : Manager × Option Error :=
  if (mapGet m.runners confPath).isSome then
    (m, some (.other "config path already added"))
  else if mapGet m.runnerNames config.RunnerName = some true then
    (m, some (.other "runner name already used"))
  else
    ({ m with
       cleanQueues := addCleanQueue m.cleanQueues cleaner
       runners := mapSet m.runners confPath
         { Name := config.RunnerName, Cleaner := cleaner, Resetable := resetable }
       runnerNames := mapSet m.runnerNames config.RunnerName true
       runnerConfigs := mapSet m.runnerConfigs confPath config }, none)

/-- The head of the loop body of `ForkRunner`, up to the call of `NewCustomRunner`:
either the function returns here, or the config goes on to the runner constructor. -/
def forkPrepare (env : Env) (m : Manager) (confPath : String) (config : RunnerConfig) :
    Except (Manager × Option Error) RunnerConfig :=
  if IsRunning m confPath then .error (m, some (.other "already added"))
  else if config.IsStopped then .error (setRunnerConfig m confPath config, none)
  else
    match injectUserAgent env m config with
    | none => .error (m, some (.other "sender config is invalid"))
    | some config1 => .ok config1

/-- The method `ForkRunner`; the list holds the outcomes of the successive calls of
`NewCustomRunner`, one per round of the retry loop. -/
def ForkRunner (env : Env) (m : Manager) (confPath : String) (config : RunnerConfig)
    (returnOnErr : Bool) : List NewRunnerResult → Except Fault (Manager × Option Error)
  | [] =>
    match forkPrepare env m confPath config with
    | .error ret => .ok ret
    | .ok _ => .error .outOfFuel
  | result :: results =>
    match forkPrepare env m confPath config with
    | .error ret => .ok ret
    | .ok config1 =>
      match result with
      | .ok cleaner resetable => .ok (registerRunner m confPath config1 cleaner resetable)
      | .otherError => .ok (m, some (.other "NewRunner failed"))
      | .pathError =>
        if returnOnErr then .ok (m, some (.other "NewRunner failed: os.PathError"))
        else ForkRunner env m confPath config1 returnOnErr results

def RemoveWithConfig (env : Env) (m : Manager) (confPath : String) (isDelete : Bool) :
    Manager × Option Error :=
  if !HasSuffix confPath ".conf" then (m, some (.other "not end with .conf, skipped"))
  else
    match env.Abs confPath with
    | .error _ => (m, some (.other "filepath.Abs failed"))
    | .ok confPath =>
      match mapGet m.runners confPath with
      | none => (m, some (.other "not added, nothing to do"))
      | some runner =>
        ({ m with
           cleanQueues := removeCleanQueue m.cleanQueues runner.Cleaner
           runners := mapDelete m.runners confPath
           runnerNames := mapDelete m.runnerNames runner.Name
           runnerConfigs :=
             if isDelete then mapDelete m.runnerConfigs confPath else m.runnerConfigs }, none)

def Remove (env : Env) (m : Manager) (confPath : String) : Manager × Option Error :=
  RemoveWithConfig env m confPath true

/-- The path `filepath.Join(m.RestDir, name + ".conf")` of an API runner. -/
def restPath (env : Env) (m : Manager) (name : String) : String :=
  env.Join m.RestDir (name ++ ".conf")

def getDeepCopyConfig (env : Env) (m : Manager) (name : String) :
    String × Except Error RunnerConfig :=
  let filename := restPath env m name
  match mapGet m.runnerConfigs filename with
  | none => (filename, .error (.other "runner is not found"))
  | some tmpConf => (filename, .ok tmpConf)

/-- The method `AddRunner`; `build` is the outcome of `NewCustomRunner`, `backup` the
result of `backupRunnerConfig`. -/
def AddRunner (env : Env) (m : Manager) (name : String) (conf : RunnerConfig)
    (createTime : String) (build : NewRunnerResult) (backup : Option Error) :
    Except Fault (Manager × Option Error) :=
  let conf : RunnerConfig := { conf with RunnerName := name, CreateTime := createTime }
  let filename := restPath env m name
  if IsRunning m filename then .ok (m, some (.other "runner is running"))
  else
    match ForkRunner env m filename conf true [build] with
    | .error f => .error f
    | .ok (m1, some _) => .ok (m1, some (.other "forkRunner error"))
    | .ok (m1, none) =>
      match backup with
      | some e => .ok ((Remove env m1 filename).1, some e)
      | none => .ok (m1, none)

/-- The method `UpdateRunner`; `now` is the formatted `time.Now()`, the three builds
are the outcomes of `NewCustomRunner` in the three calls of `ForkRunner`. -/
def UpdateRunner (env : Env) (m : Manager) (name : String) (conf : RunnerConfig)
    (now : String) (build rollback1 rollback2 : NewRunnerResult) (backup : Option Error) :
    Except Fault (Manager × Option Error) :=
  match getDeepCopyConfig env m name with
  | (_, .error e) => .ok (m, some e)
  | (filename, .ok oldConf) =>
    let conf : RunnerConfig := { conf with RunnerName := name, CreateTime := now }
    let removed : Manager × Option Error :=
      if IsRunning m filename then Remove env m filename else (m, none)
    match removed with
    | (m1, some _) => .ok (m1, some (.other "remove runner error"))
    | (m1, none) =>
      match ForkRunner env m1 filename conf true [build] with
      | .error f => .error f
      | .ok (m2, some _) =>
        match ForkRunner env m2 filename oldConf true [rollback1] with
        | .error f => .error f
        | .ok (m3, _) => .ok (m3, some (.other "forkRunner error"))
      | .ok (m2, none) =>
        match backup with
        | some e =>
          match ForkRunner env (Remove env m2 filename).1 filename oldConf true [rollback2] with
          | .error f => .error f
          | .ok (m4, _) => .ok (m4, some e)
        | none => .ok (m2, none)

def StartRunner (env : Env) (m : Manager) (name : String) (build : NewRunnerResult)
    (backup : Option Error) : Except Fault (Manager × Option Error) :=
  match getDeepCopyConfig env m name with
  | (_, .error e) => .ok (m, some e)
  | (filename, .ok conf) =>
    if conf.IsStopped = false then .ok (m, some (.other "runner has already started"))
    else
      match ForkRunner env m filename { conf with IsStopped := false } true [build] with
      | .error f => .error f
      | .ok (m1, some _) => .ok (m1, some (.other "forkRunner error"))
      | .ok (m1, none) =>
        match backup with
        | some e =>
          match RemoveWithConfig env m1 filename false with
          | (m2, some _) => .ok (m2, some e)
          | (m2, none) =>
            .ok (setRunnerConfig m2 filename { afterFork env m conf with IsStopped := true },
              some e)
        | none => .ok (m1, none)

def StopRunner (env : Env) (m : Manager) (name : String) (rollback : NewRunnerResult)
    (backup : Option Error) : Except Fault (Manager × Option Error) :=
  match getDeepCopyConfig env m name with
  | (_, .error e) => .ok (m, some e)
  | (filename, .ok conf) =>
    if conf.IsStopped = true then .ok (m, some (.other "runner has already stopped"))
    else if !IsRunning m filename then
      .ok (setRunnerConfig m filename { conf with IsStopped := true }, none)
    else
      match RemoveWithConfig env m filename false with
      | (m1, some _) => .ok (m1, some (.other "remove runner error"))
      | (m1, none) =>
        match backup with
        | some e =>
          match ForkRunner env
              (setRunnerConfig m1 filename { afterFork env m conf with IsStopped := true })
              filename { conf with IsStopped := false } true [rollback] with
          | .error f => .error f
          | .ok (m3, _) => .ok (m3, some e)
        | none => .ok (setRunnerConfig m1 filename { conf with IsStopped := true }, none)

/-- The method `ResetRunner`; `reset` is the result of the runner's `Reset()`. -/
def ResetRunner (env : Env) (m : Manager) (name : String) (start build : NewRunnerResult)
    (reset : Option Error) : Except Fault (Manager × Option Error) :=
  match getDeepCopyConfig env m name with
  | (_, .error e) => .ok (m, some e)
  | (filename, .ok conf) =>
    let started : Except Fault (Manager × Option Error) :=
      if conf.IsStopped then
        ForkRunner env m filename { conf with IsStopped := false } true [start]
      else .ok (m, none)
    match started with
    | .error f => .error f
    | .ok (m1, some _) => .ok (m1, some (.other "start for reset error"))
    | .ok (m1, none) =>
      match readRunners m1 filename with
      | none => .ok (m1, some (.other "runner is not found"))
      | some r =>
        if !r.Resetable then .ok (m1, some (.other "runner is not resetable runner"))
        else
          match ForkRunner env (Remove env m1 filename).1 filename
              { conf with IsStopped := false } true [build] with
          | .error f => .error f
          | .ok (m3, some _) => .ok (m3, some (.other "forkRunner for reset error"))
          | .ok (m3, none) => .ok (m3, reset)

/-- The method `DeleteRunner`; `osRemove` is the result of `os.Remove(filename)`. -/
def DeleteRunner (env : Env) (m : Manager) (name : String) (osRemove : Option Error)
    (rollback : NewRunnerResult) : Except Fault (Manager × Option Error) :=
  match getDeepCopyConfig env m name with
  | (_, .error e) => .ok (m, some e)
  | (filename, .ok conf) =>
    let m1 : Manager :=
      if conf.IsStopped then { m with runnerConfigs := mapDelete m.runnerConfigs filename }
      else m
    let removed : Manager × Option Error :=
      match readRunners m1 filename with
      | some _ => Remove env m1 filename
      | none => (m1, none)
    match removed with
    | (m2, some _) => .ok (m2, some (.other "remove runner error"))
    | (m2, none) =>
      match osRemove with
      | none => .ok (m2, none)
      | some e =>
        if e = .NotExist then .ok (m2, none)
        else
          match ForkRunner env m2 filename conf true [rollback] with
          | .error f => .error f
          | .ok (m3, _) => .ok (m3, some (.other "remove runner error"))

/-- One call of a runner operation of the manager, with the outcomes of the
collaborators it meets. -/
inductive ManagerCall where
  | ForkRunner (confPath : String) (config : RunnerConfig) (returnOnErr : Bool)
      (builds : List NewRunnerResult)
  | Remove (confPath : String)
  | RemoveWithConfig (confPath : String) (isDelete : Bool)
  | AddRunner (name : String) (conf : RunnerConfig) (createTime : String)
      (build : NewRunnerResult) (backup : Option Error)
  | UpdateRunner (name : String) (conf : RunnerConfig) (now : String)
      (build rollback1 rollback2 : NewRunnerResult) (backup : Option Error)
  | StartRunner (name : String) (build : NewRunnerResult) (backup : Option Error)
  | StopRunner (name : String) (rollback : NewRunnerResult) (backup : Option Error)
  | ResetRunner (name : String) (start build : NewRunnerResult) (reset : Option Error)
  | DeleteRunner (name : String) (osRemove : Option Error) (rollback : NewRunnerResult)

/-- The call `call` made on the manager `m`. -/
def runCall (env : Env) (m : Manager) :
    ManagerCall → Except Fault (Manager × Option Error)
  | .ForkRunner confPath config returnOnErr builds =>
    ForkRunner env m confPath config returnOnErr builds
  | .Remove confPath => .ok (Remove env m confPath)
  | .RemoveWithConfig confPath isDelete => .ok (RemoveWithConfig env m confPath isDelete)
  | .AddRunner name conf createTime build backup =>
    AddRunner env m name conf createTime build backup
  | .UpdateRunner name conf now build rollback1 rollback2 backup =>
    UpdateRunner env m name conf now build rollback1 rollback2 backup
  | .StartRunner name build backup => StartRunner env m name build backup
  | .StopRunner name rollback backup => StopRunner env m name rollback backup
  | .ResetRunner name start build reset => ResetRunner env m name start build reset
  | .DeleteRunner name osRemove rollback => DeleteRunner env m name osRemove rollback

/-- The manager after a sequence of calls, each of which returned. -/
def runCalls (env : Env) : Manager → List ManagerCall → Except Fault Manager
  | m, [] => .ok m
  | m, call :: calls => do
    let (m1, _) ← runCall env m call
    runCalls env m1 calls

/-- The library fact that `filepath.Abs` returns the cleaned absolute paths that
`filepath.Join` builds under the absolute `RestDir` as they are. -/
def RestPathsAbsolute (env : Env) (restDir : String) : Prop :=
  ∀ name : String,
    env.Abs (env.Join restDir (name ++ ".conf")) = .ok (env.Join restDir (name ++ ".conf"))

/-- The invariant of the three runner maps that the runner operations keep: one entry
per key; a running runner has a config that is not stopped; the names of the running
runners are exactly the names in use, and no two runners share a name. -/
def RunnersInv (m : Manager) : Prop :=
  (mapKeys m.runners).Nodup ∧ (mapKeys m.runnerNames).Nodup ∧
  (mapKeys m.runnerConfigs).Nodup ∧
  (∀ p r, mapGet m.runners p = some r →
    ∃ c, mapGet m.runnerConfigs p = some c ∧ c.IsStopped = false) ∧
  (∀ p r, mapGet m.runners p = some r → mapGet m.runnerNames r.Name = some true) ∧
  (∀ n v, mapGet m.runnerNames n = some v →
    ∃ p r, mapGet m.runners p = some r ∧ r.Name = n) ∧
  (∀ p1 p2 r1 r2, mapGet m.runners p1 = some r1 → mapGet m.runners p2 = some r2 →
    r1.Name = r2.Name → p1 = p2)

/-- The coherence of the three runner maps: every key of `runners` is a key of
`runnerConfigs`, the name of every runner is in `runnerNames`, and `runnerNames` has
at most as many entries as `runnerConfigs`. -/
def MapsCoherent (m : Manager) : Prop :=
  (∀ p ∈ mapKeys m.runners, p ∈ mapKeys m.runnerConfigs) ∧
  (∀ e ∈ m.runners, e.2.Name ∈ mapKeys m.runnerNames) ∧
  m.runnerNames.length ≤ m.runnerConfigs.length

/-- Path helpers and constants for the examples: paths are taken as they are, the
four token prefixes are those of the Pandora sender. -/
def plainEnv : Env :=
  { GetRealPath := fun p => .ok p
    Match := fun pattern name => .ok (decide (pattern = name))
    Join := fun dir file => dir ++ "/" ++ file
    Abs := fun p => .ok p
    InnerUserAgent := "inner_user_agent"
    SchemaFreeTokensPrefix := "schema_free_tokens_"
    LogDBTokensPrefix := "logdb_tokens_"
    TsDBTokensPrefix := "tsdb_tokens_"
    KodoTokensPrefix := "kodo_tokens_" }

/-- A runner config with two senders: one holding tokens and the secret key, one that
is the nil map. -/
def tokenConfig : RunnerConfig :=
  { RunnerName := "r1", CreateTime := "", ReaderConfig := [("log_path", "/var/log/a")],
    CleanerConfig := [], ParserConf := [("type", "raw")],
    SendersConfig :=
      [ some [("sender_type", "pandora"), ("pandora_sk", "secret"),
              ("logdb_tokens_create_export_token", "t1"), ("pandora_ak", "ak")],
        none ],
    IsInWebFolder := false, IsStopped := false }

/-- A running config for the runner `a` with one sender. -/
def configA : RunnerConfig :=
  { RunnerName := "a", CreateTime := "", ReaderConfig := [("log_path", "/logs")],
    CleanerConfig := [], ParserConf := [], SendersConfig := [some [("sender_type", "file")]],
    IsInWebFolder := false, IsStopped := false }

/-- A session of the admin API: add `a`, add `b`, stop `a`, start `a` with a failing
backup, update `b` with a failing build, reset `a`, delete `b`; the file watcher adds
a config under another path. -/
def adminSession : List ManagerCall :=
  [ .AddRunner "a" configA "t0" (.ok ⟨true, "/logs"⟩ true) none,
    .AddRunner "b" configA "t1" (.ok ⟨true, "/logs"⟩ false) none,
    .StopRunner "a" .otherError none,
    .StartRunner "a" (.ok ⟨true, "/logs"⟩ true) (some (.other "disk full")),
    .UpdateRunner "b" configA "t2" .otherError (.ok ⟨false, ""⟩ false) .otherError none,
    .StartRunner "a" (.ok ⟨true, "/logs"⟩ true) none,
    .ResetRunner "a" .otherError (.ok ⟨true, "/logs"⟩ true) none,
    .ForkRunner "/etc/logkit/c.conf" { configA with RunnerName := "c" } false
      [.pathError, .ok ⟨false, ""⟩ false],
    .DeleteRunner "b" none .otherError,
    .RemoveWithConfig "/etc/logkit/c.conf" false ]

/-- The environment `plainEnv` with a `filepath.Match` that knows a trailing `*`. -/
def globEnv : Env :=
  { plainEnv with
    Match := fun pattern name =>
      match pattern.data.getLast? with
      | some '*' => .ok (pattern.data.dropLast.isPrefixOf name.data)
      | _ => .ok (decide (pattern = name)) }

/-- Two `tailx` queues: one runner watches `/logs/*`, two runners watch `/logs/x*`. -/
def tailxQueues : Map cleanQueue :=
  [("/logs/*", { cleanerCount := 1, filecount := [], key := "/logs/*" }),
   ("/logs/x*", { cleanerCount := 2, filecount := [], key := "/logs/x*" })]

/-- A clean signal in `tailx` mode for `/logs/x.log`. -/
def tailxSignal : CleanSignal :=
  { Cleaner := "a", Logdir := "/logs", Filename := "x.log", ReadMode := ModeTailx }

/-- Two runners have registered enabled cleaners on `/logs`. -/
def twoCleaners : Map cleanQueue :=
  applyQueueOps [] [.add ⟨true, "/logs"⟩, .add ⟨true, "/logs"⟩]

/-- A clean signal for `/logs/x.log` sent by the cleaner of runner `a`. -/
def signalOfA : CleanSignal :=
  { Cleaner := "a", Logdir := "/logs", Filename := "x.log", ReadMode := "dir" }

/-- A clean signal for `/logs/x.log` sent by the cleaner of runner `b`. -/
def signalOfB : CleanSignal :=
  { Cleaner := "b", Logdir := "/logs", Filename := "x.log", ReadMode := "dir" }

end mgr

/-! ## reader/sql/sql.go -/

namespace sql

/-- A Go string, taken as UTF-8 text: the list of its characters. -/
abbrev Str := List Char

def sqlOffsetConnector : Str := "##".toList

def sqlSpliter : Str := ";".toList

/-- The call `strings.Index(s, substr)`; `none` stands for the result `-1`. -/
def Index : Str → Str → Option Nat
  | [], substr => if substr = [] then some 0 else none
  | c :: s, substr =>
    if substr.isPrefixOf (c :: s) then some 0 else (Index s substr).map (fun i => i + 1)

/-- The loop of `strings.Split` for a non-empty separator: cut before the first
separator and go on behind it; the counter bounds the number of cuts. -/
def splitLoop (sep : Str) : Nat → Str → List Str
  | 0, s => [s]
  | n + 1, s =>
    match Index s sep with
    | none => [s]
    | some m => s.take m :: splitLoop sep n (s.drop (m + sep.length))

/-- The call `strings.Split(s, sep)`; an empty separator splits after each character. -/
def Split (s sep : Str) : List Str :=
  if sep = [] then s.map (fun c => [c]) else splitLoop sep s.length s

/-- The loop of `strings.Replace(s, old, new, -1)` for a non-empty `old`. -/
def replaceLoop (old new : Str) : Nat → Str → Str
  | 0, s => s
  | n + 1, s =>
    match Index s old with
    | none => s
    | some m => s.take m ++ new ++ replaceLoop old new n (s.drop (m + old.length))

/-- The call `strings.Replace(s, old, new, -1)`; an empty `old` matches before each
character and at the end. -/
def Replace (s old new : Str) : Str :=
  if old = [] then new ++ (s.map (fun c => c :: new)).flatten
  else replaceLoop old new s.length s

/-- The predicate `unicode.IsSpace`. -/
def isSpace (c : Char) : Bool :=
  c = '\t' || c = '\n' || c = '\x0b' || c = '\x0c' || c = '\r' || c = ' ' ||
  c.toNat = 0x85 || c.toNat = 0xA0 || c.toNat = 0x1680 ||
  (0x2000 ≤ c.toNat && c.toNat ≤ 0x200a) || c.toNat = 0x2028 || c.toNat = 0x2029 ||
  c.toNat = 0x202f || c.toNat = 0x205f || c.toNat = 0x3000

/-- The call `strings.TrimSpace(s)`. -/
def TrimSpace (s : Str) : Str :=
  ((s.dropWhile isSpace).reverse.dropWhile isSpace).reverse

/-- The value of a string of decimal digits; `none` if a character is no digit. -/
def digitsValue : Str → Nat → Option Nat
  | [], acc => some acc
  | c :: s, acc =>
    if '0' ≤ c ∧ c ≤ '9' then digitsValue s (acc * 10 + (c.toNat - '0'.toNat)) else none

/-- The call `strconv.ParseInt(s, 10, 64)`: the value and whether an error is returned.
A syntax error gives `0`, a value out of range the nearest `int64`. -/
def ParseInt (s : Str) : Int × Option Error :=
  let (neg, digits) : Bool × Str :=
    match s with
    | '+' :: rest => (false, rest)
    | '-' :: rest => (true, rest)
    | _ => (false, s)
  if digits = [] then (0, some (.other "invalid syntax"))
  else
    match digitsValue digits 0 with
    | none => (0, some (.other "invalid syntax"))
    | some un =>
      if ¬ neg ∧ un ≥ 2 ^ 63 then (2 ^ 63 - 1, some (.other "value out of range"))
      else if neg ∧ un > 2 ^ 63 then (-(2 ^ 63), some (.other "value out of range"))
      else (if neg then -(un : Int) else (un : Int), none)

/-- The conversion to `int64` of an integer computed without overflow. -/
def wrapInt64 (x : Int) : Int := (x + 2 ^ 63) % 2 ^ 64 - 2 ^ 63

/-- The fields of a `time.Time` that `convertMagic` reads. -/
structure Time where
  Year : Int
  Month : Nat
  Day : Nat
  Hour : Nat
  Minute : Nat
  Second : Nat
  deriving DecidableEq, Repr

/-- The call `fmt.Sprintf("%d", n)`. -/
def fmtD (n : Int) : Str :=
  if n < 0 then '-' :: Nat.toDigits 10 n.natAbs else Nat.toDigits 10 n.toNat

/-- The call `fmt.Sprintf("%02d", n)` for a number that is not negative. -/
def fmt02D (n : Nat) : Str :=
  if n < 10 then '0' :: Nat.toDigits 10 n else Nat.toDigits 10 n

/-- The function `convertMagic`; the slice expression `[2:]` panics on a year of one
digit. -/
def convertMagic (magic : Str) (now : Time) : Except Fault Str :=
  if magic = "YYYY".toList then .ok (fmtD now.Year)
  else if magic = "YY".toList then
    if 2 ≤ (fmtD now.Year).length then .ok ((fmtD now.Year).drop 2)
    else .error (.panic "slice bounds out of range")
  else if magic = "MM".toList then .ok (fmt02D now.Month)
  else if magic = "M".toList then .ok (fmtD now.Month)
  else if magic = "D".toList then .ok (fmtD now.Day)
  else if magic = "DD".toList then .ok (fmt02D now.Day)
  else if magic = "hh".toList then .ok (fmt02D now.Hour)
  else if magic = "h".toList then .ok (fmtD now.Hour)
  else if magic = "mm".toList then .ok (fmt02D now.Minute)
  else if magic = "m".toList then .ok (fmtD now.Minute)
  else if magic = "ss".toList then .ok (fmt02D now.Second)
  else if magic = "s".toList then .ok (fmtD now.Second)
  else .ok []

/-- The names that the `switch` of `convertMagic` has a case for. -/
def magicNames : List Str :=
  ["YYYY".toList, "YY".toList, "MM".toList, "M".toList, "D".toList, "DD".toList,
    "hh".toList, "h".toList, "mm".toList, "m".toList, "ss".toList, "s".toList]

/-- The loop of `goMagic` over the pieces `sps[1:]`; `ret` is the result so far. -/
def goMagicLoop (rawSql : Str) (now : Time) : List Str → Str → Except Fault Str
  | [], ret => .ok ret
  | sp :: rest, ret =>
    match Index sp ")".toList with
    | none => .ok rawSql
    | some idxr => do
      let m ← convertMagic (sp.take idxr) now
      let ret1 := ret ++ m
      let ret2 := if idxr + 1 < sp.length then ret1 ++ sp.drop (idxr + 1) else ret1
      goMagicLoop rawSql now rest ret2

/-- The function `goMagic`. -/
def goMagic (rawSql : Str) (now : Time) : Except Fault Str :=
  match Split rawSql "@(".toList with
  | [] => .error (.panic "index out of range")
  | sp0 :: rest => goMagicLoop rawSql now rest sp0

/-- The loop of `updateSqls` over the pieces of the raw SQL string. -/
def updateSqlsLoop (now : Time) : List Str → List Str → Except Fault (List Str)
  | [], sqls => .ok sqls
  | esql :: rest, sqls => do
    let magicSQL := TrimSpace (← goMagic esql now)
    if magicSQL.length ≤ 0 then updateSqlsLoop now rest sqls
    else updateSqlsLoop now rest (sqls ++ [magicSQL])

/-- The function `updateSqls`. -/
def updateSqls (rawsqls : Str) (now : Time) : Except Fault (List Str) :=
  updateSqlsLoop now (Split rawsqls sqlSpliter) []

/-- The loop of `restoreMeta` over the templated SQLs, from slot `idx` on; `logged`
collects the slots for which the line "omit this offset" is logged. -/
def restoreLoop (tmps : List Str) (length : Nat) :
    Nat → List Str → List Int → List Nat → Except Fault (List Int × List Nat)
  | _, [], offsets, logged => .ok (offsets, logged)
  | idx, sql :: rest, offsets, logged =>
    match tmps[idx]?, tmps[idx + length]? with
    | some tmp, some t =>
      let syncSQL := Replace tmp "@".toList " ".toList
      let logged1 :=
        if (ParseInt t).2.isSome ∨ sql ≠ syncSQL then logged ++ [idx] else logged
      if idx < offsets.length then
        restoreLoop tmps length (idx + 1) rest (offsets.set idx (ParseInt t).1) logged1
      else .error (.panic "index out of range")
    | _, _ => .error (.panic "index out of range")

/-- The function `restoreMeta`. The Meta store is not part of this file: `readOffset` is
what `meta.ReadOffset()` returns (the persisted blob, the count and the error), and
`now` is `time.Now().Add(-magicLagDur)`. A nil slice of offsets is the empty list. The
fourth component of the result lists the slots for which the line "omit this offset"
is logged. -/
def restoreMeta (readOffset : Str × Int × Option Error) (rawSqls : Str) (now : Time) :
    Except Fault (List Int × List Str × Bool × List Nat) := do
  let sqls ← updateSqls rawSqls now
  let (sqlAndOffsets, length, err) := readOffset
  if err.isSome then .ok ([], sqls, true, [])
  else
    let tmps := Split sqlAndOffsets sqlOffsetConnector
    if (tmps.length : Int) ≠ wrapInt64 (2 * length) ∨ (sqls.length : Int) ≠ length then
      .ok ([], sqls, true, [])
    else do
      let (offsets, logged) ←
        restoreLoop tmps length.toNat 0 sqls (List.replicate length.toNat 0) []
      .ok (offsets, sqls, false, logged)

/-- The persisted SQL text of slot `idx`, decoded as `restoreMeta` decodes it. -/
def syncSQL (tmps : List Str) (idx : Nat) : Option Str :=
  (tmps[idx]?).map (fun t => Replace t "@".toList " ".toList)

/-- The method `updateOffsets` on the fields `offsets` and `syncSQLs`: the offsets after
the call. -/
def updateOffsets (syncSQLs : List Str) :
    Nat → List Str → List Int → List Int
  | _, [], offsets => offsets
  | idx, sql :: rest, offsets =>
    if idx ≥ offsets.length then updateOffsets syncSQLs (idx + 1) rest (offsets ++ [0])
    else if idx ≥ syncSQLs.length then updateOffsets syncSQLs (idx + 1) rest offsets
    else if syncSQLs[idx]? ≠ some sql then
      updateOffsets syncSQLs (idx + 1) rest (offsets.set idx 0)
    else updateOffsets syncSQLs (idx + 1) rest offsets

/-- A time of day: 7 March 2024, 09:05:02. -/
def sampleTime : Time :=
  { Year := 2024, Month := 3, Day := 7, Hour := 9, Minute := 5, Second := 2 }

end sql

namespace reader

/-- A source-index table of three files, sorted by index. -/
def sampleTable : List SourceIndex :=
  [{ Source := "a.log", Index := 2 }, { Source := "b.log", Index := 5 },
   { Source := "c.log", Index := 9 }]

end reader

namespace mgr

/-- A manager with the runners `a` and `b` of the REST directory `/rest`, both with an
enabled cleaner on `/logs`. -/
def twoRunners : Manager :=
  { newManager "/rest" with
    cleanQueues := [("/logs", { cleanerCount := 2, filecount := [], key := "/logs" })]
    runners := [("/rest/a.conf", { Name := "a", Cleaner := ⟨true, "/logs"⟩, Resetable := true }),
                ("/rest/b.conf", { Name := "b", Cleaner := ⟨true, "/logs"⟩, Resetable := false })]
    runnerNames := [("a", true), ("b", true)]
    runnerConfigs := [("/rest/a.conf", configA),
                      ("/rest/b.conf", { configA with RunnerName := "b" })] }

end mgr

namespace reader

/-- A reader that was closed: `stopped` is set, the buffer holds an unread line. -/
def stoppedReader : BufReader (List Byte) :=
  { reset (bytesOf "abc\ndef" ++ List.replicate 9 0) (bytesOf "ghi\n") with
    stopped := true, w := 7 }

/-- The predicate on a reader that C23 names: `0 ≤ r ≤ w ≤ len(buf)`, the source-index
table is sorted by index, and every index in it lies in `[0, w]`. -/
def TableInv {σ : Type} (b : BufReader σ) : Prop :=
  Cursors b ∧ b.lastRdSource.Pairwise (fun x y => x.Index ≤ y.Index) ∧
  ∀ v ∈ b.lastRdSource, 0 ≤ v.Index ∧ v.Index ≤ (b.w : Int)

/-- A File Source whose `Read` returns a count `n` that is at most the length of the
slice it is given, and whose `NewLineBytesIndex` returns, after that `Read`, entries
sorted by index with indices between 0 and `n`. -/
def CountsInRange {σ : Type} (rd : FileReader σ) : Prop :=
  ∀ (s : σ) (cap : Nat), (rd.Read s cap).data.length ≤ cap ∧
    ∀ rc, rd.NewLineBytesIndex = some rc →
      (rc (rd.Read s cap).next).Pairwise (fun x y => x.Index ≤ y.Index) ∧
      ∀ v ∈ rc (rd.Read s cap).next,
        0 ≤ v.Index ∧ v.Index ≤ ((rd.Read s cap).data.length : Int)

/-- The state of a File Source over two files: the unread bytes of `a.log`, the unread
bytes of `b.log`, and the boundaries of the last batch. -/
structure TwoFiles where
  first : List Byte
  second : List Byte
  last : List SourceIndex
  deriving DecidableEq, Repr

/-- A File Source that reads `a.log` and then `b.log`, crossing from one file to the
next within one `Read`, and records how many bytes of the batch came from `a.log`. -/
def twoFileSource : FileReader TwoFiles :=
  { Read := fun s cap =>
      { data := (s.first ++ s.second).take cap
        err := if s.first ++ s.second = [] then some .EOF else none
        next :=
          { first := s.first.drop cap
            second := s.second.drop (cap - s.first.length)
            last :=
              if s.first ≠ [] ∧ s.first.length ≤ cap then
                [{ Source := "a.log", Index := (s.first.length : Int) }]
              else [] } }
    Source := fun s => if s.first = [] then "b.log" else "a.log"
    NewLineBytesIndex := some (fun s => s.last)
    SyncMeta := fun s => (none, s) }

/-- A single-line reader environment over `twoFileSource`. -/
def twoFileEnv : Env TwoFiles :=
  { rd := twoFileSource, encodingWay := "", decoder := none, multiLineRegexp := none }

/-- A fresh reader with a buffer of 16 bytes over the files `a.log` holding `aaa\n` and
`b.log` holding `bbb\n`. -/
def twoFileReader : BufReader TwoFiles :=
  reset (List.replicate 16 0)
    { first := bytesOf "aaa\n", second := bytesOf "bbb\n", last := [] }

end reader

namespace sql

def SupportReminder : String :=
  "history all magic only support @(YYYY) @(YY) @(MM) @(DD) @(hh) @(mm) @(ss)"

def Wildcards : Str := "*".toList

def YEAR : Int := 0

def MONTH : Int := 1

def DAY : Int := 2

def HOUR : Int := 3

def MINUTE : Int := 4

def SECOND : Int := 5

/-- The UTF-8 encoding of a character: the bytes it takes in a Go string. -/
def utf8Char (c : Char) : List Byte :=
  if c.toNat < 0x80 then [c.toNat.toUInt8]
  else if c.toNat < 0x800 then
    [(0xC0 + c.toNat / 0x40).toUInt8, (0x80 + c.toNat % 0x40).toUInt8]
  else if c.toNat < 0x10000 then
    [(0xE0 + c.toNat / 0x1000).toUInt8, (0x80 + c.toNat / 0x40 % 0x40).toUInt8,
      (0x80 + c.toNat % 0x40).toUInt8]
  else
    [(0xF0 + c.toNat / 0x40000).toUInt8, (0x80 + c.toNat / 0x1000 % 0x40).toUInt8,
      (0x80 + c.toNat / 0x40 % 0x40).toUInt8, (0x80 + c.toNat % 0x40).toUInt8]

/-- The bytes of the Go string that holds the text `s`. -/
def stringBytes (s : Str) : List Byte := (s.map utf8Char).flatten

/-- The builtin `len(s)` on a string: its length in bytes. -/
def len (s : Str) : Nat := (stringBytes s).length

/-- The call `strconv.FormatInt(n, 10)`. -/
def FormatInt (n : Int) : Str := fmtD n

/-- The call `strings.Join(elems, sep)`. -/
def Join : List Str → Str → Str
  | [], _ => []
  | [a], _ => a
  | a :: b :: rest, sep => a ++ sep ++ Join (b :: rest) sep

/-- The method `SyncMeta` of a reader that has raw SQLs (`r.rawSQLs != ""`), on the
fields `syncSQLs` and `offsets`: the two arguments of its call
`r.meta.WriteOffset(all, int64(len(r.syncSQLs)))`. -/
def SyncMeta (syncSQLs : List Str) (offsets : List Int) : Str × Int :=
  let encodeSQLs := syncSQLs.map (fun sql => Replace sql " ".toList "@".toList)
  let encodeSQLs := encodeSQLs ++ offsets.map FormatInt
  (Join encodeSQLs sqlOffsetConnector, (syncSQLs.length : Int))

/-- The function `convertMagicIndex`: the text and the index of the time field; the
index is `-1` for a name that is none of `YYYY`, `YY`, `MM`, `DD`, `hh`, `mm`, `ss`. The
slice expression `[2:]` panics on a year of one digit. -/
def convertMagicIndex (magic : Str) (now : Time) : Except Fault (Str × Int) :=
  if magic = "YYYY".toList then .ok (fmtD now.Year, YEAR)
  else if magic = "YY".toList then
    if 2 ≤ (fmtD now.Year).length then .ok ((fmtD now.Year).drop 2, YEAR)
    else .error (.panic "slice bounds out of range")
  else if magic = "MM".toList then .ok (fmt02D now.Month, MONTH)
  else if magic = "DD".toList then .ok (fmt02D now.Day, DAY)
  else if magic = "hh".toList then .ok (fmt02D now.Hour, HOUR)
  else if magic = "mm".toList then .ok (fmt02D now.Minute, MINUTE)
  else if magic = "ss".toList then .ok (fmt02D now.Second, SECOND)
  else .ok ([], -1)

/-- The type `MagicRes`: the start and the end position of each time field in the order
year, month, day, hour, minute, second, the positions of the other text, and the
rendered text. -/
structure MagicRes where
  timeStart : List Int
  timeEnd : List Int
  remainIndex : List Int
  ret : Str
  deriving DecidableEq, Repr

/-- The call `strings.Contains(s, substr)`. -/
def Contains (s substr : Str) : Bool := (Index s substr).isSome

def removeWildcards (checkWildcards : Str) (length : Int) : Int :=
  if Contains checkWildcards Wildcards then length - 1 else length

/-- The loop of `goMagicIndex` over the pieces `sps[1:]`, with the local variable
`recordIndex`; the positions it records are byte offsets in `ret`. The test
`idxr+1 < len(sps[idx])`, whether anything follows the closing bracket, and the slices
at `idxr` are taken on the characters, which cut the text where the bytes do: the
bracket is a single byte. -/
def goMagicIndexLoop (rawSql : Str) (now : Time) :
    List Str → MagicRes → Int → Except Fault (MagicRes × Option Error)
  | [], magicRes, _ => .ok (magicRes, none)
  | sp :: rest, magicRes, recordIndex =>
    match Index sp ")".toList with
    | none => .ok ({ magicRes with ret := rawSql }, none)
    | some idxr =>
      let spsStr := sp.take idxr
      if len spsStr < 2 then
        .ok ({ magicRes with ret := rawSql }, some (.other SupportReminder))
      else do
        let (res, index) ← convertMagicIndex spsStr now
        if index = -1 then
          .ok ({ magicRes with ret := rawSql }, some (.other SupportReminder))
        else
          let res1 : MagicRes :=
            { magicRes with
              timeStart := magicRes.timeStart.set index.toNat recordIndex
              ret := magicRes.ret ++ res }
          let recordIndex1 : Int := len res1.ret
          let res2 : MagicRes :=
            { res1 with timeEnd := res1.timeEnd.set index.toNat recordIndex1 }
          if idxr + 1 < sp.length then
            let spsRemain := sp.drop (idxr + 1)
            let res3 : MagicRes := { res2 with ret := res2.ret ++ spsRemain }
            if spsRemain = Wildcards then
              goMagicIndexLoop rawSql now rest res3 (len res3.ret)
            else
              let res4 : MagicRes :=
                { res3 with
                  remainIndex := res3.remainIndex ++
                    [recordIndex1, removeWildcards spsRemain (len res3.ret)] }
              goMagicIndexLoop rawSql now rest res4 (len res4.ret)
          else goMagicIndexLoop rawSql now rest res2 recordIndex1

/-- The function `goMagicIndex`: the `MagicRes` and the error. -/
def goMagicIndex (rawSql : Str) (now : Time) : Except Fault (MagicRes × Option Error) :=
  match Split rawSql "@(".toList with
  | [] => .error (.panic "index out of range")
  | sp0 :: rest =>
    let magicRes : MagicRes :=
      { timeStart := [-1, -1, -1, -1, -1, -1], timeEnd := [0, 0, 0, 0, 0, 0],
        remainIndex := [0], ret := sp0 }
    let recordIndex : Int := len magicRes.ret
    if (sp0 :: rest).length < 2 then
      .ok ({ magicRes with
             remainIndex := magicRes.remainIndex ++
               [removeWildcards magicRes.ret recordIndex] }, none)
    else
      goMagicIndexLoop rawSql now rest
        { magicRes with remainIndex := magicRes.remainIndex ++ [recordIndex] } recordIndex

/-- The loop of `checkMagic` over the pieces `sps[1:]`; `timeNow` is `time.Now()`. -/
def checkMagicLoop (timeNow : Time) : List Str → Except Fault Bool
  | [] => .ok true
  | sp :: rest =>
    match Index sp ")".toList with
    | none => .ok true
    | some idxr =>
      let spsStr := sp.take idxr
      if len spsStr < 2 then .ok false
      else do
        let (_, index) ← convertMagicIndex spsStr timeNow
        if index = -1 then .ok false
        else checkMagicLoop timeNow rest

/-- The function `checkMagic`; `timeNow` is what its call of `time.Now()` returns. -/
def checkMagic (rawSql : Str) (timeNow : Time) : Except Fault Bool :=
  checkMagicLoop timeNow ((Split rawSql "@(".toList).drop 1)

/-- The conversion `string(b)` of a byte slice that holds ASCII text: every byte is the
character of that code. -/
def bytesToString (b : List Byte) : Str := b.map (fun x => Char.ofNat x.toNat)

/-- The call `strconv.Atoi(s)` on the string with the bytes `b`, where `int` has 64
bits: the value and whether an error is returned. `strconv` reads a string byte by
byte and a byte that is no ASCII sign or digit is a syntax error, so every byte is
taken as the character of that code. -/
def Atoi (b : List Byte) : Int × Option Error := ParseInt (bytesToString b)

/-- The Go slice expression `s[lo:hi]` on a string: the bytes from offset `lo` up to
offset `hi`. -/
def substr (s : Str) (lo hi : Int) : Except Fault (List Byte) :=
  if 0 ≤ lo ∧ lo ≤ hi ∧ hi ≤ (len s : Int) then
    .ok (((stringBytes s).drop lo.toNat).take (hi.toNat - lo.toNat))
  else .error (.panic "slice bounds out of range")

/-- The loop of `compareTime` over `timeStart`, from index `idx` on. -/
def compareTimeLoop (target matchS : Str) (timeEnd : List Int) (min : Bool) :
    Nat → List Int → Except Fault Bool
  | _, [] => .ok true
  | idx, record :: rest =>
    if record = -1 then compareTimeLoop target matchS timeEnd min (idx + 1) rest
    else
      match timeEnd[idx]? with
      | none => .error (.panic "index out of range")
      | some e =>
        if (len target : Int) < e ∨ (len matchS : Int) < e then .ok false
        else do
          let curStr ← substr target record e
          match Atoi curStr with
          | (_, some _) => .ok false
          | (curInt, none) => do
            let matchStr ← substr matchS record e
            match Atoi matchStr with
            | (_, some _) => .ok false
            | (matchInt, none) =>
              if curInt < matchInt then .ok min
              else if curInt > matchInt then .ok (!min)
              else compareTimeLoop target matchS timeEnd min (idx + 1) rest

/-- The function `compareTime`. -/
def compareTime (target matchS : Str) (timeStart timeEnd : List Int) (min : Bool) :
    Except Fault Bool :=
  compareTimeLoop target matchS timeEnd min 0 timeStart

/-- The tuple of the recorded time fields of `s`, in the order year, month, day, hour,
minute, second, as C26 reads it: `s` is long enough to hold every recorded field, and
every recorded field, the bytes of `s` from its start offset up to its end offset, is a
run of at least one decimal digit; `none` otherwise. A field is recorded when its start
is not `-1`. The value of a field is below `2 ^ 63`: the fields that `goMagicIndex`
records are the two digits of a month, day, hour, minute or second and the digits of a
year. -/
def recordedFields (s : Str) : List Int → List Int → Option (List Nat)
  | [], _ => some []
  | _ :: _, [] => none
  | record :: timeStart, e :: timeEnd =>
    if record = -1 then recordedFields s timeStart timeEnd
    else if 0 ≤ record ∧ record < e ∧ e ≤ (len s : Int) then
      match digitsValue
          (bytesToString (((stringBytes s).drop record.toNat).take (e.toNat - record.toNat)))
          0 with
      | some v =>
        if v < 2 ^ 63 then (recordedFields s timeStart timeEnd).map (fun vs => v :: vs)
        else none
      | none => none
    else none

/-- The dynamic value that an `interface{}` holds, as far as the type assertions of
`convertLong` and `convertString` tell the types apart. -/
inductive Dynamic where
  | int64 (n : Int)
  | int (n : Int)
  | uint (n : Nat)
  | uint64 (n : Nat)
  | string (s : Str)
  | int8 (n : Int)
  | int16 (n : Int)
  | int32 (n : Int)
  | uint8 (n : Nat)
  | uint16 (n : Nat)
  | uint32 (n : Nat)
  | bytes (b : List Byte)
  | nil
  | other
  deriving DecidableEq, Repr

/-- The argument `v` of `convertLong` and `convertString`, by what `reflect` reports:
no pointer, a nil pointer, or a pointer to a value of a signed integer kind, of an
unsigned integer kind, of kind `String`, of kind `Interface`, or of another kind. -/
inductive ScanArg where
  | notPointer
  | nilPointer
  | toInt (n : Int)
  | toUint (n : Nat)
  | toString (s : Str)
  | toInterface (idv : Dynamic)
  | toOther
  deriving DecidableEq, Repr

/-- The call `binary.BigEndian.Uint64(b)` on a slice of at least eight bytes. -/
def BigEndianUint64 (b : List Byte) : Nat :=
  (b.take 8).foldl (fun acc x => acc * 256 + x.toNat) 0

/-- The function `convertLong`: the value and the error. -/
def convertLong (v : ScanArg) : Int × Option Error :=
  match v with
  | .notPointer => (0, some (.other "scanArgs not a pointer"))
  | .nilPointer => (0, some (.other "scanArgs is a nil pointer"))
  | .toInt n => (n, none)
  | .toUint n => (wrapInt64 n, none)
  | .toString s => ParseInt s
  | .toInterface idv =>
    match idv with
    | .int64 ret => (ret, none)
    | .int ret => (ret, none)
    | .uint ret => (wrapInt64 ret, none)
    | .uint64 ret => (wrapInt64 ret, none)
    | .string ret => ParseInt ret
    | .int8 ret => (ret, none)
    | .int16 ret => (ret, none)
    | .int32 ret => (ret, none)
    | .uint8 ret => (ret, none)
    | .uint16 ret => (ret, none)
    | .uint32 ret => (ret, none)
    | .bytes ret =>
      if ret.length = 8 then (wrapInt64 (BigEndianUint64 ret), none)
      else ParseInt (bytesToString ret)
    | .nil => (0, none)
    | .other => (0, some (.other "type can not convert to int"))
  | .toOther => (0, some (.other "type can not convert to int"))

/-- The function `convertString`: the text and the error. -/
def convertString (v : ScanArg) : Str × Option Error :=
  match v with
  | .notPointer => ([], some (.other "scanArgs not a pointer"))
  | .nilPointer => ([], some (.other "scanArgs is a nil pointer"))
  | .toInt n => (fmtD n, none)
  | .toUint n => (fmtD (wrapInt64 n), none)
  | .toString s => (s, none)
  | .toInterface idv =>
    match idv with
    | .int64 ret => (fmtD ret, none)
    | .int ret => (fmtD ret, none)
    | .uint ret => (fmtD (wrapInt64 ret), none)
    | .uint64 ret => (fmtD (wrapInt64 ret), none)
    | .string ret => (ret, none)
    | .int8 ret => (fmtD ret, none)
    | .int16 ret => (fmtD ret, none)
    | .int32 ret => (fmtD ret, none)
    | .uint8 ret => (fmtD ret, none)
    | .uint16 ret => (fmtD ret, none)
    | .uint32 ret => (fmtD ret, none)
    | .bytes ret => (bytesToString ret, none)
    | .nil => ([], none)
    | .other => ([], some (.other "type can not convert to string"))
  | .toOther => ([], some (.other "type can not convert to string"))

/-- A SQL statement that ends in the comment character `#`. -/
def commentSql : Str := "select 1 #".toList

/-- The text `12345678` as the bytes a driver scans into an `interface{}`. -/
def eightDigits : List Byte := bytesOf "12345678"

/-- The text `20240307` with the year recorded at `[0, 4)`, the month at `[4, 6)` and
the day at `[6, 8)`. -/
def dayStart : List Int := [0, 4, 6, -1, -1, -1]

def dayEnd : List Int := [4, 6, 8, 0, 0, 0]

/-- The positions of a year at the byte offsets `[3, 7)`, behind a character of three
bytes. -/
def yearStart : List Int := [3, -1, -1, -1, -1, -1]

def yearEnd : List Int := [7, 0, 0, 0, 0, 0]

end sql

namespace sql

/-- The tuple `ft` is lexicographically less than or equal to the tuple `fm`. -/
def LexLe (ft fm : List Nat) : Prop := List.Lex (fun a b => a < b) ft fm ∨ ft = fm

end sql

end Logkit

/-! # Theorems -/

namespace Logkit

namespace reader

section fields
variable {σ : Type}

theorem updateLastRdSource_eq (b : BufReader σ) :
    ∃ l, updateLastRdSource b = { b with lastRdSource := l } := by
  unfold updateLastRdSource
  split
  · exact ⟨b.lastRdSource, rfl⟩
  · simp only
    split
    · exact ⟨_, rfl⟩
    · split <;> exact ⟨_, rfl⟩

theorem fillLoop_first (env : Env σ) (i : Nat) (b : BufReader σ)
    (hw : b.w < b.buf.length)
    (herr : (env.rd.Read b.rd (b.buf.length - b.w)).err = none)
    (hne : (env.rd.Read b.rd (b.buf.length - b.w)).data ≠ [])
    (hle : (env.rd.Read b.rd (b.buf.length - b.w)).data.length ≤ b.buf.length - b.w) :
    ∃ b', fillLoop env (i + 1) b = .ok b' ∧
      b'.buf = b.buf.take b.w ++ (env.rd.Read b.rd (b.buf.length - b.w)).data
                ++ b.buf.drop (b.w + (env.rd.Read b.rd (b.buf.length - b.w)).data.length) ∧
      b'.w = b.w + (env.rd.Read b.rd (b.buf.length - b.w)).data.length ∧
      b'.r = b.r ∧ b'.rd = (env.rd.Read b.rd (b.buf.length - b.w)).next ∧
      b'.err = b.err ∧ b'.stopped = b.stopped ∧
      b'.mutiLineCache = b.mutiLineCache ∧ b'.lastSync = b.lastSync := by
  have hpos : 0 < (env.rd.Read b.rd (b.buf.length - b.w)).data.length :=
    List.length_pos.mpr hne
  have htake : (env.rd.Read b.rd (b.buf.length - b.w)).data.take (b.buf.length - b.w)
      = (env.rd.Read b.rd (b.buf.length - b.w)).data := List.take_of_length_le hle
  simp only [fillLoop, Nat.not_lt.mpr (Nat.le_of_lt hw), if_false, herr, hpos, if_true, htake]
  split <;> [split; skip] <;> exact ⟨_, rfl, rfl, rfl, rfl, rfl, rfl, rfl, rfl, rfl⟩

theorem slide_ok (b : BufReader σ) (hc : Cursors b) :
    ∃ b1, slide b = .ok b1 ∧
      b1.buf.take b1.w = window b ∧ b1.w = b.w - b.r ∧ b1.r = 0 ∧ b1.rd = b.rd ∧
      Frame b b1 := by
  obtain ⟨hrw, hwl⟩ := hc
  by_cases hr : b.r > 0
  · obtain ⟨l, hl⟩ := updateLastRdSource_eq
      ({ b with buf := copy b.buf ((b.buf.drop b.r).take (b.w - b.r)), w := b.w - b.r })
    have hlen : (copy b.buf ((b.buf.drop b.r).take (b.w - b.r))).length = b.buf.length := by
      simp only [copy, List.length_append, List.length_take, List.length_drop]
      omega
    have htk : (copy b.buf ((b.buf.drop b.r).take (b.w - b.r))).take (b.w - b.r)
        = (b.buf.drop b.r).take (b.w - b.r) := by
      have h1 : ((b.buf.drop b.r).take (b.w - b.r)).length = b.w - b.r := by
        simp only [List.length_take, List.length_drop]; omega
      have h2 : ((b.buf.drop b.r).take (b.w - b.r)).take b.buf.length
          = (b.buf.drop b.r).take (b.w - b.r) := by
        apply List.take_of_length_le; omega
      unfold copy
      rw [h2, List.take_append_of_le_length (by omega), List.take_of_length_le (by omega)]
    have hs : slide b = .ok { updateLastRdSource ({ b with
        buf := copy b.buf ((b.buf.drop b.r).take (b.w - b.r)), w := b.w - b.r }) with r := 0 } := by
      simp only [slide, hr, if_true, slice, hrw, hwl, and_self, bind, Except.bind, pure,
        Except.pure]
    rw [hs, hl]
    exact ⟨_, rfl, htk, rfl, rfl, rfl, hlen, rfl, rfl, rfl, rfl⟩
  · have hr0 : b.r = 0 := by omega
    refine ⟨b, by simp [slide, hr0, pure, Except.pure], ?_, by omega, hr0, rfl, rfl, rfl, rfl, rfl, rfl⟩
    simp [window, hr0]

/-- One call of `fill` on a reader with room, when the File Source delivers `rest`:
the window grows by the next chunk of `rest`. -/
theorem fill_delivers (env : Env σ) (b : BufReader σ) (rest : List Byte)
    (hc : Cursors b) (hroom : b.w - b.r < b.buf.length)
    (hd : Delivers env.rd b.rd rest) (hne : rest ≠ []) :
    ∃ b' d, fill env b = .ok b' ∧ d ≠ [] ∧ rest = d ++ rest.drop d.length ∧
      window b' = window b ++ d ∧ Delivers env.rd b'.rd (rest.drop d.length) ∧
      Cursors b' ∧ Frame b b' := by
  obtain ⟨b1, hs, htk, hw1, hr1, hrd1, hlen1, herr1, hst1, hml1, hls1⟩ := slide_ok b hc
  cases hd with
  | nil => exact absurd rfl hne
  | read _ _ h1 h2 =>
    have hcap : 0 < b.buf.length - (b.w - b.r) := by omega
    obtain ⟨he, hdne, hdle, hpre⟩ := h1 _ hcap
    have hdel := h2 _ hcap
    have hw2 : (noteLatestSource env b1).w = b.w - b.r := by
      unfold noteLatestSource; split <;> simpa using hw1
    have hbuf2 : (noteLatestSource env b1).buf = b1.buf := by
      unfold noteLatestSource; split <;> rfl
    have hrd2 : (noteLatestSource env b1).rd = b.rd := by
      unfold noteLatestSource; split <;> simpa using hrd1
    have hfr2 : (noteLatestSource env b1).r = 0 ∧ (noteLatestSource env b1).err = b.err ∧
        (noteLatestSource env b1).stopped = b.stopped ∧
        (noteLatestSource env b1).mutiLineCache = b.mutiLineCache ∧
        (noteLatestSource env b1).lastSync = b.lastSync := by
      unfold noteLatestSource; split <;> exact ⟨hr1, herr1, hst1, hml1, hls1⟩
    obtain ⟨hr2, herr2, hst2, hml2, hls2⟩ := hfr2
    have hlen2 : (noteLatestSource env b1).buf.length = b.buf.length := by rw [hbuf2, hlen1]
    obtain ⟨b', hf, hbuf', hw', hr', hrd', herr', hst', hml', hls'⟩ :=
      fillLoop_first env 9 (noteLatestSource env b1)
        (by rw [hw2, hlen2]; omega) (by rw [hw2, hlen2, hrd2]; exact he)
        (by rw [hw2, hlen2, hrd2]; exact hdne) (by rw [hw2, hlen2, hrd2]; exact hdle)
    rw [hw2, hlen2, hrd2] at hbuf' hw' hrd'
    refine ⟨b', (env.rd.Read b.rd (b.buf.length - (b.w - b.r))).data, ?_, hdne, ?_, ?_, ?_, ?_, ?_⟩
    · simp only [fill, hs, bind, Except.bind, ge_iff_le]
      rw [if_neg (by rw [hw1, hlen1]; omega)]
      exact hf
    · exact (List.prefix_iff_eq_append.mp hpre).symm
    · have hwl : (window b).length = b.w - b.r := by
        simp only [window, List.length_take, List.length_drop]
        have := hc.1; have := hc.2; omega
      rw [hw1] at htk
      rw [hbuf2, htk] at hbuf'
      unfold window
      rw [hr', hr2, hw', hbuf', List.drop_zero, Nat.sub_zero, List.append_assoc,
        ← List.append_assoc (window b), List.take_append_of_le_length (by simp [hwl]),
        List.take_of_length_le (by simp [hwl])]
      rfl
    · rw [hrd']; exact hdel
    · refine ⟨by rw [hr', hr2]; omega, ?_⟩
      rw [hw', hbuf']
      simp only [List.length_append, List.length_take, List.length_drop, hbuf2, hlen1]
      omega
    · refine ⟨?_, by rw [herr', herr2], by rw [hst', hst2], by rw [hml', hml2], by rw [hls', hls2]⟩
      rw [hbuf']
      simp only [List.length_append, List.length_take, List.length_drop, hbuf2, hlen1, hw2]
      omega

theorem handleLastByte_eq (line : List Byte) (b : BufReader σ) :
    ∃ x y, handleLastByte line b = { b with lastByte := x, lastRuneSize := y } := by
  unfold handleLastByte
  split
  · exact ⟨_, _, rfl⟩
  · exact ⟨b.lastByte, b.lastRuneSize, rfl⟩

theorem window_length (b : BufReader σ) (hc : Cursors b) : (window b).length = b.w - b.r := by
  simp only [window, List.length_take, List.length_drop]
  have := hc.1; have := hc.2; omega

/-- The first test of the `readSlice` loop succeeds: the delimiter is in the window. -/
theorem readSliceLoop_hit (env : Env σ) (delim : Byte) (fuel : Nat) (b : BufReader σ)
    (hs : b.stopped = false) (hc : Cursors b) (hin : delim ∈ window b) :
    ∃ b', readSliceLoop env delim (fuel + 1) b = .ok (throughDelim delim (window b), none, b') ∧
      window b' = afterDelim delim (window b) ∧ b'.rd = b.rd ∧ Cursors b' ∧ Frame b b' := by
  have hwl := window_length b hc
  obtain ⟨hrw, hwlen⟩ := hc
  have hi : (window b).indexOf delim < b.w - b.r := by
    rw [← hwl]; exact List.indexOf_lt_length.mpr hin
  generalize hidef : (window b).indexOf delim = i at hi
  have hT : throughDelim delim (window b) = (window b).take (i + 1) := by
    unfold throughDelim; rw [hidef]
  have hA : afterDelim delim (window b) = (window b).drop (i + 1) := by
    unfold afterDelim; rw [hidef]
  have hline : slice b.buf b.r (b.r + i + 1) = .ok (throughDelim delim (window b)) := by
    unfold slice
    rw [if_pos ⟨by omega, by omega⟩, hT]
    congr 1
    unfold window
    rw [List.take_take]
    congr 1
    omega
  have hwin : slice b.buf b.r b.w = .ok (window b) := by
    unfold slice; rw [if_pos ⟨hrw, hwlen⟩]; rfl
  obtain ⟨x, y, hx⟩ := handleLastByte_eq (throughDelim delim (window b))
    ({ b with r := b.r + i + 1 })
  refine ⟨handleLastByte (throughDelim delim (window b)) ({ b with r := b.r + i + 1 }), ?_, ?_⟩
  · simp only [readSliceLoop, hs, hwin, bind, Except.bind, hin, if_true, hline, hidef]
    rfl
  · rw [hx]
    refine ⟨?_, rfl, ⟨by show b.r + i + 1 ≤ b.w; omega, hwlen⟩, rfl, rfl, rfl, rfl, rfl⟩
    rw [hA]
    unfold window
    simp only [List.drop_take, List.drop_drop]
    congr 1
    omega

theorem slice_window (b : BufReader σ) (hc : Cursors b) :
    slice b.buf b.r b.w = .ok (window b) := by
  unfold slice; rw [if_pos ⟨hc.1, hc.2⟩]; rfl

/-- The `readSlice` loop on a full window without delimiter: the whole buffer is
returned with `ErrBufferFull`. -/
theorem readSliceLoop_full (env : Env σ) (delim : Byte) (fuel : Nat) (b : BufReader σ)
    (hs : b.stopped = false) (hc : Cursors b) (hin : delim ∉ window b) (he : b.err = none)
    (hfull : b.buf.length ≤ b.w - b.r) :
    readSliceLoop env delim (fuel + 1) b
      = .ok (b.buf, some .ErrBufferFull, handleLastByte b.buf { b with r := b.w }) := by
  simp only [readSliceLoop, hs, slice_window b hc, bind, Except.bind, hin, if_false, he,
    Option.isSome_none, buffered, ge_iff_le, hfull, if_true]
  rfl

/-- The `readSlice` loop on a window with room and without delimiter calls `fill`
and goes round again. -/
theorem readSliceLoop_fill (env : Env σ) (delim : Byte) (fuel : Nat) (b b1 : BufReader σ)
    (hs : b.stopped = false) (hc : Cursors b) (hin : delim ∉ window b) (he : b.err = none)
    (hroom : ¬ b.buf.length ≤ b.w - b.r) (hf : fill env b = .ok b1) :
    readSliceLoop env delim (fuel + 1) b = readSliceLoop env delim fuel b1 := by
  simp only [readSliceLoop, hs, slice_window b hc, bind, Except.bind, hin, if_false, he,
    Option.isSome_none, buffered, ge_iff_le, hroom, hf]
  rfl

theorem Frame_trans {a b c : BufReader σ} (h1 : Frame a b) (h2 : Frame b c) : Frame a c := by
  obtain ⟨h11, h12, h13, h14, h15⟩ := h1
  obtain ⟨h21, h22, h23, h24, h25⟩ := h2
  exact ⟨h21.trans h11, h22.trans h12, h23.trans h13, h24.trans h14, h25.trans h15⟩

/-- What one call of `readSlice` returns when the unread bytes hold a delimiter:
the line up to the delimiter if it starts within one buffer length, else one buffer
length of bytes with `ErrBufferFull`; the rest stays unread. -/
theorem readSliceLoop_delivers (env : Env σ) (delim : Byte) :
    ∀ (fuel : Nat) (b : BufReader σ) (rest : List Byte),
      b.stopped = false → Cursors b → b.err = none →
      Delivers env.rd b.rd rest → delim ∈ window b ++ rest → rest.length < fuel →
      ∃ b' rest', Delivers env.rd b'.rd rest' ∧ Cursors b' ∧ Frame b b' ∧
        (((window b ++ rest).indexOf delim < b.buf.length ∧
          readSliceLoop env delim fuel b
            = .ok (throughDelim delim (window b ++ rest), none, b') ∧
          window b' ++ rest' = afterDelim delim (window b ++ rest)) ∨
         (b.buf.length ≤ (window b ++ rest).indexOf delim ∧
          readSliceLoop env delim fuel b
            = .ok ((window b ++ rest).take b.buf.length, some .ErrBufferFull, b') ∧
          window b' ++ rest' = (window b ++ rest).drop b.buf.length)) := by
  intro fuel
  induction fuel with
  | zero => intro b rest _ _ _ _ _ h; exact absurd h (Nat.not_lt_zero _)
  | succ f ih =>
    intro b rest hs hc he hd hmem hfuel
    have hwl := window_length b hc
    by_cases hin : delim ∈ window b
    · obtain ⟨b', hrun, hwin, hrd, hc', hfr⟩ := readSliceLoop_hit env delim f b hs hc hin
      have hi : (window b).indexOf delim < (window b).length := List.indexOf_lt_length.mpr hin
      refine ⟨b', rest, by rw [hrd]; exact hd, hc', hfr, Or.inl ⟨?_, ?_, ?_⟩⟩
      · rw [List.indexOf_append_of_mem hin]; have := hc.2; omega
      · rw [hrun]; unfold throughDelim
        rw [List.indexOf_append_of_mem hin, List.take_append_of_le_length (by omega)]
      · rw [hwin]; unfold afterDelim
        rw [List.indexOf_append_of_mem hin, List.drop_append_of_le_length (by omega)]
    · by_cases hfull : b.buf.length ≤ b.w - b.r
      · have hr0 : b.r = 0 := by have := hc.1; have := hc.2; omega
        have hwL : b.w = b.buf.length := by have := hc.1; have := hc.2; omega
        have hwb : window b = b.buf := by
          unfold window; rw [hr0, hwL]; simp
        obtain ⟨x, y, hx⟩ := handleLastByte_eq b.buf ({ b with r := b.w })
        refine ⟨handleLastByte b.buf { b with r := b.w }, rest, ?_, ?_, ?_, Or.inr ⟨?_, ?_, ?_⟩⟩
        · rw [hx]; exact hd
        · rw [hx]; exact ⟨le_refl _, hc.2⟩
        · rw [hx]; exact ⟨rfl, rfl, rfl, rfl, rfl⟩
        · rw [List.indexOf_append_of_not_mem hin, hwb]; omega
        · rw [readSliceLoop_full env delim f b hs hc hin he hfull, hwb]; simp
        · rw [hx]
          have : window ({ b with r := b.w, lastByte := x, lastRuneSize := y } : BufReader σ) = [] := by
            simp [window]
          rw [this, hwb]; simp
      · have hne : rest ≠ [] := by
          intro h; rw [h, List.append_nil] at hmem; exact hin hmem
        obtain ⟨b1, d, hf, hdne, hsplit, hwin1, hd1, hc1, hfr1⟩ :=
          fill_delivers env b rest hc (by omega) hd hne
        have hdl : 0 < d.length := List.length_pos.mpr hdne
        have hu : window b1 ++ rest.drop d.length = window b ++ rest := by
          rw [hwin1, List.append_assoc, ← hsplit]
        have hdle : d.length ≤ rest.length := by
          have h := congrArg List.length hsplit
          rw [List.length_append] at h; omega
        have hlen : (rest.drop d.length).length < f := by
          rw [List.length_drop]; omega
        obtain ⟨b', rest', hd', hc', hfr', hcase⟩ :=
          ih b1 (rest.drop d.length) (hfr1.2.2.1.trans hs) hc1 (hfr1.2.1.trans he) hd1
            (by rw [hu]; exact hmem) hlen
        rw [hu, hfr1.1, ← readSliceLoop_fill env delim f b b1 hs hc hin he hfull hf] at hcase
        exact ⟨b', rest', hd', hc', Frame_trans hfr1 hfr', hcase⟩

theorem indexOf_drop_of_le (a : Byte) (l : List Byte) (n : Nat) (h : n ≤ l.indexOf a) :
    a ∉ l.take n ∧ (l.drop n).indexOf a = l.indexOf a - n := by
  have hn : n ≤ l.length := le_trans h List.indexOf_le_length
  have hnot : a ∉ l.take n := by
    intro hmem
    have h1 : (l.take n ++ l.drop n).indexOf a = (l.take n).indexOf a :=
      List.indexOf_append_of_mem hmem
    rw [List.take_append_drop] at h1
    have h2 : (l.take n).indexOf a < (l.take n).length := List.indexOf_lt_length.mpr hmem
    rw [List.length_take] at h2
    omega
  refine ⟨hnot, ?_⟩
  have h3 : (l.take n ++ l.drop n).indexOf a = (l.take n).length + (l.drop n).indexOf a :=
    List.indexOf_append_of_not_mem hnot
  rw [List.take_append_drop, List.length_take] at h3
  omega

theorem throughDelim_drop (a : Byte) (l : List Byte) (n : Nat) (h : n ≤ l.indexOf a) :
    l.take n ++ throughDelim a (l.drop n) = throughDelim a l ∧
    afterDelim a (l.drop n) = afterDelim a l := by
  have hi := (indexOf_drop_of_le a l n h).2
  unfold throughDelim afterDelim
  rw [hi, List.drop_drop, List.take_drop]
  constructor
  · have e1 : n + (l.indexOf a - n + 1) = l.indexOf a + 1 := by omega
    rw [e1]
    have e2 : l.take n = (l.take (l.indexOf a + 1)).take n := by
      rw [List.take_take]; congr 1; omega
    rw [e2, List.take_append_drop]
  · congr 1; omega

/-- The `readBytes` loop glues the `ErrBufferFull` fragments of a long line together. -/
theorem readBytesLoop_delivers (env : Env σ) (delim : Byte) (fuel : Nat) :
    ∀ (k : Nat) (full : List (List Byte)) (b : BufReader σ) (rest : List Byte),
      b.stopped = false → Cursors b → 0 < b.buf.length → b.err = none →
      Delivers env.rd b.rd rest → delim ∈ window b ++ rest →
      (window b ++ rest).length < fuel → (window b ++ rest).length < k →
      ∃ b' rest', readBytesLoop env fuel delim k full b
          = .ok (full.flatten ++ throughDelim delim (window b ++ rest), none, b') ∧
        window b' ++ rest' = afterDelim delim (window b ++ rest) ∧
        Delivers env.rd b'.rd rest' ∧ Cursors b' ∧ Frame b b' := by
  intro k
  induction k with
  | zero => intro _ b rest _ _ _ _ _ _ _ h; exact absurd h (Nat.not_lt_zero _)
  | succ k ih =>
    intro full b rest hs hc hL he hd hmem hfuel hk
    have hrest : rest.length < fuel := by
      rw [List.length_append] at hfuel; omega
    obtain ⟨b1, rest1, hd1, hc1, hfr1, hcase⟩ :=
      readSliceLoop_delivers env delim fuel b rest hs hc he hd hmem hrest
    rcases hcase with ⟨_, hrun, hwin⟩ | ⟨hidx, hrun, hwin⟩
    · refine ⟨b1, rest1, ?_, hwin, hd1, hc1, hfr1⟩
      simp only [readBytesLoop, readSlice, hrun, bind, Except.bind]
    · obtain ⟨hnot, hi⟩ := indexOf_drop_of_le delim _ _ hidx
      obtain ⟨ht, ha⟩ := throughDelim_drop delim _ _ hidx
      have hmem1 : delim ∈ window b1 ++ rest1 := by
        rw [hwin]
        have := List.mem_append.mp (by rw [List.take_append_drop]; exact hmem :
          delim ∈ (window b ++ rest).take b.buf.length ++ (window b ++ rest).drop b.buf.length)
        rcases this with h | h
        · exact absurd h hnot
        · exact h
      have hlen1 : (window b1 ++ rest1).length < k := by
        rw [hwin, List.length_drop]
        have : 0 < (window b ++ rest).length := List.length_pos_of_mem hmem
        omega
      obtain ⟨b', rest', hrun', hwin', hd', hc', hfr'⟩ :=
        ih (full ++ [(window b ++ rest).take b.buf.length]) b1 rest1
          (hfr1.2.2.1.trans hs) hc1 (by rw [hfr1.1]; exact hL) (hfr1.2.1.trans he) hd1 hmem1
          (lt_of_le_of_lt (by rw [hwin, List.length_drop]; omega) hfuel) hlen1
      refine ⟨b', rest', ?_, by rw [hwin', hwin, ha], hd', hc', Frame_trans hfr1 hfr'⟩
      simp only [readBytesLoop, readSlice, hrun, bind, Except.bind]
      rw [hrun', hwin, List.flatten_append, List.append_assoc]
      simp only [List.flatten_cons, List.flatten_nil, List.append_nil]
      rw [ht]

/-- One call of `ReadString` in single-line mode when the unread bytes hold a
delimiter. -/
theorem ReadString_delivers (env : Env σ) (delim : Byte) (b : BufReader σ) (rest : List Byte)
    (fuel : Nat)
    (henc : env.encodingWay = "" ∨ env.encodingWay = "utf-8")
    (hs : b.stopped = false) (hc : Cursors b) (hL : 0 < b.buf.length)
    (he : b.err = none ∨ delim ∈ window b)
    (hd : Delivers env.rd b.rd rest) (hmem : delim ∈ window b ++ rest)
    (hfuel : (window b ++ rest).length < fuel) :
    ∃ b' rest',
      ReadString env fuel delim b = .ok (throughDelim delim (window b ++ rest), none, b') ∧
      window b' ++ rest' = afterDelim delim (window b ++ rest) ∧
      Delivers env.rd b'.rd rest' ∧ Cursors b' ∧ Frame b b' := by
  have hconv : ∀ (x : List Byte × Option Error × BufReader σ),
      readBytes env fuel delim b = .ok x → ReadString env fuel delim b = .ok x := by
    intro x hx
    obtain ⟨l, e, b1⟩ := x
    simp only [ReadString, hx, bind, Except.bind]
    rcases henc with h | h <;> simp [h]
  by_cases hin : delim ∈ window b
  · obtain ⟨k, hk⟩ : ∃ k, fuel = k + 1 := ⟨fuel - 1, by omega⟩
    obtain ⟨b', hrun, hwin, hrd, hc', hfr⟩ := readSliceLoop_hit env delim k b hs hc hin
    have hi : (window b).indexOf delim < (window b).length := List.indexOf_lt_length.mpr hin
    refine ⟨b', rest, ?_, ?_, by rw [hrd]; exact hd, hc', hfr⟩
    · apply hconv
      subst hk
      simp only [readBytes, readBytesLoop, readSlice, hrun, bind, Except.bind]
      unfold throughDelim
      rw [List.indexOf_append_of_mem hin, List.take_append_of_le_length (by omega)]
      rfl
    · rw [hwin]; unfold afterDelim
      rw [List.indexOf_append_of_mem hin, List.drop_append_of_le_length (by omega)]
  · have he0 : b.err = none := he.resolve_right hin
    obtain ⟨b', rest', hrun, hwin, hd', hc', hfr⟩ :=
      readBytesLoop_delivers env delim fuel fuel [] b rest hs hc hL he0 hd hmem hfuel hfuel
    exact ⟨b', rest', hconv _ (by simpa [readBytes] using hrun), hwin, hd', hc', hfr⟩

theorem count_afterDelim (a : Byte) : ∀ (u : List Byte), a ∈ u →
    u.count a = (afterDelim a u).count a + 1 := by
  intro u
  induction u with
  | nil => intro h; exact absurd h (List.not_mem_nil _)
  | cons x xs ih =>
    intro h
    by_cases hx : x = a
    · subst hx
      simp [afterDelim]
    · have hxs : a ∈ xs := by
        rcases List.mem_cons.mp h with h | h
        · exact absurd h.symm hx
        · exact h
      have hi : (x :: xs).indexOf a = xs.indexOf a + 1 :=
        List.indexOf_cons_ne _ (fun h => hx h)
      have ha : afterDelim a (x :: xs) = afterDelim a xs := by
        unfold afterDelim; rw [hi]; rfl
      rw [ha, List.count_cons_of_ne (fun h => hx h.symm), ih hxs]

theorem through_append_after (a : Byte) (u : List Byte) :
    throughDelim a u ++ afterDelim a u = u := List.take_append_drop _ _

/-- Successive calls of `ReadString` hand out the successive lines of the unread bytes. -/
theorem ReadStrings_delivers (env : Env σ) (delim : Byte) (fuel : Nat)
    (henc : env.encodingWay = "" ∨ env.encodingWay = "utf-8") :
    ∀ (n : Nat) (b : BufReader σ) (rest : List Byte),
      b.stopped = false → Cursors b → 0 < b.buf.length → b.err = none →
      Delivers env.rd b.rd rest → n ≤ (window b ++ rest).count delim →
      (window b ++ rest).length < fuel →
      ∃ b' rest', ReadStrings env fuel delim n b
          = .ok ((linesOf delim n (window b ++ rest)).map (fun l => (l, none)), b') ∧
        (linesOf delim n (window b ++ rest)).flatten ++ (window b' ++ rest')
          = window b ++ rest := by
  intro n
  induction n with
  | zero =>
    intro b rest _ _ _ _ _ _ _
    exact ⟨b, rest, rfl, by simp [linesOf]⟩
  | succ n ih =>
    intro b rest hs hc hL he hd hn hfuel
    have hmem : delim ∈ window b ++ rest := List.count_pos_iff.mp (by omega)
    obtain ⟨b1, rest1, hrun, hwin, hd1, hc1, hfr1⟩ :=
      ReadString_delivers env delim b rest fuel henc hs hc hL (Or.inl he) hd hmem hfuel
    have hcnt := count_afterDelim delim _ hmem
    have hlen1 : (window b1 ++ rest1).length < fuel := by
      rw [hwin]; unfold afterDelim; rw [List.length_drop]; omega
    obtain ⟨b', rest', hrun', hcat⟩ :=
      ih b1 rest1 (hfr1.2.2.1.trans hs) hc1 (by rw [hfr1.1]; exact hL) (hfr1.2.1.trans he) hd1
        (by rw [hwin]; omega) hlen1
    refine ⟨b', rest', ?_, ?_⟩
    · simp only [ReadStrings, hrun, hrun', bind, Except.bind, hwin, linesOf, List.map_cons]
    · rw [hwin] at hcat
      simp only [linesOf, List.flatten_cons, List.append_assoc]
      rw [hcat, through_append_after]

theorem chunkSource_delivers (chunk : Nat) (hchunk : 0 < chunk) :
    ∀ (n : Nat) (s : List Byte), s.length ≤ n → Delivers (chunkSource chunk) s s := by
  intro n
  induction n with
  | zero =>
    intro s hs
    have : s = [] := List.length_eq_zero.mp (by omega)
    subst this
    exact Delivers.nil _
  | succ n ih =>
    intro s hs
    by_cases hnil : s = []
    · subst hnil; exact Delivers.nil _
    · have hpos : 0 < s.length := List.length_pos.mpr hnil
      refine Delivers.read s s (fun cap hcap => ⟨?_, ?_, ?_, ?_⟩) (fun cap hcap => ?_)
      · simp [chunkSource, hnil]
      · intro h
        have := congrArg List.length h
        simp only [chunkSource, List.length_take, List.length_nil] at this
        omega
      · simp only [chunkSource, List.length_take]; omega
      · exact List.take_prefix _ _
      · have hdrop : s.drop ((chunkSource chunk).Read s cap).data.length
            = s.drop (min cap chunk) := by
          simp only [chunkSource, List.length_take]
          by_cases hle : min cap chunk ≤ s.length
          · rw [Nat.min_eq_left hle]
          · rw [Nat.min_eq_right (by omega), List.drop_of_length_le (le_refl _),
              List.drop_of_length_le (by omega)]
        rw [hdrop]
        apply ih
        simp only [chunkSource, List.length_drop]
        omega

theorem FormMutiLine_eq (b : BufReader σ) : FormMutiLine b = b.mutiLineCache.flatten := by
  unfold FormMutiLine
  split
  · have : b.mutiLineCache = [] := List.length_eq_zero.mp (by omega)
    rw [this]; rfl
  · rfl

/-- The reader that `NewReaderSize` builds from a Meta store holding the snapshot
`(r, w, buf, cache)`. -/
theorem NewReaderSize_holds (rd : σ) (m : Meta) (size r w : Nat) (buf cache : List Byte)
    (h1 : m.bufMeta = .holds (r, w, buf.length)) (h2 : m.bufDat = .holds buf)
    (h3 : m.cacheLine = .holds cache) (hex : m.isExist = true) (hva : m.isValid = true) :
    NewReaderSize rd (some m) size = .ok
      { reset (copy (List.replicate (max (max size minReadBufferSize) buf.length) 0) buf) rd with
        r := r, w := w, mutiLineCache := if cache.length > 0 then [cache] else [] } := by
  have e1 : (if size < minReadBufferSize then minReadBufferSize else size)
      = max size minReadBufferSize := by
    split <;> omega
  have e2 : (if max size minReadBufferSize < buf.length then buf.length
      else max size minReadBufferSize) = max (max size minReadBufferSize) buf.length := by
    split <;> omega
  simp only [NewReaderSize, Meta.ReadBufMeta, Meta.ReadCacheLine, Meta.ReadBuf, h1, h2, h3,
    hex, hva, and_self, if_true, e1, e2, reset]
  split <;> rfl

/-- Re-opening on a Meta store that holds the snapshot `(r, w, buf, cache)`. -/
theorem NewReaderSize_restores (rd : σ) (m : Meta) (size r w : Nat) (buf cache : List Byte)
    (h1 : m.bufMeta = .holds (r, w, buf.length)) (h2 : m.bufDat = .holds buf)
    (h3 : m.cacheLine = .holds cache) (hex : m.isExist = true) (hva : m.isValid = true)
    (hsize : size ≤ buf.length) :
    ∃ b2 : BufReader σ, NewReaderSize rd (some m) size = .ok b2 ∧ b2.r = r ∧ b2.w = w ∧
      b2.buf.take buf.length = buf ∧ (minReadBufferSize ≤ buf.length → b2.buf = buf) ∧
      b2.mutiLineCache.flatten = cache := by
  have hcopy : ∀ n, buf.length ≤ n →
      (copy (List.replicate n (0 : Byte)) buf).take buf.length = buf ∧
      (n = buf.length → copy (List.replicate n (0 : Byte)) buf = buf) := by
    intro n hn
    unfold copy
    rw [List.length_replicate, List.take_of_length_le hn]
    refine ⟨by rw [List.take_append_of_le_length (le_refl _), List.take_length], ?_⟩
    intro h; rw [h, List.drop_of_length_le (by simp)]; simp
  obtain ⟨hk1, hk2⟩ := hcopy (max (max size minReadBufferSize) buf.length) (by omega)
  refine ⟨_, NewReaderSize_holds rd m size r w buf cache h1 h2 h3 hex hva, rfl, rfl, hk1,
    fun h => hk2 (by omega), ?_⟩
  show (if cache.length > 0 then [cache] else []).flatten = cache
  split
  · simp
  · have : cache = [] := List.length_eq_zero.mp (by omega)
    rw [this]; rfl

theorem Keeps_refl (b : BufReader σ) : Keeps b b := ⟨rfl, rfl, rfl⟩

theorem Keeps_trans {a b c : BufReader σ} (h1 : Keeps a b) (h2 : Keeps b c) : Keeps a c :=
  ⟨h2.1.trans h1.1, h2.2.1.trans h1.2.1, h2.2.2.trans h1.2.2⟩

theorem fillLoop_keeps (env : Env σ) : ∀ (i : Nat) (b b' : BufReader σ),
    fillLoop env i b = .ok b' → Keeps b b' := by
  intro i
  induction i with
  | zero =>
    intro b b' h
    simp only [fillLoop, Except.ok.injEq] at h
    subst h; exact ⟨rfl, rfl, rfl⟩
  | succ i ih =>
    intro b b' h
    unfold fillLoop at h
    split at h
    · exact absurd h (by simp)
    · simp only at h
      split at h
      · simp only [Except.ok.injEq] at h
        subst h
        split <;> [split; skip] <;> exact ⟨rfl, rfl, rfl⟩
      · split at h
        · simp only [Except.ok.injEq] at h
          subst h
          split <;> [split; skip] <;> exact ⟨rfl, rfl, rfl⟩
        · refine Keeps_trans ?_ (ih _ _ h)
          split <;> [split; skip] <;> exact ⟨rfl, rfl, rfl⟩

theorem slide_keeps (b b' : BufReader σ) (h : slide b = .ok b') : Keeps b b' := by
  unfold slide at h
  split at h
  · unfold slice at h
    split at h
    · obtain ⟨l, hl⟩ := updateLastRdSource_eq
        ({ b with buf := copy b.buf ((b.buf.drop b.r).take (b.w - b.r)), w := b.w - b.r })
      simp only [bind, Except.bind, pure, Except.pure, hl, Except.ok.injEq] at h
      subst h; exact ⟨rfl, rfl, rfl⟩
    · exact absurd h (by simp [bind, Except.bind])
  · simp only [pure, Except.pure, Except.ok.injEq] at h
    subst h; exact ⟨rfl, rfl, rfl⟩

theorem fill_keeps (env : Env σ) (b b' : BufReader σ) (h : fill env b = .ok b') :
    Keeps b b' := by
  unfold fill at h
  cases hs : slide b with
  | error e => rw [hs] at h; exact absurd h (by simp [bind, Except.bind])
  | ok b1 =>
    rw [hs] at h
    simp only [bind, Except.bind] at h
    split at h
    · exact absurd h (by simp)
    · refine Keeps_trans (slide_keeps b b1 hs) (Keeps_trans ?_ (fillLoop_keeps env _ _ _ h))
      unfold noteLatestSource
      split <;> exact ⟨rfl, rfl, rfl⟩

theorem handleLastByte_keeps (line : List Byte) (b : BufReader σ) :
    Keeps b (handleLastByte line b) := by
  obtain ⟨x, y, h⟩ := handleLastByte_eq line b
  rw [h]; exact ⟨rfl, rfl, rfl⟩

theorem readSliceLoop_keeps (env : Env σ) (delim : Byte) :
    ∀ (fuel : Nat) (b b' : BufReader σ) (line : List Byte) (e : Option Error),
      readSliceLoop env delim fuel b = .ok (line, e, b') → Keeps b b' := by
  intro fuel
  induction fuel with
  | zero => intro b b' line e h; exact absurd h (by simp [readSliceLoop])
  | succ f ih =>
    intro b b' line e h
    unfold readSliceLoop at h
    split at h
    · simp only [Except.ok.injEq, Prod.mk.injEq] at h
      obtain ⟨_, _, h3⟩ := h
      subst h3; exact Keeps_refl _
    · cases hw : slice b.buf b.r b.w with
      | error x => rw [hw] at h; exact absurd h (by simp [bind, Except.bind])
      | ok win =>
        rw [hw] at h
        simp only [bind, Except.bind] at h
        split at h
        · cases hl : slice b.buf b.r (b.r + List.indexOf delim win + 1) with
          | error x => rw [hl] at h; exact absurd h (by simp)
          | ok ln =>
            rw [hl] at h
            simp only [Except.ok.injEq, Prod.mk.injEq] at h
            obtain ⟨_, _, h3⟩ := h
            rw [← h3]
            exact Keeps_trans ⟨rfl, rfl, rfl⟩ (handleLastByte_keeps _ _)
        · split at h
          · simp only [readErr, Except.ok.injEq, Prod.mk.injEq] at h
            obtain ⟨_, _, h3⟩ := h
            rw [← h3]
            exact Keeps_trans ⟨rfl, rfl, rfl⟩ (handleLastByte_keeps _ _)
          · split at h
            · simp only [Except.ok.injEq, Prod.mk.injEq] at h
              obtain ⟨_, _, h3⟩ := h
              rw [← h3]
              exact Keeps_trans ⟨rfl, rfl, rfl⟩ (handleLastByte_keeps _ _)
            · cases hf : fill env b with
              | error x => rw [hf] at h; exact absurd h (by simp)
              | ok b1 =>
                rw [hf] at h
                exact Keeps_trans (fill_keeps env b b1 hf) (ih _ _ _ _ h)

theorem readBytesLoop_keeps (env : Env σ) (fuel : Nat) (delim : Byte) :
    ∀ (k : Nat) (full : List (List Byte)) (b b' : BufReader σ) (line : List Byte)
      (e : Option Error),
      readBytesLoop env fuel delim k full b = .ok (line, e, b') → Keeps b b' := by
  intro k
  induction k with
  | zero => intro full b b' line e h; exact absurd h (by simp [readBytesLoop])
  | succ k ih =>
    intro full b b' line e h
    unfold readBytesLoop at h
    cases hr : readSlice env fuel delim b with
    | error x => rw [hr] at h; exact absurd h (by simp [bind, Except.bind])
    | ok res =>
      obtain ⟨frag, e1, b1⟩ := res
      have hk1 : Keeps b b1 := readSliceLoop_keeps env delim fuel b b1 frag e1 hr
      rw [hr] at h
      simp only [bind, Except.bind] at h
      split at h
      · simp only [Except.ok.injEq, Prod.mk.injEq] at h
        rw [← h.2.2]; exact hk1
      · exact Keeps_trans hk1 (ih _ _ _ _ _ h)
      · simp only [Except.ok.injEq, Prod.mk.injEq] at h
        rw [← h.2.2]; exact hk1

theorem ReadString_keeps (env : Env σ) (fuel : Nat) (delim : Byte) (b b' : BufReader σ)
    (line : List Byte) (e : Option Error)
    (h : ReadString env fuel delim b = .ok (line, e, b')) : Keeps b b' := by
  unfold ReadString at h
  cases hr : readBytes env fuel delim b with
  | error x => rw [hr] at h; exact absurd h (by simp [bind, Except.bind])
  | ok res =>
    obtain ⟨bytes, e1, b1⟩ := res
    have hk1 : Keeps b b1 := readBytesLoop_keeps env fuel delim fuel [] b b1 bytes e1 hr
    rw [hr] at h
    simp only [bind, Except.bind] at h
    split at h
    · split at h <;>
      · simp only [Except.ok.injEq, Prod.mk.injEq] at h
        rw [← h.2.2]; exact hk1
    · simp only [Except.ok.injEq, Prod.mk.injEq] at h
      rw [← h.2.2]; exact hk1

/-- One round of the `ReadPattern` loop keeps the lines after the first one of the
accumulator unmatched and keeps its first line; a return on a head-pattern match
hands out the accumulator and restarts it with the matched line. -/
theorem ReadPatternBody_boundary (env : Env σ) (P : List Byte → Bool)
    (hP : env.multiLineRegexp = some P) (maxTimes : Nat) (line : List Byte)
    (err : Option Error) (b : BufReader σ)
    (hinv : ∀ l ∈ b.mutiLineCache.tail, P l = false) (round : Round σ)
    (h : ReadPatternBody env maxTimes line err b = .ok round) :
    match round with
    | .next _ b2 =>
      (∀ l ∈ b2.mutiLineCache.tail, P l = false) ∧
      (∀ c, b.mutiLineCache.head? = some c → b2.mutiLineCache.head? = some c)
    | .ret line1 _ b2 site =>
      (∀ l ∈ b2.mutiLineCache.tail, P l = false) ∧
      (site = .headMatched → line1 = b.mutiLineCache.flatten ∧ b.mutiLineCache ≠ [] ∧
        b2.mutiLineCache = [line] ∧ P line = true) := by
  unfold ReadPatternBody at h
  rw [hP] at h
  simp only at h
  split at h
  · split at h
    · simp only [Except.ok.injEq] at h
      subst h
      have hnil : b.mutiLineCache = [] := List.length_eq_zero.mp (by omega)
      simp [hnil]
    · rename_i hne
      have hne' : b.mutiLineCache ≠ [] := by
        intro h0; rw [h0] at hne; simp at hne
      split at h
      · rename_i hm
        simp only [Except.ok.injEq] at h
        subst h
        exact ⟨by simp, fun _ => ⟨FormMutiLine_eq b, hne', rfl, hm⟩⟩
      · rename_i hm
        have hm' : P line = false := by simpa using hm
        have htail : ∀ l ∈ (b.mutiLineCache ++ [line]).tail, P l = false := by
          obtain ⟨c, cs, hc⟩ := List.exists_cons_of_ne_nil hne'
          rw [hc] at hinv ⊢
          simp only [List.cons_append, List.tail_cons, List.mem_append, List.mem_singleton]
          intro l hl
          rcases hl with hl | hl
          · exact hinv l (by simpa using hl)
          · rw [hl]; exact hm'
        split at h
        · simp only [Except.ok.injEq] at h
          subst h
          simp
        · simp only [Except.ok.injEq] at h
          subst h
          refine ⟨htail, ?_⟩
          intro c hc
          obtain ⟨c', cs, hcs⟩ := List.exists_cons_of_ne_nil hne'
          rw [hcs] at hc ⊢
          simpa using hc
  · split at h
    · simp only [Except.ok.injEq] at h
      subst h
      simp
    · split at h
      · simp only [Except.ok.injEq] at h
        subst h
        exact ⟨hinv, by simp⟩
      · split at h
        · simp only [Except.ok.injEq] at h
          subst h
          simp
        · simp only [Except.ok.injEq] at h
          subst h
          exact ⟨hinv, fun c hc => hc⟩

/-- What the `ReadPattern` loop returns on a head-pattern match, in terms of the
physical lines `first :: later` that make up the logical line. -/
theorem ReadPatternLoop_boundary (env : Env σ) (P : List Byte → Bool)
    (hP : env.multiLineRegexp = some P) (fuel : Nat) :
    ∀ (k maxTimes : Nat) (b b' : BufReader σ) (line : List Byte) (err : Option Error)
      (site : ReturnSite),
      (∀ l ∈ b.mutiLineCache.tail, P l = false) →
      ReadPatternLoop env fuel k maxTimes b = .ok (line, err, b', site) →
      (∀ l ∈ b'.mutiLineCache.tail, P l = false) ∧
      (site = .headMatched →
        ∃ (first : List Byte) (later : List (List Byte)) (head : List Byte),
          line = (first :: later).flatten ∧ (∀ l ∈ later, P l = false) ∧
          (∀ c, b.mutiLineCache.head? = some c → first = c) ∧
          b'.mutiLineCache = [head] ∧ P head = true) := by
  intro k
  induction k with
  | zero => intro _ b b' line err site _ h; exact absurd h (by simp [ReadPatternLoop])
  | succ k ih =>
    intro maxTimes b b' line err site hinv h
    unfold ReadPatternLoop at h
    cases hr : ReadString env fuel newline b with
    | error x => rw [hr] at h; exact absurd h (by simp [bind, Except.bind])
    | ok res =>
      obtain ⟨l1, e1, b1⟩ := res
      have hk := (ReadString_keeps env fuel newline b b1 l1 e1 hr).1
      rw [hr] at h
      simp only [bind, Except.bind] at h
      cases hb : ReadPatternBody env maxTimes l1 e1 b1 with
      | error x => rw [hb] at h; exact absurd h (by simp)
      | ok round =>
        rw [hb] at h
        have hbody := ReadPatternBody_boundary env P hP maxTimes l1 e1 b1
          (by rw [hk]; exact hinv) round hb
        cases round with
        | next mt b2 =>
          simp only at h hbody
          obtain ⟨hinv2, hhead⟩ := hbody
          obtain ⟨hres1, hres2⟩ := ih mt b2 b' line err site hinv2 h
          refine ⟨hres1, fun hsite => ?_⟩
          obtain ⟨first, later, head, h1, h2, h3, h4, h5⟩ := hres2 hsite
          refine ⟨first, later, head, h1, h2, fun c hc => h3 c (hhead c ?_), h4, h5⟩
          rw [hk]; exact hc
        | ret line1 err1 b2 site1 =>
          simp only [Except.ok.injEq, Prod.mk.injEq] at h hbody
          obtain ⟨e1', e2', e3', e4'⟩ := h
          subst e1' e2' e3' e4'
          obtain ⟨hinv2, hm⟩ := hbody
          refine ⟨hinv2, fun hsite => ?_⟩
          obtain ⟨h1, h2, h3, h4⟩ := hm hsite
          obtain ⟨c, cs, hcs⟩ := List.exists_cons_of_ne_nil h2
          refine ⟨c, cs, l1, by rw [h1, hcs], ?_, ?_, h3, h4⟩
          · intro l hl
            apply hinv
            rw [← hk, hcs]; exact hl
          · intro c' hc'
            rw [← hk, hcs] at hc'
            simpa using hc'

theorem calcMutiLineCache_eq (b : BufReader σ) :
    calcMutiLineCache b = b.mutiLineCache.flatten.length := by
  unfold calcMutiLineCache; rw [List.length_flatten]

/-- The round of the `ReadPattern` loop for a non-empty line, case by case. -/
theorem ReadPatternBody_eq (env : Env σ) (P : List Byte → Bool)
    (hP : env.multiLineRegexp = some P) (maxTimes : Nat) (line : List Byte)
    (err : Option Error) (b : BufReader σ) (hline : line ≠ []) :
    ReadPatternBody env maxTimes line err b =
      if b.mutiLineCache ≠ [] ∧ P line = true then
        .ok (.ret b.mutiLineCache.flatten err { b with mutiLineCache := [line] } .headMatched)
      else if b.mutiLineCache ≠ [] ∧
          (b.mutiLineCache ++ [line]).flatten.length > MaxHeadPatternBufferSize then
        .ok (.ret (b.mutiLineCache ++ [line]).flatten err { b with mutiLineCache := [] }
          .overLimit)
      else
        .ok (.next (if b.mutiLineCache = [] then maxTimes else 0)
          { b with mutiLineCache := b.mutiLineCache ++ [line] }) := by
  have hl : line.length > 0 := List.length_pos.mpr hline
  unfold ReadPatternBody
  rw [hP, if_pos hl]
  by_cases hc : b.mutiLineCache = []
  · simp [hc]
  · have hc' : ¬ b.mutiLineCache.length ≤ 0 := by
      intro h; exact hc (List.length_eq_zero.mp (by omega))
    rw [if_neg hc']
    simp only
    by_cases hm : P line = true
    · rw [if_pos hm, if_pos ⟨hc, hm⟩, FormMutiLine_eq]
    · have hm2 : ¬ (b.mutiLineCache ≠ [] ∧ P line = true) := fun h => hm h.2
      rw [if_neg hm, if_neg hm2]
      simp only [calcMutiLineCache_eq, FormMutiLine_eq]
      by_cases hsz : (b.mutiLineCache ++ [line]).flatten.length > MaxHeadPatternBufferSize
      · rw [if_pos hsz, if_pos ⟨hc, hsz⟩]
      · have hsz2 : ¬ (b.mutiLineCache ≠ [] ∧
            (b.mutiLineCache ++ [line]).flatten.length > MaxHeadPatternBufferSize) :=
          fun h => hsz h.2
        rw [if_neg hsz, if_neg hsz2, if_neg hc]

end fields

/-- C1. In single-line mode (encoding unset or utf-8) on a reader that is not stopped:
when the unread bytes, that is the window `buf[r:w]` followed by the bytes `rest`
that the File Source delivers next in whatever chunks, hold a newline, then
`ReadString` returns a nil error and the unread bytes up to and including the first
newline, however long that line is compared with the buffer; the bytes after that
newline are the unread bytes of the reader it leaves behind, which again meets the
conditions on the reader. Hence `n` successive calls return the first `n` lines of
the unread bytes, and these lines followed by what is then unread are the unread bytes
of the start. -/
theorem ReadString_returns_next_line {σ : Type} (env : Env σ) (b : BufReader σ)
    (rest : List Byte) (fuel : Nat)
    (henc : env.encodingWay = "" ∨ env.encodingWay = "utf-8")
    (hs : b.stopped = false) (hc : b.r ≤ b.w ∧ b.w ≤ b.buf.length) (hL : 0 < b.buf.length)
    (he : b.err = none ∨ newline ∈ window b)
    (hd : Delivers env.rd b.rd rest) (hmem : newline ∈ window b ++ rest)
    (hfuel : (window b ++ rest).length < fuel) :
    (∃ b' rest',
      ReadString env fuel newline b
        = .ok (throughDelim newline (window b ++ rest), none, b') ∧
      window b' ++ rest' = afterDelim newline (window b ++ rest) ∧
      Delivers env.rd b'.rd rest' ∧
      b'.stopped = false ∧ (b'.r ≤ b'.w ∧ b'.w ≤ b'.buf.length) ∧
      b'.buf.length = b.buf.length ∧ b'.err = b.err) ∧
    (b.err = none → ∀ n, n ≤ (window b ++ rest).count newline →
      ∃ b' rest', ReadStrings env fuel newline n b
          = .ok ((linesOf newline n (window b ++ rest)).map (fun l => (l, none)), b') ∧
        (linesOf newline n (window b ++ rest)).flatten ++ (window b' ++ rest')
          = window b ++ rest) := by
  constructor
  · obtain ⟨b', rest', hrun, hwin, hd', hc', hfr⟩ :=
      ReadString_delivers env newline b rest fuel henc hs hc hL he hd hmem hfuel
    exact ⟨b', rest', hrun, hwin, hd', hfr.2.2.1.trans hs, hc', hfr.1, hfr.2.1⟩
  · intro he0 n hn
    exact ReadStrings_delivers env newline fuel henc n b rest hs hc hL he0 hd hn hfuel

/-- C1 at a line of 23 bytes read through a 16-byte buffer in chunks of at most 5. -/
theorem ReadString_returns_next_line_witness :
    (ReadString plainEnv 40 newline longLineReader).toOption.map Prod.fst
      = some (bytesOf "abcdefghijklmnopqrstuv\n") := by
  obtain ⟨⟨b', rest', hrun, _⟩, _⟩ :=
    ReadString_returns_next_line plainEnv longLineReader
      (bytesOf "cdefghijklmnopqrstuv\nwx\n") 40 (Or.inl rfl) rfl (by decide) (by decide)
      (Or.inl rfl) (chunkSource_delivers 5 (by decide) _ _ (le_refl _)) (by decide) (by decide)
  rw [hrun]
  show some (throughDelim newline
    (window longLineReader ++ bytesOf "cdefghijklmnopqrstuv\nwx\n")) = _
  decide

/-- C2. With a Meta store that returns what the last successful `WriteBuf` and
`WriteCacheLine` stored and reports `IsExist` and `IsValid`: after a successful
`SyncMeta` (its two writes succeed, or nothing changed since the snapshot the store
holds) on a reader with cursors `r`, `w`, buffer `buf` and multi-line accumulator `A`,
`NewReaderSize` with that Meta store and a requested size of at most `len(buf)`
returns a reader with the same `r` and `w`, whose buffer starts with the bytes of
`buf` (and is `buf` when `len(buf)` is at least the minimum size 16), and whose
accumulator concatenates to the concatenation of `A`. -/
theorem SyncMeta_then_NewReaderSize {σ τ : Type} (env : Env σ) (m : Meta) (b : BufReader σ)
    (rd : τ) (size : Nat)
    (hsync : (Dirty b ∧ m.writeBufErr = none ∧ m.writeCacheLineErr = none) ∨
      (¬ Dirty b ∧ Synced b m))
    (hex : (SyncMeta env m b).2.1.isExist = true)
    (hva : (SyncMeta env m b).2.1.isValid = true)
    (hsize : size ≤ b.buf.length) :
    ∃ b2 : BufReader τ, NewReaderSize rd (some (SyncMeta env m b).2.1) size = .ok b2 ∧
      b2.r = b.r ∧ b2.w = b.w ∧ b2.buf.take b.buf.length = b.buf ∧
      (minReadBufferSize ≤ b.buf.length → b2.buf = b.buf) ∧
      b2.mutiLineCache.flatten = b.mutiLineCache.flatten := by
  have key : (SyncMeta env m b).2.1.bufMeta = .holds (b.r, b.w, b.buf.length) ∧
      (SyncMeta env m b).2.1.bufDat = .holds b.buf ∧
      (SyncMeta env m b).2.1.cacheLine = .holds b.mutiLineCache.flatten := by
    rcases hsync with ⟨hd, hw1, hw2⟩ | ⟨hnd, h1, h2, h3⟩
    · unfold Dirty at hd
      rw [FormMutiLine_eq] at hd
      simp only [SyncMeta, FormMutiLine_eq, if_pos hd, Meta.WriteBuf, Meta.WriteCacheLine, hw1,
        hw2, and_self]
    · unfold Dirty at hnd
      rw [FormMutiLine_eq] at hnd
      have hnd' := hnd
      simp only [not_or, not_not] at hnd'
      obtain ⟨e1, e2, e3, e4⟩ := hnd'
      simp only [SyncMeta, FormMutiLine_eq, if_neg hnd]
      rw [h1, h2, h3, e1, e2, ← e3, ← e4]
      exact ⟨rfl, rfl, rfl⟩
  obtain ⟨k1, k2, k3⟩ := key
  exact NewReaderSize_restores rd _ size b.r b.w b.buf _ k1 k2 k3 hex hva hsize

/-- C2 at a reader with a two-line accumulator and an empty Meta directory. -/
theorem SyncMeta_then_NewReaderSize_witness :
    ∃ b2 : BufReader (List Byte),
      NewReaderSize (bytesOf "wx\n") (some (SyncMeta plainEnv emptyMeta cachedReader).2.1) 16
        = .ok b2 ∧
      b2.r = cachedReader.r ∧ b2.w = cachedReader.w ∧
      b2.buf.take cachedReader.buf.length = cachedReader.buf ∧
      (minReadBufferSize ≤ cachedReader.buf.length → b2.buf = cachedReader.buf) ∧
      b2.mutiLineCache.flatten = cachedReader.mutiLineCache.flatten :=
  SyncMeta_then_NewReaderSize plainEnv emptyMeta cachedReader (bytesOf "wx\n") 16
    (Or.inl ⟨by unfold Dirty; decide, rfl, rfl⟩) rfl rfl (by decide)

/-- C3, as stated, fails: on a source that starts in the middle of a record,
`ReadPattern` returns on a head-pattern match (no error, no cap) the logical line
` stack line`, whose first physical line does not match the head pattern. -/
theorem ReadPattern_first_logical_line_unmatched :
    (ReadPattern dateEnv 60 midRecordReader).toOption.map (fun x => (x.1, x.2.1, x.2.2.2))
      = some (bytesOf " stack line\n", none, ReturnSite.headMatched) ∧
    datePattern (throughDelim newline (bytesOf " stack line\n")) = false := by
  decide

/-- C4, as stated, fails: a non-empty physical line that does not match the head
pattern and arrives on an accumulator of `MaxHeadPatternBufferSize` bytes (20 MiB) is
appended, and the whole accumulator is returned with it at once. -/
theorem ReadPatternBody_unmatched_line_returned :
    datePattern (bytesOf " x\n") = false ∧
    longestLine.length = MaxHeadPatternBufferSize ∧
    ReadPatternBody dateEnv 0 (bytesOf " x\n") none fullCacheReader
      = .ok (.ret (longestLine ++ bytesOf " x\n") none
          { fullCacheReader with mutiLineCache := [] } .overLimit) := by
  have hlen : longestLine.length = MaxHeadPatternBufferSize := by
    unfold longestLine
    rw [List.length_append, List.length_replicate, List.length_singleton]
    have : 0 < MaxHeadPatternBufferSize := by decide
    omega
  refine ⟨by decide, hlen, ?_⟩
  rw [ReadPatternBody_eq dateEnv datePattern rfl 0 _ none _ (by decide)]
  have hcache : fullCacheReader.mutiLineCache = [longestLine] := rfl
  have hflat : (fullCacheReader.mutiLineCache ++ [bytesOf " x\n"]).flatten
      = longestLine ++ bytesOf " x\n" := by
    rw [hcache]
    simp only [List.singleton_append, List.flatten_cons, List.flatten_nil, List.append_nil]
  have h1 : ¬ (fullCacheReader.mutiLineCache ≠ [] ∧ datePattern (bytesOf " x\n") = true) := by
    intro h; exact absurd h.2 (by decide)
  have h2 : fullCacheReader.mutiLineCache ≠ [] ∧
      (fullCacheReader.mutiLineCache ++ [bytesOf " x\n"]).flatten.length
        > MaxHeadPatternBufferSize := by
    refine ⟨by rw [hcache]; exact List.cons_ne_nil _ _, ?_⟩
    rw [hflat, List.length_append, hlen]
    have : 0 < (bytesOf " x\n").length := by decide
    omega
  rw [if_neg h1, if_pos h2, hflat]

/-- C4, amended. In multi-line mode, for every non-empty physical line read by
`ReadPattern`: if the line matches the head pattern and the accumulator is
non-empty, `ReadPattern` returns the concatenation of the accumulator as one logical
line and the matched line becomes the only content of the new accumulator;
otherwise the line is appended to the end of the accumulator, and nothing is
returned for it unless the accumulator was non-empty and now holds more than
`MaxHeadPatternBufferSize` bytes, in which case the whole accumulator, the line
included, is returned and the accumulator is emptied. -/
theorem ReadPatternBody_line {σ : Type} (env : Env σ) (P : List Byte → Bool)
    (hP : env.multiLineRegexp = some P) (maxTimes : Nat) (line : List Byte)
    (err : Option Error) (b : BufReader σ) (hline : line ≠ []) :
    ReadPatternBody env maxTimes line err b =
      if b.mutiLineCache ≠ [] ∧ P line = true then
        .ok (.ret b.mutiLineCache.flatten err { b with mutiLineCache := [line] } .headMatched)
      else if b.mutiLineCache ≠ [] ∧
          (b.mutiLineCache ++ [line]).flatten.length > MaxHeadPatternBufferSize then
        .ok (.ret (b.mutiLineCache ++ [line]).flatten err { b with mutiLineCache := [] }
          .overLimit)
      else
        .ok (.next (if b.mutiLineCache = [] then maxTimes else 0)
          { b with mutiLineCache := b.mutiLineCache ++ [line] }) :=
  ReadPatternBody_eq env P hP maxTimes line err b hline

/-- C4, amended, at scenario S3: the third physical line matches the head pattern on
an accumulator of two lines; the two calls of `ReadPattern` return the two logical
lines of the scenario, the second one when the source reports EOF. -/
theorem ReadPatternBody_line_witness :
    ReadPatternBody dateEnv 0 (bytesOf "2024-01-02 next\n") none s3Accumulated
      = .ok (.ret (bytesOf "2024-01-01 start\n stack line\n") none
          { s3Accumulated with mutiLineCache := [bytesOf "2024-01-02 next\n"] } .headMatched) ∧
    (ReadPattern dateEnv 60 s3Reader).toOption.map (fun x => (x.1, x.2.1))
      = some (bytesOf "2024-01-01 start\n stack line\n", none) ∧
    ((ReadPattern dateEnv 60 s3Reader).toOption.bind
        (fun x => (ReadPattern dateEnv 60 x.2.2.1).toOption)).map (fun x => (x.1, x.2.1))
      = some (bytesOf "2024-01-02 next\n", some Error.EOF) :=
  ⟨(ReadPatternBody_line dateEnv datePattern rfl 0 (bytesOf "2024-01-02 next\n") none
      s3Accumulated (by decide)).trans rfl, by decide, by decide⟩

end reader

namespace mgr

theorem mapGet_map_other {V : Type} (m : Map V) (k k' : String) (v : V) (h : ¬ k' = k) :
    mapGet (m.map (fun e => if e.1 = k then (k, v) else e)) k' = mapGet m k' := by
  induction m with
  | nil => rfl
  | cons e rest ih =>
    obtain ⟨k1, v1⟩ := e
    show mapGet ((if k1 = k then (k, v) else (k1, v1)) :: rest.map _) k' = _
    by_cases h1 : k1 = k
    · have h2 : ¬ k = k' := fun e => h e.symm
      have h3 : ¬ k1 = k' := fun e => h (e.symm.trans h1)
      rw [if_pos h1]
      simp only [mapGet, if_neg h2, if_neg h3]
      exact ih
    · rw [if_neg h1]
      simp only [mapGet]
      by_cases h2 : k1 = k'
      · simp only [if_pos h2]
      · simp only [if_neg h2]
        exact ih

theorem mapGet_map_same {V : Type} (m : Map V) (k : String) (v v0 : V)
    (hg : mapGet m k = some v0) :
    mapGet (m.map (fun e => if e.1 = k then (k, v) else e)) k = some v := by
  induction m with
  | nil => simp [mapGet] at hg
  | cons e rest ih =>
    obtain ⟨k1, v1⟩ := e
    show mapGet ((if k1 = k then (k, v) else (k1, v1)) :: rest.map _) k = _
    by_cases h1 : k1 = k
    · rw [if_pos h1]
      simp only [mapGet, if_true]
    · simp only [mapGet, if_neg h1] at hg
      rw [if_neg h1]
      simp only [mapGet, if_neg h1]
      exact ih hg

theorem mapGet_append_new {V : Type} (m : Map V) (k k' : String) (v : V)
    (hg : mapGet m k = none) :
    mapGet (m ++ [(k, v)]) k' = if k' = k then some v else mapGet m k' := by
  induction m with
  | nil =>
    by_cases h : k = k'
    · simp [mapGet, h]
    · have h' : ¬ k' = k := fun e => h e.symm
      simp [mapGet, h, h']
  | cons e rest ih =>
    obtain ⟨k1, v1⟩ := e
    by_cases h1 : k1 = k
    · simp [mapGet, h1] at hg
    · simp only [mapGet, if_neg h1] at hg
      simp only [List.cons_append, mapGet]
      by_cases h2 : k1 = k'
      · have h3 : ¬ k' = k := fun e => h1 (h2.trans e)
        simp only [if_pos h2, if_neg h3]
      · simp only [if_neg h2]
        exact ih hg

theorem mapGet_mapSet {V : Type} (m : Map V) (k k' : String) (v : V) :
    mapGet (mapSet m k v) k' = if k' = k then some v else mapGet m k' := by
  unfold mapSet
  cases hg : mapGet m k with
  | none => exact mapGet_append_new m k k' v hg
  | some v0 =>
    simp only
    by_cases h : k' = k
    · rw [if_pos h, h]; exact mapGet_map_same m k v v0 hg
    · rw [if_neg h]; exact mapGet_map_other m k k' v h

theorem mapGet_mapDelete {V : Type} (m : Map V) (k k' : String) :
    mapGet (mapDelete m k) k' = if k' = k then none else mapGet m k' := by
  unfold mapDelete
  induction m with
  | nil => by_cases h : k' = k <;> simp [mapGet, h]
  | cons e rest ih =>
    obtain ⟨k1, v1⟩ := e
    by_cases h1 : k1 = k
    · subst h1
      simp only [List.filter_cons, decide_True, Bool.not_true, Bool.false_eq_true, if_false, ih,
        mapGet]
      by_cases h2 : k' = k1
      · simp [h2]
      · have h3 : ¬ k1 = k' := fun e => h2 e.symm
        simp [h2, h3]
    · simp only [List.filter_cons, h1, decide_False, Bool.not_false, if_true, mapGet]
      by_cases h2 : k1 = k'
      · have h3 : ¬ k' = k := fun e => h1 (h2.trans e)
        simp [h2, h3]
      · simp only [h2, if_false]
        exact ih

/-- Deleting a list of keys one after the other keeps the entries with other keys. -/
theorem foldl_mapDelete {V : Type} (keys : List String) (m : Map V) :
    keys.foldl (fun m k => mapDelete m k) m = m.filter (fun e => !decide (e.1 ∈ keys)) := by
  induction keys generalizing m with
  | nil => simp
  | cons k ks ih =>
    rw [List.foldl_cons, ih]
    unfold mapDelete
    rw [List.filter_filter]
    congr 1
    funext e
    by_cases h1 : e.1 = k <;> by_cases h2 : e.1 ∈ ks <;> simp [h1, h2]

theorem mapGet_filter_keys {V : Type} (keys : List String) (m : Map V) (k : String) :
    mapGet (m.filter (fun e => !decide (e.1 ∈ keys))) k
      = if k ∈ keys then none else mapGet m k := by
  induction m with
  | nil => by_cases h : k ∈ keys <;> simp [mapGet, h]
  | cons e rest ih =>
    obtain ⟨k1, v1⟩ := e
    by_cases h1 : k1 ∈ keys
    · simp only [List.filter_cons, h1, decide_True, Bool.not_true, Bool.false_eq_true, if_false,
        ih, mapGet]
      by_cases h2 : k1 = k
      · subst h2; simp [h1]
      · simp [h2]
    · simp only [List.filter_cons, h1, decide_False, Bool.not_false, if_true, mapGet]
      by_cases h2 : k1 = k
      · subst h2; simp [h1]
      · simp only [h2, if_false]; exact ih

theorem trimSender_idem (keys : List String) (sc : Option MapConf) :
    trimSender keys (trimSender keys sc) = trimSender keys sc := by
  cases sc with
  | none => rfl
  | some m =>
    simp only [trimSender, Option.map_some', foldl_mapDelete, List.filter_filter, Bool.and_self]

/-- C9. For every runner config `c` and every flag `trimSk`, `TrimSecretInfo` is
idempotent: trimming a trimmed config changes nothing. -/
theorem TrimSecretInfo_idempotent (env : Env) (c : RunnerConfig) (trimSk : Bool) :
    TrimSecretInfo env (TrimSecretInfo env c trimSk) trimSk = TrimSecretInfo env c trimSk := by
  simp only [TrimSecretInfo, List.map_map]
  congr 1
  apply List.map_congr_left
  intro sc _
  exact trimSender_idem _ sc

/-- C9 at a config with a token, the secret key and a nil sender map. -/
theorem TrimSecretInfo_idempotent_witness :
    TrimSecretInfo plainEnv (TrimSecretInfo plainEnv tokenConfig true) true
      = TrimSecretInfo plainEnv tokenConfig true ∧
    (TrimSecretInfo plainEnv tokenConfig true).SendersConfig
      = [some [("sender_type", "pandora"), ("pandora_ak", "ak")], none] :=
  ⟨TrimSecretInfo_idempotent plainEnv tokenConfig true, by decide⟩

/-- C10. For every runner config `c` and flag `trimSk`, `TrimSecretInfo(c, trimSk)`
differs from `c` only in the sender configs and keeps their number and order (a nil
sender map stays nil); in every sender map a key is removed if and only if it is in
`keyName`, every other key keeps its value and its place; and `keyName` lists 31
token keys (10 under the schema-free prefix, 9 under the logDB prefix, 7 under the
tsDB prefix, 5 under the kodo prefix), followed by `pandora_sk` exactly when `trimSk`
is set. -/
theorem TrimSecretInfo_removes_token_keys (env : Env) (c : RunnerConfig) (trimSk : Bool) :
    { TrimSecretInfo env c trimSk with SendersConfig := c.SendersConfig } = c ∧
    (TrimSecretInfo env c trimSk).SendersConfig.length = c.SendersConfig.length ∧
    (∀ i : Nat, (TrimSecretInfo env c trimSk).SendersConfig[i]?
        = (c.SendersConfig[i]?).map (trimSender (keyName env trimSk))) ∧
    trimSender (keyName env trimSk) none = none ∧
    (∀ m : MapConf, ∃ m1 : MapConf, trimSender (keyName env trimSk) (some m) = some m1 ∧
        List.Sublist m1 m ∧
        ∀ k, mapGet m1 k = if k ∈ keyName env trimSk then none else mapGet m k) ∧
    (∃ s1 s2 s3 s4 : List String,
        s1.length = 10 ∧ s2.length = 9 ∧ s3.length = 7 ∧ s4.length = 5 ∧
        keyName env trimSk
          = s1.map (fun k => env.SchemaFreeTokensPrefix ++ k)
            ++ s2.map (fun k => env.LogDBTokensPrefix ++ k)
            ++ s3.map (fun k => env.TsDBTokensPrefix ++ k)
            ++ s4.map (fun k => env.KodoTokensPrefix ++ k)
            ++ (if trimSk then ["pandora_sk"] else [])) := by
  refine ⟨rfl, by simp [TrimSecretInfo], ?_, rfl, ?_, ?_⟩
  · intro i
    simp [TrimSecretInfo]
  · intro m
    refine ⟨m.filter (fun e => !decide (e.1 ∈ keyName env trimSk)), ?_, List.filter_sublist _, ?_⟩
    · simp only [trimSender, Option.map_some', foldl_mapDelete]
    · intro k
      exact mapGet_filter_keys _ m k
  · refine ⟨["pipeline_get_repo_token", "pipeline_post_data_token",
        "pipeline_post_rawtext_data_token", "pipeline_create_repo_token",
        "pipeline_update_repo_token", "pipeline_get_workflow_token",
        "pipeline_stop_workflow_token", "pipeline_start_workflow_token",
        "pipeline_create_workflow_token", "pipeline_Get_workflow_status_token"],
      ["pipeline_get_repo_token", "pipeline_create_repo_token", "create_logdb_repo_token",
        "update_logdb_repo_token", "get_logdb_repo_token", "create_export_token",
        "update_export_token", "get_export_token", "list_export_token"],
      ["pipeline_get_repo_token", "create_tsdb_repo_token", "list_export_token",
        "create_tsdb_series_token", "create_export_token", "update_export_token",
        "get_export_token"],
      ["pipeline_get_repo_token", "create_export_token", "update_export_token",
        "get_export_token", "list_export_token"], rfl, rfl, rfl, rfl, ?_⟩
    cases trimSk <;> simp [keyName]

/-- C10 at a config with a token, the secret key and a nil sender map: without
`trimSk` the first sender loses the logDB token and keeps `pandora_sk`. -/
theorem TrimSecretInfo_removes_token_keys_witness :
    (TrimSecretInfo plainEnv tokenConfig false).SendersConfig[0]?
      = some (some [("sender_type", "pandora"), ("pandora_sk", "secret"), ("pandora_ak", "ak")]) ∧
    (TrimSecretInfo plainEnv tokenConfig false).SendersConfig[1]? = some none :=
  ⟨((TrimSecretInfo_removes_token_keys plainEnv tokenConfig false).2.2.1 0).trans (by decide),
   ((TrimSecretInfo_removes_token_keys plainEnv tokenConfig false).2.2.1 1).trans (by decide)⟩

theorem cleanersOf_erase (d : String) (info : CleanInfo) :
    ∀ regs : List CleanInfo, info ∈ regs →
      cleanersOf d (regs.erase info) + (if info.enable = true ∧ info.logdir = d then 1 else 0)
        = cleanersOf d regs := by
  intro regs
  induction regs with
  | nil => intro h; exact absurd h (List.not_mem_nil _)
  | cons x xs ih =>
    intro h
    by_cases hx : x = info
    · subst hx
      simp only [List.erase_cons_head, cleanersOf]
      omega
    · have hmem : info ∈ xs := by
        rcases List.mem_cons.mp h with h | h
        · exact absurd h.symm hx
        · exact h
      have hne : (x == info) = false := by simpa using hx
      rw [List.erase_cons_tail (by simp [hne])]
      simp only [cleanersOf]
      have := ih hmem
      omega

/-- The accounting invariant of the clean-queue map against the outstanding
registrations. -/
theorem queue_accounting_step (m : Map cleanQueue) (regs : List CleanInfo)
    (hacc : ∀ d, (mapGet m d).map (fun q => q.cleanerCount)
      = if cleanersOf d regs = 0 then none else some (cleanersOf d regs : Int)) :
    (∀ info d, (mapGet (addCleanQueue m info) d).map (fun q => q.cleanerCount)
      = if cleanersOf d (info :: regs) = 0 then none
        else some (cleanersOf d (info :: regs) : Int)) ∧
    (∀ info, info ∈ regs → ∀ d,
      (mapGet (removeCleanQueue m info) d).map (fun q => q.cleanerCount)
      = if cleanersOf d (regs.erase info) = 0 then none
        else some (cleanersOf d (regs.erase info) : Int)) := by
  constructor
  · intro info d
    by_cases hen : info.enable = true
    · simp only [addCleanQueue, hen, Bool.not_true, Bool.false_eq_true, if_false,
        mapGet_mapSet]
      by_cases hd : d = info.logdir
      · subst hd
        have h := hacc info.logdir
        simp only [if_true, Option.map_some', cleanersOf, hen, true_and]
        cases hg : mapGet m info.logdir with
        | none =>
          rw [hg] at h
          have h0 : cleanersOf info.logdir regs = 0 := by
            by_contra hne; rw [if_neg hne] at h; simp at h
          simp [h0]
        | some q =>
          rw [hg] at h
          have h0 : cleanersOf info.logdir regs ≠ 0 := by
            intro h0; rw [if_pos h0] at h; simp at h
          rw [if_neg h0] at h
          simp only [Option.map_some', Option.some.injEq] at h
          simp only [h]
          rw [if_neg (by omega)]
          congr 1
          push_cast
          omega
      · have hd' : ¬ info.logdir = d := fun e => hd e.symm
        simp only [if_neg hd, cleanersOf, hen, true_and, if_neg hd', Nat.zero_add]
        exact hacc d
    · have hen' : info.enable = false := by simpa using hen
      simp only [addCleanQueue, hen', Bool.not_false, if_true, cleanersOf, Bool.false_eq_true,
        false_and, if_false, Nat.zero_add]
      exact hacc d
  · intro info hmem d
    have hers := cleanersOf_erase d info regs hmem
    by_cases hen : info.enable = true
    · by_cases hd : d = info.logdir
      · subst hd
        simp only [hen, true_and, if_true] at hers
        have h := hacc info.logdir
        have h0 : cleanersOf info.logdir regs ≠ 0 := by omega
        rw [if_neg h0] at h
        cases hg : mapGet m info.logdir with
        | none => rw [hg] at h; simp at h
        | some q =>
          rw [hg] at h
          simp only [Option.map_some', Option.some.injEq] at h
          simp only [removeCleanQueue, hen, Bool.not_true, Bool.false_eq_true, if_false, hg, h]
          by_cases h1 : cleanersOf info.logdir regs = 1
          · have h2 : cleanersOf info.logdir (regs.erase info) = 0 := by omega
            rw [if_pos (by rw [h1]; decide), mapGet_mapDelete, if_pos rfl, if_pos h2]
            rfl
          · have h2 : cleanersOf info.logdir (regs.erase info) ≠ 0 := by omega
            rw [if_neg (by omega), mapGet_mapSet, if_pos rfl, if_neg h2]
            simp only [Option.map_some', Option.some.injEq]
            omega
      · have hd' : ¬ info.logdir = d := fun e => hd e.symm
        simp only [hen, hd', and_false, if_false, Nat.add_zero] at hers
        rw [hers]
        simp only [removeCleanQueue, hen, Bool.not_true, Bool.false_eq_true, if_false]
        cases hg : mapGet m info.logdir with
        | none => exact hacc d
        | some q =>
          simp only
          split
          · rw [mapGet_mapDelete, if_neg hd]; exact hacc d
          · rw [mapGet_mapSet, if_neg hd]; exact hacc d
    · have hen' : info.enable = false := by simpa using hen
      simp only [hen', Bool.false_eq_true, false_and, if_false, Nat.add_zero] at hers
      rw [hers]
      simp only [removeCleanQueue, hen', Bool.not_false, if_true]
      exact hacc d

theorem queue_accounting (ops : List QueueOp) :
    ∀ (m : Map cleanQueue) (regs regs1 : List CleanInfo),
      (∀ d, (mapGet m d).map (fun q => q.cleanerCount)
        = if cleanersOf d regs = 0 then none else some (cleanersOf d regs : Int)) →
      registered regs ops = some regs1 →
      ∀ d, (mapGet (applyQueueOps m ops) d).map (fun q => q.cleanerCount)
        = if cleanersOf d regs1 = 0 then none else some (cleanersOf d regs1 : Int) := by
  induction ops with
  | nil =>
    intro m regs regs1 hacc hreg
    simp only [registered, Option.some.injEq] at hreg
    subst hreg
    exact hacc
  | cons op ops ih =>
    intro m regs regs1 hacc hreg
    cases op with
    | add info =>
      simp only [registered] at hreg
      exact ih _ _ _ (fun d => (queue_accounting_step m regs hacc).1 info d) hreg
    | remove info =>
      simp only [registered] at hreg
      split at hreg
      · rename_i hmem
        exact ih _ _ _ (fun d => (queue_accounting_step m regs hacc).2 info hmem d) hreg
      · exact absurd hreg (by simp)

/-- C7. Starting from an empty clean-queue map, after any sequence of `addCleanQueue`
and `removeCleanQueue` calls in which every removal undoes an outstanding
registration with the same `CleanInfo`: for every log directory `d`, the map has an
entry for `d` if and only if the number `k` of outstanding enabled cleaners that
target `d` is positive, and then the entry has `cleanerCount = k`; a call with a
disabled `CleanInfo` changes nothing. -/
theorem cleanQueues_count_registered (ops : List QueueOp) (regs : List CleanInfo)
    (hreg : registered [] ops = some regs) :
    (∀ d, (mapGet (applyQueueOps [] ops) d).map (fun q => q.cleanerCount)
      = if cleanersOf d regs = 0 then none else some (cleanersOf d regs : Int)) ∧
    (∀ (m : Map cleanQueue) (info : CleanInfo), info.enable = false →
      addCleanQueue m info = m ∧ removeCleanQueue m info = m) := by
  refine ⟨queue_accounting ops [] [] regs (fun d => by simp [mapGet, cleanersOf]) hreg, ?_⟩
  intro m info h
  simp [addCleanQueue, removeCleanQueue, h]

/-- C7 at two runners that register cleaners on `/logs`, one disabled cleaner on
`/tmp`, and the removal of one of the two: one cleaner is left on `/logs`, and `/tmp`
has no queue. -/
theorem cleanQueues_count_registered_witness :
    (mapGet (applyQueueOps []
        [.add ⟨true, "/logs"⟩, .add ⟨false, "/tmp"⟩, .add ⟨true, "/logs"⟩,
          .remove ⟨true, "/logs"⟩]) "/logs").map (fun q => q.cleanerCount) = some 1 ∧
    (mapGet (applyQueueOps []
        [.add ⟨true, "/logs"⟩, .add ⟨false, "/tmp"⟩, .add ⟨true, "/logs"⟩,
          .remove ⟨true, "/logs"⟩]) "/tmp").map (fun q => q.cleanerCount) = none :=
  ⟨((cleanQueues_count_registered
      [.add ⟨true, "/logs"⟩, .add ⟨false, "/tmp"⟩, .add ⟨true, "/logs"⟩,
        .remove ⟨true, "/logs"⟩]
      [⟨false, "/tmp"⟩, ⟨true, "/logs"⟩] (by decide)).1 "/logs").trans (by decide),
   ((cleanQueues_count_registered
      [.add ⟨true, "/logs"⟩, .add ⟨false, "/tmp"⟩, .add ⟨true, "/logs"⟩,
        .remove ⟨true, "/logs"⟩]
      [⟨false, "/tmp"⟩, ⟨true, "/logs"⟩] (by decide)).1 "/tmp").trans (by decide)⟩

/-- One clean signal in a mode other than `tailx` for a directory that has a queue. -/
theorem doClean_exact (env : Env) (qs : Map cleanQueue) (sig : CleanSignal) (dir : String)
    (q : cleanQueue) (hdir : env.GetRealPath sig.Logdir = .ok dir)
    (hmode : sig.ReadMode ≠ ModeTailx) (hq : mapGet qs dir = some q) (hkey : q.key = dir) :
    doClean env qs sig =
      if fileCount q sig.Filename + 1 < q.cleanerCount then
        (mapSet qs dir
          { q with
            filecount := mapSet q.filecount sig.Filename (fileCount q sig.Filename + 1) },
          none)
      else
        (mapSet qs dir
          { q with
            filecount :=
              mapDelete (mapSet q.filecount sig.Filename (fileCount q sig.Filename + 1))
                sig.Filename },
          some (env.Join dir sig.Filename)) := by
  simp only [doClean, hdir, getCleanQueues, if_neg hmode, hq, countSignal]
  by_cases hlt : fileCount q sig.Filename + 1 < q.cleanerCount
  · simp [hlt, hkey]
  · simp [hlt, hkey]

theorem fileCount_mapSet (q : cleanQueue) (file : String) (v : Int) :
    fileCount { q with filecount := mapSet q.filecount file v } file = v := by
  simp [fileCount, mapGet_mapSet]

/-- Clean signals for one file of a directory whose queue has `cleanerCount = n` and
has counted `c` signals for the file: as long as the count stays below `n` nothing is
removed, and the signal that raises the count to `n` removes the file. -/
theorem doCleanAll_exact (env : Env) (dir file : String) (n : Nat) :
    ∀ (sigs : List CleanSignal) (qs : Map cleanQueue) (q : cleanQueue) (c : Nat),
      (∀ sig ∈ sigs, SignalFor env dir file sig) →
      mapGet qs dir = some q → q.key = dir → q.cleanerCount = (n : Int) →
      fileCount q file = (c : Int) →
      (c + sigs.length < n →
        (doCleanAll env qs sigs).2 = List.replicate sigs.length none ∧
        ∃ q1, mapGet (doCleanAll env qs sigs).1 dir = some q1 ∧ q1.key = dir ∧
          q1.cleanerCount = (n : Int) ∧ fileCount q1 file = ((c + sigs.length : Nat) : Int)) ∧
      (c + sigs.length = n → sigs ≠ [] →
        (doCleanAll env qs sigs).2
          = List.replicate (sigs.length - 1) none ++ [some (env.Join dir file)] ∧
        ∃ q1, mapGet (doCleanAll env qs sigs).1 dir = some q1 ∧
          mapGet q1.filecount file = none) := by
  intro sigs
  induction sigs with
  | nil =>
    intro qs q c _ hq hkey hn hc
    refine ⟨fun _ => ⟨rfl, q, hq, hkey, hn, by simpa using hc⟩, fun _ h => absurd rfl h⟩
  | cons sig rest ih =>
    intro qs q c hsig hq hkey hn hc
    obtain ⟨hdir, hfile, hmode⟩ := hsig sig (List.mem_cons_self _ _)
    have hrest : ∀ s ∈ rest, SignalFor env dir file s :=
      fun s hs => hsig s (List.mem_cons_of_mem _ hs)
    have hstep := doClean_exact env qs sig dir q hdir hmode hq hkey
    rw [hfile] at hstep
    have hq1 : mapGet
        (mapSet qs dir
          { q with filecount := mapSet q.filecount file (fileCount q file + 1) }) dir
        = some { q with filecount := mapSet q.filecount file (fileCount q file + 1) } := by
      rw [mapGet_mapSet, if_pos rfl]
    have hc1 : fileCount
        { q with filecount := mapSet q.filecount file (fileCount q file + 1) } file
        = ((c + 1 : Nat) : Int) := by
      rw [fileCount_mapSet, hc]; push_cast; rfl
    constructor
    · intro hlt
      simp only [List.length_cons] at hlt
      have hlt1 : fileCount q file + 1 < q.cleanerCount := by rw [hc, hn]; omega
      rw [if_pos hlt1] at hstep
      obtain ⟨h1, q1, h2, h3, h4, h5⟩ := (ih _ _ (c + 1) hrest hq1 hkey hn hc1).1 (by omega)
      simp only [doCleanAll, hstep, List.length_cons, List.replicate_succ]
      refine ⟨by rw [h1], q1, h2, h3, h4, ?_⟩
      rw [h5]; congr 1; omega
    · intro heq _
      simp only [List.length_cons] at heq
      by_cases hr : rest = []
      · subst hr
        simp only [List.length_nil] at heq
        have hge : ¬ (fileCount q file + 1 < q.cleanerCount) := by rw [hc, hn]; omega
        rw [if_neg hge] at hstep
        simp only [doCleanAll, hstep, List.length_cons, List.length_nil, Nat.add_sub_cancel,
          List.replicate_zero, List.nil_append, true_and]
        exact ⟨_, by rw [mapGet_mapSet, if_pos rfl], by
          simp only [mapGet_mapDelete, if_true]⟩
      · have hpos : 0 < rest.length := List.length_pos.mpr hr
        have hlt1 : fileCount q file + 1 < q.cleanerCount := by rw [hc, hn]; omega
        rw [if_pos hlt1] at hstep
        obtain ⟨h1, q1, h2, h3⟩ := (ih _ _ (c + 1) hrest hq1 hkey hn hc1).2 (by omega) hr
        have hlen : rest.length - 1 + 1 = rest.length := by omega
        simp only [doCleanAll, hstep, List.length_cons, Nat.add_sub_cancel]
        refine ⟨?_, q1, h2, h3⟩
        rw [h1, ← hlen, List.replicate_succ, hlen]
        rfl

theorem mapGet_some_mem {V : Type} (m : Map V) (k : String) (v : V)
    (h : mapGet m k = some v) : (k, v) ∈ m := by
  induction m with
  | nil => simp [mapGet] at h
  | cons e rest ih =>
    obtain ⟨k1, v1⟩ := e
    simp only [mapGet] at h
    by_cases h1 : k1 = k
    · simp only [if_pos h1, Option.some.injEq] at h
      subst h1 h
      exact List.mem_cons_self _ _
    · simp only [if_neg h1] at h
      exact List.mem_cons_of_mem _ (ih h)

theorem mapGet_of_mem {V : Type} (m : Map V) (k : String) (v : V)
    (hnd : (mapKeys m).Nodup) (h : (k, v) ∈ m) : mapGet m k = some v := by
  induction m with
  | nil => exact absurd h (List.not_mem_nil _)
  | cons e rest ih =>
    obtain ⟨k1, v1⟩ := e
    simp only [mapKeys, List.map_cons, List.nodup_cons] at hnd
    rcases List.mem_cons.mp h with h | h
    · simp only [Prod.mk.injEq] at h
      obtain ⟨e1, e2⟩ := h
      subst e1 e2
      simp [mapGet]
    · have hne : ¬ k1 = k := by
        intro e
        apply hnd.1
        rw [e]
        exact List.mem_map_of_mem Prod.fst h
      simp only [mapGet, if_neg hne]
      exact ih hnd.2 h

theorem mapGet_none_of_not_key {V : Type} (m : Map V) (k : String)
    (h : mapGet m k = none) (v : V) : (k, v) ∉ m := by
  intro hmem
  induction m with
  | nil => exact absurd hmem (List.not_mem_nil _)
  | cons e rest ih =>
    obtain ⟨k1, v1⟩ := e
    simp only [mapGet] at h
    by_cases h1 : k1 = k
    · simp [if_pos h1] at h
    · simp only [if_neg h1] at h
      rcases List.mem_cons.mp hmem with h2 | h2
      · simp only [Prod.mk.injEq] at h2
        exact h1 h2.1.symm
      · exact ih h h2

theorem mapDelete_mapSet {V : Type} (m : Map V) (k : String) (v : V) :
    mapDelete (mapSet m k v) k = mapDelete m k := by
  unfold mapSet
  cases mapGet m k with
  | none => simp [mapDelete]
  | some v0 =>
    simp only [mapDelete]
    induction m with
    | nil => rfl
    | cons e rest ih =>
      obtain ⟨k1, v1⟩ := e
      show List.filter _ ((if k1 = k then (k, v) else (k1, v1)) :: rest.map _) = _
      by_cases h1 : k1 = k
      · rw [if_pos h1]
        simp only [List.filter_cons, decide_True, Bool.not_true, Bool.false_eq_true, if_false, h1]
        exact ih
      · rw [if_neg h1]
        simp only [List.filter_cons, h1, decide_False, Bool.not_false, if_true]
        rw [ih]

theorem countSignal_eq (file : String) : ∀ (queues : List cleanQueue) (can : Bool),
    countSignal file queues can
      = (queues.map (bumpCount file), can && allReleased file queues) := by
  intro queues
  induction queues with
  | nil => intro can; simp [countSignal, allReleased]
  | cons q rest ih =>
    intro can
    simp only [countSignal, ih, List.map_cons, allReleased, List.all_cons, bumpCount]
    congr 1
    by_cases h : fileCount q file + 1 < q.cleanerCount
    · have h2 : ¬ q.cleanerCount ≤ fileCount q file + 1 := by omega
      simp [h, h2]
    · have h2 : q.cleanerCount ≤ fileCount q file + 1 := by omega
      simp [h, h2]

/-- Writing queues with pairwise different keys back under their keys. -/
theorem mapGet_write_back : ∀ (l : List cleanQueue) (m : Map cleanQueue),
    (l.map (fun q => q.key)).Nodup →
    (∀ q ∈ l, mapGet (l.foldl (fun m q => mapSet m q.key q) m) q.key = some q) ∧
    (∀ k, (∀ q ∈ l, q.key ≠ k) →
      mapGet (l.foldl (fun m q => mapSet m q.key q) m) k = mapGet m k) := by
  intro l
  induction l with
  | nil => intro m _; exact ⟨fun q h => absurd h (List.not_mem_nil _), fun k _ => rfl⟩
  | cons q0 rest ih =>
    intro m hnd
    simp only [List.map_cons, List.nodup_cons] at hnd
    obtain ⟨ih1, ih2⟩ := ih (mapSet m q0.key q0) hnd.2
    constructor
    · intro q hq
      rcases List.mem_cons.mp hq with h | h
      · subst h
        simp only [List.foldl_cons]
        rw [ih2 q.key (fun q1 h1 e => hnd.1 (by rw [← e]; exact List.mem_map_of_mem _ h1)),
          mapGet_mapSet, if_pos rfl]
      · exact ih1 q h
    · intro k hk
      simp only [List.foldl_cons]
      rw [ih2 k (fun q1 h1 => hk q1 (List.mem_cons_of_mem _ h1)), mapGet_mapSet,
        if_neg (fun e => hk q0 (List.mem_cons_self _ _) e.symm)]

/-- The queues that `getCleanQueues` returns are stored in the map under their keys,
and their keys differ pairwise. -/
theorem getCleanQueues_stored (env : Env) (qs : Map cleanQueue) (dir file mode : String)
    (queues : List cleanQueue) (hwk : WellKeyed qs)
    (h : getCleanQueues env qs dir file mode = .ok queues) :
    (∀ q ∈ queues, (q.key, q) ∈ qs) ∧ (queues.map (fun q => q.key)).Nodup := by
  obtain ⟨hnd, hkey⟩ := hwk
  unfold getCleanQueues at h
  split at h
  · simp only [Except.ok.injEq] at h
    subst h
    constructor
    · intro q hq
      obtain ⟨⟨k, q1⟩, hmem, heq⟩ := List.mem_map.mp hq
      simp only at heq
      subst heq
      have hin := (List.mem_filter.mp hmem).1
      rw [hkey (k, q1) hin]; exact hin
    · have hsub : List.Sublist
          ((qs.filter (fun kv => match env.Match kv.1 (env.Join dir file) with
            | .error _ => false
            | .ok matched => matched)).map Prod.fst) (mapKeys qs) :=
        List.Sublist.map _ (List.filter_sublist _)
      have heq : ((qs.filter (fun kv => match env.Match kv.1 (env.Join dir file) with
            | .error _ => false
            | .ok matched => matched)).map Prod.snd).map (fun q => q.key)
          = (qs.filter (fun kv => match env.Match kv.1 (env.Join dir file) with
            | .error _ => false
            | .ok matched => matched)).map Prod.fst := by
        rw [List.map_map]
        apply List.map_congr_left
        intro kv hkv
        exact hkey kv (List.mem_filter.mp hkv).1
      rw [heq]
      exact List.Nodup.sublist hsub hnd
  · cases hg : mapGet qs dir with
    | none => rw [hg] at h; exact absurd h (by simp)
    | some q =>
      rw [hg] at h
      simp only [Except.ok.injEq] at h
      subst h
      have hmem := mapGet_some_mem qs dir q hg
      constructor
      · intro q1 hq1
        rw [List.mem_singleton.mp hq1, hkey (dir, q) hmem]; exact hmem
      · simp

/-- One call of `doClean`, in any read mode: what it hands to `os.Remove` and what it
leaves in the map. -/
theorem doClean_step (env : Env) (qs : Map cleanQueue) (sig : CleanSignal) (dir : String)
    (queues : List cleanQueue) (hwk : WellKeyed qs)
    (hdir : env.GetRealPath sig.Logdir = .ok dir)
    (hqs : getCleanQueues env qs dir sig.Filename sig.ReadMode = .ok queues) :
    (doClean env qs sig).2
      = (if allReleased sig.Filename queues then some (env.Join dir sig.Filename) else none) ∧
    ∀ k, mapGet (doClean env qs sig).1 k
      = (mapGet qs k).map (fun q =>
          if q ∈ queues then settle sig.Filename (allReleased sig.Filename queues) q else q) := by
  obtain ⟨hstored, hnd⟩ := getCleanQueues_stored env qs dir _ _ queues hwk hqs
  have hrun : doClean env qs sig
      = ((queues.map (settle sig.Filename (allReleased sig.Filename queues))).foldl
          (fun m q => mapSet m q.key q) qs,
        if allReleased sig.Filename queues then some (env.Join dir sig.Filename) else none) := by
    simp only [doClean, hdir, hqs, countSignal_eq, Bool.true_and]
    by_cases hrel : allReleased sig.Filename queues = true
    · simp only [hrel, if_true, List.map_map]
      congr 2
      apply List.map_congr_left
      intro q _
      simp only [Function.comp, bumpCount, settle, mapDelete_mapSet, if_true]
    · simp only [hrel, Bool.false_eq_true, if_false]
      congr 2
  rw [hrun]
  refine ⟨rfl, fun k => ?_⟩
  have hkeys : ((queues.map (settle sig.Filename (allReleased sig.Filename queues))).map
      (fun q => q.key)) = queues.map (fun q => q.key) := by
    rw [List.map_map]; rfl
  obtain ⟨hw1, hw2⟩ := mapGet_write_back
    (queues.map (settle sig.Filename (allReleased sig.Filename queues))) qs
    (by rw [hkeys]; exact hnd)
  simp only
  cases hg : mapGet qs k with
  | none =>
    rw [hw2 k, hg]; rfl
    intro q hq hk
    obtain ⟨q0, hq0, he⟩ := List.mem_map.mp hq
    have : (k, q0) ∈ qs := by
      have h1 := hstored q0 hq0
      rw [← he] at hk
      simp only [settle] at hk
      rw [hk] at h1; exact h1
    exact mapGet_none_of_not_key qs k hg q0 this
  | some q0 =>
    have hmem0 := mapGet_some_mem qs k q0 hg
    have hk0 : q0.key = k := hwk.2 (k, q0) hmem0
    simp only [Option.map_some']
    by_cases hin : q0 ∈ queues
    · rw [if_pos hin]
      have := hw1 (settle sig.Filename (allReleased sig.Filename queues) q0)
        (List.mem_map_of_mem _ hin)
      have hk1 : (settle sig.Filename (allReleased sig.Filename queues) q0).key = k := hk0
      rw [hk1] at this
      exact this
    · rw [if_neg hin, hw2 k, hg]
      intro q hq hk
      obtain ⟨q1, hq1, he⟩ := List.mem_map.mp hq
      have h1 := hstored q1 hq1
      rw [← he] at hk
      simp only [settle] at hk
      rw [hk] at h1
      have h2 := mapGet_of_mem qs k q1 hwk.1 h1
      rw [hg] at h2
      simp only [Option.some.injEq] at h2
      rw [h2] at hin
      exact hin hq1

/-- Registering and unregistering cleaners leaves every queue under its own key and
does not touch the file counts. -/
theorem applyQueueOps_fresh (ops : List QueueOp) : ∀ (m : Map cleanQueue),
    (∀ d q, mapGet m d = some q → q.key = d ∧ q.filecount = []) →
    ∀ d q, mapGet (applyQueueOps m ops) d = some q → q.key = d ∧ q.filecount = [] := by
  induction ops with
  | nil => intro m h; exact h
  | cons op ops ih =>
    intro m h
    apply ih
    intro d q hq
    cases op with
    | add info =>
      simp only [QueueOp.apply, addCleanQueue] at hq
      split at hq
      · exact h d q hq
      · rw [mapGet_mapSet] at hq
        by_cases hd : d = info.logdir
        · rw [if_pos hd] at hq
          simp only [Option.some.injEq] at hq
          subst hq
          cases hg : mapGet m info.logdir with
          | none => exact ⟨hd.symm, rfl⟩
          | some q0 =>
            have := h info.logdir q0 hg
            exact ⟨this.1.trans hd.symm, this.2⟩
        · rw [if_neg hd] at hq
          exact h d q hq
    | remove info =>
      simp only [QueueOp.apply, removeCleanQueue] at hq
      split at hq
      · exact h d q hq
      · cases hg : mapGet m info.logdir with
        | none => rw [hg] at hq; exact h d q hq
        | some q0 =>
          rw [hg] at hq
          simp only at hq
          split at hq
          · rw [mapGet_mapDelete] at hq
            by_cases hd : d = info.logdir
            · rw [if_pos hd] at hq; exact absurd hq (by simp)
            · rw [if_neg hd] at hq; exact h d q hq
          · rw [mapGet_mapSet] at hq
            by_cases hd : d = info.logdir
            · rw [if_pos hd] at hq
              simp only [Option.some.injEq] at hq
              subst hq
              have := h info.logdir q0 hg
              exact ⟨this.1.trans hd.symm, this.2⟩
            · rw [if_neg hd] at hq; exact h d q hq

/-- C5, as stated, fails: with two runners registered on `/logs`, two clean signals
for `/logs/x.log` that both come from the cleaner of runner `a` make `doClean` hand
the file to `os.Remove`. -/
theorem doClean_deletes_on_signals_of_one_runner :
    (mapGet twoCleaners "/logs").map (fun q => q.cleanerCount) = some 2 ∧
    signalOfA.Cleaner = "a" ∧
    (doCleanAll plainEnv twoCleaners [signalOfA, signalOfA]).2
      = [none, some "/logs/x.log"] := by
  decide

/-- C5, amended. For a log directory shared by `n ≥ 1` registered enabled cleaners
and a file of it, `doClean` counts the clean signals for the file without regard to
the runner that sent them: while fewer than `n` signals have arrived it hands nothing
to `os.Remove`, and the `n`-th signal makes it hand over the file, whichever runners
the signals come from. -/
theorem doClean_deletes_on_nth_signal (env : Env) (ops : List QueueOp)
    (regs : List CleanInfo) (dir file : String) (sigs : List CleanSignal)
    (hreg : registered [] ops = some regs) (hn : 0 < cleanersOf dir regs)
    (hsig : ∀ sig ∈ sigs, SignalFor env dir file sig) :
    (sigs.length < cleanersOf dir regs →
      (doCleanAll env (applyQueueOps [] ops) sigs).2 = List.replicate sigs.length none) ∧
    (sigs.length = cleanersOf dir regs →
      (doCleanAll env (applyQueueOps [] ops) sigs).2
        = List.replicate (sigs.length - 1) none ++ [some (env.Join dir file)]) := by
  have hacc := queue_accounting ops [] [] regs (fun d => by simp [mapGet, cleanersOf]) hreg dir
  rw [if_neg (by omega)] at hacc
  cases hg : mapGet (applyQueueOps [] ops) dir with
  | none => rw [hg] at hacc; exact absurd hacc (by simp)
  | some q =>
    rw [hg] at hacc
    simp only [Option.map_some', Option.some.injEq] at hacc
    obtain ⟨hkey, hfc⟩ := applyQueueOps_fresh ops []
      (fun d q h => absurd h (by simp [mapGet])) dir q hg
    have hc : fileCount q file = ((0 : Nat) : Int) := by
      simp [fileCount, hfc, mapGet]
    have hall := doCleanAll_exact env dir file (cleanersOf dir regs) sigs
      (applyQueueOps [] ops) q 0 hsig hg hkey hacc hc
    constructor
    · intro hlt
      exact (hall.1 (by omega)).1
    · intro heq
      have hne : sigs ≠ [] := by
        intro h0; rw [h0] at heq; simp at heq; omega
      exact (hall.2 (by omega) hne).1

/-- C5, amended, at scenario S4: two runners register cleaners on `/logs`; one signal
for `/logs/x.log` removes nothing, the second one removes the file. -/
theorem doClean_deletes_on_nth_signal_witness :
    (doCleanAll plainEnv (applyQueueOps [] [.add ⟨true, "/logs"⟩, .add ⟨true, "/logs"⟩])
        [signalOfA]).2 = [none] ∧
    (doCleanAll plainEnv (applyQueueOps [] [.add ⟨true, "/logs"⟩, .add ⟨true, "/logs"⟩])
        [signalOfA, signalOfB]).2 = [none, some "/logs/x.log"] :=
  ⟨(doClean_deletes_on_nth_signal plainEnv [.add ⟨true, "/logs"⟩, .add ⟨true, "/logs"⟩]
      [⟨true, "/logs"⟩, ⟨true, "/logs"⟩] "/logs" "x.log" [signalOfA] (by decide) (by decide)
      (by intro sig h; rw [List.mem_singleton.mp h]; exact ⟨rfl, rfl, by decide⟩)).1 (by decide),
   (doClean_deletes_on_nth_signal plainEnv [.add ⟨true, "/logs"⟩, .add ⟨true, "/logs"⟩]
      [⟨true, "/logs"⟩, ⟨true, "/logs"⟩] "/logs" "x.log" [signalOfA, signalOfB] (by decide)
      (by decide)
      (by
        intro sig h
        rcases List.mem_cons.mp h with h | h
        · rw [h]; exact ⟨rfl, rfl, by decide⟩
        · rw [List.mem_singleton.mp h]; exact ⟨rfl, rfl, by decide⟩)).2 (by decide)⟩

/-- C6. On a clean-queue map that holds every queue under the queue's own key (as
`addCleanQueue` stores them), for every clean signal for a file `f` whose list of
matched queues is not empty, in any read mode: `doClean` hands `f` to `os.Remove` if
and only if in every
matched queue the count of `f` raised by one (a missing entry counting as zero) is at
least `cleanerCount`; a matched queue is left with the entry of `f` deleted when the
file is handed over and with the raised count otherwise, and every other queue is
left as it was. Hence signals for a file of a directory whose queue has
`cleanerCount = n` and no entry for the file remove nothing while there are fewer
than `n` of them, and the `n`-th one removes the file. -/
theorem doClean_counts_then_deletes (env : Env) (qs : Map cleanQueue) (sig : CleanSignal)
    (dir : String) (queues : List cleanQueue) (hwk : WellKeyed qs)
    (hdir : env.GetRealPath sig.Logdir = .ok dir)
    (hqs : getCleanQueues env qs dir sig.Filename sig.ReadMode = .ok queues)
    (_hne : queues ≠ []) :
    ((doClean env qs sig).2 = some (env.Join dir sig.Filename) ↔
      ∀ q ∈ queues, q.cleanerCount ≤ fileCount q sig.Filename + 1) ∧
    ((doClean env qs sig).2 = none ↔
      ¬ ∀ q ∈ queues, q.cleanerCount ≤ fileCount q sig.Filename + 1) ∧
    (∀ k, mapGet (doClean env qs sig).1 k
      = (mapGet qs k).map (fun q =>
          if q ∈ queues then
            { q with
              filecount :=
                if (doClean env qs sig).2.isSome then mapDelete q.filecount sig.Filename
                else mapSet q.filecount sig.Filename (fileCount q sig.Filename + 1) }
          else q)) ∧
    (∀ (file : String) (n : Nat) (sigs : List CleanSignal) (q : cleanQueue),
      (∀ s ∈ sigs, SignalFor env dir file s) → mapGet qs dir = some q →
      q.cleanerCount = (n : Int) → mapGet q.filecount file = none →
      (sigs.length < n → (doCleanAll env qs sigs).2 = List.replicate sigs.length none) ∧
      (sigs.length = n → sigs ≠ [] →
        (doCleanAll env qs sigs).2
          = List.replicate (sigs.length - 1) none ++ [some (env.Join dir file)])) := by
  obtain ⟨h2, h1⟩ := doClean_step env qs sig dir queues hwk hdir hqs
  have hall : allReleased sig.Filename queues = true ↔
      ∀ q ∈ queues, q.cleanerCount ≤ fileCount q sig.Filename + 1 := by
    simp [allReleased, List.all_eq_true]
  refine ⟨?_, ?_, ?_, ?_⟩
  · rw [h2, ← hall]
    by_cases hr : allReleased sig.Filename queues = true <;> simp [hr]
  · rw [h2, ← hall]
    by_cases hr : allReleased sig.Filename queues = true <;> simp [hr]
  · intro k
    rw [h1 k, h2]
    by_cases hr : allReleased sig.Filename queues = true
    · simp only [hr, if_true, Option.isSome_some, settle]
    · simp only [hr, Bool.false_eq_true, if_false, Option.isSome_none, settle]
  · intro file n sigs q hsig hq hn hfc
    have hkey : q.key = dir := hwk.2 (dir, q) (mapGet_some_mem qs dir q hq)
    have hc : fileCount q file = ((0 : Nat) : Int) := by simp [fileCount, hfc]
    have hall := doCleanAll_exact env dir file n sigs qs q 0 hsig hq hkey hn hc
    exact ⟨fun hlt => (hall.1 (by omega)).1, fun heq hne => (hall.2 (by omega) hne).1⟩

/-- C6 at a `tailx` signal that matches two queues, one with `cleanerCount = 1` and
one with `cleanerCount = 2`: nothing is removed, and both queues keep the count 1. -/
theorem doClean_counts_then_deletes_witness :
    (doClean globEnv tailxQueues tailxSignal).2 = none ∧
    mapGet (doClean globEnv tailxQueues tailxSignal).1 "/logs/*"
      = some { cleanerCount := 1, filecount := [("x.log", 1)], key := "/logs/*" } ∧
    mapGet (doClean globEnv tailxQueues tailxSignal).1 "/logs/x*"
      = some { cleanerCount := 2, filecount := [("x.log", 1)], key := "/logs/x*" } :=
  have h := doClean_counts_then_deletes globEnv tailxQueues tailxSignal "/logs"
    [{ cleanerCount := 1, filecount := [], key := "/logs/*" },
     { cleanerCount := 2, filecount := [], key := "/logs/x*" }]
    (by unfold WellKeyed; decide) rfl rfl (by decide)
  ⟨h.2.1.mpr (by decide), (h.2.2.1 "/logs/*").trans rfl, (h.2.2.1 "/logs/x*").trans rfl⟩

theorem mem_mapKeys_iff {V : Type} (m : Map V) (k : String) :
    k ∈ mapKeys m ↔ ∃ v, mapGet m k = some v := by
  induction m with
  | nil => simp [mapKeys, mapGet]
  | cons e rest ih =>
    obtain ⟨k1, v1⟩ := e
    simp only [mapKeys, List.map_cons, List.mem_cons, mapGet]
    by_cases h1 : k1 = k
    · simp [h1]
    · have h2 : ¬ k = k1 := fun e => h1 e.symm
      simp only [h2, false_or, if_neg h1]
      exact ih

theorem mapKeys_mapSet_nodup {V : Type} (m : Map V) (k : String) (v : V)
    (hnd : (mapKeys m).Nodup) : (mapKeys (mapSet m k v)).Nodup := by
  unfold mapSet
  cases hg : mapGet m k with
  | none =>
    simp only [mapKeys, List.map_append, List.map_cons, List.map_nil]
    have hnot : k ∉ mapKeys m := by
      intro h
      obtain ⟨v0, hv0⟩ := (mem_mapKeys_iff m k).mp h
      rw [hg] at hv0; exact absurd hv0 (by simp)
    refine List.Nodup.append hnd (List.nodup_singleton k) ?_
    intro x hx hx2
    rw [List.mem_singleton.mp hx2] at hx
    exact hnot hx
  | some v0 =>
    simp only
    have : mapKeys (m.map (fun e => if e.1 = k then (k, v) else e)) = mapKeys m := by
      simp only [mapKeys, List.map_map]
      apply List.map_congr_left
      intro e _
      simp only [Function.comp]
      by_cases h : e.1 = k
      · rw [if_pos h]; exact h.symm
      · rw [if_neg h]
    rw [this]; exact hnd

theorem mapKeys_mapDelete_nodup {V : Type} (m : Map V) (k : String)
    (hnd : (mapKeys m).Nodup) : (mapKeys (mapDelete m k)).Nodup :=
  List.Nodup.sublist (List.Sublist.map _ (List.filter_sublist _)) hnd

theorem RunnersInv_empty (m : Manager) (h : m.runners = [] ∧ m.runnerNames = [] ∧
    m.runnerConfigs = []) : RunnersInv m := by
  obtain ⟨h1, h2, h3⟩ := h
  unfold RunnersInv
  rw [h1, h2, h3]
  simp [mapKeys, mapGet]

/-- A config that is stopped has no running runner. -/
theorem RunnersInv_stopped_not_running {m : Manager} (hinv : RunnersInv m) (p : String)
    (c : RunnerConfig) (hc : mapGet m.runnerConfigs p = some c) (hs : c.IsStopped = true) :
    mapGet m.runners p = none := by
  cases hr : mapGet m.runners p with
  | none => rfl
  | some r =>
    obtain ⟨c1, hc1, hs1⟩ := hinv.2.2.2.1 p r hr
    rw [hc] at hc1
    simp only [Option.some.injEq] at hc1
    rw [hc1, hs1] at hs
    exact absurd hs (by simp)

/-- Writing a config keeps the invariant when no runner runs at the path or the config
is not stopped. -/
theorem RunnersInv_setRunnerConfig {m : Manager} (hinv : RunnersInv m) (p : String)
    (c : RunnerConfig) (h : mapGet m.runners p = none ∨ c.IsStopped = false) :
    RunnersInv (setRunnerConfig m p c) := by
  obtain ⟨n1, n2, n3, hb, hc, hd, he⟩ := hinv
  refine ⟨n1, n2, mapKeys_mapSet_nodup _ _ _ n3, ?_, hc, hd, he⟩
  intro p1 r hr
  show ∃ c1, mapGet (mapSet m.runnerConfigs p c) p1 = some c1 ∧ c1.IsStopped = false
  rw [mapGet_mapSet]
  by_cases hp : p1 = p
  · rw [if_pos hp]
    rcases h with h | h
    · rw [hp] at hr
      have hr' : mapGet m.runners p = some r := hr
      rw [h] at hr'; exact absurd hr' (by simp)
    · exact ⟨c, rfl, h⟩
  · rw [if_neg hp]; exact hb p1 r hr

/-- Deleting the config of a path at which no runner runs keeps the invariant. -/
theorem RunnersInv_deleteConfig {m : Manager} (hinv : RunnersInv m) (p : String)
    (h : mapGet m.runners p = none) :
    RunnersInv { m with runnerConfigs := mapDelete m.runnerConfigs p } := by
  obtain ⟨n1, n2, n3, hb, hc, hd, he⟩ := hinv
  refine ⟨n1, n2, mapKeys_mapDelete_nodup _ _ n3, ?_, hc, hd, he⟩
  intro p1 r hr
  show ∃ c1, mapGet (mapDelete m.runnerConfigs p) p1 = some c1 ∧ c1.IsStopped = false
  rw [mapGet_mapDelete]
  by_cases hp : p1 = p
  · rw [hp] at hr
    have hr' : mapGet m.runners p = some r := hr
    rw [h] at hr'; exact absurd hr' (by simp)
  · rw [if_neg hp]; exact hb p1 r hr

/-- Registering a runner under a free path and a free name keeps the invariant. -/
theorem RunnersInv_register {m : Manager} (hinv : RunnersInv m) (p : String)
    (config : RunnerConfig) (cleaner : CleanInfo) (resetable : Bool) (cq : Map cleanQueue)
    (hfree : mapGet m.runners p = none)
    (hname : mapGet m.runnerNames config.RunnerName ≠ some true)
    (hstop : config.IsStopped = false) :
    RunnersInv { m with
      cleanQueues := cq
      runners := mapSet m.runners p
        { Name := config.RunnerName, Cleaner := cleaner, Resetable := resetable }
      runnerNames := mapSet m.runnerNames config.RunnerName true
      runnerConfigs := mapSet m.runnerConfigs p config } := by
  obtain ⟨n1, n2, n3, hb, hc, hd, he⟩ := hinv
  have hnew : ∀ p1 r1, mapGet m.runners p1 = some r1 → r1.Name ≠ config.RunnerName := by
    intro p1 r1 h1 e
    have := hc p1 r1 h1
    rw [e] at this
    exact hname this
  refine ⟨mapKeys_mapSet_nodup _ _ _ n1, mapKeys_mapSet_nodup _ _ _ n2,
    mapKeys_mapSet_nodup _ _ _ n3, ?_, ?_, ?_, ?_⟩
  · intro p1 r hr
    simp only [mapGet_mapSet] at hr ⊢
    by_cases hp : p1 = p
    · rw [if_pos hp]; exact ⟨config, rfl, hstop⟩
    · rw [if_neg hp] at hr ⊢; exact hb p1 r hr
  · intro p1 r hr
    simp only [mapGet_mapSet] at hr ⊢
    by_cases hp : p1 = p
    · rw [if_pos hp] at hr
      simp only [Option.some.injEq] at hr
      subst hr
      simp
    · rw [if_neg hp] at hr
      by_cases hn : r.Name = config.RunnerName
      · rw [if_pos hn]
      · rw [if_neg hn]; exact hc p1 r hr
  · intro n v hv
    simp only [mapGet_mapSet] at hv ⊢
    by_cases hn : n = config.RunnerName
    · exact ⟨p, _, by rw [if_pos rfl], hn.symm⟩
    · rw [if_neg hn] at hv
      obtain ⟨p1, r1, h1, h2⟩ := hd n v hv
      have hp : ¬ p1 = p := by
        intro e; rw [e, hfree] at h1; exact absurd h1 (by simp)
      exact ⟨p1, r1, by rw [if_neg hp]; exact h1, h2⟩
  · intro p1 p2 r1 r2 h1 h2 hn
    simp only [mapGet_mapSet] at h1 h2
    by_cases hp1 : p1 = p
    · by_cases hp2 : p2 = p
      · rw [hp1, hp2]
      · rw [if_pos hp1] at h1
        rw [if_neg hp2] at h2
        simp only [Option.some.injEq] at h1
        subst h1
        exact absurd hn.symm (hnew p2 r2 h2)
    · rw [if_neg hp1] at h1
      by_cases hp2 : p2 = p
      · rw [if_pos hp2] at h2
        simp only [Option.some.injEq] at h2
        subst h2
        exact absurd hn (hnew p1 r1 h1)
      · rw [if_neg hp2] at h2
        exact he p1 p2 r1 r2 h1 h2 hn

/-- Unregistering the runner of a path keeps the invariant. -/
theorem RunnersInv_unregister {m : Manager} (hinv : RunnersInv m) (p : String) (r : Runner)
    (isDelete : Bool) (cq : Map cleanQueue) (hr : mapGet m.runners p = some r) :
    RunnersInv { m with
      cleanQueues := cq
      runners := mapDelete m.runners p
      runnerNames := mapDelete m.runnerNames r.Name
      runnerConfigs := if isDelete then mapDelete m.runnerConfigs p else m.runnerConfigs } := by
  obtain ⟨n1, n2, n3, hb, hc, hd, he⟩ := hinv
  refine ⟨mapKeys_mapDelete_nodup _ _ n1, mapKeys_mapDelete_nodup _ _ n2, ?_, ?_, ?_, ?_, ?_⟩
  · show (mapKeys (if isDelete then mapDelete m.runnerConfigs p else m.runnerConfigs)).Nodup
    split
    · exact mapKeys_mapDelete_nodup _ _ n3
    · exact n3
  · intro p1 r1 h1
    simp only [mapGet_mapDelete] at h1
    by_cases hp : p1 = p
    · rw [if_pos hp] at h1; exact absurd h1 (by simp)
    · rw [if_neg hp] at h1
      show ∃ c, mapGet (if isDelete then mapDelete m.runnerConfigs p else m.runnerConfigs) p1
        = some c ∧ c.IsStopped = false
      split
      · rw [mapGet_mapDelete, if_neg hp]; exact hb p1 r1 h1
      · exact hb p1 r1 h1
  · intro p1 r1 h1
    simp only [mapGet_mapDelete] at h1 ⊢
    by_cases hp : p1 = p
    · rw [if_pos hp] at h1; exact absurd h1 (by simp)
    · rw [if_neg hp] at h1
      have hn : ¬ r1.Name = r.Name := fun e => hp (he p1 p r1 r h1 hr e)
      rw [if_neg hn]; exact hc p1 r1 h1
  · intro n v hv
    simp only [mapGet_mapDelete] at hv ⊢
    by_cases hn : n = r.Name
    · rw [if_pos hn] at hv; exact absurd hv (by simp)
    · rw [if_neg hn] at hv
      obtain ⟨p1, r1, h1, h2⟩ := hd n v hv
      have hp : ¬ p1 = p := by
        intro e
        rw [e, hr] at h1
        simp only [Option.some.injEq] at h1
        rw [← h1] at h2
        exact hn h2.symm
      exact ⟨p1, r1, by rw [if_neg hp]; exact h1, h2⟩
  · intro p1 p2 r1 r2 h1 h2 hn
    simp only [mapGet_mapDelete] at h1 h2
    by_cases hp1 : p1 = p
    · rw [if_pos hp1] at h1; exact absurd h1 (by simp)
    · by_cases hp2 : p2 = p
      · rw [if_pos hp2] at h2; exact absurd h2 (by simp)
      · rw [if_neg hp1] at h1
        rw [if_neg hp2] at h2
        exact he p1 p2 r1 r2 h1 h2 hn

theorem injectUserAgent_keeps (env : Env) (m : Manager) (config config1 : RunnerConfig)
    (h : injectUserAgent env m config = some config1) :
    config1.IsStopped = config.IsStopped ∧ config1.RunnerName = config.RunnerName := by
  unfold injectUserAgent at h
  simp only at h
  split at h
  · simp only [Option.some.injEq] at h
    subst h; exact ⟨rfl, rfl⟩
  · exact absurd h (by simp)

/-- What `forkPrepare` returns keeps the invariant; a config that goes on to the
runner constructor is not stopped and no runner runs at its path. -/
theorem forkPrepare_inv (env : Env) (m : Manager) (p : String) (config : RunnerConfig)
    (hinv : RunnersInv m) :
    match forkPrepare env m p config with
    | .error ret => RunnersInv ret.1 ∧ ret.1.RestDir = m.RestDir
    | .ok config1 => config1.IsStopped = false ∧ mapGet m.runners p = none := by
  unfold forkPrepare
  by_cases hrun : IsRunning m p = true
  · simp only [hrun, if_true]
    exact ⟨hinv, trivial⟩
  · have hfree : mapGet m.runners p = none := by
      simp only [IsRunning, readRunners] at hrun
      cases hg : mapGet m.runners p with
      | none => rfl
      | some r => rw [hg] at hrun; simp at hrun
    simp only [hrun, Bool.false_eq_true, if_false]
    by_cases hs : config.IsStopped = true
    · simp only [hs, if_true]
      exact ⟨RunnersInv_setRunnerConfig hinv p config (Or.inl hfree), rfl⟩
    · simp only [hs, Bool.false_eq_true, if_false]
      cases hi : injectUserAgent env m config with
      | none => exact ⟨hinv, rfl⟩
      | some config1 =>
        simp only
        refine ⟨?_, hfree⟩
        rw [(injectUserAgent_keeps env m config config1 hi).1]
        simpa using hs

theorem registerRunner_inv (m : Manager) (p : String) (config : RunnerConfig)
    (cleaner : CleanInfo) (resetable : Bool) (hinv : RunnersInv m)
    (hstop : config.IsStopped = false) :
    RunnersInv (registerRunner m p config cleaner resetable).1 ∧
    (registerRunner m p config cleaner resetable).1.RestDir = m.RestDir := by
  unfold registerRunner
  split
  · exact ⟨hinv, rfl⟩
  · rename_i hfree
    split
    · exact ⟨hinv, rfl⟩
    · rename_i hname
      have hfree' : mapGet m.runners p = none := by
        cases hg : mapGet m.runners p with
        | none => rfl
        | some r => rw [hg] at hfree; simp at hfree
      exact ⟨RunnersInv_register hinv p config cleaner resetable _ hfree' hname hstop, rfl⟩

theorem ForkRunner_inv (env : Env) (p : String) (returnOnErr : Bool) :
    ∀ (results : List NewRunnerResult) (m : Manager) (config : RunnerConfig)
      (ret : Manager × Option Error),
      RunnersInv m → ForkRunner env m p config returnOnErr results = .ok ret →
      RunnersInv ret.1 ∧ ret.1.RestDir = m.RestDir := by
  intro results
  induction results with
  | nil =>
    intro m config ret hinv h
    have hp := forkPrepare_inv env m p config hinv
    unfold ForkRunner at h
    cases hf : forkPrepare env m p config with
    | error r =>
      rw [hf] at h hp
      simp only [Except.ok.injEq] at h
      subst h; exact hp
    | ok c => rw [hf] at h; exact absurd h (by simp)
  | cons result results ih =>
    intro m config ret hinv h
    have hp := forkPrepare_inv env m p config hinv
    unfold ForkRunner at h
    cases hf : forkPrepare env m p config with
    | error r =>
      rw [hf] at h hp
      simp only [Except.ok.injEq] at h
      subst h; exact hp
    | ok config1 =>
      rw [hf] at h hp
      simp only at h hp
      cases result with
      | ok cleaner resetable =>
        simp only [Except.ok.injEq] at h
        subst h
        exact registerRunner_inv m p config1 cleaner resetable hinv hp.1
      | otherError =>
        simp only [Except.ok.injEq] at h
        subst h; exact ⟨hinv, rfl⟩
      | pathError =>
        simp only at h
        split at h
        · simp only [Except.ok.injEq] at h
          subst h; exact ⟨hinv, rfl⟩
        · exact ih m config1 ret hinv h

theorem RemoveWithConfig_inv (env : Env) (m : Manager) (p : String) (isDelete : Bool)
    (hinv : RunnersInv m) :
    RunnersInv (RemoveWithConfig env m p isDelete).1 ∧
    (RemoveWithConfig env m p isDelete).1.RestDir = m.RestDir ∧
    ((RemoveWithConfig env m p isDelete).2 = none → env.Abs p = .ok p →
      mapGet (RemoveWithConfig env m p isDelete).1.runners p = none) := by
  unfold RemoveWithConfig
  split
  · exact ⟨hinv, rfl, fun h => absurd h (by simp)⟩
  · cases ha : env.Abs p with
    | error e => exact ⟨hinv, rfl, fun h => absurd h (by simp)⟩
    | ok p1 =>
      simp only
      cases hr : mapGet m.runners p1 with
      | none => exact ⟨hinv, rfl, fun h => absurd h (by simp)⟩
      | some r =>
        simp only
        refine ⟨RunnersInv_unregister hinv p1 r isDelete _ hr, trivial, ?_⟩
        intro _ he
        simp only [Except.ok.injEq] at he
        subst he
        rw [mapGet_mapDelete, if_pos rfl]

theorem Remove_inv (env : Env) (m : Manager) (p : String) (hinv : RunnersInv m) :
    RunnersInv (Remove env m p).1 ∧ (Remove env m p).1.RestDir = m.RestDir :=
  ⟨(RemoveWithConfig_inv env m p true hinv).1, (RemoveWithConfig_inv env m p true hinv).2.1⟩

theorem AddRunner_inv (env : Env) (m : Manager) (name : String) (conf : RunnerConfig)
    (createTime : String) (build : NewRunnerResult) (backup : Option Error)
    (ret : Manager × Option Error) (hinv : RunnersInv m)
    (h : AddRunner env m name conf createTime build backup = .ok ret) :
    RunnersInv ret.1 ∧ ret.1.RestDir = m.RestDir := by
  unfold AddRunner at h
  simp only at h
  split at h
  · simp only [Except.ok.injEq] at h
    subst h; exact ⟨hinv, rfl⟩
  · cases hf : ForkRunner env m (restPath env m name)
        { conf with RunnerName := name, CreateTime := createTime } true [build] with
    | error f => rw [hf] at h; exact absurd h (by simp)
    | ok r =>
      obtain ⟨m1, e⟩ := r
      obtain ⟨hinv1, hrd1⟩ := ForkRunner_inv env _ true _ m _ _ hinv hf
      rw [hf] at h
      cases e with
      | some e1 =>
        simp only [Except.ok.injEq] at h
        subst h; exact ⟨hinv1, hrd1⟩
      | none =>
        simp only at h
        cases backup with
        | some e2 =>
          simp only [Except.ok.injEq] at h
          subst h
          exact ⟨(Remove_inv env m1 _ hinv1).1, (Remove_inv env m1 _ hinv1).2.trans hrd1⟩
        | none =>
          simp only [Except.ok.injEq] at h
          subst h; exact ⟨hinv1, hrd1⟩

theorem not_running_free (m : Manager) (p : String) (h : ¬ IsRunning m p = true) :
    mapGet m.runners p = none := by
  simp only [IsRunning, readRunners] at h
  cases hg : mapGet m.runners p with
  | none => rfl
  | some r => rw [hg] at h; simp at h

theorem getDeepCopyConfig_none (env : Env) (m : Manager) (name : String)
    (h : mapGet m.runnerConfigs (restPath env m name) = none) :
    getDeepCopyConfig env m name
      = (restPath env m name, .error (.other "runner is not found")) := by
  simp only [getDeepCopyConfig, h]

theorem getDeepCopyConfig_some (env : Env) (m : Manager) (name : String) (c : RunnerConfig)
    (h : mapGet m.runnerConfigs (restPath env m name) = some c) :
    getDeepCopyConfig env m name = (restPath env m name, .ok c) := by
  simp only [getDeepCopyConfig, h]

theorem UpdateRunner_inv (env : Env) (m : Manager) (name : String) (conf : RunnerConfig)
    (now : String) (build rollback1 rollback2 : NewRunnerResult) (backup : Option Error)
    (ret : Manager × Option Error) (hinv : RunnersInv m)
    (h : UpdateRunner env m name conf now build rollback1 rollback2 backup = .ok ret) :
    RunnersInv ret.1 ∧ ret.1.RestDir = m.RestDir := by
  unfold UpdateRunner at h
  cases hg : mapGet m.runnerConfigs (restPath env m name) with
  | none =>
    rw [getDeepCopyConfig_none env m name hg] at h
    simp only [Except.ok.injEq] at h
    subst h; exact ⟨hinv, rfl⟩
  | some oldConf =>
    rw [getDeepCopyConfig_some env m name oldConf hg] at h
    simp only at h
    have hrem : RunnersInv (if IsRunning m (restPath env m name) = true
          then Remove env m (restPath env m name) else (m, none)).1 ∧
        (if IsRunning m (restPath env m name) = true
          then Remove env m (restPath env m name) else (m, none)).1.RestDir = m.RestDir := by
      split
      · exact Remove_inv env m _ hinv
      · exact ⟨hinv, rfl⟩
    cases hr : (if IsRunning m (restPath env m name) = true
          then Remove env m (restPath env m name) else (m, none)) with
    | mk m1 e =>
      rw [hr] at h hrem
      obtain ⟨hinv1, hrd1⟩ := hrem
      cases e with
      | some e1 =>
        simp only [Except.ok.injEq] at h
        subst h; exact ⟨hinv1, hrd1⟩
      | none =>
        simp only at h
        cases hf : ForkRunner env m1 (restPath env m name)
            { conf with RunnerName := name, CreateTime := now } true [build] with
        | error f => rw [hf] at h; exact absurd h (by simp)
        | ok r =>
          obtain ⟨m2, e2⟩ := r
          obtain ⟨hinv2, hrd2⟩ := ForkRunner_inv env _ true _ m1 _ _ hinv1 hf
          rw [hf] at h
          cases e2 with
          | some e3 =>
            simp only at h
            cases hf2 : ForkRunner env m2 (restPath env m name) oldConf true [rollback1] with
            | error f => rw [hf2] at h; exact absurd h (by simp)
            | ok r2 =>
              obtain ⟨hinv3, hrd3⟩ := ForkRunner_inv env _ true _ m2 _ _ hinv2 hf2
              rw [hf2] at h
              simp only [Except.ok.injEq] at h
              subst h
              exact ⟨hinv3, hrd3.trans (hrd2.trans hrd1)⟩
          | none =>
            simp only at h
            cases backup with
            | none =>
              simp only [Except.ok.injEq] at h
              subst h; exact ⟨hinv2, hrd2.trans hrd1⟩
            | some e4 =>
              simp only at h
              obtain ⟨hinv3, hrd3⟩ := Remove_inv env m2 (restPath env m name) hinv2
              cases hf2 : ForkRunner env (Remove env m2 (restPath env m name)).1
                  (restPath env m name) oldConf true [rollback2] with
              | error f => rw [hf2] at h; exact absurd h (by simp)
              | ok r2 =>
                obtain ⟨hinv4, hrd4⟩ := ForkRunner_inv env _ true _ _ _ _ hinv3 hf2
                rw [hf2] at h
                simp only [Except.ok.injEq] at h
                subst h
                exact ⟨hinv4, hrd4.trans (hrd3.trans (hrd2.trans hrd1))⟩

theorem StartRunner_inv (env : Env) (m : Manager) (name : String) (build : NewRunnerResult)
    (backup : Option Error) (ret : Manager × Option Error) (hinv : RunnersInv m)
    (hpaths : RestPathsAbsolute env m.RestDir)
    (h : StartRunner env m name build backup = .ok ret) :
    RunnersInv ret.1 ∧ ret.1.RestDir = m.RestDir := by
  unfold StartRunner at h
  cases hg : mapGet m.runnerConfigs (restPath env m name) with
  | none =>
    rw [getDeepCopyConfig_none env m name hg] at h
    simp only [Except.ok.injEq] at h
    subst h; exact ⟨hinv, rfl⟩
  | some conf =>
    rw [getDeepCopyConfig_some env m name conf hg] at h
    simp only at h
    split at h
    · simp only [Except.ok.injEq] at h
      subst h; exact ⟨hinv, rfl⟩
    · cases hf : ForkRunner env m (restPath env m name) { conf with IsStopped := false } true
          [build] with
      | error f => rw [hf] at h; exact absurd h (by simp)
      | ok r =>
        obtain ⟨m1, e⟩ := r
        obtain ⟨hinv1, hrd1⟩ := ForkRunner_inv env _ true _ m _ _ hinv hf
        rw [hf] at h
        cases e with
        | some e1 =>
          simp only [Except.ok.injEq] at h
          subst h; exact ⟨hinv1, hrd1⟩
        | none =>
          simp only at h
          cases backup with
          | none =>
            simp only [Except.ok.injEq] at h
            subst h; exact ⟨hinv1, hrd1⟩
          | some e2 =>
            simp only at h
            obtain ⟨hinv2, hrd2, hgone⟩ :=
              RemoveWithConfig_inv env m1 (restPath env m name) false hinv1
            cases hr : RemoveWithConfig env m1 (restPath env m name) false with
            | mk m2 e3 =>
              rw [hr] at h hinv2 hrd2 hgone
              cases e3 with
              | some e4 =>
                simp only [Except.ok.injEq] at h
                subst h; exact ⟨hinv2, hrd2.trans hrd1⟩
              | none =>
                simp only [Except.ok.injEq] at h
                subst h
                exact ⟨RunnersInv_setRunnerConfig hinv2 _ _
                  (Or.inl (hgone rfl (hpaths name))), hrd2.trans hrd1⟩

theorem StopRunner_inv (env : Env) (m : Manager) (name : String) (rollback : NewRunnerResult)
    (backup : Option Error) (ret : Manager × Option Error) (hinv : RunnersInv m)
    (hpaths : RestPathsAbsolute env m.RestDir)
    (h : StopRunner env m name rollback backup = .ok ret) :
    RunnersInv ret.1 ∧ ret.1.RestDir = m.RestDir := by
  unfold StopRunner at h
  cases hg : mapGet m.runnerConfigs (restPath env m name) with
  | none =>
    rw [getDeepCopyConfig_none env m name hg] at h
    simp only [Except.ok.injEq] at h
    subst h; exact ⟨hinv, rfl⟩
  | some conf =>
    rw [getDeepCopyConfig_some env m name conf hg] at h
    simp only at h
    split at h
    · simp only [Except.ok.injEq] at h
      subst h; exact ⟨hinv, rfl⟩
    · split at h
      · rename_i hrun
        simp only [Except.ok.injEq] at h
        subst h
        refine ⟨RunnersInv_setRunnerConfig hinv _ _ (Or.inl ?_), rfl⟩
        apply not_running_free
        simpa using hrun
      · obtain ⟨hinv1, hrd1, hgone⟩ :=
          RemoveWithConfig_inv env m (restPath env m name) false hinv
        cases hr : RemoveWithConfig env m (restPath env m name) false with
        | mk m1 e1 =>
          rw [hr] at h hinv1 hrd1 hgone
          cases e1 with
          | some e2 =>
            simp only [Except.ok.injEq] at h
            subst h; exact ⟨hinv1, hrd1⟩
          | none =>
            simp only at h
            have hinv2 := RunnersInv_setRunnerConfig hinv1 (restPath env m name)
              { conf with IsStopped := true } (Or.inl (hgone rfl (hpaths name)))
            cases backup with
            | none =>
              simp only [Except.ok.injEq] at h
              subst h; exact ⟨hinv2, hrd1⟩
            | some e3 =>
              simp only at h
              have hinv2a := RunnersInv_setRunnerConfig hinv1 (restPath env m name)
                { afterFork env m conf with IsStopped := true }
                (Or.inl (hgone rfl (hpaths name)))
              cases hf : ForkRunner env
                  (setRunnerConfig m1 (restPath env m name)
                    { afterFork env m conf with IsStopped := true })
                  (restPath env m name) { conf with IsStopped := false } true [rollback] with
              | error f => rw [hf] at h; exact absurd h (by simp)
              | ok r =>
                obtain ⟨hinv3, hrd3⟩ := ForkRunner_inv env _ true _ _ _ _ hinv2a hf
                rw [hf] at h
                simp only [Except.ok.injEq] at h
                subst h
                exact ⟨hinv3, hrd3.trans hrd1⟩

theorem ResetRunner_inv (env : Env) (m : Manager) (name : String)
    (start build : NewRunnerResult) (reset : Option Error) (ret : Manager × Option Error)
    (hinv : RunnersInv m) (h : ResetRunner env m name start build reset = .ok ret) :
    RunnersInv ret.1 ∧ ret.1.RestDir = m.RestDir := by
  unfold ResetRunner at h
  cases hg : mapGet m.runnerConfigs (restPath env m name) with
  | none =>
    rw [getDeepCopyConfig_none env m name hg] at h
    simp only [Except.ok.injEq] at h
    subst h; exact ⟨hinv, rfl⟩
  | some conf =>
    rw [getDeepCopyConfig_some env m name conf hg] at h
    simp only at h
    cases hs : (if conf.IsStopped = true then
        ForkRunner env m (restPath env m name) { conf with IsStopped := false } true [start]
        else Except.ok (m, none)) with
    | error f => rw [hs] at h; exact absurd h (by simp)
    | ok r =>
      obtain ⟨m1, e⟩ := r
      have h1 : RunnersInv m1 ∧ m1.RestDir = m.RestDir := by
        split at hs
        · exact ForkRunner_inv env _ true _ m _ _ hinv hs
        · simp only [Except.ok.injEq, Prod.mk.injEq] at hs
          rw [← hs.1]; exact ⟨hinv, rfl⟩
      obtain ⟨hinv1, hrd1⟩ := h1
      rw [hs] at h
      cases e with
      | some e1 =>
        simp only [Except.ok.injEq] at h
        subst h; exact ⟨hinv1, hrd1⟩
      | none =>
        simp only at h
        cases hrr : readRunners m1 (restPath env m name) with
        | none =>
          rw [hrr] at h
          simp only [Except.ok.injEq] at h
          subst h; exact ⟨hinv1, hrd1⟩
        | some r1 =>
          rw [hrr] at h
          simp only at h
          split at h
          · simp only [Except.ok.injEq] at h
            subst h; exact ⟨hinv1, hrd1⟩
          · obtain ⟨hinv2, hrd2⟩ := Remove_inv env m1 (restPath env m name) hinv1
            cases hf : ForkRunner env (Remove env m1 (restPath env m name)).1
                (restPath env m name) { conf with IsStopped := false } true [build] with
            | error f => rw [hf] at h; exact absurd h (by simp)
            | ok r2 =>
              obtain ⟨m3, e3⟩ := r2
              obtain ⟨hinv3, hrd3⟩ := ForkRunner_inv env _ true _ _ _ _ hinv2 hf
              rw [hf] at h
              cases e3 with
              | some e4 =>
                simp only [Except.ok.injEq] at h
                subst h; exact ⟨hinv3, hrd3.trans (hrd2.trans hrd1)⟩
              | none =>
                simp only [Except.ok.injEq] at h
                subst h; exact ⟨hinv3, hrd3.trans (hrd2.trans hrd1)⟩

theorem DeleteRunner_inv (env : Env) (m : Manager) (name : String) (osRemove : Option Error)
    (rollback : NewRunnerResult) (ret : Manager × Option Error) (hinv : RunnersInv m)
    (h : DeleteRunner env m name osRemove rollback = .ok ret) :
    RunnersInv ret.1 ∧ ret.1.RestDir = m.RestDir := by
  unfold DeleteRunner at h
  cases hg : mapGet m.runnerConfigs (restPath env m name) with
  | none =>
    rw [getDeepCopyConfig_none env m name hg] at h
    simp only [Except.ok.injEq] at h
    subst h; exact ⟨hinv, rfl⟩
  | some conf =>
    rw [getDeepCopyConfig_some env m name conf hg] at h
    simp only at h
    have h1 : RunnersInv (if conf.IsStopped = true then
          { m with runnerConfigs := mapDelete m.runnerConfigs (restPath env m name) }
          else m) ∧
        (if conf.IsStopped = true then
          { m with runnerConfigs := mapDelete m.runnerConfigs (restPath env m name) }
          else m).RestDir = m.RestDir := by
      split
      · rename_i hs
        exact ⟨RunnersInv_deleteConfig hinv _
          (RunnersInv_stopped_not_running hinv _ conf hg hs), rfl⟩
      · exact ⟨hinv, rfl⟩
    generalize (if conf.IsStopped = true then
          { m with runnerConfigs := mapDelete m.runnerConfigs (restPath env m name) }
          else m) = m1 at h h1
    obtain ⟨hinv1, hrd1⟩ := h1
    have h2 : RunnersInv (match readRunners m1 (restPath env m name) with
          | some _ => Remove env m1 (restPath env m name)
          | none => (m1, none)).1 ∧
        (match readRunners m1 (restPath env m name) with
          | some _ => Remove env m1 (restPath env m name)
          | none => (m1, none)).1.RestDir = m1.RestDir := by
      split
      · exact Remove_inv env m1 _ hinv1
      · exact ⟨hinv1, rfl⟩
    cases hr : (match readRunners m1 (restPath env m name) with
          | some _ => Remove env m1 (restPath env m name)
          | none => (m1, none)) with
    | mk m2 e2 =>
      rw [hr] at h h2
      obtain ⟨hinv2, hrd2⟩ := h2
      cases e2 with
      | some e3 =>
        simp only [Except.ok.injEq] at h
        subst h; exact ⟨hinv2, hrd2.trans hrd1⟩
      | none =>
        simp only at h
        cases osRemove with
        | none =>
          simp only [Except.ok.injEq] at h
          subst h; exact ⟨hinv2, hrd2.trans hrd1⟩
        | some e4 =>
          simp only at h
          split at h
          · simp only [Except.ok.injEq] at h
            subst h; exact ⟨hinv2, hrd2.trans hrd1⟩
          · cases hf : ForkRunner env m2 (restPath env m name) conf true [rollback] with
            | error f => rw [hf] at h; exact absurd h (by simp)
            | ok r =>
              obtain ⟨hinv3, hrd3⟩ := ForkRunner_inv env _ true _ _ _ _ hinv2 hf
              rw [hf] at h
              simp only [Except.ok.injEq] at h
              subst h
              exact ⟨hinv3, hrd3.trans (hrd2.trans hrd1)⟩

theorem runCall_inv (env : Env) (m : Manager) (call : ManagerCall)
    (ret : Manager × Option Error) (hinv : RunnersInv m)
    (hpaths : RestPathsAbsolute env m.RestDir) (h : runCall env m call = .ok ret) :
    RunnersInv ret.1 ∧ ret.1.RestDir = m.RestDir := by
  cases call with
  | ForkRunner confPath config returnOnErr builds =>
    exact ForkRunner_inv env _ _ _ m _ _ hinv h
  | Remove confPath =>
    simp only [runCall, Except.ok.injEq] at h
    subst h; exact Remove_inv env m _ hinv
  | RemoveWithConfig confPath isDelete =>
    simp only [runCall, Except.ok.injEq] at h
    subst h
    exact ⟨(RemoveWithConfig_inv env m _ _ hinv).1, (RemoveWithConfig_inv env m _ _ hinv).2.1⟩
  | AddRunner name conf createTime build backup =>
    exact AddRunner_inv env m _ _ _ _ _ ret hinv h
  | UpdateRunner name conf now build rollback1 rollback2 backup =>
    exact UpdateRunner_inv env m _ _ _ _ _ _ _ ret hinv h
  | StartRunner name build backup => exact StartRunner_inv env m _ _ _ ret hinv hpaths h
  | StopRunner name rollback backup => exact StopRunner_inv env m _ _ _ ret hinv hpaths h
  | ResetRunner name start build reset => exact ResetRunner_inv env m _ _ _ _ ret hinv h
  | DeleteRunner name osRemove rollback => exact DeleteRunner_inv env m _ _ _ ret hinv h

theorem runCalls_inv (env : Env) : ∀ (calls : List ManagerCall) (m m1 : Manager),
    RunnersInv m → RestPathsAbsolute env m.RestDir → runCalls env m calls = .ok m1 →
    RunnersInv m1 := by
  intro calls
  induction calls with
  | nil =>
    intro m m1 hinv _ h
    simp only [runCalls, Except.ok.injEq] at h
    subst h; exact hinv
  | cons call calls ih =>
    intro m m1 hinv hpaths h
    unfold runCalls at h
    cases hc : runCall env m call with
    | error f => rw [hc] at h; exact absurd h (by simp [bind, Except.bind])
    | ok ret =>
      obtain ⟨hinv1, hrd1⟩ := runCall_inv env m call ret hinv hpaths hc
      rw [hc] at h
      simp only [bind, Except.bind] at h
      exact ih ret.1 m1 hinv1 (by rw [hrd1]; exact hpaths) h

/-- The invariant of the runner operations gives the coherence of the three maps. -/
theorem RunnersInv_coherent (m : Manager) (hinv : RunnersInv m) : MapsCoherent m := by
  obtain ⟨n1, n2, n3, hb, hc, hd, _⟩ := hinv
  have hsub1 : ∀ p ∈ mapKeys m.runners, p ∈ mapKeys m.runnerConfigs := by
    intro p hp
    obtain ⟨r, hr⟩ := (mem_mapKeys_iff _ p).mp hp
    obtain ⟨c, hcfg, _⟩ := hb p r hr
    exact (mem_mapKeys_iff _ p).mpr ⟨c, hcfg⟩
  refine ⟨hsub1, ?_, ?_⟩
  · intro e he
    have hr := mapGet_of_mem m.runners e.1 e.2 n1 he
    exact (mem_mapKeys_iff _ _).mpr ⟨true, hc e.1 e.2 hr⟩
  · have hsub2 : mapKeys m.runnerNames ⊆ m.runners.map (fun e => e.2.Name) := by
      intro n hn
      obtain ⟨v, hv⟩ := (mem_mapKeys_iff _ n).mp hn
      obtain ⟨p, r, hr, hname⟩ := hd n v hv
      exact List.mem_map.mpr ⟨(p, r), mapGet_some_mem _ p r hr, hname⟩
    have h1 : (mapKeys m.runnerNames).length ≤ (m.runners.map (fun e => e.2.Name)).length :=
      (List.subperm_of_subset n2 hsub2).length_le
    have h2 : (mapKeys m.runners).length ≤ (mapKeys m.runnerConfigs).length :=
      (List.subperm_of_subset n1 hsub1).length_le
    simp only [mapKeys, List.length_map] at h1 h2
    omega

/-- C8. In the sequential model of the manager, with `filepath.Abs` leaving the paths
under `RestDir` as they are: starting from empty maps, after any sequence of
`ForkRunner`, `Remove`, `RemoveWithConfig`, `AddRunner`, `UpdateRunner`, `StartRunner`,
`StopRunner`, `ResetRunner` and `DeleteRunner` calls, whatever the runner constructor,
the config backup, `Reset()` and `os.Remove` answer, every key of `runners` is a key
of `runnerConfigs`, the name of every runner in `runners` is in `runnerNames`, and
`runnerNames` has at most as many entries as `runnerConfigs` (each map with one entry
per key). -/
theorem runner_maps_coherent (env : Env) (m0 m : Manager) (calls : List ManagerCall)
    (h0 : m0.runners = [] ∧ m0.runnerNames = [] ∧ m0.runnerConfigs = [])
    (hpaths : RestPathsAbsolute env m0.RestDir)
    (hrun : runCalls env m0 calls = .ok m) :
    (∀ p ∈ mapKeys m.runners, p ∈ mapKeys m.runnerConfigs) ∧
    (∀ e ∈ m.runners, e.2.Name ∈ mapKeys m.runnerNames) ∧
    m.runnerNames.length ≤ m.runnerConfigs.length ∧
    (mapKeys m.runners).Nodup ∧ (mapKeys m.runnerNames).Nodup ∧
    (mapKeys m.runnerConfigs).Nodup :=
  have hinv := runCalls_inv env calls m0 m (RunnersInv_empty m0 h0) hpaths hrun
  have hco := RunnersInv_coherent m hinv
  ⟨hco.1, hco.2.1, hco.2.2, hinv.1, hinv.2.1, hinv.2.2.1⟩

/-- C8 at a session of the admin API and the file watcher: the calls all return, and
the maps they leave are coherent. -/
theorem runner_maps_coherent_witness :
    ∃ m, runCalls plainEnv (newManager "/rest") adminSession = .ok m ∧
      mapKeys m.runners = ["/rest/a.conf"] ∧
      mapKeys m.runnerNames = ["a"] ∧
      mapKeys m.runnerConfigs = ["/rest/a.conf", "/etc/logkit/c.conf"] ∧
      (∀ p ∈ mapKeys m.runners, p ∈ mapKeys m.runnerConfigs) ∧
      (∀ e ∈ m.runners, e.2.Name ∈ mapKeys m.runnerNames) ∧
      m.runnerNames.length ≤ m.runnerConfigs.length :=
  have h := runner_maps_coherent plainEnv (newManager "/rest") _ adminSession ⟨rfl, rfl, rfl⟩
    (fun _ => rfl) rfl
  ⟨_, rfl, rfl, rfl, rfl, h.1, h.2.1, h.2.2.1⟩

end mgr

namespace reader

section attribution

variable {σ : Type}

/-- An entry of the source-index table stops the loop of `Source` exactly when its
index is positive and not less than the read cursor. -/
theorem SourceLoop_cons (r : Nat) (current : String) (v : SourceIndex)
    (rest : List SourceIndex) :
    SourceLoop r current (v :: rest)
      = if 0 < v.Index ∧ (r : Int) ≤ v.Index then v.Source else SourceLoop r current rest := by
  have hr : (0 : Int) ≤ (r : Int) := Int.ofNat_nonneg r
  by_cases h : 0 < v.Index ∧ (r : Int) ≤ v.Index
  · rw [if_pos h]
    have h' : (r : Int) < v.Index ∨ (v.Index > 0 ∧ (r : Int) = v.Index) := by
      by_cases h1 : (r : Int) = v.Index
      · exact Or.inr ⟨h.1, h1⟩
      · exact Or.inl (by omega)
    show (if (r : Int) < v.Index ∨ (v.Index > 0 ∧ (r : Int) = v.Index) then v.Source
      else SourceLoop r current rest) = _
    rw [if_pos h']
  · rw [if_neg h]
    have h' : ¬ ((r : Int) < v.Index ∨ (v.Index > 0 ∧ (r : Int) = v.Index)) := by
      intro h1
      apply h
      rcases h1 with h1 | ⟨h1, h2⟩
      · exact ⟨by omega, by omega⟩
      · exact ⟨h1, by omega⟩
    show (if (r : Int) < v.Index ∨ (v.Index > 0 ∧ (r : Int) = v.Index) then v.Source
      else SourceLoop r current rest) = _
    rw [if_neg h']

/-- The loop of `Source` passes the entries whose index lies before the read cursor. -/
theorem SourceLoop_skip (r : Nat) (current : String) :
    ∀ (pre rest : List SourceIndex), (∀ u ∈ pre, u.Index < (r : Int)) →
      SourceLoop r current (pre ++ rest) = SourceLoop r current rest := by
  intro pre
  induction pre with
  | nil => intro rest _; rfl
  | cons u pre ih =>
    intro rest h
    have hu : u.Index < (r : Int) := h u (List.mem_cons_self _ _)
    rw [List.cons_append, SourceLoop_cons, if_neg (by omega)]
    exact ih rest (fun x hx => h x (List.mem_cons_of_mem _ hx))

/-- In a table sorted by index every index is at most the last one. -/
theorem sorted_le_getLast :
    ∀ (t : List SourceIndex) (last : SourceIndex),
      t.Pairwise (fun u v => u.Index ≤ v.Index) → t.getLast? = some last →
      ∀ u ∈ t, u.Index ≤ last.Index := by
  intro t
  induction t with
  | nil => intro _ _ _ u hu; exact absurd hu (List.not_mem_nil u)
  | cons a t ih =>
    intro last hs hl u hu
    cases t with
    | nil =>
      simp only [List.getLast?_singleton, Option.some.injEq] at hl
      rw [List.mem_singleton] at hu
      rw [hu, hl]
    | cons c t =>
      rw [List.getLast?_cons_cons] at hl
      rw [List.pairwise_cons] at hs
      have hlast_mem : last ∈ c :: t := List.mem_of_getLast?_eq_some hl
      rcases List.mem_cons.mp hu with h1 | h1
      · rw [h1]; exact hs.1 last hlast_mem
      · exact ih last hs.2 hl u h1

end attribution

section single

variable {σ : Type}

/-- The `readSlice` loop on a window that holds the delimiter: the reader it leaves. -/
theorem readSliceLoop_hit_eq (env : Env σ) (delim : Byte) (fuel : Nat) (b : BufReader σ)
    (hs : b.stopped = false) (hc : Cursors b) (hin : delim ∈ window b) :
    readSliceLoop env delim (fuel + 1) b
      = .ok (throughDelim delim (window b), none,
          handleLastByte (throughDelim delim (window b))
            { b with r := b.r + (window b).indexOf delim + 1 }) := by
  have hwl := window_length b hc
  have hi : (window b).indexOf delim < b.w - b.r := by
    rw [← hwl]; exact List.indexOf_lt_length.mpr hin
  have hline : slice b.buf b.r (b.r + (window b).indexOf delim + 1)
      = .ok (throughDelim delim (window b)) := by
    unfold slice
    rw [if_pos ⟨by omega, by have := hc.1; have := hc.2; omega⟩]
    congr 1
    unfold throughDelim window
    rw [List.take_take]
    congr 1
    have := hc.1
    unfold window at hi
    omega
  simp only [readSliceLoop, hs, slice_window b hc, bind, Except.bind, hin, if_true, hline]
  rfl

/-- The method `ReadString` on a window that holds a newline, without decoding. -/
theorem ReadString_hit_eq (env : Env σ) (fuel : Nat) (b : BufReader σ)
    (henc : env.encodingWay = "" ∨ env.encodingWay = "utf-8")
    (hs : b.stopped = false) (hc : Cursors b) (hin : newline ∈ window b) :
    ReadString env (fuel + 1) newline b
      = .ok (throughDelim newline (window b), none,
          handleLastByte (throughDelim newline (window b))
            { b with r := b.r + (window b).indexOf newline + 1 }) := by
  have hno : ¬ (env.encodingWay ≠ "" ∧ env.encodingWay ≠ "utf-8") := by
    rintro ⟨h1, h2⟩
    rcases henc with h | h
    · exact h1 h
    · exact h2 h
  simp only [ReadString, readBytes, readBytesLoop, readSlice,
    readSliceLoop_hit_eq env newline fuel b hs hc hin, bind, Except.bind, if_neg hno]
  rfl

/-- In single-line mode `ReadLine` on a window that holds a newline returns the line up
to it and moves the read cursor behind it; the source-index table stays as it is. -/
theorem ReadLine_hit (env : Env σ) (fuel : Nat) (b : BufReader σ)
    (hmode : env.multiLineRegexp = none)
    (henc : env.encodingWay = "" ∨ env.encodingWay = "utf-8")
    (hs : b.stopped = false) (hc : Cursors b) (hin : newline ∈ window b) :
    ∃ line b', ReadLine env (fuel + 1) b = .ok (line, none, b') ∧
      b'.r = b.r + (window b).indexOf newline + 1 ∧ b'.lastRdSource = b.lastRdSource := by
  have hrs := ReadString_hit_eq env fuel b henc hs hc hin
  obtain ⟨x, y, hx⟩ := handleLastByte_eq (throughDelim newline (window b))
    ({ b with r := b.r + (window b).indexOf newline + 1 })
  unfold ReadLine
  rw [hmode]
  simp only [hrs, bind, Except.bind]
  cases hsk : env.rd.Skipper with
  | none => exact ⟨_, _, rfl, by rw [hx], by rw [hx]⟩
  | some skp =>
    simp only []
    by_cases hopen : skp.IsNewOpen
        (handleLastByte (throughDelim newline (window b))
          { b with r := b.r + (window b).indexOf newline + 1 }).rd = true
    · rw [if_pos hopen]
      exact ⟨_, _, rfl, by rw [hx], by rw [hx]⟩
    · rw [if_neg hopen]
      exact ⟨_, _, rfl, by rw [hx], by rw [hx]⟩

end single

section flush

variable {σ : Type}

/-- Where a round of the `ReadPattern` loop that returns leaves the accumulator: empty,
unless the return is the one on a head-pattern match, which leaves the matched line. -/
theorem ReadPatternBody_sites (env : Env σ) (P : List Byte → Bool)
    (hP : env.multiLineRegexp = some P) (maxTimes : Nat) (line : List Byte)
    (err : Option Error) (b b2 : BufReader σ) (line1 : List Byte) (err1 : Option Error)
    (site : ReturnSite)
    (h : ReadPatternBody env maxTimes line err b = .ok (.ret line1 err1 b2 site)) :
    (site = .headMatched → b2.mutiLineCache = [line] ∧ line ≠ [] ∧ P line = true) ∧
    (site = .emptyReads → err1 = none) ∧
    (site = .readFailed → b2.mutiLineCache = []) ∧
    (site = .overLimit → b2.mutiLineCache = []) := by
  unfold ReadPatternBody at h
  rw [hP] at h
  simp only at h
  split at h
  · rename_i hlen
    have hne : line ≠ [] := List.length_pos.mp hlen
    split at h
    · exact absurd h (by simp)
    · split at h
      · rename_i hm
        simp only [Except.ok.injEq, Round.ret.injEq] at h
        obtain ⟨_, _, hb, hsite⟩ := h
        subst hb hsite
        exact ⟨fun _ => ⟨rfl, hne, hm⟩, by simp, by simp, by simp⟩
      · split at h
        · simp only [Except.ok.injEq, Round.ret.injEq] at h
          obtain ⟨_, _, hb, hsite⟩ := h
          subst hb hsite
          exact ⟨by simp, by simp, by simp, fun _ => rfl⟩
        · exact absurd h (by simp)
  · split at h
    · simp only [Except.ok.injEq, Round.ret.injEq] at h
      obtain ⟨_, _, hb, hsite⟩ := h
      subst hb hsite
      exact ⟨by simp, by simp, fun _ => rfl, by simp⟩
    · split at h
      · simp only [Except.ok.injEq, Round.ret.injEq] at h
        obtain ⟨_, he, hb, hsite⟩ := h
        subst hb hsite
        exact ⟨by simp, fun _ => he.symm, by simp, by simp⟩
      · split at h
        · simp only [Except.ok.injEq, Round.ret.injEq] at h
          obtain ⟨_, _, hb, hsite⟩ := h
          subst hb hsite
          exact ⟨by simp, by simp, by simp, fun _ => rfl⟩
        · exact absurd h (by simp)

/-- Where the `ReadPattern` loop leaves the accumulator when it returns. -/
theorem ReadPatternLoop_sites (env : Env σ) (P : List Byte → Bool)
    (hP : env.multiLineRegexp = some P) (fuel : Nat) :
    ∀ (k maxTimes : Nat) (b b' : BufReader σ) (line : List Byte) (err : Option Error)
      (site : ReturnSite),
      ReadPatternLoop env fuel k maxTimes b = .ok (line, err, b', site) →
      (site = .headMatched → ∃ head, b'.mutiLineCache = [head] ∧ head ≠ [] ∧ P head = true) ∧
      (site = .emptyReads → err = none) ∧
      (site = .readFailed → b'.mutiLineCache = []) ∧
      (site = .overLimit → b'.mutiLineCache = []) := by
  intro k
  induction k with
  | zero => intro _ b b' line err site h; exact absurd h (by simp [ReadPatternLoop])
  | succ k ih =>
    intro maxTimes b b' line err site h
    unfold ReadPatternLoop at h
    cases hr : ReadString env fuel newline b with
    | error x => rw [hr] at h; exact absurd h (by simp [bind, Except.bind])
    | ok res =>
      obtain ⟨l1, e1, b1⟩ := res
      rw [hr] at h
      simp only [bind, Except.bind] at h
      cases hb : ReadPatternBody env maxTimes l1 e1 b1 with
      | error x => rw [hb] at h; exact absurd h (by simp)
      | ok round =>
        rw [hb] at h
        cases round with
        | next mt b2 => exact ih mt b2 b' line err site h
        | ret line1 err1 b2 site1 =>
          simp only [Except.ok.injEq, Prod.mk.injEq] at h
          obtain ⟨e1', e2', e3', e4'⟩ := h
          subst e1' e2' e3' e4'
          obtain ⟨h1, h2, h3, h4⟩ :=
            ReadPatternBody_sites env P hP maxTimes l1 e1 b1 b2 line1 err1 site1 hb
          exact ⟨fun hs => ⟨l1, h1 hs⟩, h2, h3, h4⟩

end flush

/-- C13, as stated, fails: on a source whose last physical line `2024-01-02 b` has no
newline yet, `ReadPattern` returns the first logical line together with the error
`io.EOF` (the unterminated line was read with EOF and matches the head pattern), and
the accumulator then holds that last line: it is not empty. -/
theorem ReadPattern_error_with_pending_line :
    (ReadPattern dateEnv 60 partialTailReader).toOption.map
        (fun x => (x.1, x.2.1, x.2.2.1.mutiLineCache))
      = some (bytesOf "2024-01-01 a\n", some Error.EOF, [bytesOf "2024-01-02 b"]) := by
  decide

/-- C13, amended. In multi-line mode with head pattern `P`, whenever `ReadPattern`
returns a non-nil error, the accumulator is empty after the call, except when the
return is the one on a head-pattern match: then the accumulator holds exactly one
line, the non-empty line that was read last and matches `P`. -/
theorem ReadPattern_error_flushes {σ : Type} (env : Env σ) (P : List Byte → Bool)
    (hP : env.multiLineRegexp = some P) (fuel : Nat) (b b' : BufReader σ) (line : List Byte)
    (err : Option Error) (site : ReturnSite)
    (h : ReadPattern env fuel b = .ok (line, err, b', site)) (herr : err ≠ none) :
    (site ≠ .headMatched → b'.mutiLineCache = []) ∧
    (site = .headMatched →
      ∃ head, b'.mutiLineCache = [head] ∧ head ≠ [] ∧ P head = true) := by
  obtain ⟨h1, h2, h3, h4⟩ := ReadPatternLoop_sites env P hP fuel fuel 0 b b' line err site h
  refine ⟨fun hs => ?_, h1⟩
  cases site with
  | headMatched => exact absurd rfl hs
  | readFailed => exact h3 rfl
  | emptyReads => exact absurd (h2 rfl) herr
  | overLimit => exact h4 rfl

/-- C13, amended, at the second call of scenario S3: `ReadPattern` returns the last
logical line with `io.EOF` from the return for a failed read, and the accumulator is
empty. -/
theorem ReadPattern_error_flushes_witness :
    (ReadPattern dateEnv 60 s3Pending).toOption.map
        (fun x => (x.1, x.2.1, x.2.2.1.mutiLineCache, x.2.2.2))
      = some (bytesOf "2024-01-02 next\n", some Error.EOF, [], ReturnSite.readFailed) := by
  have h : ReadPattern dateEnv 60 s3Pending
      = .ok (bytesOf "2024-01-02 next\n", some Error.EOF,
          { s3Pending with mutiLineCache := [], r := 0, w := 0 }, .readFailed) := rfl
  have hc := (ReadPattern_error_flushes dateEnv datePattern rfl 60 s3Pending _ _ _ _ h
    (by decide)).1 (by decide)
  rw [h]
  show some (_, _, ({ s3Pending with mutiLineCache := [], r := 0, w := 0 } :
    BufReader (List Byte)).mutiLineCache, _) = _
  rw [hc]

section idle

variable {σ : Type}

/-- The read loop of `fill` on a File Source that is momentarily empty, with the fields
of the reader named. -/
theorem fillLoop_idle_fields (env : Env σ)
    (hidle : ∀ s cap, (env.rd.Read s cap).data = [] ∧ (env.rd.Read s cap).err = none) :
    ∀ (i : Nat) (b : BufReader σ) (r w : Nat) (buf : List Byte) (st : Bool)
      (ml : List (List Byte)), b.w ≤ b.buf.length →
      b.r = r → b.w = w → b.buf = buf → b.stopped = st → b.mutiLineCache = ml →
      ∃ b', fillLoop env i b = .ok b' ∧ b'.err = some .ErrNoProgress ∧ b'.r = r ∧
        b'.w = w ∧ b'.buf = buf ∧ b'.stopped = st ∧ b'.mutiLineCache = ml := by
  intro i
  induction i with
  | zero =>
    intro b r w buf st ml _ h1 h2 h3 h4 h5
    exact ⟨_, rfl, rfl, h1, h2, h3, h4, h5⟩
  | succ i ih =>
    intro b r w buf st ml hw h1 h2 h3 h4 h5
    have hd := (hidle b.rd (b.buf.length - b.w)).1
    have he := (hidle b.rd (b.buf.length - b.w)).2
    have hbuf : b.buf.take b.w ++ ([] : List Byte).take (b.buf.length - b.w)
        ++ b.buf.drop b.w = b.buf := by
      rw [List.take_nil, List.append_nil, List.take_append_drop]
    simp only [fillLoop, Nat.not_lt.mpr hw, if_false, hd, he, List.length_nil,
      Nat.lt_irrefl, Nat.add_zero]
    split
    · split
      · apply ih
        · show b.w ≤ (b.buf.take b.w ++ ([] : List Byte).take (b.buf.length - b.w)
            ++ b.buf.drop b.w).length
          rw [hbuf]; exact hw
        · exact h1
        · exact h2
        · exact hbuf.trans h3
        · exact h4
        · exact h5
      · apply ih
        · show b.w ≤ (b.buf.take b.w ++ ([] : List Byte).take (b.buf.length - b.w)
            ++ b.buf.drop b.w).length
          rw [hbuf]; exact hw
        · exact h1
        · exact h2
        · exact hbuf.trans h3
        · exact h4
        · exact h5
    · apply ih
      · show b.w ≤ (b.buf.take b.w ++ ([] : List Byte).take (b.buf.length - b.w)
          ++ b.buf.drop b.w).length
        rw [hbuf]; exact hw
      · exact h1
      · exact h2
      · exact hbuf.trans h3
      · exact h4
      · exact h5

/-- The read loop of `fill` on a File Source that is momentarily empty: after the last
try the error `ErrNoProgress` is pending and the buffer is as before. -/
theorem fillLoop_idle (env : Env σ)
    (hidle : ∀ s cap, (env.rd.Read s cap).data = [] ∧ (env.rd.Read s cap).err = none)
    (i : Nat) (b : BufReader σ) (hw : b.w ≤ b.buf.length) :
    ∃ b', fillLoop env i b = .ok b' ∧ b'.err = some .ErrNoProgress ∧ b'.r = b.r ∧
      b'.w = b.w ∧ b'.buf = b.buf ∧ b'.stopped = b.stopped ∧
      b'.mutiLineCache = b.mutiLineCache :=
  fillLoop_idle_fields env hidle i b _ _ _ _ _ hw rfl rfl rfl rfl rfl

/-- The method `fill` on an empty window over a File Source that is momentarily empty. -/
theorem fill_idle (env : Env σ)
    (hidle : ∀ s cap, (env.rd.Read s cap).data = [] ∧ (env.rd.Read s cap).err = none)
    (b : BufReader σ) (hrw : b.r = b.w) (hc : b.w ≤ b.buf.length) (hL : 0 < b.buf.length) :
    ∃ b', fill env b = .ok b' ∧ b'.err = some .ErrNoProgress ∧ b'.r = 0 ∧ b'.w = 0 ∧
      b'.buf.length = b.buf.length ∧ b'.stopped = b.stopped ∧
      b'.mutiLineCache = b.mutiLineCache := by
  obtain ⟨b1, hs, _, hw1, hr1, _, hlen1, _, hst1, hml1, _⟩ :=
    slide_ok b ⟨by omega, hc⟩
  have hw0 : b1.w = 0 := by omega
  have hn : (noteLatestSource env b1).w = 0 ∧ (noteLatestSource env b1).r = 0 ∧
      (noteLatestSource env b1).buf = b1.buf ∧ (noteLatestSource env b1).stopped = b1.stopped ∧
      (noteLatestSource env b1).mutiLineCache = b1.mutiLineCache := by
    unfold noteLatestSource
    split <;> exact ⟨hw0, hr1, rfl, rfl, rfl⟩
  obtain ⟨n1, n2, n3, n4, n5⟩ := hn
  obtain ⟨b', h1, h2, h3, h4, h5, h6, h7⟩ :=
    fillLoop_idle env hidle maxConsecutiveEmptyReads (noteLatestSource env b1)
      (by rw [n1]; exact Nat.zero_le _)
  refine ⟨b', ?_, h2, by rw [h3, n2], by rw [h4, n1], by rw [h5, n3, hlen1],
    by rw [h6, n4, hst1], by rw [h7, n5, hml1]⟩
  unfold fill
  rw [hs]
  simp only [bind, Except.bind]
  rw [if_neg (by rw [hw0]; omega)]
  exact h1

/-- The method `ReadString` on an empty window over a File Source that is momentarily
empty returns the empty string and `ErrNoProgress`. -/
theorem ReadString_idle (env : Env σ)
    (hidle : ∀ s cap, (env.rd.Read s cap).data = [] ∧ (env.rd.Read s cap).err = none)
    (hdec : ∀ f, env.decoder = some f → f [] = [])
    (b : BufReader σ) (fuel : Nat) (hs : b.stopped = false) (hrw : b.r = b.w)
    (hc : b.w ≤ b.buf.length) (hL : 0 < b.buf.length) (he : b.err = none) :
    ∃ b', ReadString env (fuel + 2) newline b = .ok ([], some .ErrNoProgress, b') ∧
      b'.mutiLineCache = b.mutiLineCache := by
  obtain ⟨b1, hf, h1, h2, h3, h4, h5, h6⟩ := fill_idle env hidle b hrw hc hL
  have hcur : Cursors b := ⟨by omega, hc⟩
  have hwin : window b = [] := by
    unfold window
    rw [hrw, Nat.sub_self, List.take_zero]
  have hnot : newline ∉ window b := by rw [hwin]; exact List.not_mem_nil _
  have hstep := readSliceLoop_fill env newline (fuel + 1) b b1 hs hcur hnot he (by omega) hf
  have hcur1 : Cursors b1 := ⟨by omega, by omega⟩
  have hwin1 : window b1 = [] := by
    unfold window
    rw [h2, h3, Nat.sub_self, List.take_zero]
  have hnot1 : newline ∉ window b1 := by rw [hwin1]; exact List.not_mem_nil _
  have hsl : readSliceLoop env newline (fuel + 2) b
      = .ok ([], some .ErrNoProgress, { b1 with r := b1.w, err := none }) := by
    rw [hstep]
    simp only [readSliceLoop, h5.trans hs, slice_window b1 hcur1, bind, Except.bind, hnot1,
      if_false, h1, Option.isSome_some, if_true, readErr, hwin1]
    rfl
  have hrb : readBytes env (fuel + 2) newline b
      = .ok ([], some .ErrNoProgress, { b1 with r := b1.w, err := none }) := by
    simp only [readBytes, readBytesLoop, readSlice, hsl, bind, Except.bind]
    rfl
  refine ⟨{ b1 with r := b1.w, err := none }, ?_, h6⟩
  unfold ReadString
  rw [hrb]
  simp only [bind, Except.bind]
  split
  · cases hdc : env.decoder with
    | none => rfl
    | some f => simp only [hdec f hdc]
  · rfl

end idle

/-- C14, as stated, fails: on a fresh reader that is not stopped and whose File Source
returns zero bytes and a nil error on every `Read`, `ReadLine` returns the empty string
together with the error `io.ErrNoProgress`, in single-line mode and in multi-line
mode. -/
theorem ReadLine_idle_source_reports_no_progress :
    (∀ s cap, (idleSource.Read s cap).data = [] ∧ (idleSource.Read s cap).err = none) ∧
    idleReader.stopped = false ∧
    (ReadLine idleEnv 2 idleReader).toOption.map (fun x => (x.1, x.2.1))
      = some ([], some Error.ErrNoProgress) ∧
    (ReadLine idlePatternEnv 2 idleReader).toOption.map (fun x => (x.1, x.2.1))
      = some ([], some Error.ErrNoProgress) :=
  ⟨fun _ _ => ⟨rfl, rfl⟩, rfl, by decide, by decide⟩

/-- C14, amended. For a reader that is not stopped, has no unread bytes in its buffer
and no pending error, and whose File Source is momentarily empty (every `Read` returns
zero bytes and a nil error): `ReadString` returns the empty string and
`io.ErrNoProgress`; in multi-line mode `ReadPattern` returns the concatenation of the
accumulator (the empty string when the accumulator is empty), which it empties, and
`io.ErrNoProgress`. `ReadLine` returns that error and that string, reader `b1`; when the
File Source is a `LineSkipper` that reports a newly opened file, `ReadLine` returns the
empty string in its place and marks the file as skipped. A decoder, if one is set, is
taken to map the empty string to the empty string; two units of fuel are enough. -/
theorem ReadLine_idle_source {σ : Type} (env : Env σ) (b : BufReader σ) (fuel : Nat)
    (hidle : ∀ s cap, (env.rd.Read s cap).data = [] ∧ (env.rd.Read s cap).err = none)
    (hdec : ∀ f, env.decoder = some f → f [] = [])
    (hs : b.stopped = false) (hrw : b.r = b.w) (hc : b.w ≤ b.buf.length)
    (hL : 0 < b.buf.length) (he : b.err = none) (hfuel : 2 ≤ fuel) :
    ∃ b1 : BufReader σ,
      (env.multiLineRegexp.isSome = false →
        ReadString env fuel newline b = .ok ([], some .ErrNoProgress, b1) ∧
        b1.mutiLineCache = b.mutiLineCache) ∧
      (env.multiLineRegexp.isSome = true →
        ReadPattern env fuel b
          = .ok (b.mutiLineCache.flatten, some .ErrNoProgress, b1, .readFailed) ∧
        b1.mutiLineCache = []) ∧
      ReadLine env fuel b = .ok
        (match env.rd.Skipper with
         | some skp =>
           if skp.IsNewOpen b1.rd then
             ([], some .ErrNoProgress, { b1 with rd := skp.SetSkipped b1.rd })
           else
             (if env.multiLineRegexp.isSome then b.mutiLineCache.flatten else [],
               some .ErrNoProgress, b1)
         | none =>
           (if env.multiLineRegexp.isSome then b.mutiLineCache.flatten else [],
             some .ErrNoProgress, b1)) := by
  obtain ⟨f, rfl⟩ : ∃ f, fuel = f + 2 := ⟨fuel - 2, by omega⟩
  obtain ⟨b1, hrs, hml⟩ := ReadString_idle env hidle hdec b f hs hrw hc hL he
  cases hmode : env.multiLineRegexp with
  | none =>
    refine ⟨b1, fun _ => ⟨hrs, hml⟩, fun h => absurd h (by simp), ?_⟩
    simp only [ReadLine, hmode, hrs, bind, Except.bind, Option.isSome_none,
      Bool.false_eq_true, if_false]
    cases hsk : env.rd.Skipper with
    | none => rfl
    | some skp =>
      simp only []
      split <;> rfl
  | some P =>
    have hbody : ReadPatternBody env 0 [] (some .ErrNoProgress) b1
        = .ok (.ret b.mutiLineCache.flatten (some .ErrNoProgress)
            { b1 with mutiLineCache := [] } .readFailed) := by
      unfold ReadPatternBody
      rw [if_neg (by simp), if_pos Option.isSome_some, FormMutiLine_eq, hml]
    have hrp : ReadPattern env (f + 2) b
        = .ok (b.mutiLineCache.flatten, some .ErrNoProgress,
            { b1 with mutiLineCache := [] }, .readFailed) := by
      simp only [ReadPattern, ReadPatternLoop, hrs, hbody, bind, Except.bind]
    refine ⟨{ b1 with mutiLineCache := [] }, fun h => absurd h (by simp),
      fun _ => ⟨hrp, rfl⟩, ?_⟩
    simp only [ReadLine, hmode, hrp, bind, Except.bind, pure, Except.pure,
      Option.isSome_some, if_true]
    cases hsk : env.rd.Skipper with
    | none => rfl
    | some skp =>
      simp only []
      split <;> rfl

/-- C14, amended, at a multi-line reader with two lines in its accumulator over a File
Source that is momentarily empty, and at the same reader over a File Source of that
kind that reports a newly opened file. -/
theorem ReadLine_idle_source_witness :
    (∃ b1, ReadLine idlePatternEnv 2 idleCachedReader
        = .ok (bytesOf "2024-01-01 start\n stack line\n", some .ErrNoProgress, b1) ∧
      b1.mutiLineCache = []) ∧
    (∃ b1, ReadLine newFileEnv 2 newFileReader = .ok ([], some .ErrNoProgress, b1) ∧
      b1.mutiLineCache = [] ∧ b1.rd = false) := by
  obtain ⟨b1, _, h2, h3⟩ :=
    ReadLine_idle_source idlePatternEnv idleCachedReader 2
      (fun _ _ => ⟨rfl, rfl⟩)
      (fun f hf => by
        have h2 : (none : Option (List Byte → List Byte)) = some f := hf
        cases h2)
      rfl rfl (by decide) (by decide) rfl (le_refl 2)
  obtain ⟨c1, _, k2, k3⟩ :=
    ReadLine_idle_source newFileEnv newFileReader 2
      (fun _ _ => ⟨rfl, rfl⟩)
      (fun f hf => by
        have h2 : (none : Option (List Byte → List Byte)) = some f := hf
        cases h2)
      rfl rfl (by decide) (by decide) rfl (le_refl 2)
  have hrd : c1.rd = true := by
    have hp := (k2 rfl).1
    have hv : ReadPattern newFileEnv 2 newFileReader
        = .ok (newFileReader.mutiLineCache.flatten, some .ErrNoProgress,
            { newFileReader with mutiLineCache := [], latestSource := "a.log" },
            .readFailed) := rfl
    rw [hv] at hp
    simp only [Except.ok.injEq, Prod.mk.injEq, true_and, and_true] at hp
    rw [← hp]
    rfl
  refine ⟨⟨b1, h3, (h2 rfl).2⟩, ⟨{ c1 with rd := false }, ?_, (k2 rfl).2, rfl⟩⟩
  rw [k3]
  show Except.ok (if c1.rd = true then _ else _) = _
  rw [if_pos hrd]

section cap

variable {σ : Type}

/-- One round of the `ReadPattern` loop for a non-empty line that `ReadString` returned. -/
theorem ReadPatternLoop_round (env : Env σ) (P : List Byte → Bool)
    (hP : env.multiLineRegexp = some P) (fuel k maxTimes : Nat) (b b1 : BufReader σ)
    (line : List Byte) (err : Option Error)
    (hread : ReadString env fuel newline b = .ok (line, err, b1)) (hline : line ≠ []) :
    ReadPatternLoop env fuel (k + 1) maxTimes b =
      if b.mutiLineCache ≠ [] ∧ P line = true then
        .ok (b.mutiLineCache.flatten, err, { b1 with mutiLineCache := [line] }, .headMatched)
      else if b.mutiLineCache ≠ [] ∧
          (b.mutiLineCache ++ [line]).flatten.length > MaxHeadPatternBufferSize then
        .ok ((b.mutiLineCache ++ [line]).flatten, err, { b1 with mutiLineCache := [] },
          .overLimit)
      else
        ReadPatternLoop env fuel k (if b.mutiLineCache = [] then maxTimes else 0)
          { b1 with mutiLineCache := b.mutiLineCache ++ [line] } := by
  have hk := (ReadString_keeps env fuel newline b b1 line err hread).1
  have hbody := ReadPatternBody_eq env P hP maxTimes line err b1 hline
  rw [hk] at hbody
  by_cases h1 : b.mutiLineCache ≠ [] ∧ P line = true
  · rw [if_pos h1] at hbody
    simp only [ReadPatternLoop, hread, bind, Except.bind, hbody, if_pos h1]
  · rw [if_neg h1] at hbody
    by_cases h2 : b.mutiLineCache ≠ [] ∧
        (b.mutiLineCache ++ [line]).flatten.length > MaxHeadPatternBufferSize
    · rw [if_pos h2] at hbody
      simp only [ReadPatternLoop, hread, bind, Except.bind, hbody, if_neg h1, if_pos h2]
    · rw [if_neg h2] at hbody
      simp only [ReadPatternLoop, hread, bind, Except.bind, hbody, if_neg h1, if_neg h2]

end cap

section overlong

theorem overlongLine_length : overlongLine.length = MaxHeadPatternBufferSize + 1 := by
  unfold overlongLine
  rw [List.length_append, List.length_replicate, List.length_singleton]

theorem indexOf_overlongLine (t : List Byte) :
    (overlongLine ++ t).indexOf newline = MaxHeadPatternBufferSize := by
  unfold overlongLine
  rw [List.append_assoc, List.indexOf_append_of_not_mem, List.length_replicate,
    List.singleton_append, List.indexOf_cons_self, Nat.add_zero]
  intro h
  exact absurd (List.mem_replicate.mp h).2 (by decide)

theorem window_overlongReader : window overlongReader = overlongLine ++ bytesOf " x\n" := by
  unfold window
  show ((overlongLine ++ bytesOf " x\n").drop 0).take (MaxHeadPatternBufferSize + 4 - 0) = _
  rw [List.drop_zero]
  apply List.take_of_length_le
  rw [List.length_append, overlongLine_length]
  decide

end overlong

/-- C15 at a failing input: a first physical line of `MaxHeadPatternBufferSize + 1` bytes
is placed in the empty accumulator, which then holds more than 20 MiB, and
`ReadPattern` does not return: it reads the next physical line ` x` and returns both
lines together. -/
theorem ReadPattern_first_line_over_cap_reads_on :
    overlongReader.mutiLineCache = [] ∧
    overlongLine.length > MaxHeadPatternBufferSize ∧
    (ReadString dateEnv 2 newline overlongReader).toOption.map Prod.fst = some overlongLine ∧
    (ReadPattern dateEnv 2 overlongReader).toOption.map (fun x => (x.1, x.2.1, x.2.2.2))
      = some (overlongLine ++ bytesOf " x\n", none, ReturnSite.overLimit) := by
  have hlen := overlongLine_length
  have hc0 : overlongReader.mutiLineCache = [] := rfl
  have hne : overlongLine ≠ [] := by
    intro h
    rw [h] at hlen
    exact absurd hlen (by decide)
  -- the first physical line
  have hin : newline ∈ window overlongReader := by
    rw [window_overlongReader]
    exact List.mem_append.mpr (Or.inl (List.mem_append.mpr
      (Or.inr (List.mem_singleton.mpr rfl))))
  have hcur : Cursors overlongReader := by
    refine ⟨Nat.zero_le _, ?_⟩
    show MaxHeadPatternBufferSize + 4 ≤ (overlongLine ++ bytesOf " x\n").length
    rw [List.length_append, hlen]
    decide
  have h1 := ReadString_hit_eq dateEnv 1 overlongReader (Or.inl rfl) rfl hcur hin
  have hthrough : throughDelim newline (overlongLine ++ bytesOf " x\n") = overlongLine := by
    unfold throughDelim
    rw [indexOf_overlongLine]
    exact List.take_left' hlen
  rw [window_overlongReader, hthrough, indexOf_overlongLine] at h1
  obtain ⟨x, y, hx⟩ := handleLastByte_eq overlongLine
    ({ overlongReader with r := overlongReader.r + MaxHeadPatternBufferSize + 1 })
  rw [hx] at h1
  obtain ⟨B1, ⟨hs1, hr1, hw1, hb1, hm1⟩, hread1⟩ : ∃ B1 : BufReader (List Byte),
      (B1.stopped = false ∧ B1.r = MaxHeadPatternBufferSize + 1 ∧
        B1.w = MaxHeadPatternBufferSize + 4 ∧ B1.buf = overlongLine ++ bytesOf " x\n" ∧
        B1.mutiLineCache = []) ∧
      ReadString dateEnv 2 newline overlongReader = .ok (overlongLine, none, B1) :=
    ⟨_, ⟨rfl, Nat.zero_add _ ▸ rfl, rfl, rfl, rfl⟩, h1⟩
  -- the round that places it in the accumulator
  have hround1 := ReadPatternLoop_round dateEnv datePattern rfl 2 1 0 overlongReader B1
    overlongLine none hread1 hne
  rw [if_neg (fun h => h.1 hc0), if_neg (fun h => h.1 hc0), if_pos hc0] at hround1
  obtain ⟨B2, ⟨hs2, hr2, hw2, hb2, hm2⟩, hloop1⟩ : ∃ B2 : BufReader (List Byte),
      (B2.stopped = false ∧ B2.r = MaxHeadPatternBufferSize + 1 ∧
        B2.w = MaxHeadPatternBufferSize + 4 ∧ B2.buf = overlongLine ++ bytesOf " x\n" ∧
        B2.mutiLineCache = [overlongLine]) ∧
      ReadPatternLoop dateEnv 2 2 0 overlongReader = ReadPatternLoop dateEnv 2 1 0 B2 :=
    ⟨{ B1 with mutiLineCache := overlongReader.mutiLineCache ++ [overlongLine] },
      ⟨hs1, hr1, hw1, hb1, rfl⟩, hround1⟩
  -- the second physical line
  have hcur2 : Cursors B2 := by
    refine ⟨by rw [hr2, hw2]; omega, ?_⟩
    rw [hw2, hb2, List.length_append, hlen]
    decide
  have hwin2 : window B2 = bytesOf " x\n" := by
    unfold window
    rw [hb2, hr2, hw2, List.drop_left' hlen]
    have h3 : MaxHeadPatternBufferSize + 4 - (MaxHeadPatternBufferSize + 1) = 3 := by omega
    rw [h3]
    decide
  have h2 := ReadString_hit_eq dateEnv 1 B2 (Or.inl rfl) hs2 hcur2 (by rw [hwin2]; decide)
  rw [hwin2] at h2
  have hthrough2 : throughDelim newline (bytesOf " x\n") = bytesOf " x\n" := by decide
  rw [hthrough2] at h2
  obtain ⟨B3, hread2⟩ : ∃ B3 : BufReader (List Byte),
      ReadString dateEnv 2 newline B2 = .ok (bytesOf " x\n", none, B3) := ⟨_, h2⟩
  -- the round that returns both lines
  have hround2 : ReadPatternLoop dateEnv 2 1 0 B2 = _ :=
    ReadPatternLoop_round dateEnv datePattern rfl 2 0 0 B2 B3 (bytesOf " x\n") none hread2
      (by decide)
  have hflat : ([overlongLine] ++ [bytesOf " x\n"]).flatten
      = overlongLine ++ bytesOf " x\n" := by
    simp only [List.singleton_append, List.flatten_cons, List.flatten_nil, List.append_nil]
  have hnot : ¬ ([overlongLine] ≠ [] ∧ datePattern (bytesOf " x\n") = true) := by
    intro h; exact absurd h.2 (by decide)
  have hover : [overlongLine] ≠ [] ∧
      ([overlongLine] ++ [bytesOf " x\n"]).flatten.length > MaxHeadPatternBufferSize := by
    refine ⟨List.cons_ne_nil _ _, ?_⟩
    rw [hflat, List.length_append, hlen]
    omega
  rw [hm2, if_neg hnot, if_pos hover, hflat] at hround2
  refine ⟨hc0, by rw [hlen]; omega, by rw [hread1]; rfl, ?_⟩
  unfold ReadPattern
  rw [hloop1, hround2]
  rfl

/-- C15, on the code. In multi-line mode, whenever `ReadString` hands `ReadPattern` a
non-empty physical line that does not match the head pattern while the accumulator is
non-empty, and the accumulator with that line appended exceeds 20 MiB
(`MaxHeadPatternBufferSize` bytes), `ReadPattern` returns the whole accumulator, that
line included, as one logical line and empties it, with the reader as that
`ReadString` left it: no further physical line is read, as C15 says. A line that is
placed in an empty accumulator is not checked against the cap, whatever its length:
the `continue` of that branch skips the size test, and the loop goes on to its next
round, which reads the next physical line, where C15 says that `ReadPattern` returns
first. -/
theorem ReadPattern_cap {σ : Type} (env : Env σ) (P : List Byte → Bool)
    (hP : env.multiLineRegexp = some P) (fuel k maxTimes : Nat) (b b1 : BufReader σ)
    (line : List Byte) (err : Option Error)
    (hread : ReadString env fuel newline b = .ok (line, err, b1)) (hline : line ≠ []) :
    (b.mutiLineCache ≠ [] → P line = false →
      (b.mutiLineCache ++ [line]).flatten.length > MaxHeadPatternBufferSize →
      ReadPatternLoop env fuel (k + 1) maxTimes b
        = .ok ((b.mutiLineCache ++ [line]).flatten, err, { b1 with mutiLineCache := [] },
            .overLimit)) ∧
    (b.mutiLineCache = [] →
      ReadPatternLoop env fuel (k + 1) maxTimes b
        = ReadPatternLoop env fuel k maxTimes { b1 with mutiLineCache := [line] }) := by
  have hround := ReadPatternLoop_round env P hP fuel k maxTimes b b1 line err hread hline
  constructor
  · intro hacc hm hsize
    rw [hround, if_neg (fun h => by rw [hm] at h; exact absurd h.2 (by decide)),
      if_pos ⟨hacc, hsize⟩]
  · intro hacc
    rw [hround, if_neg (fun h => h.1 hacc), if_neg (fun h => h.1 hacc), if_pos hacc, hacc]
    rfl

/-- C15 on the append path, at an accumulator of exactly 20 MiB to which the line
` stack line` is appended: `ReadPattern` returns both at once and leaves an empty
accumulator. -/
theorem ReadPattern_cap_witness :
    (ReadPattern dateEnv 60 fullCacheMidReader).toOption.map
        (fun x => (x.1, x.2.1, x.2.2.1.mutiLineCache, x.2.2.2))
      = some (longestLine ++ bytesOf " stack line\n", none, [], ReturnSite.overLimit) := by
  have hlen : longestLine.length = MaxHeadPatternBufferSize := by
    unfold longestLine
    rw [List.length_append, List.length_replicate, List.length_singleton]
    have : 0 < MaxHeadPatternBufferSize := by decide
    omega
  have hread : ReadString dateEnv 60 newline fullCacheMidReader
      = .ok (bytesOf " stack line\n", none,
          { fullCacheMidReader with
            buf := bytesOf " stack line\n202" ++ [0], rd := bytesOf "4-01-02 next\n",
            r := 12, w := 15, lastByte := 10, latestSource := "a.log" }) := rfl
  have hflat : (fullCacheMidReader.mutiLineCache ++ [bytesOf " stack line\n"]).flatten
      = longestLine ++ bytesOf " stack line\n" := by
    show ([longestLine] ++ [bytesOf " stack line\n"]).flatten = _
    simp only [List.singleton_append, List.flatten_cons, List.flatten_nil, List.append_nil]
  have h := (ReadPattern_cap dateEnv datePattern rfl 60 59 0 fullCacheMidReader _
    (bytesOf " stack line\n") none hread (by decide)).1
    (by show [longestLine] ≠ []; exact List.cons_ne_nil _ _) (by decide)
    (by rw [hflat, List.length_append, hlen]; decide)
  unfold ReadPattern
  rw [h, hflat]
  rfl

/-- C16, as stated, fails: with the read cursor exactly on the first (and only) recorded
boundary, at index 4 in a table that is sorted, `Source` returns the source recorded in
that entry, `a.log`, and not the current source `b.log` of the File Source. -/
theorem Source_at_boundary_is_recorded_source :
    rotatedAtBoundary.lastRdSource = [{ Source := "a.log", Index := 4 }] ∧
    rotatedAtBoundary.lastRdSource.Pairwise (fun u v => u.Index ≤ v.Index) ∧
    ¬ ((rotatedAtBoundary.r : Int) < 4) ∧
    Source rotatedEnv rotatedAtBoundary = "a.log" ∧
    rotatedEnv.rd.Source rotatedAtBoundary.rd = "b.log" := by
  refine ⟨rfl, ?_, by decide, by decide, rfl⟩
  show List.Pairwise _ [_]
  exact List.pairwise_singleton _ _

/-- C16, amended. For every reader state whose source-index table is sorted by index:
`Source` returns the source recorded in the first table entry if the read cursor `r`
lies strictly before that entry's index, and also if `r` lies exactly on that index and
the index is positive; past the first boundary it returns the source recorded in the
first entry whose index is positive and not less than `r`; and it returns the current
`Source()` of the File Source when `r` lies past the last index of the table or the
table is empty. -/
theorem Source_sorted_table {σ : Type} (env : Env σ) (b : BufReader σ)
    (hsorted : b.lastRdSource.Pairwise (fun u v => u.Index ≤ v.Index)) :
    (∀ v rest, b.lastRdSource = v :: rest → (b.r : Int) < v.Index →
      Source env b = v.Source) ∧
    (∀ v rest, b.lastRdSource = v :: rest → 0 < v.Index → (b.r : Int) = v.Index →
      Source env b = v.Source) ∧
    (∀ pre v post, b.lastRdSource = pre ++ v :: post → (∀ u ∈ pre, u.Index < (b.r : Int)) →
      0 < v.Index → (b.r : Int) ≤ v.Index → Source env b = v.Source) ∧
    ((∀ last, b.lastRdSource.getLast? = some last → last.Index < (b.r : Int)) →
      Source env b = env.rd.Source b.rd) := by
  have hr : (0 : Int) ≤ (b.r : Int) := Int.ofNat_nonneg b.r
  refine ⟨?_, ?_, ?_, ?_⟩
  · intro v rest ht hlt
    unfold Source
    rw [ht, SourceLoop_cons, if_pos ⟨by omega, by omega⟩]
  · intro v rest ht hpos heq
    unfold Source
    rw [ht, SourceLoop_cons, if_pos ⟨hpos, by omega⟩]
  · intro pre v post ht hpre hpos hle
    unfold Source
    rw [ht, SourceLoop_skip b.r _ pre (v :: post) hpre, SourceLoop_cons, if_pos ⟨hpos, hle⟩]
  · intro hlast
    unfold Source
    have hall : ∀ u ∈ b.lastRdSource, u.Index < (b.r : Int) := by
      intro u hu
      cases hl : b.lastRdSource.getLast? with
      | none =>
        rw [List.getLast?_eq_none_iff] at hl
        rw [hl] at hu
        exact absurd hu (List.not_mem_nil u)
      | some last =>
        have h1 := sorted_le_getLast b.lastRdSource last hsorted hl u hu
        have h2 := hlast last hl
        omega
    have h := SourceLoop_skip b.r (env.rd.Source b.rd) b.lastRdSource [] hall
    rw [List.append_nil] at h
    rw [h]
    rfl

/-- C16, amended, at a reader with one boundary at index 4 and the read cursor on it. -/
theorem Source_sorted_table_witness :
    (0 : Int) < 4 ∧ (rotatedAtBoundary.r : Int) = 4 ∧
    Source rotatedEnv rotatedAtBoundary = "a.log" :=
  ⟨by decide, rfl,
    (Source_sorted_table rotatedEnv rotatedAtBoundary (List.pairwise_singleton _ _)).2.1
      { Source := "a.log", Index := 4 } [] rfl (by decide) rfl⟩

/-- C17. On a reader whose source-index table holds exactly one rotation boundary, for
source `S1` at buffer index `bnd > 0`: `Source` returns `S1` when the read cursor is
`bnd`, and the current `Source()` of the File Source (the source `S2` of C17) when the read
cursor is past `bnd`. These are the cursors after `ReadLine`: in single-line mode, when
the window holds a newline, `ReadLine` returns the line up to it, leaves the table as
it is and the read cursor behind the line; so `Source` called right after it returns
`S1` if that line ends at `bnd`, and the current source of the File Source if that line
starts at `bnd` or later. -/
theorem Source_across_rotation {σ : Type} (env : Env σ) (b : BufReader σ) (S1 : String)
    (bnd : Nat)
    (htab : b.lastRdSource = [{ Source := S1, Index := (bnd : Int) }]) (hb : 0 < bnd) :
    (b.r = bnd → Source env b = S1) ∧
    (bnd < b.r → Source env b = env.rd.Source b.rd) ∧
    (∀ fuel, env.multiLineRegexp = none →
      (env.encodingWay = "" ∨ env.encodingWay = "utf-8") →
      b.stopped = false → (b.r ≤ b.w ∧ b.w ≤ b.buf.length) → newline ∈ window b →
      0 < fuel →
      ∃ line b', ReadLine env fuel b = .ok (line, none, b') ∧
        b'.r = b.r + (window b).indexOf newline + 1 ∧
        b'.lastRdSource = b.lastRdSource ∧
        (b'.r = bnd → Source env b' = S1) ∧
        (bnd ≤ b.r → bnd < b'.r ∧ Source env b' = env.rd.Source b'.rd)) := by
  have hat : ∀ c : BufReader σ, c.lastRdSource = b.lastRdSource → c.r = bnd →
      Source env c = S1 := by
    intro c hc h
    unfold Source
    rw [hc, htab, SourceLoop_cons, if_pos ⟨by show (0 : Int) < (bnd : Int); omega,
      by show (c.r : Int) ≤ (bnd : Int); omega⟩]
  have hpast : ∀ c : BufReader σ, c.lastRdSource = b.lastRdSource → bnd < c.r →
      Source env c = env.rd.Source c.rd := by
    intro c hc h
    unfold Source
    rw [hc, htab, SourceLoop_cons, if_neg]
    · rfl
    · rintro ⟨_, h2⟩
      have h3 : (c.r : Int) ≤ (bnd : Int) := h2
      omega
  refine ⟨hat b rfl, hpast b rfl, ?_⟩
  intro fuel hmode henc hs hc hin hfuel
  obtain ⟨f, rfl⟩ : ∃ f, fuel = f + 1 := ⟨fuel - 1, by omega⟩
  obtain ⟨line, b', hrun, hr, ht⟩ := ReadLine_hit env f b hmode henc hs hc hin
  exact ⟨line, b', hrun, hr, ht, hat b' ht, fun h => ⟨by omega, hpast b' ht (by omega)⟩⟩

/-- C17 at a buffer that holds `aaa` from `a.log` and `bbb` from `b.log`, the boundary at
index 4: after the first `ReadLine` the source is `a.log`, after the second `b.log`. -/
theorem Source_across_rotation_witness :
    (∃ line b', ReadLine rotatedEnv 5 rotatedReader = .ok (line, none, b') ∧
      b'.r = 4 ∧ Source rotatedEnv b' = "a.log") ∧
    (∃ line b', ReadLine rotatedEnv 5 rotatedAtBoundary = .ok (line, none, b') ∧
      b'.r = 8 ∧ Source rotatedEnv b' = "b.log") := by
  constructor
  · obtain ⟨line, b', hrun, hr, _, h1, _⟩ :=
      (Source_across_rotation rotatedEnv rotatedReader "a.log" 4 rfl (by decide)).2.2 5 rfl
        (Or.inl rfl) rfl (by decide) (by decide) (by decide)
    have hr4 : b'.r = 4 := by rw [hr]; decide
    exact ⟨line, b', hrun, hr4, h1 hr4⟩
  · obtain ⟨line, b', hrun, hr, _, _, h2⟩ :=
      (Source_across_rotation rotatedEnv rotatedAtBoundary "a.log" 4 rfl (by decide)).2.2 5 rfl
        (Or.inl rfl) rfl (by decide) (by decide) (by decide)
    have hr8 : b'.r = 8 := by rw [hr]; decide
    exact ⟨line, b', hrun, hr8, (h2 (by decide)).2⟩

section sync

variable {σ : Type}

/-- The method `SyncMeta` on a reader that differs from its last snapshot. -/
theorem SyncMeta_dirty (env : Env σ) (m : Meta) (b : BufReader σ) (hd : Dirty b) :
    SyncMeta env m b =
      match m.writeBufErr with
      | some _ => (b, m, [Call.WriteBuf])
      | none =>
        match m.writeCacheLineErr with
        | some _ =>
          (b, { m with bufMeta := .holds (b.r, b.w, b.buf.length), bufDat := .holds b.buf },
            [Call.WriteBuf, Call.WriteCacheLine])
        | none =>
          ({ b with
              rd := (env.rd.SyncMeta b.rd).2
              lastSync := { cache := FormMutiLine b, buf := b.buf, r := b.r, w := b.w } },
            { m with
              bufMeta := .holds (b.r, b.w, b.buf.length), bufDat := .holds b.buf,
              cacheLine := .holds (FormMutiLine b) },
            [Call.WriteBuf, Call.WriteCacheLine, Call.rdSyncMeta]) := by
  unfold Dirty at hd
  unfold SyncMeta
  simp only []
  rw [if_pos hd]
  cases h1 : m.writeBufErr with
  | some e => simp only [Meta.WriteBuf, h1]
  | none =>
    cases h2 : m.writeCacheLineErr with
    | some e => simp only [Meta.WriteBuf, Meta.WriteCacheLine, h1, h2]
    | none =>
      simp only [Meta.WriteBuf, Meta.WriteCacheLine, h1, h2]
      rfl

/-- The method `SyncMeta` on a reader that equals its last snapshot. -/
theorem SyncMeta_clean (env : Env σ) (m : Meta) (b : BufReader σ) (hd : ¬ Dirty b) :
    SyncMeta env m b = ({ b with rd := (env.rd.SyncMeta b.rd).2 }, m, [Call.rdSyncMeta]) := by
  unfold Dirty at hd
  unfold SyncMeta
  simp only []
  rw [if_neg hd]
  rfl

end sync

/-- C18. If the buffer bytes, the cursors `r` and `w` and the concatenated multi-line
accumulator all equal the values that `lastSync` recorded at the last successful
`SyncMeta`, then `SyncMeta` calls neither `Meta.WriteBuf` nor `Meta.WriteCacheLine`
(its only call is the `SyncMeta` of the File Source), leaves the Meta store as it is
and leaves every field of the reader unchanged. So when a `SyncMeta` call succeeded
(it got as far as the `SyncMeta` of the File Source), a second `SyncMeta` call with no
read in between writes nothing to the Meta store. -/
theorem SyncMeta_unchanged_writes_nothing {σ : Type} (env : Env σ) (m : Meta)
    (b : BufReader σ) :
    (b.lastSync.buf = b.buf → b.r = b.lastSync.r → b.w = b.lastSync.w →
      b.lastSync.cache = b.mutiLineCache.flatten →
      SyncMeta env m b = ({ b with rd := (env.rd.SyncMeta b.rd).2 }, m, [Call.rdSyncMeta])) ∧
    (Call.rdSyncMeta ∈ (SyncMeta env m b).2.2 →
      SyncMeta env (SyncMeta env m b).2.1 (SyncMeta env m b).1
        = ({ (SyncMeta env m b).1 with
              rd := (env.rd.SyncMeta (SyncMeta env m b).1.rd).2 },
            (SyncMeta env m b).2.1, [Call.rdSyncMeta])) := by
  constructor
  · intro hbuf hr hw hcache
    apply SyncMeta_clean
    unfold Dirty
    rw [FormMutiLine_eq]
    rintro (h | h | h | h)
    · exact h hcache
    · exact h hbuf
    · exact h hr
    · exact h hw
  · intro hmem
    apply SyncMeta_clean
    by_cases hd : Dirty b
    · rw [SyncMeta_dirty env m b hd] at hmem ⊢
      cases h1 : m.writeBufErr with
      | some e =>
        rw [h1] at hmem
        have hmem1 : Call.rdSyncMeta ∈ [Call.WriteBuf] := hmem
        exact absurd hmem1 (by decide)
      | none =>
        cases h2 : m.writeCacheLineErr with
        | some e =>
          rw [h1, h2] at hmem
          have hmem1 : Call.rdSyncMeta ∈ [Call.WriteBuf, Call.WriteCacheLine] := hmem
          exact absurd hmem1 (by decide)
        | none =>
          unfold Dirty
          rw [FormMutiLine_eq]
          simp only [FormMutiLine_eq, ne_eq, not_true_eq_false, or_self, not_false_eq_true]
    · rw [SyncMeta_clean env m b hd]
      exact hd

/-- C18 at a reader with a two-line accumulator and an empty Meta directory: the first
`SyncMeta` writes the snapshot, the second one only calls the File Source. -/
theorem SyncMeta_unchanged_writes_nothing_witness :
    (SyncMeta plainEnv emptyMeta cachedReader).2.2
      = [Call.WriteBuf, Call.WriteCacheLine, Call.rdSyncMeta] ∧
    (SyncMeta plainEnv (SyncMeta plainEnv emptyMeta cachedReader).2.1
        (SyncMeta plainEnv emptyMeta cachedReader).1).2
      = ((SyncMeta plainEnv emptyMeta cachedReader).2.1, [Call.rdSyncMeta]) :=
  ⟨by decide,
    congrArg Prod.snd
      ((SyncMeta_unchanged_writes_nothing plainEnv emptyMeta cachedReader).2 (by decide))⟩

/-- C19, as stated, fails: when `Meta.WriteBuf` fails, `SyncMeta` on a reader that
differs from its last snapshot returns after that one call and never calls the
`SyncMeta` of the File Source. -/
theorem SyncMeta_write_failure_skips_source :
    Dirty cachedReader ∧
    (Meta.WriteBuf fullDiskMeta cachedReader.buf cachedReader.r cachedReader.w
      cachedReader.buf.length).1 = some (Error.other "no space left on device") ∧
    (SyncMeta plainEnv fullDiskMeta cachedReader).2.2 = [Call.WriteBuf] ∧
    (SyncMeta plainEnv fullDiskMeta cachedReader).2.2.count Call.rdSyncMeta = 0 := by
  refine ⟨?_, by decide, by decide, by decide⟩
  unfold Dirty
  decide

/-- C19, amended. A call of `SyncMeta` calls the `SyncMeta` of the File Source exactly
once, as its last call, when the buffer snapshot was skipped as unchanged and when
both `Meta.WriteBuf` and `Meta.WriteCacheLine` succeeded; when one of the two writes
fails, `SyncMeta` returns right after the failed write and does not call the File
Source. -/
theorem SyncMeta_calls_source {σ : Type} (env : Env σ) (m : Meta) (b : BufReader σ) :
    (¬ Dirty b → (SyncMeta env m b).2.2 = [Call.rdSyncMeta]) ∧
    (Dirty b → m.writeBufErr = none → m.writeCacheLineErr = none →
      (SyncMeta env m b).2.2 = [Call.WriteBuf, Call.WriteCacheLine, Call.rdSyncMeta]) ∧
    (Dirty b → m.writeBufErr ≠ none → (SyncMeta env m b).2.2 = [Call.WriteBuf]) ∧
    (Dirty b → m.writeBufErr = none → m.writeCacheLineErr ≠ none →
      (SyncMeta env m b).2.2 = [Call.WriteBuf, Call.WriteCacheLine]) := by
  refine ⟨?_, ?_, ?_, ?_⟩
  · intro hd
    rw [SyncMeta_clean env m b hd]
  · intro hd h1 h2
    rw [SyncMeta_dirty env m b hd, h1, h2]
  · intro hd h1
    rw [SyncMeta_dirty env m b hd]
    cases h : m.writeBufErr with
    | none => exact absurd h h1
    | some e => rfl
  · intro hd h1 h2
    rw [SyncMeta_dirty env m b hd, h1]
    cases h : m.writeCacheLineErr with
    | none => exact absurd h h2
    | some e => rfl

/-- C19, amended, at a Meta directory in which `WriteBuf` fails. -/
theorem SyncMeta_calls_source_witness :
    (SyncMeta plainEnv fullDiskMeta cachedReader).2.2 = [Call.WriteBuf] :=
  (SyncMeta_calls_source plainEnv fullDiskMeta cachedReader).2.2.1
    (by unfold Dirty; decide) (by decide)

/-- C20, as stated, fails: on a Meta directory whose buffer-meta file is corrupt
(`ReadBufMeta` fails with an error that is no not-exist error) `NewReaderSize` with a
non-nil meta returns that error and no reader. -/
theorem NewReaderSize_corrupt_meta_fails :
    corruptMeta.ReadBufMeta.2 = some (Error.other "invalid buf meta") ∧
    Error.other "invalid buf meta" ≠ Error.NotExist ∧
    NewReaderSize () (some corruptMeta) DefaultBufSize
      = .error (Error.other "invalid buf meta") :=
  ⟨rfl, by decide, rfl⟩

/-- C20, amended. When `Meta.ReadBufMeta` fails with an error other than a not-exist
error, `NewReaderSize` with a non-nil meta returns no reader: it returns that error. It
returns a reader that starts from an empty buffer window with cursors `r = w = 0` when
`ReadBufMeta` succeeds or fails with a not-exist error and the Meta store does not
report `IsExist()` and `IsValid()`. -/
theorem NewReaderSize_corrupt_meta {σ : Type} (rd : σ) (meta : Meta) (size : Nat) :
    (∀ e, meta.ReadBufMeta.2 = some e → e ≠ Error.NotExist →
      NewReaderSize rd (some meta) size = .error e) ∧
    ((meta.ReadBufMeta.2 = none ∨ meta.ReadBufMeta.2 = some Error.NotExist) →
      ¬ (meta.isExist = true ∧ meta.isValid = true) →
      ∃ b, NewReaderSize rd (some meta) size = .ok b ∧ b.r = 0 ∧ b.w = 0 ∧ window b = []) := by
  constructor
  · intro e herr hne
    unfold NewReaderSize
    simp only []
    rw [herr]
    simp only [if_neg hne]
  · intro herr hval
    unfold NewReaderSize
    simp only []
    rcases herr with herr | herr
    · rw [herr]
      simp only [if_neg hval]
      split <;> exact ⟨_, rfl, rfl, rfl, rfl⟩
    · rw [herr]
      simp only [if_true, if_neg hval]
      split <;> exact ⟨_, rfl, rfl, rfl, rfl⟩

/-- C20, amended, at a Meta directory whose buffer-meta file is corrupt. -/
theorem NewReaderSize_corrupt_meta_witness :
    NewReaderSize () (some corruptMeta) DefaultBufSize
      = .error (Error.other "invalid buf meta") :=
  (NewReaderSize_corrupt_meta () corruptMeta DefaultBufSize).1 _ rfl (by decide)

end reader

namespace sql

/-- A string without the character `c` has no occurrence of the one-character string
`c`: `strings.Index` returns `-1`. -/
theorem Index_single_of_not_mem (c : Char) : ∀ (s : Str), c ∉ s → Index s [c] = none := by
  intro s
  induction s with
  | nil => intro _; rfl
  | cons a s ih =>
    intro h
    have hne : ¬ c = a := fun e => h (e ▸ List.mem_cons_self _ _)
    have hs : c ∉ s := fun e => h (List.mem_cons_of_mem _ e)
    have hpre : List.isPrefixOf [c] (a :: s) = false := by
      simp only [List.isPrefixOf, Bool.and_true, beq_eq_false_iff_ne, ne_eq]
      exact hne
    simp only [Index, hpre, Bool.false_eq_true, if_false, ih hs, Option.map_none']

/-- The loop of `strings.Split` returns at least one piece. -/
theorem splitLoop_ne_nil (sep : Str) : ∀ (n : Nat) (s : Str), splitLoop sep n s ≠ [] := by
  intro n
  cases n with
  | zero => intro s; exact List.cons_ne_nil _ _
  | succ n =>
    intro s
    unfold splitLoop
    split <;> exact List.cons_ne_nil _ _

/-- Every character of a piece that `strings.Split` returns is a character of the
string that was split. -/
theorem mem_of_mem_splitLoop (sep : Str) :
    ∀ (n : Nat) (s p : Str), p ∈ splitLoop sep n s → ∀ c ∈ p, c ∈ s := by
  intro n
  induction n with
  | zero =>
    intro s p hp c hc
    rw [splitLoop, List.mem_singleton] at hp
    rw [hp] at hc
    exact hc
  | succ n ih =>
    intro s p hp c hc
    unfold splitLoop at hp
    split at hp
    · rw [List.mem_singleton] at hp
      rw [hp] at hc
      exact hc
    · rcases List.mem_cons.mp hp with h | h
      · rw [h] at hc
        exact List.mem_of_mem_take hc
      · exact List.mem_of_mem_drop (ih _ p h c hc)

theorem Index_cons (c : Char) (s substr : Str) :
    Index (c :: s) substr
      = if substr.isPrefixOf (c :: s) then some 0 else (Index s substr).map (fun i => i + 1) :=
  rfl

/-- The first `@(` of a string that holds one behind `pre` starts at the end of `pre` or
ends inside `pre`. -/
theorem Index_at_paren : ∀ (pre post : Str),
    ∃ m, Index (pre ++ '@' :: '(' :: post) "@(".toList = some m ∧
      (m = pre.length ∨ m + 2 ≤ pre.length) := by
  intro pre
  induction pre with
  | nil =>
    intro post
    exact ⟨0, by simp [Index, List.isPrefixOf], Or.inl rfl⟩
  | cons a pre ih =>
    intro post
    obtain ⟨m, hm, hcase⟩ := ih post
    by_cases hp : List.isPrefixOf "@(".toList (a :: (pre ++ '@' :: '(' :: post)) = true
    · refine ⟨0, by rw [List.cons_append, Index_cons, if_pos hp], Or.inr ?_⟩
      cases pre with
      | nil =>
        simp [List.isPrefixOf] at hp
      | cons b pre => simp only [List.length_cons]; omega
    · refine ⟨m + 1, ?_, ?_⟩
      · rw [List.cons_append, Index_cons, if_neg hp, hm]
        rfl
      · simp only [List.length_cons]
        omega

/-- Splitting at `@(` a string that holds an `@(` with no `)` behind it gives, after the
first piece, a piece without `)`. -/
theorem splitLoop_unclosed : ∀ (n : Nat) (pre post : Str),
    (pre ++ '@' :: '(' :: post).length ≤ n → ')' ∉ post →
    ∃ p ∈ (splitLoop "@(".toList n (pre ++ '@' :: '(' :: post)).tail, ')' ∉ p := by
  intro n
  induction n with
  | zero =>
    intro pre post hlen _
    simp only [List.length_append, List.length_cons] at hlen
    omega
  | succ n ih =>
    intro pre post hlen hpost
    obtain ⟨m, hm, hcase⟩ := Index_at_paren pre post
    have hsplit : splitLoop "@(".toList (n + 1) (pre ++ '@' :: '(' :: post)
        = (pre ++ '@' :: '(' :: post).take m
            :: splitLoop "@(".toList n ((pre ++ '@' :: '(' :: post).drop (m + 2)) := by
      simp only [splitLoop, hm]
      rfl
    rw [hsplit, List.tail_cons]
    rcases hcase with h | h
    · have hdrop : (pre ++ '@' :: '(' :: post).drop (m + 2) = post := by
        rw [h, ← List.drop_drop, List.drop_left]
        rfl
      rw [hdrop]
      obtain ⟨p, ps, hps⟩ := List.exists_cons_of_ne_nil (splitLoop_ne_nil "@(".toList n post)
      have hp : p ∈ splitLoop "@(".toList n post := by rw [hps]; exact List.mem_cons_self _ _
      exact ⟨p, hp, fun hc => hpost (mem_of_mem_splitLoop _ n post p hp _ hc)⟩
    · have hdrop : (pre ++ '@' :: '(' :: post).drop (m + 2)
          = pre.drop (m + 2) ++ '@' :: '(' :: post := List.drop_append_of_le_length h
      rw [hdrop]
      have hlen2 : (pre.drop (m + 2) ++ '@' :: '(' :: post).length ≤ n := by
        simp only [List.length_append, List.length_cons, List.length_drop] at hlen ⊢
        omega
      obtain ⟨p, hp, hc⟩ := ih (pre.drop (m + 2)) post hlen2 hpost
      exact ⟨p, List.mem_of_mem_tail hp, hc⟩

/-- A conditional returns when both of its branches return. -/
theorem ite_returns {c : Prop} [Decidable c] {a b : Except Fault Str}
    (ha : ∃ m, a = .ok m) (hb : ∃ m, b = .ok m) : ∃ m, (if c then a else b) = .ok m := by
  by_cases h : c
  · rw [if_pos h]; exact ha
  · rw [if_neg h]; exact hb

/-- The function `convertMagic` returns unless the year is written with one digit. -/
theorem convertMagic_ok (magic : Str) (now : Time) (hyear : 2 ≤ (fmtD now.Year).length) :
    ∃ m, convertMagic magic now = .ok m := by
  unfold convertMagic
  refine ite_returns ⟨_, rfl⟩ (ite_returns ?_ ?_)
  · rw [if_pos hyear]
    exact ⟨_, rfl⟩
  · repeat' first | exact ⟨_, rfl⟩ | apply ite_returns

/-- The loop of `goMagic` returns the raw SQL when one of the pieces has no `)`. -/
theorem goMagicLoop_unclosed (rawSql : Str) (now : Time)
    (hyear : 2 ≤ (fmtD now.Year).length) :
    ∀ (pieces : List Str) (ret : Str), (∃ p ∈ pieces, ')' ∉ p) →
      goMagicLoop rawSql now pieces ret = .ok rawSql := by
  intro pieces
  induction pieces with
  | nil =>
    rintro ret ⟨p, hp, _⟩
    exact absurd hp (List.not_mem_nil p)
  | cons sp rest ih =>
    rintro ret ⟨p, hp, hc⟩
    cases hidx : Index sp ")".toList with
    | none => simp only [goMagicLoop, hidx]
    | some idxr =>
      have hrest : p ∈ rest := by
        rcases List.mem_cons.mp hp with h | h
        · rw [h] at hc
          have hnone : Index sp ")".toList = none := Index_single_of_not_mem ')' sp hc
          rw [hnone] at hidx
          exact absurd hidx (by simp)
        · exact h
      obtain ⟨m, hm⟩ := convertMagic_ok (sp.take idxr) now hyear
      simp only [goMagicLoop, hidx, hm, bind, Except.bind]
      exact ih _ ⟨p, hrest, hc⟩

/-- A string without `@` has no occurrence of `@(`. -/
theorem Index_paren_of_no_at : ∀ (s : Str), '@' ∉ s → Index s "@(".toList = none := by
  intro s
  induction s with
  | nil => intro _; rfl
  | cons a s ih =>
    intro h
    have hne : ¬ a = '@' := fun e => h (e ▸ List.mem_cons_self _ _)
    have hs : '@' ∉ s := fun e => h (List.mem_cons_of_mem _ e)
    have hpre : List.isPrefixOf "@(".toList (a :: s) = false := by
      cases s with
      | nil =>
        simp only [String.toList, List.isPrefixOf, Bool.and_false]
      | cons b s =>
        simp only [String.toList, List.isPrefixOf, Bool.and_true, Bool.and_eq_false_imp,
          beq_iff_eq]
        intro e
        exact absurd e.symm hne
    rw [Index_cons, hpre, ih hs]
    rfl

/-- Behind a prefix without `@` the first `@(` starts right at the end of the prefix. -/
theorem Index_paren_after : ∀ (pre rest : Str), '@' ∉ pre →
    Index (pre ++ '@' :: '(' :: rest) "@(".toList = some pre.length := by
  intro pre
  induction pre with
  | nil => intro rest _; simp [Index, List.isPrefixOf]
  | cons a pre ih =>
    intro rest h
    have hne : ¬ a = '@' := fun e => h (e ▸ List.mem_cons_self _ _)
    have hs : '@' ∉ pre := fun e => h (List.mem_cons_of_mem _ e)
    have hpre : List.isPrefixOf "@(".toList (a :: (pre ++ '@' :: '(' :: rest)) = false := by
      cases hp : pre ++ '@' :: '(' :: rest with
      | nil => simp only [String.toList, List.isPrefixOf, Bool.and_false]
      | cons b t =>
        simp only [String.toList, List.isPrefixOf, Bool.and_true, Bool.and_eq_false_imp,
          beq_iff_eq]
        intro e
        exact absurd e.symm hne
    rw [List.cons_append, Index_cons, hpre, ih rest hs]
    rfl

/-- Behind a name without `)` the first `)` starts right at the end of the name. -/
theorem Index_close_after : ∀ (name post : Str), ')' ∉ name →
    Index (name ++ ')' :: post) ")".toList = some name.length := by
  intro name
  induction name with
  | nil => intro post _; simp [Index, List.isPrefixOf]
  | cons a name ih =>
    intro post h
    have hne : ¬ a = ')' := fun e => h (e ▸ List.mem_cons_self _ _)
    have hs : ')' ∉ name := fun e => h (List.mem_cons_of_mem _ e)
    have hpre : List.isPrefixOf ")".toList (a :: (name ++ ')' :: post)) = false := by
      simp only [String.toList, List.isPrefixOf, Bool.and_true, beq_eq_false_iff_ne, ne_eq]
      exact fun e => hne e.symm
    rw [List.cons_append, Index_cons, hpre, ih post hs]
    rfl

/-- The loop of `strings.Split` cuts at the first separator. -/
theorem splitLoop_succ (sep : Str) (n : Nat) (s : Str) (m : Nat) (h : Index s sep = some m) :
    splitLoop sep (n + 1) s = s.take m :: splitLoop sep n (s.drop (m + sep.length)) := by
  simp only [splitLoop, h]

/-- The loop of `strings.Split` on a string without separator returns that string. -/
theorem splitLoop_of_none (sep : Str) (n : Nat) (s : Str) (h : Index s sep = none) :
    splitLoop sep n s = [s] := by
  cases n with
  | zero => rfl
  | succ n => simp only [splitLoop, h]

/-- The function `convertMagic` returns the empty string for a name it has no case for. -/
theorem convertMagic_unknown (name : Str) (now : Time) (h : name ∉ magicNames) :
    convertMagic name now = .ok [] := by
  unfold magicNames at h
  simp only [List.mem_cons, List.mem_singleton, List.not_mem_nil, or_false, not_or] at h
  obtain ⟨h1, h2, h3, h4, h5, h6, h7, h8, h9, h10, h11, h12⟩ := h
  unfold convertMagic
  rw [if_neg h1, if_neg h2, if_neg h3, if_neg h4, if_neg h5, if_neg h6, if_neg h7, if_neg h8,
    if_neg h9, if_neg h10, if_neg h11, if_neg h12]

/-- The function `goMagic` on a raw SQL with one placeholder `@(name)` whose name
`convertMagic` has no case for: the placeholder is deleted. -/
theorem goMagic_unknown_name (pre name post : Str) (now : Time)
    (hpre : '@' ∉ pre) (hname : '@' ∉ name ∧ ')' ∉ name) (hpost : '@' ∉ post)
    (hunknown : name ∉ magicNames) :
    goMagic (pre ++ "@(".toList ++ name ++ ")".toList ++ post) now = .ok (pre ++ post) := by
  have hraw : pre ++ "@(".toList ++ name ++ ")".toList ++ post
      = pre ++ '@' :: '(' :: (name ++ ')' :: post) := by
    simp only [String.toList, List.append_assoc, List.cons_append, List.nil_append]
  have hrest : '@' ∉ name ++ ')' :: post := by
    intro h
    rcases List.mem_append.mp h with h | h
    · exact hname.1 h
    · rcases List.mem_cons.mp h with h | h
      · exact absurd h (by decide)
      · exact hpost h
  have hsplit : Split (pre ++ '@' :: '(' :: (name ++ ')' :: post)) "@(".toList
      = [pre, name ++ ')' :: post] := by
    unfold Split
    rw [if_neg (by decide)]
    have hlen : (pre ++ '@' :: '(' :: (name ++ ')' :: post)).length
        = (pre.length + (name ++ ')' :: post).length + 1) + 1 := by
      simp only [List.length_append, List.length_cons]
      omega
    have hdrop : (pre ++ '@' :: '(' :: (name ++ ')' :: post)).drop
        (pre.length + "@(".toList.length) = name ++ ')' :: post := by
      rw [← List.drop_drop, List.drop_left]
      rfl
    rw [hlen, splitLoop_succ _ _ _ _ (Index_paren_after pre _ hpre), List.take_left, hdrop,
      splitLoop_of_none _ _ _ (Index_paren_of_no_at _ hrest)]
  rw [hraw]
  unfold goMagic
  rw [hsplit]
  simp only [goMagicLoop, Index_close_after name post hname.2, List.take_left,
    convertMagic_unknown name now hunknown, bind, Except.bind, List.append_nil]
  by_cases hp : post = []
  · subst hp
    simp only [List.length_append, List.length_cons, List.length_nil, Nat.lt_irrefl, if_false,
      List.append_nil]
  · have hlt : name.length + 1 < (name ++ ')' :: post).length := by
      have := List.length_pos.mpr hp
      simp only [List.length_append, List.length_cons]
      omega
    rw [if_pos hlt, ← List.drop_drop, List.drop_left]
    rfl

/-- C11, on the code. A raw SQL string that holds an `@(` with no `)` anywhere behind it
comes back from `goMagic` unchanged (unless the year is written with one digit, where
the slice `[2:]` for an earlier `@(YY)` may panic), as C11 says. But an `@(name)`
whose name is none of the twelve names is replaced by the empty string, where C11 says
that the raw SQL comes back unchanged: for a raw SQL `pre@(name)post` with no
other `@` the function `goMagic` returns `prepost`, and for `select @(day) from t` it
returns `select  from t`. -/
theorem goMagic_invalid_placeholder (pre name post : Str) (now : Time) :
    (')' ∉ post → 2 ≤ (fmtD now.Year).length →
      goMagic (pre ++ "@(".toList ++ post) now = .ok (pre ++ "@(".toList ++ post)) ∧
    ('@' ∉ pre → '@' ∉ name ∧ ')' ∉ name → '@' ∉ post → name ∉ magicNames →
      goMagic (pre ++ "@(".toList ++ name ++ ")".toList ++ post) now = .ok (pre ++ post)) ∧
    goMagic "select @(day) from t".toList sampleTime = .ok "select  from t".toList := by
  refine ⟨?_, goMagic_unknown_name pre name post now, rfl⟩
  intro hpost hyear
  have hraw : pre ++ "@(".toList ++ post = pre ++ '@' :: '(' :: post := by
    rw [List.append_assoc]
    rfl
  rw [hraw]
  obtain ⟨p, hp, hc⟩ := splitLoop_unclosed (pre ++ '@' :: '(' :: post).length pre post
    (le_refl _) hpost
  have hsplit : Split (pre ++ '@' :: '(' :: post) "@(".toList
      = splitLoop "@(".toList (pre ++ '@' :: '(' :: post).length (pre ++ '@' :: '(' :: post) := by
    unfold Split
    rw [if_neg (by decide)]
  unfold goMagic
  rw [hsplit]
  obtain ⟨sp0, rest, hps⟩ := List.exists_cons_of_ne_nil
    (splitLoop_ne_nil "@(".toList (pre ++ '@' :: '(' :: post).length (pre ++ '@' :: '(' :: post))
  rw [hps] at hp ⊢
  exact goMagicLoop_unclosed _ now hyear rest sp0 ⟨p, hp, hc⟩

/-- C11, on the code, at the raw SQL `select @(YYYY from t`, whose placeholder is not
closed, and at the raw SQL `select @(day) from t`, whose placeholder has a name that
`convertMagic` does not know. -/
theorem goMagic_invalid_placeholder_witness :
    goMagic "select @(YYYY from t".toList sampleTime = .ok "select @(YYYY from t".toList ∧
    goMagic ("select ".toList ++ "@(".toList ++ "day".toList ++ ")".toList ++ " from t".toList)
        sampleTime
      = .ok ("select ".toList ++ " from t".toList) :=
  ⟨(goMagic_invalid_placeholder "select ".toList [] "YYYY from t".toList sampleTime).1
      (by decide) (by decide),
    (goMagic_invalid_placeholder "select ".toList "day".toList " from t".toList sampleTime).2.1
      (by decide) (by decide) (by decide) (by decide)⟩

/-- The loop of `restoreMeta` stores in every slot from `idx` on the offset parsed from
the persisted record and leaves the other slots alone. -/
theorem restoreLoop_slots (tmps : List Str) (length : Nat) (htmps : tmps.length = 2 * length) :
    ∀ (sqls : List Str) (idx : Nat) (offsets : List Int) (logged : List Nat),
      idx + sqls.length ≤ length → offsets.length = length →
      ∃ res logged', restoreLoop tmps length idx sqls offsets logged = .ok (res, logged') ∧
        res.length = length ∧
        (∀ i, i < idx → res[i]? = offsets[i]?) ∧
        (∀ i, idx + sqls.length ≤ i → res[i]? = offsets[i]?) ∧
        (∀ i, idx ≤ i → i < idx + sqls.length →
          res[i]? = (tmps[i + length]?).map (fun t => (ParseInt t).1)) := by
  intro sqls
  induction sqls with
  | nil =>
    intro idx offsets logged _ hlen
    refine ⟨offsets, logged, rfl, hlen, fun _ _ => rfl, fun _ _ => rfl, ?_⟩
    intro i h1 h2
    rw [List.length_nil] at h2
    omega
  | cons sql rest ih =>
    intro idx offsets logged hidx hlen
    rw [List.length_cons] at hidx
    have h1 : idx < tmps.length := by omega
    have h2 : idx + length < tmps.length := by omega
    have hoff : idx < offsets.length := by omega
    obtain ⟨res, logged', hrun, hrlen, hbefore, hafter, hslots⟩ :=
      ih (idx + 1) (offsets.set idx (ParseInt tmps[idx + length]).1)
        (if (ParseInt tmps[idx + length]).2.isSome ∨
            sql ≠ Replace tmps[idx] "@".toList " ".toList then logged ++ [idx] else logged)
        (by omega) (by rw [List.length_set]; exact hlen)
    refine ⟨res, logged', ?_, hrlen, ?_, ?_, ?_⟩
    · simp only [restoreLoop, List.getElem?_eq_getElem h1, List.getElem?_eq_getElem h2,
        if_pos hoff]
      exact hrun
    · intro i hi
      rw [hbefore i (by omega), List.getElem?_set_ne (by omega)]
    · intro i hi
      rw [List.length_cons] at hi
      rw [hafter i (by omega), List.getElem?_set_ne (by omega)]
    · intro i hi1 hi2
      rw [List.length_cons] at hi2
      by_cases hi : i = idx
      · subst hi
        rw [hbefore i (by omega), List.getElem?_set_self hoff, List.getElem?_eq_getElem h2]
        rfl
      · exact hslots i (by omega) (by omega)

/-- The conversion to `int64` leaves a number in the range of `int64` as it is. -/
theorem wrapInt64_of_range (x : Int) (h1 : -(2 ^ 63) ≤ x) (h2 : x < 2 ^ 63) :
    wrapInt64 x = x := by
  unfold wrapInt64
  rw [Int.emod_eq_of_lt (by omega) (by omega)]
  omega

/-- The method `updateOffsets` resets the offset of a slot whose SQL text changed: on the
SQL `select * from t where id>1` with offset 5 and the new SQL
`select * from t where id>2` it leaves the offset 0. -/
theorem updateOffsets_resets_changed_sql :
    updateOffsets ["select * from t where id>1".toList] 0
      ["select * from t where id>2".toList] [5] = [0] := by
  decide

/-- C12, on the code: when the persisted record has the right shape (`2 * length` fields
for `length` templated SQLs), `restoreMeta` returns for every slot the offset that
`ParseInt` reads from the persisted record, the persisted offset when it parses, whether
or not the persisted SQL text of that slot equals the templated SQL: the comparison only
writes the log line "omit this offset". So a slot whose SQL text matches keeps its
persisted offset, as C12 says, and a slot whose SQL text differs keeps it too, where
C12 says its offset is 0. -/
theorem restoreMeta_keeps_persisted_offsets (blob : Str) (length : Int) (rawSqls : Str)
    (now : Time) (sqls : List Str)
    (hsqls : updateSqls rawSqls now = .ok sqls)
    (hsmall : (Split blob sqlOffsetConnector).length < 2 ^ 63)
    (hshape : ((Split blob sqlOffsetConnector).length : Int) = 2 * length)
    (hlen : (sqls.length : Int) = length) :
    ∃ offsets logged,
      restoreMeta (blob, length, none) rawSqls now = .ok (offsets, sqls, false, logged) ∧
      offsets.length = sqls.length ∧
      ∀ idx t, idx < sqls.length →
        (Split blob sqlOffsetConnector)[idx + sqls.length]? = some t →
        offsets[idx]? = some (ParseInt t).1 := by
  have hnat : length.toNat = sqls.length := by omega
  have htmps : (Split blob sqlOffsetConnector).length = 2 * sqls.length := by omega
  have hwrap : wrapInt64 (2 * length) = 2 * length :=
    wrapInt64_of_range _ (by omega) (by omega)
  obtain ⟨res, logged, hrun, hrlen, _, _, hslots⟩ :=
    restoreLoop_slots (Split blob sqlOffsetConnector) sqls.length htmps sqls 0
      (List.replicate sqls.length 0) [] (by omega) (List.length_replicate _ _)
  refine ⟨res, logged, ?_, hrlen, ?_⟩
  · have hcond : ¬ (((Split blob sqlOffsetConnector).length : Int) ≠ wrapInt64 (2 * length) ∨
        (sqls.length : Int) ≠ length) := by
      rw [hwrap]
      rintro (h | h)
      · exact h hshape
      · exact h hlen
    simp only [restoreMeta, hsqls, bind, Except.bind, Option.isSome_none, Bool.false_eq_true,
      if_false, if_neg hcond, hnat, hrun]
  · intro idx t hidx ht
    rw [hslots idx (Nat.zero_le _) (by omega), ht]
    rfl

/-- C12 at a failing input: the persisted record holds the SQL `select * from t where
id>1` with offset 5, the configured SQL is `select * from t where id>2`; the line "omit
this offset" is logged for slot 0, and the restored offset of slot 0 is 5 and not 0. -/
theorem restoreMeta_keeps_persisted_offsets_witness :
    syncSQL (Split "select@*@from@t@where@id>1##5".toList sqlOffsetConnector) 0
      = some "select * from t where id>1".toList ∧
    restoreMeta ("select@*@from@t@where@id>1##5".toList, 1, none)
        "select * from t where id>2".toList sampleTime
      = .ok ([5], ["select * from t where id>2".toList], false, [0]) ∧
    ∃ offsets logged, restoreMeta ("select@*@from@t@where@id>1##5".toList, 1, none)
        "select * from t where id>2".toList sampleTime
        = .ok (offsets, ["select * from t where id>2".toList], false, logged) ∧
      offsets[0]? = some 5 := by
  obtain ⟨offsets, logged, hrun, _, hslot⟩ :=
    restoreMeta_keeps_persisted_offsets "select@*@from@t@where@id>1##5".toList 1
      "select * from t where id>2".toList sampleTime ["select * from t where id>2".toList]
      rfl (by decide) (by decide) (by decide)
  exact ⟨by decide, rfl, offsets, logged, hrun,
    hslot 0 "5".toList (by decide) (by decide)⟩

end sql

namespace reader

section compaction

theorem drop_takeWhile_length {α : Type} (p : α → Bool) (l : List α) :
    l.drop (l.takeWhile p).length = l.dropWhile p := by
  induction l with
  | nil => rfl
  | cons a t ih =>
    by_cases h : p a = true
    · simp [List.takeWhile, List.dropWhile, h, ih]
    · simp [List.takeWhile, List.dropWhile, h]

theorem dropWhile_sorted_eq_filter (l : List SourceIndex)
    (hs : l.Pairwise (fun x y => x.Index ≤ y.Index)) :
    l.dropWhile (fun v => !decide (v.Index > 0)) = l.filter (fun v => decide (v.Index > 0)) := by
  induction l with
  | nil => rfl
  | cons a t ih =>
    rw [List.pairwise_cons] at hs
    by_cases h : a.Index > 0
    · have hall : ∀ x ∈ t, decide (x.Index > 0) = true := by
        intro x hx
        have := hs.1 x hx
        exact decide_eq_true (by omega)
      simp only [List.dropWhile, h, decide_True, Bool.not_true, List.filter_cons_of_pos]
      rw [List.filter_eq_self.2 hall]
    · simp only [List.dropWhile, h, decide_False, Bool.not_false]
      rw [List.filter_cons_of_neg (by simp [h])]
      exact ih hs.2

theorem takeWhile_length_le {α : Type} (p : α → Bool) (l : List α) :
    (l.takeWhile p).length ≤ l.length := by
  induction l with
  | nil => simp
  | cons a t ih =>
    by_cases h : p a = true
    · simp [List.takeWhile, h, ih]
    · simp [List.takeWhile, h]

/-- On a table sorted by index, the compaction keeps the entries behind the read
cursor, shifted by it. -/
theorem updateLastRdSource_filter {σ : Type} (b : BufReader σ)
    (hs : b.lastRdSource.Pairwise (fun x y => x.Index ≤ y.Index)) :
    updateLastRdSource b =
      { b with
        lastRdSource :=
          (b.lastRdSource.filter (fun v => decide (v.Index - (b.r : Int) > 0))).map
            (fun v => { Source := v.Source, Index := v.Index - (b.r : Int) }) } := by
  have hs1 : (b.lastRdSource.map (fun v => ({ v with Index := v.Index - b.r } : SourceIndex))).Pairwise
      (fun x y => x.Index ≤ y.Index) := by
    rw [List.pairwise_map]
    exact hs.imp (by intro x y hxy; simp only; omega)
  have hfilter := dropWhile_sorted_eq_filter _ hs1
  rw [← drop_takeWhile_length] at hfilter
  have hmap : (b.lastRdSource.map (fun v => ({ v with Index := v.Index - b.r } : SourceIndex))).filter
        (fun v => decide (v.Index > 0)) =
      (b.lastRdSource.filter (fun v => decide (v.Index - (b.r : Int) > 0))).map
            (fun v => { Source := v.Source, Index := v.Index - (b.r : Int) }) := by
    rw [List.filter_map]
    rfl
  unfold updateLastRdSource
  by_cases h0 : b.lastRdSource.length ≤ 0
  · have : b.lastRdSource = [] := List.length_eq_zero.1 (by omega)
    rw [if_pos h0]
    cases b
    simp only at this
    subst this
    rfl
  · rw [if_neg h0]
    simp only []
    rw [← hmap, ← hfilter]
    have hle := takeWhile_length_le (fun v : SourceIndex => !decide (v.Index > 0))
      (b.lastRdSource.map (fun v => ({ v with Index := v.Index - b.r } : SourceIndex)))
    split_ifs with h1 h2
    · rw [List.drop_of_length_le h1]
    · rfl
    · have : (List.takeWhile (fun v : SourceIndex => !decide (v.Index > 0))
        (b.lastRdSource.map (fun v => ({ v with Index := v.Index - b.r } : SourceIndex)))).length = 0 := by omega
      rw [this, List.drop_zero]

/-- C24. For a source-index table sorted by index, `updateLastRdSource` leaves exactly
the entries whose index minus the read cursor `r` is greater than 0, each with its
index decreased by `r` and its source unchanged, in their original order; the entries
whose decreased index is at most 0 are dropped and no other field of the reader
changes. -/
theorem updateLastRdSource_sorted {σ : Type} (b : BufReader σ)
    (hs : b.lastRdSource.Pairwise (fun x y => x.Index ≤ y.Index)) :
    updateLastRdSource b =
      { b with
        lastRdSource :=
          (b.lastRdSource.filter (fun v => decide (v.Index - (b.r : Int) > 0))).map
            (fun v => { Source := v.Source, Index := v.Index - (b.r : Int) }) } :=
  updateLastRdSource_filter b hs

theorem updateLastRdSource_sorted_witness :
    (updateLastRdSource { reset (List.replicate 16 (0 : Byte)) () with
        r := 5, w := 12, lastRdSource := sampleTable }).lastRdSource
      = [{ Source := "c.log", Index := 4 }] := by
  rw [updateLastRdSource_sorted _ (by decide)]
  rfl

end compaction

end reader

namespace mgr

section removal

/-- C22. `RemoveWithConfig(path, del)`: a path that does not end in ".conf", a path
whose absolute form cannot be computed and a path at whose absolute form no runner is
registered give an error and leave the manager as it was; when a runner is registered
at the absolute form of the path, the call returns nil, the path is no key of `runners`
and the runner's name no key of `runnerNames` afterwards, the path is deleted from
`runnerConfigs` when `del` is true and `runnerConfigs` is unchanged when `del` is
false, and every other entry of the three maps is as before. -/
theorem RemoveWithConfig_frame (env : Env) (m : Manager) (confPath : String)
    (isDelete : Bool) :
    (HasSuffix confPath ".conf" = false →
      ∃ e, RemoveWithConfig env m confPath isDelete = (m, some e)) ∧
    (HasSuffix confPath ".conf" = true →
      (∀ e0, env.Abs confPath = .error e0 →
        ∃ e, RemoveWithConfig env m confPath isDelete = (m, some e)) ∧
      (∀ abs, env.Abs confPath = .ok abs →
        (mapGet m.runners abs = none →
          ∃ e, RemoveWithConfig env m confPath isDelete = (m, some e)) ∧
        (∀ runner, mapGet m.runners abs = some runner →
          (RemoveWithConfig env m confPath isDelete).2 = none ∧
          (∀ k, mapGet (RemoveWithConfig env m confPath isDelete).1.runners k
              = if k = abs then none else mapGet m.runners k) ∧
          (∀ k, mapGet (RemoveWithConfig env m confPath isDelete).1.runnerNames k
              = if k = runner.Name then none else mapGet m.runnerNames k) ∧
          (isDelete = true →
            ∀ k, mapGet (RemoveWithConfig env m confPath isDelete).1.runnerConfigs k
              = if k = abs then none else mapGet m.runnerConfigs k) ∧
          (isDelete = false →
            (RemoveWithConfig env m confPath isDelete).1.runnerConfigs = m.runnerConfigs)))) := by
  refine ⟨fun hs => ?_, fun hs =>
    ⟨fun e0 ha => ?_, fun abs ha => ⟨fun hr => ?_, fun runner hr => ?_⟩⟩⟩
  · exact ⟨.other "not end with .conf, skipped", by simp [RemoveWithConfig, hs]⟩
  · exact ⟨.other "filepath.Abs failed", by simp [RemoveWithConfig, hs, ha]⟩
  · exact ⟨.other "not added, nothing to do", by simp [RemoveWithConfig, hs, ha, hr]⟩
  · have hrun : RemoveWithConfig env m confPath isDelete =
        ({ m with
           cleanQueues := removeCleanQueue m.cleanQueues runner.Cleaner
           runners := mapDelete m.runners abs
           runnerNames := mapDelete m.runnerNames runner.Name
           runnerConfigs :=
             if isDelete then mapDelete m.runnerConfigs abs else m.runnerConfigs }, none) := by
      simp [RemoveWithConfig, hs, ha, hr]
    rw [hrun]
    refine ⟨rfl, fun k => mapGet_mapDelete _ _ _, fun k => mapGet_mapDelete _ _ _,
      fun hd k => ?_, fun hd => ?_⟩
    · simp only [hd, if_true]
      exact mapGet_mapDelete _ _ _
    · simp [hd]

theorem RemoveWithConfig_frame_witness :
    (RemoveWithConfig plainEnv twoRunners "/rest/a.conf" false).2 = none ∧
    mapKeys (RemoveWithConfig plainEnv twoRunners "/rest/a.conf" false).1.runners
      = ["/rest/b.conf"] ∧
    mapGet (RemoveWithConfig plainEnv twoRunners "/rest/a.conf" false).1.runnerNames "b"
      = some true ∧
    (RemoveWithConfig plainEnv twoRunners "/rest/a.conf" false).1.runnerConfigs
      = twoRunners.runnerConfigs ∧
    (∃ e, RemoveWithConfig plainEnv twoRunners "/rest/c.conf" true = (twoRunners, some e)) ∧
    (∃ e, RemoveWithConfig plainEnv twoRunners "/rest/a.json" true = (twoRunners, some e)) :=
  have h := ((RemoveWithConfig_frame plainEnv twoRunners "/rest/a.conf" false).2 (by decide)).2
    "/rest/a.conf" rfl
  have h1 := h.2 { Name := "a", Cleaner := ⟨true, "/logs"⟩, Resetable := true } (by decide)
  ⟨h1.1, by decide, by rw [h1.2.2.1 "b"]; decide, h1.2.2.2.2 rfl,
    (((RemoveWithConfig_frame plainEnv twoRunners "/rest/c.conf" true).2 (by decide)).2
      "/rest/c.conf" rfl).1 (by decide),
    (RemoveWithConfig_frame plainEnv twoRunners "/rest/a.json" true).1 (by decide)⟩

end removal

end mgr

namespace mgr

section unmatched

/-- C27. A clean signal that no registered clean queue matches leaves the clean-queue
map unchanged in every read mode. In the exact read modes, where no queue is
registered for the directory, no file removal is requested. In the read mode `tailx`,
where no queue key matches the path of the file, `doClean` still hands the path of the
file to `os.Remove`. -/
theorem doClean_no_matching_queue (env : Env) (cleanQueues : Map cleanQueue)
    (sig : CleanSignal) (dir : String) (hdir : env.GetRealPath sig.Logdir = .ok dir) :
    (sig.ReadMode ≠ ModeTailx → mapGet cleanQueues dir = none →
      doClean env cleanQueues sig = (cleanQueues, none)) ∧
    (sig.ReadMode = ModeTailx →
      (∀ kv ∈ cleanQueues, env.Match kv.1 (env.Join dir sig.Filename) ≠ .ok true) →
      doClean env cleanQueues sig = (cleanQueues, some (env.Join dir sig.Filename))) := by
  constructor
  · intro hmode hnone
    simp [doClean, hdir, getCleanQueues, hmode, hnone]
  · intro hmode hno
    have hfilter : cleanQueues.filter (fun kv =>
        match env.Match kv.1 (env.Join dir sig.Filename) with
        | .error _ => false
        | .ok matched => matched) = [] := by
      rw [List.filter_eq_nil_iff]
      intro kv hkv
      have := hno kv hkv
      cases hm : env.Match kv.1 (env.Join dir sig.Filename) with
      | error e => simp
      | ok matched =>
        rw [hm] at this
        cases matched with
        | true => exact absurd rfl this
        | false => simp
    simp [doClean, hdir, getCleanQueues, hmode, hfilter, countSignal]

theorem doClean_no_matching_queue_witness :
    doClean globEnv tailxQueues { tailxSignal with Logdir := "/data", Filename := "y.log" }
      = (tailxQueues, some "/data/y.log") ∧
    doClean globEnv tailxQueues
        { tailxSignal with Logdir := "/data", Filename := "y.log", ReadMode := "dir" }
      = (tailxQueues, none) :=
  ⟨(doClean_no_matching_queue globEnv tailxQueues
      { tailxSignal with Logdir := "/data", Filename := "y.log" } "/data" rfl).2 rfl
      (by
        intro kv hkv h
        have hkv1 : kv = tailxQueues.get ⟨0, by decide⟩ ∨ kv = tailxQueues.get ⟨1, by decide⟩ := by
          simpa [tailxQueues] using hkv
        rcases hkv1 with rfl | rfl
        · exact Bool.noConfusion
            (Except.ok.inj (h : (Except.ok false : Except Error Bool) = Except.ok true))
        · exact Bool.noConfusion
            (Except.ok.inj (h : (Except.ok false : Except Error Bool) = Except.ok true))),
   (doClean_no_matching_queue globEnv tailxQueues
      { tailxSignal with Logdir := "/data", Filename := "y.log", ReadMode := "dir" }
      "/data" rfl).1 (by decide) (by decide)⟩

end unmatched
section rollback

theorem mapDelete_of_none {V : Type} (m : Map V) (k : String) (h : mapGet m k = none) :
    mapDelete m k = m := by
  unfold mapDelete
  rw [List.filter_eq_self]
  intro e he
  obtain ⟨k1, v1⟩ := e
  have hne : ¬ k1 = k := by
    intro hk
    subst hk
    exact mapGet_none_of_not_key m k1 h v1 he
  simp [hne]

theorem Remove_not_running (env : Env) (m : Manager) (filename : String)
    (habs : env.Abs filename = .ok filename) (hrun : mapGet m.runners filename = none) :
    (Remove env m filename).1 = m := by
  unfold Remove RemoveWithConfig
  by_cases hs : HasSuffix filename ".conf" = true
  · simp [hs, habs, hrun]
  · simp [hs]

/-- C21. `AddRunner` on a path with no running runner, when the fork succeeds and
`backupRunnerConfig` fails with `e`: the call returns `e`. For a config with
`is_stopped` set, the fork only records the config and the rollback by `Remove` finds
no runner, so `runners` and `runnerNames` are as before and `runnerConfigs` holds the
new config under the path. For a config that is not stopped, whose runner was built
and whose name and path had no entry in `runnerNames` and `runnerConfigs`, the three
maps after the call equal the maps before it. -/
theorem AddRunner_backup_failure (env : Env) (m : Manager) (name : String)
    (conf : RunnerConfig) (createTime : String) (e : Error)
    (hrest : RestPathsAbsolute env m.RestDir)
    (hrun : IsRunning m (restPath env m name) = false) :
    (conf.IsStopped = true → ∀ build,
      AddRunner env m name conf createTime build (some e) =
        .ok (setRunnerConfig m (restPath env m name)
          { conf with RunnerName := name, CreateTime := createTime }, some e)) ∧
    (conf.IsStopped = false → conf.SendersConfig.all Option.isSome = true →
      HasSuffix (restPath env m name) ".conf" = true →
      mapGet m.runnerNames name = none →
      mapGet m.runnerConfigs (restPath env m name) = none →
      ∀ cleaner resetable, ∃ m',
        AddRunner env m name conf createTime (.ok cleaner resetable) (some e)
          = .ok (m', some e) ∧
        m'.runners = m.runners ∧ m'.runnerNames = m.runnerNames ∧
        m'.runnerConfigs = m.runnerConfigs) := by
  have habs : env.Abs (restPath env m name) = .ok (restPath env m name) := hrest name
  have hnone : mapGet m.runners (restPath env m name) = none := by
    simpa [IsRunning, readRunners] using hrun
  constructor
  · intro hstop build
    have hfork : ForkRunner env m (restPath env m name)
        { conf with RunnerName := name, CreateTime := createTime } true [build]
        = .ok (setRunnerConfig m (restPath env m name)
            { conf with RunnerName := name, CreateTime := createTime }, none) := by
      simp [ForkRunner, forkPrepare, hrun, hstop]
    have hrem := Remove_not_running env (setRunnerConfig m (restPath env m name)
      { conf with RunnerName := name, CreateTime := createTime }) (restPath env m name)
      habs hnone
    simp only [AddRunner, hrun, hfork, hrem]
    rfl
  · intro hstop hsend hsuffix hname hcfg cleaner resetable
    obtain ⟨config1, hinj, hname1⟩ : ∃ config1,
        injectUserAgent env m { conf with RunnerName := name, CreateTime := createTime }
          = some config1 ∧ config1.RunnerName = name := by
      simp [injectUserAgent, hsend]
    have hreg : registerRunner m (restPath env m name) config1 cleaner resetable =
        ({ m with
           cleanQueues := addCleanQueue m.cleanQueues cleaner
           runners := mapSet m.runners (restPath env m name)
             { Name := config1.RunnerName, Cleaner := cleaner, Resetable := resetable }
           runnerNames := mapSet m.runnerNames config1.RunnerName true
           runnerConfigs := mapSet m.runnerConfigs (restPath env m name) config1 }, none) := by
      simp [registerRunner, hnone, hname1, hname]
    have hfork : ForkRunner env m (restPath env m name)
        { conf with RunnerName := name, CreateTime := createTime } true
        [.ok cleaner resetable]
        = .ok (registerRunner m (restPath env m name) config1 cleaner resetable) := by
      have hinj2 := hinj
      simp only [hstop] at hinj2
      simp [ForkRunner, forkPrepare, hrun, hstop, hinj2]
    have hget : mapGet (mapSet m.runners (restPath env m name)
        ({ Name := config1.RunnerName, Cleaner := cleaner, Resetable := resetable } : Runner))
        (restPath env m name)
        = some { Name := config1.RunnerName, Cleaner := cleaner, Resetable := resetable } := by
      rw [mapGet_mapSet, if_pos rfl]
    refine ⟨(Remove env (registerRunner m (restPath env m name) config1 cleaner
      resetable).1 (restPath env m name)).1, ?_, ?_, ?_, ?_⟩
    · simp only [AddRunner, hrun, hfork]
      rw [hreg]
      rfl
    · rw [hreg]
      simp only [Remove, RemoveWithConfig, hsuffix, habs, hget, Bool.not_true]
      simp only [Bool.false_eq_true, if_false]
      rw [mapDelete_mapSet, mapDelete_of_none _ _ hnone]
    · rw [hreg]
      simp only [Remove, RemoveWithConfig, hsuffix, habs, hget, Bool.not_true]
      simp only [Bool.false_eq_true, if_false]
      rw [mapDelete_mapSet, hname1, mapDelete_of_none _ _ hname]
    · rw [hreg]
      simp only [Remove, RemoveWithConfig, hsuffix, habs, hget, Bool.not_true]
      simp only [Bool.false_eq_true, if_false, if_true]
      rw [mapDelete_mapSet, mapDelete_of_none _ _ hcfg]

theorem AddRunner_backup_failure_witness :
    AddRunner plainEnv (newManager "/rest") "a" { configA with IsStopped := true } "t0"
        .otherError (some (.other "disk full"))
      = .ok ({ newManager "/rest" with
                runnerConfigs := [("/rest/a.conf",
                  { configA with IsStopped := true, CreateTime := "t0" })] },
             some (.other "disk full")) ∧
    (∃ m', AddRunner plainEnv (newManager "/rest") "a" configA "t0"
        (.ok ⟨true, "/logs"⟩ true) (some (.other "disk full"))
          = .ok (m', some (.other "disk full")) ∧
        m'.runners = [] ∧ m'.runnerNames = [] ∧ m'.runnerConfigs = []) :=
  ⟨(AddRunner_backup_failure plainEnv (newManager "/rest") "a"
      { configA with IsStopped := true } "t0" (.other "disk full") (fun _ => rfl) rfl).1
      rfl .otherError,
   (AddRunner_backup_failure plainEnv (newManager "/rest") "a" configA "t0"
      (.other "disk full") (fun _ => rfl) rfl).2 rfl rfl (by decide) rfl rfl
      ⟨true, "/logs"⟩ true⟩

end rollback

end mgr

namespace reader

variable {σ : Type}

section delimiter

theorem getLast_take_indexOf (a : Byte) : ∀ (l : List Byte), a ∈ l →
    (l.take (l.indexOf a + 1)).getLast? = some a := by
  intro l
  induction l with
  | nil => intro h; exact absurd h (List.not_mem_nil _)
  | cons x t ih =>
    intro h
    by_cases hx : x = a
    · subst hx
      simp [List.indexOf_cons_self]
    · have ht : a ∈ t := by
        rcases List.mem_cons.1 h with h1 | h1
        · exact absurd h1.symm hx
        · exact h1
      rw [List.indexOf_cons_ne _ hx]
      have := ih ht
      cases hk : t.take (t.indexOf a + 1) with
      | nil => rw [hk] at this; exact absurd this (by simp)
      | cons y u =>
        rw [hk] at this
        simp only [List.take_succ_cons, hk]
        rw [List.getLast?_cons_cons]
        exact this

/-- What `readSlice` hands back on a reader that is not stopped: a line that ends in the
delimiter and no error, or an error and a line without the delimiter. -/
theorem readSliceLoop_line (env : Env σ) (delim : Byte) :
    ∀ (fuel : Nat) (b b' : BufReader σ) (line : List Byte) (e : Option Error),
      b.stopped = false → readSliceLoop env delim fuel b = .ok (line, e, b') →
      (e = none ∧ line.getLast? = some delim) ∨ (e ≠ none ∧ delim ∉ line) := by
  intro fuel
  induction fuel with
  | zero => intro b b' line e _ h; exact absurd h (by simp [readSliceLoop])
  | succ f ih =>
    intro b b' line e hs h
    by_cases hc : Cursors b
    · by_cases hin : delim ∈ window b
      · rw [readSliceLoop_hit_eq env delim f b hs hc hin] at h
        simp only [Except.ok.injEq, Prod.mk.injEq] at h
        obtain ⟨h1, h2, _⟩ := h
        subst h1; subst h2
        exact Or.inl ⟨rfl, getLast_take_indexOf delim _ hin⟩
      · cases he : b.err with
        | some e0 =>
          simp only [readSliceLoop, hs, slice_window b hc, bind, Except.bind, hin, if_false,
            he, Option.isSome_some, if_true, readErr, Except.ok.injEq, Prod.mk.injEq] at h
          obtain ⟨rfl, rfl, _⟩ := h
          exact Or.inr ⟨by simp, hin⟩
        | none =>
          by_cases hfull : b.buf.length ≤ b.w - b.r
          · rw [readSliceLoop_full env delim f b hs hc hin he hfull] at h
            simp only [Except.ok.injEq, Prod.mk.injEq] at h
            obtain ⟨h1, h2, _⟩ := h
            subst h1; subst h2
            have hr : b.r = 0 := by have := hc.1; have := hc.2; omega
            have hw : b.w = b.buf.length := by have := hc.1; have := hc.2; omega
            have hwin : window b = b.buf := by
              unfold window
              rw [hr, hw]
              simp
            rw [hwin] at hin
            exact Or.inr ⟨by simp, hin⟩
          · cases hf : fill env b with
            | error x =>
              simp only [readSliceLoop, hs, slice_window b hc, bind, Except.bind, hin,
                if_false, he, Option.isSome_none, buffered, ge_iff_le, hfull, hf] at h
              exact absurd h (by simp)
            | ok b1 =>
              rw [readSliceLoop_fill env delim f b b1 hs hc hin he hfull hf] at h
              exact ih b1 b' line e ((fill_keeps env b b1 hf).2.1.trans hs) h
    · have hsl : slice b.buf b.r b.w = .error (.panic "slice bounds out of range") := by
        exact if_neg hc
      simp only [readSliceLoop, hs, hsl, bind, Except.bind] at h
      exact absurd h (by simp)

/-- What `readBytes` hands back on a reader that is not stopped, when the fragments
collected so far hold no delimiter. -/
theorem readBytesLoop_line (env : Env σ) (fuel : Nat) (delim : Byte) :
    ∀ (k : Nat) (full : List (List Byte)) (b b' : BufReader σ) (line : List Byte)
      (e : Option Error),
      b.stopped = false → (∀ f ∈ full, delim ∉ f) →
      readBytesLoop env fuel delim k full b = .ok (line, e, b') →
      (e = none ∧ line.getLast? = some delim) ∨ (e ≠ none ∧ delim ∉ line) := by
  intro k
  induction k with
  | zero => intro full b b' line e _ _ h; exact absurd h (by simp [readBytesLoop])
  | succ k ih =>
    intro full b b' line e hs hfull h
    unfold readBytesLoop at h
    cases hr : readSlice env fuel delim b with
    | error x => rw [hr] at h; exact absurd h (by simp [bind, Except.bind])
    | ok res =>
      obtain ⟨frag, e1, b1⟩ := res
      have hk1 : Keeps b b1 := readSliceLoop_keeps env delim fuel b b1 frag e1 hr
      have hline := readSliceLoop_line env delim fuel b b1 frag e1 hs hr
      have hflat : delim ∉ full.flatten := by
        intro hmem
        obtain ⟨f, hf, hd⟩ := List.mem_flatten.1 hmem
        exact hfull f hf hd
      rw [hr] at h
      simp only [bind, Except.bind] at h
      split at h
      · simp only [Except.ok.injEq, Prod.mk.injEq] at h
        obtain ⟨h1, h2, _⟩ := h
        subst h1; subst h2
        rcases hline with ⟨_, hl⟩ | ⟨hne, _⟩
        · refine Or.inl ⟨rfl, ?_⟩
          have hne : frag ≠ [] := by intro h0; rw [h0] at hl; exact absurd hl (by simp)
          rw [List.getLast?_append_of_ne_nil _ hne]
          exact hl
        · exact absurd rfl hne
      · refine ih _ b1 b' line e (hk1.2.1.trans hs) ?_ h
        intro f hf
        rcases List.mem_append.1 hf with h1 | h1
        · exact hfull f h1
        · rcases hline with ⟨h0, _⟩ | ⟨_, hnot⟩
          · exact absurd h0 (by simp)
          · rw [List.mem_singleton.1 h1]; exact hnot
      · simp only [Except.ok.injEq, Prod.mk.injEq] at h
        obtain ⟨h1, h2, _⟩ := h
        subst h1; subst h2
        rcases hline with ⟨h0, _⟩ | ⟨_, hnot⟩
        · exact absurd h0 (by simp)
        · refine Or.inr ⟨by simp, ?_⟩
          intro hmem
          rcases List.mem_append.1 hmem with h1 | h1
          · exact hflat h1
          · exact hnot h1

theorem error_iff_of_line (delim : Byte) (line : List Byte) (e : Option Error)
    (h : (e = none ∧ line.getLast? = some delim) ∨ (e ≠ none ∧ delim ∉ line)) :
    e ≠ none ↔ line.getLast? ≠ some delim := by
  rcases h with ⟨h1, h2⟩ | ⟨h1, h2⟩
  · constructor
    · intro h; exact absurd h1 h
    · intro h; exact absurd h2 h
  · constructor
    · intro _ hl
      exact h2 (List.mem_of_getLast?_eq_some hl)
    · intro _; exact h1

/-- C25, on the code. For a reader that is not stopped, `readSlice` returns a non-nil
error if and only if the line it returns does not end in the delimiter, and so does
`readBytes`, as C25 and the doc comment of `readSlice` say. A stopped reader gets the
empty line and a nil error from `readSlice` and from `readBytes`: a line that does not
end in the delimiter without an error, where C25 asks for an error. -/
theorem readSlice_error_iff {σ : Type} (env : Env σ) (fuel : Nat) (delim : Byte)
    (b : BufReader σ) :
    (b.stopped = false → ∀ line e b', readSlice env fuel delim b = .ok (line, e, b') →
      (e ≠ none ↔ line.getLast? ≠ some delim)) ∧
    (b.stopped = false → ∀ line e b', readBytes env fuel delim b = .ok (line, e, b') →
      (e ≠ none ↔ line.getLast? ≠ some delim)) ∧
    (b.stopped = true → readSlice env (fuel + 1) delim b = .ok ([], none, b)) ∧
    (b.stopped = true → readBytes env (fuel + 1) delim b = .ok ([], none, b)) := by
  refine ⟨fun hs line e b' h => ?_, fun hs line e b' h => ?_, fun hs => ?_, fun hs => ?_⟩
  · exact error_iff_of_line delim line e (readSliceLoop_line env delim fuel b b' line e hs h)
  · exact error_iff_of_line delim line e
      (readBytesLoop_line env fuel delim fuel [] b b' line e hs
        (fun f hf => absurd hf (List.not_mem_nil _)) h)
  · simp [readSlice, readSliceLoop, hs]
  · simp [readBytes, readBytesLoop, readSlice, readSliceLoop, hs, bind, Except.bind]

/-- C25 at a failing input and at two readers that are not stopped: the stopped reader,
with `abc` and a newline unread in its buffer, gets the empty line and a nil error from
`readSlice` and from `readBytes`, and the empty line does not end in the newline; the
same reader, not stopped, gets the line `abc` and then the line `defghi`, each with a
nil error. -/
theorem readSlice_error_iff_witness :
    stoppedReader.stopped = true ∧
    readSlice plainEnv 5 newline stoppedReader = .ok ([], none, stoppedReader) ∧
    readBytes plainEnv 5 newline stoppedReader = .ok ([], none, stoppedReader) ∧
    ([] : List Byte).getLast? ≠ some newline ∧
    (readSlice plainEnv 5 newline { stoppedReader with stopped := false }
        = .ok (bytesOf "abc\n", none,
            { stoppedReader with stopped := false, r := 4, lastByte := 10 }) ∧
      ((none : Option Error) ≠ none ↔ (bytesOf "abc\n").getLast? ≠ some newline)) ∧
    (readBytes plainEnv 5 newline { stoppedReader with stopped := false, r := 4 }
        = .ok (bytesOf "defghi\n", none,
            { reset (bytesOf "defghi\n" ++ List.replicate 9 0) [] with
              r := 7, w := 7, lastByte := 10, latestSource := "a.log" }) ∧
      ((none : Option Error) ≠ none ↔ (bytesOf "defghi\n").getLast? ≠ some newline)) :=
  ⟨rfl, (readSlice_error_iff plainEnv 4 newline stoppedReader).2.2.1 rfl,
   (readSlice_error_iff plainEnv 4 newline stoppedReader).2.2.2 rfl, by simp,
   ⟨rfl, (readSlice_error_iff plainEnv 5 newline { stoppedReader with stopped := false }).1
      rfl _ _ _ rfl⟩,
   ⟨rfl, (readSlice_error_iff plainEnv 5 newline
      { stoppedReader with stopped := false, r := 4 }).2.1 rfl _ _ _ rfl⟩⟩

end delimiter

section table

theorem handleLastByte_table (line : List Byte) (b : BufReader σ) (h : TableInv b) :
    TableInv (handleLastByte line b) := by
  obtain ⟨x, y, hxy⟩ := handleLastByte_eq line b
  rw [hxy]
  exact h

/-- One round of the read loop of `fill`: the new table is the old one, or the old one
with the boundaries of the batch appended. -/
theorem fillLoop_step (env : Env σ) (i : Nat) (b : BufReader σ) (hw : b.w ≤ b.buf.length) :
    ∃ (tbl : List SourceIndex) (ls : String),
      (tbl = b.lastRdSource ∨ ∃ rc, env.rd.NewLineBytesIndex = some rc ∧
        tbl = b.lastRdSource ++
          (rc (env.rd.Read b.rd (b.buf.length - b.w)).next).map
            (fun v => { Source := v.Source, Index := (b.w : Int) + v.Index })) ∧
      fillLoop env (i + 1) b =
        match (env.rd.Read b.rd (b.buf.length - b.w)).err with
        | some e => .ok
          { b with
            rd := (env.rd.Read b.rd (b.buf.length - b.w)).next
            buf := b.buf.take b.w
              ++ (env.rd.Read b.rd (b.buf.length - b.w)).data.take (b.buf.length - b.w)
              ++ b.buf.drop (b.w + (env.rd.Read b.rd (b.buf.length - b.w)).data.length)
            lastRdSource := tbl, latestSource := ls
            w := b.w + (env.rd.Read b.rd (b.buf.length - b.w)).data.length
            err := some e }
        | none =>
          if (env.rd.Read b.rd (b.buf.length - b.w)).data.length > 0 then .ok
            { b with
              rd := (env.rd.Read b.rd (b.buf.length - b.w)).next
              buf := b.buf.take b.w
                ++ (env.rd.Read b.rd (b.buf.length - b.w)).data.take (b.buf.length - b.w)
                ++ b.buf.drop (b.w + (env.rd.Read b.rd (b.buf.length - b.w)).data.length)
              lastRdSource := tbl, latestSource := ls
              w := b.w + (env.rd.Read b.rd (b.buf.length - b.w)).data.length }
          else fillLoop env i
            { b with
              rd := (env.rd.Read b.rd (b.buf.length - b.w)).next
              buf := b.buf.take b.w
                ++ (env.rd.Read b.rd (b.buf.length - b.w)).data.take (b.buf.length - b.w)
                ++ b.buf.drop (b.w + (env.rd.Read b.rd (b.buf.length - b.w)).data.length)
              lastRdSource := tbl, latestSource := ls
              w := b.w + (env.rd.Read b.rd (b.buf.length - b.w)).data.length } := by
  have hlt : ¬ b.buf.length < b.w := by omega
  by_cases h1 : b.latestSource = env.rd.Source (env.rd.Read b.rd (b.buf.length - b.w)).next
  · refine ⟨b.lastRdSource, b.latestSource, Or.inl rfl, ?_⟩
    simp only [fillLoop, hlt, if_false, h1, ne_eq, not_true_eq_false]
  · cases h2 : env.rd.NewLineBytesIndex with
    | none =>
      refine ⟨b.lastRdSource, b.latestSource, Or.inl rfl, ?_⟩
      simp only [fillLoop, hlt, if_false, h1, ne_eq, not_false_eq_true, if_true, h2]
    | some rc =>
      refine ⟨_, env.rd.Source (env.rd.Read b.rd (b.buf.length - b.w)).next,
        Or.inr ⟨rc, rfl, rfl⟩, ?_⟩
      simp only [fillLoop, hlt, if_false, h1, ne_eq, not_false_eq_true, if_true, h2]

/-- The read loop of `fill` returns, keeps the predicate, leaves `r` and the buffer
length alone, and either sets an error or moves `w` forward. -/
theorem fillLoop_table (env : Env σ) (hrd : CountsInRange env.rd) :
    ∀ (i : Nat) (b : BufReader σ), TableInv b →
      ∃ b', fillLoop env i b = .ok b' ∧ TableInv b' ∧ b'.r = b.r ∧
        b'.buf.length = b.buf.length ∧ b.w ≤ b'.w ∧
        (b'.err.isSome = true ∨ b.w < b'.w) ∧ b'.stopped = b.stopped := by
  intro i
  induction i with
  | zero =>
    intro b h
    exact ⟨{ b with err := some .ErrNoProgress }, rfl, h, rfl, rfl, le_refl _, Or.inl rfl, rfl⟩
  | succ i ih =>
    intro b hinv
    obtain ⟨hc, hsorted, hbound⟩ := hinv
    obtain ⟨tbl, ls, htbl, hstep⟩ := fillLoop_step env i b hc.2
    obtain ⟨hn, hrc⟩ := hrd b.rd (b.buf.length - b.w)
    generalize env.rd.Read b.rd (b.buf.length - b.w) = res at hstep htbl hn hrc
    have hlen : (b.buf.take b.w ++ res.data.take (b.buf.length - b.w)
        ++ b.buf.drop (b.w + res.data.length)).length = b.buf.length := by
      simp only [List.length_append, List.length_take, List.length_drop]
      have := hc.2
      omega
    have htable : tbl.Pairwise (fun x y => x.Index ≤ y.Index) ∧
        ∀ v ∈ tbl, 0 ≤ v.Index ∧ v.Index ≤ ((b.w + res.data.length : Nat) : Int) := by
      rcases htbl with h | ⟨rc, hrc1, h⟩
      · subst h
        exact ⟨hsorted, fun v hv => ⟨(hbound v hv).1, by have := (hbound v hv).2; omega⟩⟩
      · obtain ⟨hp, hb⟩ := hrc rc hrc1
        subst h
        refine ⟨?_, ?_⟩
        · rw [List.pairwise_append]
          refine ⟨hsorted, ?_, ?_⟩
          · rw [List.pairwise_map]
            exact hp.imp (by intro x y hxy; simp only; omega)
          · intro x hx y hy
            obtain ⟨v, hv, rfl⟩ := List.mem_map.1 hy
            have := (hbound x hx).2
            have := (hb v hv).1
            simp only
            omega
        · intro v hv
          rcases List.mem_append.1 hv with h1 | h1
          · exact ⟨(hbound v h1).1, by have := (hbound v h1).2; omega⟩
          · obtain ⟨u, hu, rfl⟩ := List.mem_map.1 h1
            have := (hb u hu).1
            have := (hb u hu).2
            simp only
            omega
    have hinv3 : ∀ (e : Option Error), TableInv ({ b with
        rd := res.next
        buf := b.buf.take b.w ++ res.data.take (b.buf.length - b.w)
          ++ b.buf.drop (b.w + res.data.length)
        lastRdSource := tbl, latestSource := ls
        w := b.w + res.data.length
        err := e } : BufReader σ) := by
      intro e
      refine ⟨⟨?_, ?_⟩, htable.1, htable.2⟩
      · have := hc.1
        show b.r ≤ b.w + res.data.length
        omega
      · show b.w + res.data.length ≤ _
        rw [hlen]
        have := hc.2
        omega
    rw [hstep]
    cases he : res.err with
    | some e =>
      exact ⟨_, rfl, hinv3 (some e), rfl, hlen, Nat.le_add_right _ _, Or.inl rfl, rfl⟩
    | none =>
      by_cases hpos : res.data.length > 0
      · simp only [hpos, if_true]
        exact ⟨_, rfl, hinv3 b.err, rfl, hlen, Nat.le_add_right _ _,
          Or.inr (Nat.lt_add_of_pos_right hpos), rfl⟩
      · simp only [hpos, if_false]
        obtain ⟨b', hf, hi, hr, hl, hw, hprog, hst⟩ := ih _ (hinv3 b.err)
        refine ⟨b', hf, hi, hr, hl.trans hlen, le_trans (Nat.le_add_right _ _) hw, ?_, hst⟩
        rcases hprog with h | h
        · exact Or.inl h
        · exact Or.inr (lt_of_le_of_lt (Nat.le_add_right _ _) h)

/-- The first block of `fill` returns and keeps the predicate. -/
theorem slide_table (b : BufReader σ) (hinv : TableInv b) :
    ∃ b1, slide b = .ok b1 ∧ TableInv b1 ∧ b1.r = 0 ∧ b1.w = b.w - b.r ∧
      b1.buf.length = b.buf.length ∧ b1.err = b.err ∧ b1.stopped = b.stopped := by
  obtain ⟨hc, hsorted, hbound⟩ := hinv
  obtain ⟨hrw, hwl⟩ := hc
  by_cases hr : b.r > 0
  · have hlen : (copy b.buf ((b.buf.drop b.r).take (b.w - b.r))).length = b.buf.length := by
      simp only [copy, List.length_append, List.length_take, List.length_drop]
      omega
    have hs : slide b = .ok { updateLastRdSource ({ b with
        buf := copy b.buf ((b.buf.drop b.r).take (b.w - b.r)), w := b.w - b.r }) with r := 0 } := by
      simp only [slide, hr, if_true, slice, hrw, hwl, and_self, bind, Except.bind, pure,
        Except.pure]
    have hupd := updateLastRdSource_filter ({ b with
      buf := copy b.buf ((b.buf.drop b.r).take (b.w - b.r)), w := b.w - b.r } : BufReader σ)
      hsorted
    rw [hs, hupd]
    refine ⟨_, rfl, ⟨⟨Nat.zero_le _, ?_⟩, ?_, ?_⟩, rfl, rfl, hlen, rfl, rfl⟩
    · show b.w - b.r ≤ _
      rw [hlen]
      omega
    · exact (hsorted.filter _).map _ (by intro x y hxy; simp only; omega)
    · intro v hv
      obtain ⟨u, hu, rfl⟩ := List.mem_map.1 hv
      have hu1 := (List.mem_filter.1 hu).1
      have hu2 := of_decide_eq_true (List.mem_filter.1 hu).2
      have := (hbound u hu1).2
      simp only at hu2 ⊢
      omega
  · have hr0 : b.r = 0 := by omega
    exact ⟨b, by simp [slide, hr0, pure, Except.pure], ⟨⟨hrw, hwl⟩, hsorted, hbound⟩, hr0,
      by omega, rfl, rfl, rfl⟩

theorem noteLatestSource_eq (env : Env σ) (b : BufReader σ) :
    ∃ ls, noteLatestSource env b = { b with latestSource := ls } := by
  unfold noteLatestSource
  split
  · exact ⟨_, rfl⟩
  · exact ⟨b.latestSource, rfl⟩

/-- The function `fill` on a reader with room returns, keeps the predicate and the
buffer length, and either sets an error or lets the window grow. -/
theorem fill_table (env : Env σ) (hrd : CountsInRange env.rd) (b : BufReader σ)
    (hinv : TableInv b) (hroom : b.w - b.r < b.buf.length) :
    ∃ b', fill env b = .ok b' ∧ TableInv b' ∧ b'.buf.length = b.buf.length ∧
      (b'.err.isSome = true ∨ b.w - b.r < b'.w - b'.r) ∧ b'.stopped = b.stopped := by
  obtain ⟨b1, hs, hinv1, hr1, hw1, hlen1, _, hst1⟩ := slide_table b hinv
  obtain ⟨ls, hls⟩ := noteLatestSource_eq env b1
  have hinv2 : TableInv (noteLatestSource env b1) := by rw [hls]; exact hinv1
  obtain ⟨b', hf, hinv', hr', hlen', hw', hprog, hst'⟩ :=
    fillLoop_table env hrd maxConsecutiveEmptyReads _ hinv2
  rw [hls] at hr' hlen' hw' hprog hst'
  simp only at hr' hlen' hw' hprog hst'
  refine ⟨b', ?_, hinv', hlen'.trans hlen1, ?_, hst'.trans hst1⟩
  · simp only [fill, hs, bind, Except.bind, ge_iff_le]
    rw [if_neg (by rw [hw1, hlen1]; omega)]
    exact hf
  · rcases hprog with h | h
    · exact Or.inl h
    · right
      rw [hr', hr1]
      omega

/-- Whatever the loop of `readSlice` returns keeps the predicate. -/
theorem readSliceLoop_table (env : Env σ) (hrd : CountsInRange env.rd) (delim : Byte) :
    ∀ (fuel : Nat) (b b' : BufReader σ) (line : List Byte) (e : Option Error),
      TableInv b → readSliceLoop env delim fuel b = .ok (line, e, b') → TableInv b' := by
  intro fuel
  induction fuel with
  | zero => intro b b' line e _ h; exact absurd h (by simp [readSliceLoop])
  | succ f ih =>
    intro b b' line e hinv h
    have hc : Cursors b := hinv.1
    cases hs : b.stopped with
    | true =>
      simp only [readSliceLoop, hs, if_true, Except.ok.injEq, Prod.mk.injEq] at h
      rw [← h.2.2]
      exact hinv
    | false =>
      by_cases hin : delim ∈ window b
      · rw [readSliceLoop_hit_eq env delim f b hs hc hin] at h
        simp only [Except.ok.injEq, Prod.mk.injEq] at h
        rw [← h.2.2]
        apply handleLastByte_table
        have hi : (window b).indexOf delim < b.w - b.r := by
          rw [← window_length b hc]
          exact List.indexOf_lt_length.mpr hin
        refine ⟨⟨?_, hc.2⟩, hinv.2.1, hinv.2.2⟩
        show b.r + (window b).indexOf delim + 1 ≤ b.w
        have := hc.1
        omega
      · cases he : b.err with
        | some e0 =>
          simp only [readSliceLoop, hs, slice_window b hc, bind, Except.bind, hin, if_false,
            he, Option.isSome_some, if_true, readErr, Bool.false_eq_true, Except.ok.injEq,
            Prod.mk.injEq] at h
          rw [← h.2.2]
          apply handleLastByte_table
          exact ⟨⟨le_refl _, hc.2⟩, hinv.2.1, hinv.2.2⟩
        | none =>
          by_cases hfull : b.buf.length ≤ b.w - b.r
          · rw [readSliceLoop_full env delim f b hs hc hin he hfull] at h
            simp only [Except.ok.injEq, Prod.mk.injEq] at h
            rw [← h.2.2]
            apply handleLastByte_table
            exact ⟨⟨le_refl _, hc.2⟩, hinv.2.1, hinv.2.2⟩
          · obtain ⟨b1, hf, hinv1, _, _, _⟩ := fill_table env hrd b hinv (by omega)
            rw [readSliceLoop_fill env delim f b b1 hs hc hin he hfull hf] at h
            exact ih b1 b' line e hinv1 h

/-- The loop of `readSlice` returns once the fuel covers the free room of the buffer. -/
theorem readSliceLoop_returns (env : Env σ) (hrd : CountsInRange env.rd) (delim : Byte) :
    ∀ (fuel : Nat) (b : BufReader σ), TableInv b →
      (if b.err.isSome = true then 1 else b.buf.length - (b.w - b.r) + 2) ≤ fuel →
      ∃ line e b', readSliceLoop env delim fuel b = .ok (line, e, b') := by
  intro fuel
  induction fuel with
  | zero =>
    intro b _ h
    split_ifs at h <;> omega
  | succ f ih =>
    intro b hinv hfuel
    have hc : Cursors b := hinv.1
    cases hs : b.stopped with
    | true => exact ⟨[], none, b, by simp only [readSliceLoop, hs, if_true]⟩
    | false =>
      by_cases hin : delim ∈ window b
      · exact ⟨_, _, _, readSliceLoop_hit_eq env delim f b hs hc hin⟩
      · cases he : b.err with
        | some e0 =>
          exact ⟨_, _, _, by
            simp only [readSliceLoop, hs, slice_window b hc, bind, Except.bind, hin, if_false,
              he, Option.isSome_some, if_true, readErr, Bool.false_eq_true]
            rfl⟩
        | none =>
          by_cases hfull : b.buf.length ≤ b.w - b.r
          · exact ⟨_, _, _, readSliceLoop_full env delim f b hs hc hin he hfull⟩
          · obtain ⟨b1, hf, hinv1, hlen1, hprog, _⟩ := fill_table env hrd b hinv (by omega)
            rw [readSliceLoop_fill env delim f b b1 hs hc hin he hfull hf]
            apply ih b1 hinv1
            rw [he] at hfuel
            simp only [Option.isSome_none, Bool.false_eq_true, if_false] at hfuel
            have hc1 := hinv1.1
            split_ifs with h1
            · omega
            · rcases hprog with h | h
              · exact absurd h h1
              · have := hc1.1
                have := hc1.2
                omega

theorem twoFileSource_counts : CountsInRange twoFileSource := by
  intro s cap
  refine ⟨?_, ?_⟩
  · simp only [twoFileSource, List.length_take]
    omega
  · intro rc hrc
    have hrc1 : rc = fun s => s.last := by
      simp only [twoFileSource, Option.some.injEq] at hrc
      exact hrc.symm
    subst hrc1
    by_cases h : s.first ≠ [] ∧ s.first.length ≤ cap
    · simp only [twoFileSource, h, and_self, if_true, List.pairwise_singleton,
        List.mem_singleton, true_and, forall_eq, List.length_take, List.length_append, ne_eq,
        not_false_eq_true]
      omega
    · simp only [twoFileSource, if_neg h, List.Pairwise.nil, List.not_mem_nil, true_and]
      intro v hv
      exact absurd hv (by simp)

/-- C23. For a File Source whose `Read` returns a count of at most the length of the
slice it is given and whose `NewLineBytesIndex` returns entries sorted by index with
indices between 0 and that count, the predicate `0 ≤ r ≤ w ≤ len(buf)`, table sorted by
index, every index in `[0, w]` is preserved by `fill` and by `readSlice`; `fill`
returns on every reader with room in the buffer, and `readSlice` returns once the fuel
exceeds the buffer length by two. -/
theorem fill_readSlice_keep_TableInv {σ : Type} (env : Env σ)
    (hrd : CountsInRange env.rd) (b : BufReader σ) (hinv : TableInv b) :
    (b.w - b.r < b.buf.length → ∃ b', fill env b = .ok b' ∧ TableInv b') ∧
    (∀ b', fill env b = .ok b' → TableInv b') ∧
    (∀ fuel delim line e b', readSlice env fuel delim b = .ok (line, e, b') → TableInv b') ∧
    (∀ fuel delim, b.buf.length + 2 ≤ fuel →
      ∃ line e b', readSlice env fuel delim b = .ok (line, e, b') ∧ TableInv b') := by
  refine ⟨fun hroom => ?_, fun b' hf => ?_, fun fuel delim line e b' h => ?_,
    fun fuel delim hfuel => ?_⟩
  · obtain ⟨b', hf, hinv', _⟩ := fill_table env hrd b hinv hroom
    exact ⟨b', hf, hinv'⟩
  · by_cases hroom : b.w - b.r < b.buf.length
    · obtain ⟨b1, hf1, hinv1, _⟩ := fill_table env hrd b hinv hroom
      rw [hf1] at hf
      simp only [Except.ok.injEq] at hf
      rw [← hf]
      exact hinv1
    · obtain ⟨b1, hs, _, _, hw1, hlen1, _, _⟩ := slide_table b hinv
      simp only [fill, hs, bind, Except.bind, ge_iff_le] at hf
      rw [if_pos (by rw [hw1, hlen1]; omega)] at hf
      exact absurd hf (by simp)
  · exact readSliceLoop_table env hrd delim fuel b b' line e hinv h
  · obtain ⟨line, e, b', h⟩ := readSliceLoop_returns env hrd delim fuel b hinv (by
      split_ifs
      · omega
      · omega)
    exact ⟨line, e, b', h, readSliceLoop_table env hrd delim fuel b b' line e hinv h⟩

theorem fill_readSlice_keep_TableInv_witness :
    TableInv twoFileReader ∧
    (∃ b', fill twoFileEnv twoFileReader = .ok b' ∧ TableInv b' ∧
      b'.lastRdSource = [{ Source := "a.log", Index := 4 }] ∧ b'.w = 8) ∧
    (∃ line e b', readSlice twoFileEnv 18 newline twoFileReader = .ok (line, e, b') ∧
      TableInv b') := by
  have hinv : TableInv twoFileReader :=
    ⟨⟨by decide, by decide⟩, List.Pairwise.nil, fun v hv => absurd hv (List.not_mem_nil _)⟩
  have h := fill_readSlice_keep_TableInv twoFileEnv twoFileSource_counts twoFileReader hinv
  refine ⟨hinv, ?_, h.2.2.2 18 newline (by decide)⟩
  obtain ⟨b', hf, hinv'⟩ := h.1 (by decide)
  have hval : fill twoFileEnv twoFileReader = .ok
      { twoFileReader with
        buf := bytesOf "aaa\nbbb\n" ++ List.replicate 8 0
        rd := { first := [], second := [], last := [{ Source := "a.log", Index := 4 }] }
        w := 8
        lastRdSource := [{ Source := "a.log", Index := 4 }]
        latestSource := "b.log" } := rfl
  rw [hval] at hf
  simp only [Except.ok.injEq] at hf
  subst hf
  exact ⟨_, hval, hinv', rfl, rfl⟩

end table

end reader

namespace sql

section decimal

theorem digitChar_digit (n : Nat) (h : n < 10) :
    '0' ≤ Nat.digitChar n ∧ Nat.digitChar n ≤ '9' ∧
      (Nat.digitChar n).toNat - '0'.toNat = n := by
  interval_cases n <;> decide

/-- Reading back the digits that `Nat.toDigits` writes in front of `ds`. -/
theorem digitsValue_toDigitsCore : ∀ (fuel n : Nat) (ds : Str), n < fuel →
    digitsValue (Nat.toDigitsCore 10 fuel n ds) 0 = digitsValue ds n := by
  intro fuel
  induction fuel with
  | zero => intro n ds h; omega
  | succ fuel ih =>
    intro n ds h
    obtain ⟨h1, h2, h3⟩ := digitChar_digit (n % 10) (Nat.mod_lt _ (by decide))
    have hstep : digitsValue (Nat.digitChar (n % 10) :: ds) (n / 10) = digitsValue ds n := by
      simp only [digitsValue, h1, h2, and_self, if_true, h3]
      congr 1
      omega
    simp only [Nat.toDigitsCore]
    by_cases hq : n / 10 = 0
    · rw [if_pos hq]
      have hn : n % 10 = n := by omega
      rw [← hstep, hq]
    · rw [if_neg hq, ih (n / 10) _ (by omega), hstep]

theorem digitsValue_toDigits (n : Nat) : digitsValue (Nat.toDigits 10 n) 0 = some n := by
  unfold Nat.toDigits
  rw [digitsValue_toDigitsCore (n + 1) n [] (by omega)]
  rfl

/-- Every character that `Nat.toDigits` writes is a decimal digit. -/
theorem toDigitsCore_digits : ∀ (fuel n : Nat) (ds : Str),
    ∀ c ∈ Nat.toDigitsCore 10 fuel n ds, c ∈ ds ∨ ('0' ≤ c ∧ c ≤ '9') := by
  intro fuel
  induction fuel with
  | zero => intro n ds c hc; exact Or.inl hc
  | succ fuel ih =>
    intro n ds c hc
    obtain ⟨h1, h2, _⟩ := digitChar_digit (n % 10) (Nat.mod_lt _ (by decide))
    simp only [Nat.toDigitsCore] at hc
    by_cases hq : n / 10 = 0
    · rw [if_pos hq] at hc
      rcases List.mem_cons.1 hc with h | h
      · exact Or.inr (h ▸ ⟨h1, h2⟩)
      · exact Or.inl h
    · rw [if_neg hq] at hc
      rcases ih _ _ c hc with h | h
      · rcases List.mem_cons.1 h with h0 | h0
        · exact Or.inr (h0 ▸ ⟨h1, h2⟩)
        · exact Or.inl h0
      · exact Or.inr h

theorem toDigits_digits (n : Nat) : ∀ c ∈ Nat.toDigits 10 n, '0' ≤ c ∧ c ≤ '9' := by
  intro c hc
  rcases toDigitsCore_digits (n + 1) n [] c hc with h | h
  · exact absurd h (List.not_mem_nil _)
  · exact h

theorem toDigits_ne_nil (n : Nat) : Nat.toDigits 10 n ≠ [] := by
  intro h
  have := digitsValue_toDigits n
  rw [h] at this
  have h0 : digitsValue [] 0 = some 0 := rfl
  rw [h0] at this
  have hn : n = 0 := by
    simp only [Option.some.injEq] at this
    exact this.symm
  subst hn
  exact absurd h (by decide)

/-- The text `fmt.Sprintf("%d", n)` has no `#`. -/
theorem fmtD_chars (n : Int) : ∀ c ∈ fmtD n, c = '-' ∨ ('0' ≤ c ∧ c ≤ '9') := by
  intro c hc
  unfold fmtD at hc
  split at hc
  · rcases List.mem_cons.1 hc with h | h
    · exact Or.inl h
    · exact Or.inr (toDigits_digits _ c h)
  · exact Or.inr (toDigits_digits _ c hc)

/-- The call `strconv.ParseInt` reads back the decimal text of an `int64`. -/
theorem ParseInt_fmtD (n : Int) (h1 : -(2 ^ 63) ≤ n) (h2 : n < 2 ^ 63) :
    ParseInt (fmtD n) = (n, none) := by
  unfold fmtD
  by_cases hneg : n < 0
  · rw [if_pos hneg]
    have hne := toDigits_ne_nil n.natAbs
    have hlt : ¬ (n.natAbs > 2 ^ 63) := by omega
    simp only [ParseInt, hne, if_false, digitsValue_toDigits, true_and, Bool.false_eq_true,
      false_and, hlt]
    simp only [not_true_eq_false, false_and, if_false, if_true, Prod.mk.injEq, and_true]
    omega
  · rw [if_neg hneg]
    have hne := toDigits_ne_nil n.toNat
    have hdig := toDigits_digits n.toNat
    cases hd : Nat.toDigits 10 n.toNat with
    | nil => exact absurd hd hne
    | cons c rest =>
      have hc := hdig c (by rw [hd]; exact List.mem_cons_self _ _)
      have hplus : c ≠ '+' := by
        intro h; rw [h] at hc; exact absurd hc.1 (by decide)
      have hminus : c ≠ '-' := by
        intro h; rw [h] at hc; exact absurd hc.1 (by decide)
      have hval := digitsValue_toDigits n.toNat
      rw [hd] at hval
      have hlt : ¬ (n.toNat ≥ 2 ^ 63) := by omega
      unfold ParseInt
      split
      rename_i neg digits heq
      have hpair : (false, c :: rest) = (neg, digits) := by
        split at heq
        · rename_i h0
          exact absurd (List.cons.inj h0).1 hplus
        · rename_i h0
          exact absurd (List.cons.inj h0).1 hminus
        · exact heq
      obtain ⟨hn, hds⟩ := Prod.mk.inj hpair
      subst hn
      subst hds
      simp only [List.cons_ne_nil, if_false, hval, Bool.false_eq_true, false_and,
        not_false_eq_true, true_and, hlt, Prod.mk.injEq, and_true]
      omega

end decimal

section scanned

/-- C30, at a byte slice of eight digits: for the scanned text `12345678`, `convertLong`
returns the big-endian value `0x3132333435363738` of the eight bytes with a nil error,
where parsing the text that `convertString` returns gives `12345678`. -/
theorem convertLong_eight_bytes_binary :
    bytesToString eightDigits = FormatInt 12345678 ∧
    convertLong (.toInterface (.bytes eightDigits)) = (3544952156018063160, none) ∧
    ParseInt (convertString (.toInterface (.bytes eightDigits))).1 = (12345678, none) := by
  decide

/-- C30, for a byte slice whose length is not 8: `convertLong` agrees with parsing, as a
decimal integer, the text that `convertString` returns for the same value; when the
slice holds the decimal text of the 64-bit signed integer `n`, `convertLong` returns `n`
with a nil error. -/
theorem convertLong_bytes_decimal (b : List Byte) (hlen : b.length ≠ 8) :
    convertLong (.toInterface (.bytes b))
      = ParseInt (convertString (.toInterface (.bytes b))).1 ∧
    (convertString (.toInterface (.bytes b))).2 = none ∧
    ∀ n : Int, -(2 ^ 63) ≤ n → n < 2 ^ 63 → bytesToString b = FormatInt n →
      convertLong (.toInterface (.bytes b)) = (n, none) := by
  have h : convertLong (.toInterface (.bytes b)) = ParseInt (bytesToString b) := by
    simp only [convertLong, if_neg hlen]
  refine ⟨h, rfl, fun n h1 h2 hb => ?_⟩
  rw [h, hb]
  exact ParseInt_fmtD n h1 h2

theorem convertLong_bytes_decimal_witness :
    convertLong (.toInterface (.bytes (bytesOf "-123"))) = (-123, none) :=
  (convertLong_bytes_decimal (bytesOf "-123") (by decide)).2.2 (-123) (by decide) (by decide)
    (by decide)

end scanned

section roundtrip

theorem Index_single_cons (a c : Char) (s : Str) :
    Index (c :: s) [a] = if a = c then some 0 else (Index s [a]).map (fun i => i + 1) := by
  rw [Index_cons]
  by_cases h : a = c
  · subst h
    simp [List.isPrefixOf]
  · have hpre : List.isPrefixOf [a] (c :: s) = false := by
      simp only [List.isPrefixOf, Bool.and_true, beq_eq_false_iff_ne, ne_eq]
      exact h
    rw [hpre, if_neg h]
    rfl

/-- Where `strings.Index` finds a one-character string: the character stands at that
position and not before it. -/
theorem Index_single_some (a : Char) : ∀ (s : Str) (m : Nat), Index s [a] = some m →
    a ∉ s.take m ∧ s.drop m = a :: s.drop (m + 1) := by
  intro s
  induction s with
  | nil =>
    intro m h
    exact absurd h (by simp [Index])
  | cons c s ih =>
    intro m h
    rw [Index_single_cons] at h
    by_cases hc : a = c
    · rw [if_pos hc] at h
      simp only [Option.some.injEq] at h
      subst h
      subst hc
      exact ⟨by simp, rfl⟩
    · rw [if_neg hc] at h
      cases hi : Index s [a] with
      | none => rw [hi] at h; exact absurd h (by simp)
      | some k =>
        rw [hi] at h
        simp only [Option.map_some', Option.some.injEq] at h
        subst h
        obtain ⟨h1, h2⟩ := ih k hi
        refine ⟨?_, ?_⟩
        · rw [List.take_succ_cons]
          intro hmem
          rcases List.mem_cons.1 hmem with h0 | h0
          · exact hc h0
          · exact h1 h0
        · rw [List.drop_succ_cons, List.drop_succ_cons]
          exact h2

theorem not_mem_of_Index_single_none (a : Char) : ∀ (s : Str), Index s [a] = none → a ∉ s := by
  intro s
  induction s with
  | nil => intro _; exact List.not_mem_nil _
  | cons c s ih =>
    intro h
    rw [Index_single_cons] at h
    by_cases hc : a = c
    · rw [if_pos hc] at h
      exact absurd h (by simp)
    · rw [if_neg hc] at h
      have hs : Index s [a] = none := by
        cases hi : Index s [a] with
        | none => rfl
        | some k => rw [hi] at h; exact absurd h (by simp)
      intro hmem
      rcases List.mem_cons.1 hmem with h0 | h0
      · exact hc h0
      · exact ih hs h0

theorem map_replace_of_not_mem (a b : Char) : ∀ (s : Str), a ∉ s →
    s.map (fun c => if c = a then b else c) = s := by
  intro s
  induction s with
  | nil => intro _; rfl
  | cons c s ih =>
    intro h
    have hc : ¬ c = a := fun e => h (e ▸ List.mem_cons_self _ _)
    have hs : a ∉ s := fun e => h (List.mem_cons_of_mem _ e)
    rw [List.map_cons, if_neg hc, ih hs]

/-- The call `strings.Replace(s, old, new, -1)` with one-character strings replaces
every `old` character by the `new` one. -/
theorem replaceLoop_single (a b : Char) : ∀ (n : Nat) (s : Str), s.length ≤ n →
    replaceLoop [a] [b] n s = s.map (fun c => if c = a then b else c) := by
  intro n
  induction n with
  | zero =>
    intro s h
    have : s = [] := List.length_eq_zero.1 (by omega)
    subst this
    rfl
  | succ n ih =>
    intro s h
    cases hi : Index s [a] with
    | none =>
      simp only [replaceLoop, hi]
      exact (map_replace_of_not_mem a b s (not_mem_of_Index_single_none a s hi)).symm
    | some m =>
      obtain ⟨h1, h2⟩ := Index_single_some a s m hi
      have hsplit : s = s.take m ++ a :: s.drop (m + 1) := by
        conv_lhs => rw [← List.take_append_drop m s, h2]
      have hlt : m < s.length := by
        by_contra hge
        have : s.drop m = [] := List.drop_of_length_le (by omega)
        rw [this] at h2
        exact absurd h2 (by simp)
      simp only [replaceLoop, hi, List.length_singleton]
      rw [ih (s.drop (m + 1)) (by rw [List.length_drop]; omega)]
      conv_rhs => rw [hsplit]
      rw [List.map_append, List.map_cons, if_pos rfl, map_replace_of_not_mem a b _ h1]
      simp

theorem Replace_single (a b : Char) (s : Str) :
    Replace s [a] [b] = s.map (fun c => if c = a then b else c) := by
  unfold Replace
  rw [if_neg (by simp)]
  exact replaceLoop_single a b s.length s (le_refl _)

theorem hash_prefix_iff (l : Str) :
    List.isPrefixOf "##".toList l = true ↔ ∃ t, l = '#' :: '#' :: t := by
  have hsep : "##".toList = ['#', '#'] := rfl
  rw [hsep]
  cases l with
  | nil => simp [List.isPrefixOf]
  | cons x l =>
    cases l with
    | nil => simp [List.isPrefixOf]
    | cons y t =>
      simp only [List.isPrefixOf, Bool.and_true, Bool.and_eq_true, beq_iff_eq, List.cons.injEq,
        exists_eq_right_right']
      constructor
      · rintro ⟨h1, h2⟩; exact ⟨h1.symm, h2.symm⟩
      · rintro ⟨h1, h2⟩; exact ⟨h1.symm, h2.symm⟩

theorem Index_hash_none_cons (c : Char) (s : Str) (h : Index (c :: s) "##".toList = none) :
    List.isPrefixOf "##".toList (c :: s) = false ∧ Index s "##".toList = none := by
  rw [Index_cons] at h
  cases hp : List.isPrefixOf "##".toList (c :: s) with
  | true => rw [hp, if_pos rfl] at h; exact absurd h (by simp)
  | false =>
    rw [hp] at h
    simp only [Bool.false_eq_true, if_false, Option.map_eq_none'] at h
    exact ⟨rfl, h⟩

/-- The first `##` of a string `p ## rest`, where `p` holds no `##` and does not end in
`#`, is the one behind `p`. -/
theorem Index_hash_join : ∀ (p rest : Str), Index p "##".toList = none →
    p.getLast? ≠ some '#' →
    Index (p ++ '#' :: '#' :: rest) "##".toList = some p.length := by
  intro p
  induction p with
  | nil =>
    intro rest _ _
    rw [List.nil_append, Index_cons, if_pos ((hash_prefix_iff _).2 ⟨rest, rfl⟩)]
    rfl
  | cons a p ih =>
    intro rest hno hlast
    obtain ⟨hpre, hrest⟩ := Index_hash_none_cons a p hno
    have hlast1 : p.getLast? ≠ some '#' := by
      cases p with
      | nil => simp
      | cons b q => rw [List.getLast?_cons_cons] at hlast; exact hlast
    have hpre1 : List.isPrefixOf "##".toList (a :: (p ++ '#' :: '#' :: rest)) = false := by
      cases hq : List.isPrefixOf "##".toList (a :: (p ++ '#' :: '#' :: rest)) with
      | false => rfl
      | true =>
        obtain ⟨t, ht⟩ := (hash_prefix_iff _).1 hq
        cases p with
        | nil =>
          simp only [List.nil_append, List.cons.injEq] at ht
          rw [ht.1] at hlast
          exact absurd rfl hlast
        | cons b q =>
          simp only [List.cons_append, List.cons.injEq] at ht
          have : List.isPrefixOf "##".toList (a :: b :: q) = true :=
            (hash_prefix_iff _).2 ⟨q, by rw [ht.1, ht.2.1]⟩
          rw [this] at hpre
          exact absurd hpre (by simp)
    rw [List.cons_append, Index_cons, hpre1, ih rest hrest hlast1]
    rfl

theorem Index_hash_map (f : Char → Char) (hf : ∀ c, f c = '#' ↔ c = '#') :
    ∀ (s : Str), Index (s.map f) "##".toList = Index s "##".toList := by
  intro s
  induction s with
  | nil => rfl
  | cons c s ih =>
    have hp : List.isPrefixOf "##".toList ((c :: s).map f)
        = List.isPrefixOf "##".toList (c :: s) := by
      rw [Bool.eq_iff_iff, hash_prefix_iff, hash_prefix_iff]
      constructor
      · rintro ⟨t, ht⟩
        cases s with
        | nil => simp at ht
        | cons d q =>
          simp only [List.map_cons, List.cons.injEq] at ht
          exact ⟨q, by rw [(hf c).1 ht.1, (hf d).1 ht.2.1]⟩
      · rintro ⟨t, ht⟩
        rw [ht]
        exact ⟨t.map f, by simp [(hf '#').2 rfl]⟩
    rw [List.map_cons, Index_cons, Index_cons, ih, ← List.map_cons, hp]

/-- The statements that the encoding of `SyncMeta` keeps apart: no `##` inside and no
`#` at the end; the encoded statement is of this kind too. -/
theorem encoded_piece (sql : Str) (h1 : Contains sql sqlOffsetConnector = false)
    (h2 : sql.getLast? ≠ some '#') :
    Index (Replace sql " ".toList "@".toList) "##".toList = none ∧
    (Replace sql " ".toList "@".toList).getLast? ≠ some '#' := by
  have hrep : Replace sql " ".toList "@".toList
      = sql.map (fun c => if c = ' ' then '@' else c) := Replace_single ' ' '@' sql
  have hf : ∀ c : Char, (if c = ' ' then '@' else c) = '#' ↔ c = '#' := by
    intro c
    by_cases hc : c = ' '
    · rw [if_pos hc, hc]; decide
    · rw [if_neg hc]
  have hno : Index sql "##".toList = none := by
    unfold Contains sqlOffsetConnector at h1
    cases hi : Index sql "##".toList with
    | none => rfl
    | some m => rw [hi] at h1; exact absurd h1 (by simp)
  rw [hrep]
  refine ⟨by rw [Index_hash_map _ hf]; exact hno, ?_⟩
  rw [List.getLast?_map]
  intro h
  cases hl : sql.getLast? with
  | none => rw [hl] at h; exact absurd h (by simp)
  | some c =>
    rw [hl] at h
    simp only [Option.map_some', Option.some.injEq] at h
    rw [(hf c).1 h] at hl
    exact h2 hl

/-- The decimal text of an offset holds no `#`. -/
theorem offset_piece (n : Int) :
    Index (FormatInt n) "##".toList = none ∧ (FormatInt n).getLast? ≠ some '#' := by
  have hchars := fmtD_chars n
  have hnot : '#' ∉ FormatInt n := by
    intro h
    rcases hchars '#' h with h0 | h0
    · exact absurd h0 (by decide)
    · exact absurd h0.1 (by decide)
  refine ⟨?_, fun h => hnot (List.mem_of_getLast?_eq_some h)⟩
  generalize FormatInt n = s at hnot
  induction s with
  | nil => rfl
  | cons c s ih =>
    have hc : ¬ c = '#' := fun e => hnot (e ▸ List.mem_cons_self _ _)
    have hs : '#' ∉ s := fun e => hnot (List.mem_cons_of_mem _ e)
    have hp : List.isPrefixOf "##".toList (c :: s) = false := by
      cases hq : List.isPrefixOf "##".toList (c :: s) with
      | false => rfl
      | true =>
        obtain ⟨t, ht⟩ := (hash_prefix_iff _).1 hq
        exact absurd (List.cons.inj ht).1 hc
    rw [Index_cons, hp, ih hs]
    rfl

theorem Join_length (sep : Str) : ∀ (ps : List Str),
    (ps.length - 1) * sep.length ≤ (Join ps sep).length := by
  intro ps
  induction ps with
  | nil => simp [Join]
  | cons p ps ih =>
    cases ps with
    | nil => simp [Join]
    | cons q qs =>
      simp only [Join, List.length_append, List.length_cons] at ih ⊢
      simp only [Nat.add_sub_cancel] at ih ⊢
      rw [Nat.add_mul]
      omega

/-- The call `strings.Split` takes apart what `strings.Join` put together with `##`, when
no piece holds `##` or ends in `#`. -/
theorem splitLoop_Join : ∀ (ps : List Str), ps ≠ [] →
    (∀ p ∈ ps, Index p "##".toList = none ∧ p.getLast? ≠ some '#') →
    ∀ n, ps.length ≤ n + 1 → splitLoop "##".toList n (Join ps "##".toList) = ps := by
  intro ps
  induction ps with
  | nil => intro h; exact absurd rfl h
  | cons p ps ih =>
    intro _ hall n hn
    cases ps with
    | nil =>
      exact splitLoop_of_none _ n p (hall p (List.mem_cons_self _ _)).1
    | cons q qs =>
      obtain ⟨hp1, hp2⟩ := hall p (List.mem_cons_self _ _)
      have hidx : Index (Join (p :: q :: qs) "##".toList) "##".toList = some p.length := by
        have hj : Join (p :: q :: qs) "##".toList
            = p ++ '#' :: '#' :: Join (q :: qs) "##".toList := by
          simp [Join]
        rw [hj]
        exact Index_hash_join p _ hp1 hp2
      cases n with
      | zero => simp only [List.length_cons] at hn; omega
      | succ n =>
        rw [splitLoop_succ _ n _ _ hidx]
        have htake : (Join (p :: q :: qs) "##".toList).take p.length = p := by
          simp [Join]
        have hdrop : (Join (p :: q :: qs) "##".toList).drop (p.length + "##".toList.length)
            = Join (q :: qs) "##".toList := by
          have hj : Join (p :: q :: qs) "##".toList
              = (p ++ "##".toList) ++ Join (q :: qs) "##".toList := by
            simp [Join]
          rw [hj, ← List.length_append, List.drop_left]
        rw [htake, hdrop, ih (List.cons_ne_nil _ _)
          (fun x hx => hall x (List.mem_cons_of_mem _ hx)) n
          (by simp only [List.length_cons] at hn ⊢; omega)]

/-- C28, at a statement that ends in `#`: the statement `select 1 #` holds no `##`;
with the offset 5, `SyncMeta` writes `select@1@###5` with count 1, which `restoreMeta`
splits into `select@1@` and `#5`, so the restored offset is 0 and not 5. -/
theorem restoreMeta_loses_offset_after_hash :
    Contains commentSql sqlOffsetConnector = false ∧
    updateSqls commentSql sampleTime = .ok [commentSql] ∧
    SyncMeta [commentSql] [5] = ("select@1@###5".toList, 1) ∧
    restoreMeta ((SyncMeta [commentSql] [5]).1, (SyncMeta [commentSql] [5]).2, none)
        commentSql sampleTime
      = .ok ([0], [commentSql], false, [0]) := by
  refine ⟨by decide, rfl, by decide, rfl⟩

/-- C28, for statements that hold no `##` and do not end in `#`: for a non-empty list of
templated SQL statements and a list of `int64` offsets of the same length, what
`SyncMeta` writes (each statement with spaces replaced by `@`, then the decimal
offsets, joined by `##`, with the number of statements as count) is decoded by
`restoreMeta`, given the same statements, to exactly the same offsets with
`omitMeta = false`. -/
theorem SyncMeta_restoreMeta (sqls : List Str) (offsets : List Int) (rawSqls : Str)
    (now : Time) (hne : sqls ≠ []) (hsqls : updateSqls rawSqls now = .ok sqls)
    (hlen : offsets.length = sqls.length) (hsmall : sqls.length < 2 ^ 62)
    (hhash : ∀ sql ∈ sqls, Contains sql sqlOffsetConnector = false ∧ sql.getLast? ≠ some '#')
    (hrange : ∀ o ∈ offsets, -(2 ^ 63) ≤ o ∧ o < 2 ^ 63) :
    ∃ logged,
      restoreMeta ((SyncMeta sqls offsets).1, (SyncMeta sqls offsets).2, none) rawSqls now
        = .ok (offsets, sqls, false, logged) := by
  have hpieces : ∀ p ∈ sqls.map (fun sql => Replace sql " ".toList "@".toList)
      ++ offsets.map FormatInt, Index p "##".toList = none ∧ p.getLast? ≠ some '#' := by
    intro p hp
    rcases List.mem_append.1 hp with h | h
    · obtain ⟨sql, hsql, rfl⟩ := List.mem_map.1 h
      exact encoded_piece sql (hhash sql hsql).1 (hhash sql hsql).2
    · obtain ⟨o, _, rfl⟩ := List.mem_map.1 h
      exact offset_piece o
  have hk : (sqls.map (fun sql => Replace sql " ".toList "@".toList)
      ++ offsets.map FormatInt).length = 2 * sqls.length := by
    simp only [List.length_append, List.length_map, hlen]
    omega
  have hpos : 0 < sqls.length := List.length_pos.2 hne
  have hsplit : Split (SyncMeta sqls offsets).1 sqlOffsetConnector
      = sqls.map (fun sql => Replace sql " ".toList "@".toList) ++ offsets.map FormatInt := by
    have hsep : sqlOffsetConnector = "##".toList := rfl
    have hsepne : ¬ "##".toList = [] := by decide
    simp only [Split, SyncMeta, hsep, if_neg hsepne]
    apply splitLoop_Join _ _ hpieces
    · have hjl := Join_length "##".toList (sqls.map (fun sql => Replace sql " ".toList "@".toList)
        ++ offsets.map FormatInt)
      rw [hk] at hjl ⊢
      have h2 : "##".toList.length = 2 := rfl
      rw [h2] at hjl
      omega
    · intro h
      rw [h] at hk
      simp only [List.length_nil] at hk
      omega
  have hcount : (SyncMeta sqls offsets).2 = (sqls.length : Int) := rfl
  have hwrap : wrapInt64 (2 * (sqls.length : Int)) = 2 * (sqls.length : Int) :=
    wrapInt64_of_range _ (by omega) (by omega)
  obtain ⟨res, logged, hrun, hrlen, _, _, hslots⟩ :=
    restoreLoop_slots (sqls.map (fun sql => Replace sql " ".toList "@".toList)
      ++ offsets.map FormatInt) sqls.length hk sqls 0
      (List.replicate sqls.length 0) [] (by omega) (List.length_replicate _ _)
  have hres : res = offsets := by
    apply List.ext_getElem?
    intro i
    by_cases hi : i < sqls.length
    · rw [hslots i (Nat.zero_le _) (by omega),
        List.getElem?_append_right (by rw [List.length_map]; omega), List.length_map,
        Nat.add_sub_cancel, List.getElem?_map]
      have hio : i < offsets.length := by omega
      rw [List.getElem?_eq_getElem hio]
      simp only [Option.map_some', Option.some.injEq]
      have hr := hrange offsets[i] (List.getElem_mem _)
      show (ParseInt (fmtD offsets[i])).1 = offsets[i]
      rw [ParseInt_fmtD _ hr.1 hr.2]
    · rw [List.getElem?_eq_none (by omega), List.getElem?_eq_none (by omega)]
  refine ⟨logged, ?_⟩
  have hcond : ¬ (((sqls.map (fun sql => Replace sql " ".toList "@".toList)
        ++ offsets.map FormatInt).length : Int) ≠ wrapInt64 (2 * (sqls.length : Int)) ∨
      (sqls.length : Int) ≠ (sqls.length : Int)) := by
    rw [hwrap, hk]
    rintro (h | h)
    · exact h (by push_cast; rfl)
    · exact h rfl
  rw [hres] at hrun
  simp only [restoreMeta, hsqls, bind, Except.bind, Option.isSome_none, Bool.false_eq_true,
    if_false, hsplit, hcount, if_neg hcond, Int.toNat_ofNat, hrun]

theorem SyncMeta_restoreMeta_witness :
    ∃ logged,
      restoreMeta ((SyncMeta ["select 1".toList, "select #2".toList] [5, -7]).1,
          (SyncMeta ["select 1".toList, "select #2".toList] [5, -7]).2, none)
          "select 1;select #2".toList sampleTime
        = .ok ([5, -7], ["select 1".toList, "select #2".toList], false, logged) :=
  SyncMeta_restoreMeta ["select 1".toList, "select #2".toList] [5, -7]
    "select 1;select #2".toList sampleTime (by decide) rfl rfl (by decide) (by decide)
    (by decide)

end roundtrip

end sql

namespace sql

section validator

/-- The function `convertMagicIndex` on a year of at least two digits: for one of its
seven names it returns the text that `convertMagic` returns and an index that is not
`-1`, at every such time; for every other name it returns the index `-1`. -/
theorem convertMagicIndex_cases (m : Str) (now : Time) (hy : 2 ≤ (fmtD now.Year).length) :
    (∃ r idx, convertMagicIndex m now = .ok (r, idx) ∧ idx ≠ -1 ∧
      convertMagic m now = .ok r ∧
      ∀ t : Time, 2 ≤ (fmtD t.Year).length →
        ∃ r1 idx1, convertMagicIndex m t = .ok (r1, idx1) ∧ idx1 ≠ -1) ∨
    (∀ t : Time, convertMagicIndex m t = .ok ([], -1)) := by
  by_cases h1 : m = "YYYY".toList
  · subst h1
    exact Or.inl ⟨_, _, rfl, by decide, rfl, fun t _ => ⟨_, _, rfl, by decide⟩⟩
  by_cases h2 : m = "YY".toList
  · subst h2
    have hidx : ∀ t : Time, 2 ≤ (fmtD t.Year).length →
        convertMagicIndex "YY".toList t = .ok ((fmtD t.Year).drop 2, YEAR) := by
      intro t ht
      rw [convertMagicIndex, if_neg (by decide), if_pos rfl, if_pos ht]
    have hmag : convertMagic "YY".toList now = .ok ((fmtD now.Year).drop 2) := by
      rw [convertMagic, if_neg (by decide), if_pos rfl, if_pos hy]
    exact Or.inl ⟨_, _, hidx now hy, by decide, hmag, fun t ht => ⟨_, _, hidx t ht, by decide⟩⟩
  by_cases h3 : m = "MM".toList
  · subst h3
    exact Or.inl ⟨_, _, rfl, by decide, rfl, fun t _ => ⟨_, _, rfl, by decide⟩⟩
  by_cases h4 : m = "DD".toList
  · subst h4
    exact Or.inl ⟨_, _, rfl, by decide, rfl, fun t _ => ⟨_, _, rfl, by decide⟩⟩
  by_cases h5 : m = "hh".toList
  · subst h5
    exact Or.inl ⟨_, _, rfl, by decide, rfl, fun t _ => ⟨_, _, rfl, by decide⟩⟩
  by_cases h6 : m = "mm".toList
  · subst h6
    exact Or.inl ⟨_, _, rfl, by decide, rfl, fun t _ => ⟨_, _, rfl, by decide⟩⟩
  by_cases h7 : m = "ss".toList
  · subst h7
    exact Or.inl ⟨_, _, rfl, by decide, rfl, fun t _ => ⟨_, _, rfl, by decide⟩⟩
  refine Or.inr (fun t => ?_)
  rw [convertMagicIndex, if_neg h1, if_neg h2, if_neg h3, if_neg h4, if_neg h5, if_neg h6,
    if_neg h7]

/-- The loops of `goMagicIndex`, `checkMagic` and `goMagic` over the same pieces: the
validator accepts exactly when the renderer returns no error, and then the rendered
text is the one of `goMagic`. -/
theorem goMagicIndexLoop_agrees (rawSql : Str) (now timeNow : Time)
    (hy : 2 ≤ (fmtD now.Year).length) (hy1 : 2 ≤ (fmtD timeNow.Year).length) :
    ∀ (rest : List Str) (magicRes : MagicRes) (recordIndex : Int),
      ∃ res err valid,
        goMagicIndexLoop rawSql now rest magicRes recordIndex = .ok (res, err) ∧
        checkMagicLoop timeNow rest = .ok valid ∧
        (valid = true ↔ err = none) ∧
        (err = none → goMagicLoop rawSql now rest magicRes.ret = .ok res.ret) := by
  intro rest
  induction rest with
  | nil =>
    intro magicRes recordIndex
    exact ⟨magicRes, none, true, rfl, rfl, by simp, fun _ => rfl⟩
  | cons sp rest ih =>
    intro magicRes recordIndex
    cases hidx : Index sp ")".toList with
    | none =>
      refine ⟨{ magicRes with ret := rawSql }, none, true, ?_, ?_, by simp, fun _ => ?_⟩
      · simp only [goMagicIndexLoop, hidx]
      · simp only [checkMagicLoop, hidx]
      · simp only [goMagicLoop, hidx]
    | some idxr =>
      by_cases hlen : len (sp.take idxr) < 2
      · refine ⟨{ magicRes with ret := rawSql }, some (.other SupportReminder), false,
          ?_, ?_, by simp, fun h => absurd h (by simp)⟩
        · simp only [goMagicIndexLoop, hidx, hlen, if_true]
        · simp only [checkMagicLoop, hidx, hlen, if_true]
      · rcases convertMagicIndex_cases (sp.take idxr) now hy with
          ⟨r, idx, hconv, hne, hmag, hall⟩ | hunknown
        · obtain ⟨r1, idx1, hconv1, hne1⟩ := hall timeNow hy1
          have hcheck : checkMagicLoop timeNow (sp :: rest) = checkMagicLoop timeNow rest := by
            simp only [checkMagicLoop, hidx, hlen, if_false, hconv1, bind, Except.bind, hne1]
          by_cases hrem : idxr + 1 < sp.length
          · by_cases hw : sp.drop (idxr + 1) = Wildcards
            · obtain ⟨res, err, valid, h1, h2, h3, h4⟩ := ih
                { magicRes with
                  timeStart := magicRes.timeStart.set idx.toNat recordIndex
                  timeEnd := magicRes.timeEnd.set idx.toNat
                    (len (magicRes.ret ++ r) : Int)
                  ret := magicRes.ret ++ r ++ sp.drop (idxr + 1) }
                (len (magicRes.ret ++ r ++ sp.drop (idxr + 1)) : Int)
              refine ⟨res, err, valid, ?_, hcheck.trans h2, h3, fun he => ?_⟩
              · simp only [goMagicIndexLoop, hidx, hlen, if_false, hconv, bind, Except.bind,
                  hne, hrem, if_true, hw]
                simp only [hw] at h1
                exact h1
              · simp only [goMagicLoop, hidx, hmag, bind, Except.bind, hrem, if_true]
                exact h4 he
            · obtain ⟨res, err, valid, h1, h2, h3, h4⟩ := ih
                { magicRes with
                  timeStart := magicRes.timeStart.set idx.toNat recordIndex
                  timeEnd := magicRes.timeEnd.set idx.toNat
                    (len (magicRes.ret ++ r) : Int)
                  remainIndex := magicRes.remainIndex ++
                    [(len (magicRes.ret ++ r) : Int),
                      removeWildcards (sp.drop (idxr + 1))
                        (len (magicRes.ret ++ r ++ sp.drop (idxr + 1)) : Int)]
                  ret := magicRes.ret ++ r ++ sp.drop (idxr + 1) }
                (len (magicRes.ret ++ r ++ sp.drop (idxr + 1)) : Int)
              refine ⟨res, err, valid, ?_, hcheck.trans h2, h3, fun he => ?_⟩
              · simp only [goMagicIndexLoop, hidx, hlen, if_false, hconv, bind, Except.bind,
                  hne, hrem, if_true, hw]
                exact h1
              · simp only [goMagicLoop, hidx, hmag, bind, Except.bind, hrem, if_true]
                exact h4 he
          · obtain ⟨res, err, valid, h1, h2, h3, h4⟩ := ih
              { magicRes with
                timeStart := magicRes.timeStart.set idx.toNat recordIndex
                timeEnd := magicRes.timeEnd.set idx.toNat (len (magicRes.ret ++ r) : Int)
                ret := magicRes.ret ++ r }
              (len (magicRes.ret ++ r) : Int)
            refine ⟨res, err, valid, ?_, hcheck.trans h2, h3, fun he => ?_⟩
            · simp only [goMagicIndexLoop, hidx, hlen, if_false, hconv, bind, Except.bind,
                hne, hrem]
              exact h1
            · simp only [goMagicLoop, hidx, hmag, bind, Except.bind, hrem, if_false]
              exact h4 he
        · refine ⟨{ magicRes with ret := rawSql }, some (.other SupportReminder), false,
            ?_, ?_, by simp, fun h => absurd h (by simp)⟩
          · simp only [goMagicIndexLoop, hidx, hlen, if_false, hunknown now, bind, Except.bind,
              if_true]
          · simp only [checkMagicLoop, hidx, hlen, if_false, hunknown timeNow, bind,
              Except.bind, if_true]

/-- C29. For every string `s` and all times whose year has at least two digits (so for
every year of four digits), the validator and the renderer agree: `checkMagic(s)` is
true if and only if `goMagicIndex(s, now)` returns a nil error, and whenever that error
is nil the rendered text `goMagicIndex(s, now).ret` equals `goMagic(s, now)`; all three
functions return. Here `timeNow` is the `time.Now()` that `checkMagic` reads. -/
theorem checkMagic_iff_goMagicIndex (s : Str) (now timeNow : Time)
    (hy : 2 ≤ (fmtD now.Year).length) (hy1 : 2 ≤ (fmtD timeNow.Year).length) :
    ∃ res err valid,
      goMagicIndex s now = .ok (res, err) ∧ checkMagic s timeNow = .ok valid ∧
      (valid = true ↔ err = none) ∧
      (err = none → goMagic s now = .ok res.ret) := by
  cases hsp : Split s "@(".toList with
  | nil =>
    have hne : splitLoop "@(".toList s.length s ≠ [] := splitLoop_ne_nil _ _ _
    have hsplit : Split s "@(".toList = splitLoop "@(".toList s.length s := by
      unfold Split
      rw [if_neg (by decide)]
    rw [hsplit] at hsp
    exact absurd hsp hne
  | cons sp0 rest =>
    cases rest with
    | nil =>
      refine ⟨⟨[-1, -1, -1, -1, -1, -1], [0, 0, 0, 0, 0, 0],
        [0] ++ [removeWildcards sp0 (len sp0 : Int)], sp0⟩,
        none, true, ?_, ?_, by simp, fun _ => ?_⟩
      · simp only [goMagicIndex, hsp, List.length_singleton, Nat.one_lt_ofNat, if_true]
      · simp only [checkMagic, hsp, List.drop_succ_cons, List.drop_zero, checkMagicLoop]
      · simp only [goMagic, hsp, goMagicLoop]
    | cons sp1 rest =>
      obtain ⟨res, err, valid, h1, h2, h3, h4⟩ :=
        goMagicIndexLoop_agrees s now timeNow hy hy1 (sp1 :: rest)
          { timeStart := [-1, -1, -1, -1, -1, -1], timeEnd := [0, 0, 0, 0, 0, 0],
            remainIndex := [0] ++ [(len sp0 : Int)], ret := sp0 }
          (len sp0 : Int)
      refine ⟨res, err, valid, ?_, ?_, h3, fun he => ?_⟩
      · have hl : ¬ (sp0 :: sp1 :: rest).length < 2 := by
          simp only [List.length_cons]
          omega
        simp only [goMagicIndex, hsp, if_neg hl]
        exact h1
      · simp only [checkMagic, hsp, List.drop_succ_cons, List.drop_zero]
        exact h2
      · simp only [goMagic, hsp]
        exact h4 he

theorem checkMagic_iff_goMagicIndex_witness :
    ∃ res err valid,
      goMagicIndex "t_@(YYYY)@(MM)*".toList sampleTime = .ok (res, err) ∧
      checkMagic "t_@(YYYY)@(MM)*".toList sampleTime = .ok valid ∧
      (valid = true ↔ err = none) ∧
      (err = none → goMagic "t_@(YYYY)@(MM)*".toList sampleTime = .ok res.ret) :=
  checkMagic_iff_goMagicIndex "t_@(YYYY)@(MM)*".toList sampleTime sampleTime (by decide)
    (by decide)

end validator

end sql

namespace sql

section timeorder

theorem lex_cons_iff (a b : Nat) (l1 l2 : List Nat) :
    List.Lex (fun a b => a < b) (a :: l1) (b :: l2)
      ↔ a < b ∨ (a = b ∧ List.Lex (fun a b => a < b) l1 l2) := by
  constructor
  · intro h
    cases h with
    | cons h => exact Or.inr ⟨rfl, h⟩
    | rel h => exact Or.inl h
  · rintro (h | ⟨h1, h2⟩)
    · exact List.Lex.rel h
    · subst h1
      exact List.Lex.cons h2

/-- The lexicographic order on tuples of field values, one field at a time. -/
theorem LexLe_cons (a b : Nat) (l1 l2 : List Nat) :
    LexLe (a :: l1) (b :: l2) ↔ a < b ∨ (a = b ∧ LexLe l1 l2) := by
  unfold LexLe
  rw [lex_cons_iff, List.cons.injEq]
  constructor
  · rintro ((h | ⟨h1, h2⟩) | ⟨h1, h2⟩)
    · exact Or.inl h
    · exact Or.inr ⟨h1, Or.inl h2⟩
    · exact Or.inr ⟨h1, Or.inr h2⟩
  · rintro (h | ⟨h1, h2 | h2⟩)
    · exact Or.inl (Or.inl h)
    · exact Or.inl (Or.inr ⟨h1, h2⟩)
    · exact Or.inr ⟨h1, h2⟩

/-- The call `strconv.ParseInt` on a run of decimal digits whose value is below `2 ^ 63`
returns that value. -/
theorem ParseInt_digits (ds : Str) (v : Nat) (hne : ds ≠ [])
    (hv : digitsValue ds 0 = some v) (hlt : v < 2 ^ 63) : ParseInt ds = ((v : Int), none) := by
  cases ds with
  | nil => exact absurd rfl hne
  | cons c rest =>
    have hc : '0' ≤ c ∧ c ≤ '9' := by
      by_contra hnot
      simp only [digitsValue, if_neg hnot] at hv
      exact absurd hv (by simp)
    have hplus : c ≠ '+' := by
      intro h; rw [h] at hc; exact absurd hc.1 (by decide)
    have hminus : c ≠ '-' := by
      intro h; rw [h] at hc; exact absurd hc.1 (by decide)
    have hge : ¬ (v ≥ 2 ^ 63) := by omega
    unfold ParseInt
    split
    rename_i neg digits heq
    have hpair : (false, c :: rest) = (neg, digits) := by
      split at heq
      · rename_i h0
        exact absurd (List.cons.inj h0).1 hplus
      · rename_i h0
        exact absurd (List.cons.inj h0).1 hminus
      · exact heq
    obtain ⟨hn, hds⟩ := Prod.mk.inj hpair
    subst hn
    subst hds
    simp only [List.cons_ne_nil, if_false, hv, Bool.false_eq_true, false_and,
      not_false_eq_true, true_and, hge]

/-- One recorded field of `recordedFields`: what the definition asks of the string. -/
theorem recordedFields_cons (s : Str) (record e : Int) (timeStart timeEnd : List Int)
    (fs : List Nat) (hrec : record ≠ -1)
    (h : recordedFields s (record :: timeStart) (e :: timeEnd) = some fs) :
    ∃ v rest, fs = v :: rest ∧ 0 ≤ record ∧ record < e ∧ e ≤ (len s : Int) ∧
      digitsValue (bytesToString
        (((stringBytes s).drop record.toNat).take (e.toNat - record.toNat))) 0 = some v ∧
      v < 2 ^ 63 ∧ recordedFields s timeStart timeEnd = some rest := by
  simp only [recordedFields, if_neg hrec] at h
  split_ifs at h with hb
  cases hd : digitsValue (bytesToString
      (((stringBytes s).drop record.toNat).take (e.toNat - record.toNat))) 0 with
  | none => rw [hd] at h; exact absurd h (by simp)
  | some v =>
    rw [hd] at h
    simp only at h
    split_ifs at h with hv
    cases hr : recordedFields s timeStart timeEnd with
    | none => rw [hr] at h; exact absurd h (by simp)
    | some rest =>
      rw [hr] at h
      simp only [Option.map_some', Option.some.injEq] at h
      exact ⟨v, rest, h.symm, hb.1, hb.2.1, hb.2.2, rfl, hv, rfl⟩

/-- The read of one recorded field in `compareTime`: the slice and `strconv.Atoi`. -/
theorem field_read (s : Str) (record e : Int) (v : Nat) (h0 : 0 ≤ record) (h1 : record < e)
    (h2 : e ≤ (len s : Int))
    (hv : digitsValue (bytesToString
      (((stringBytes s).drop record.toNat).take (e.toNat - record.toNat))) 0 = some v)
    (hlt : v < 2 ^ 63) :
    ∃ f, substr s record e = .ok f ∧ Atoi f = ((v : Int), none) := by
  refine ⟨((stringBytes s).drop record.toNat).take (e.toNat - record.toNat), ?_, ?_⟩
  · unfold substr
    rw [if_pos ⟨h0, le_of_lt h1, h2⟩]
  · have hne : bytesToString
        (((stringBytes s).drop record.toNat).take (e.toNat - record.toNat)) ≠ [] := by
      intro hnil
      have hl : (bytesToString
          (((stringBytes s).drop record.toNat).take (e.toNat - record.toNat))).length = 0 := by
        rw [hnil]; rfl
      simp only [bytesToString, List.length_map, List.length_take, List.length_drop] at hl
      unfold len at h2
      omega
    exact ParseInt_digits _ v hne hv hlt

/-- The loop of `compareTime` from index `idx` on, against the lexicographic order of
the tuples of the fields recorded from `idx` on. -/
theorem compareTimeLoop_lex (target matchS : Str) (timeEnd : List Int) :
    ∀ (timeStart : List Int) (idx : Nat) (ft fm : List Nat),
      recordedFields target timeStart (timeEnd.drop idx) = some ft →
      recordedFields matchS timeStart (timeEnd.drop idx) = some fm →
      ∃ b1 b2,
        compareTimeLoop target matchS timeEnd true idx timeStart = .ok b1 ∧
        (b1 = true ↔ LexLe ft fm) ∧
        compareTimeLoop target matchS timeEnd false idx timeStart = .ok b2 ∧
        (b2 = true ↔ LexLe fm ft) := by
  intro timeStart
  induction timeStart with
  | nil =>
    intro idx ft fm h1 h2
    simp only [recordedFields, Option.some.injEq] at h1 h2
    subst h1; subst h2
    exact ⟨true, true, rfl, by simp [LexLe], rfl, by simp [LexLe]⟩
  | cons record ts ih =>
    intro idx ft fm h1 h2
    cases hd : timeEnd.drop idx with
    | nil =>
      rw [hd] at h1
      simp only [recordedFields] at h1
      exact absurd h1 (by simp)
    | cons e te =>
      rw [hd] at h1 h2
      have hget : timeEnd[idx]? = some e := by
        rw [← List.head?_drop, hd]
        rfl
      have hdrop : timeEnd.drop (idx + 1) = te := by
        rw [← List.drop_drop 1 idx, hd]
        rfl
      by_cases hrec : record = -1
      · simp only [recordedFields, hrec, if_true] at h1 h2
        rw [← hdrop] at h1 h2
        obtain ⟨b1, b2, r1, r2, r3, r4⟩ := ih (idx + 1) ft fm h1 h2
        refine ⟨b1, b2, ?_, r2, ?_, r4⟩
        · simp only [compareTimeLoop, hrec, if_true]
          exact r1
        · simp only [compareTimeLoop, hrec, if_true]
          exact r3
      · obtain ⟨v, ft1, hft, a0, a1, a2, a3, a4, a5⟩ :=
          recordedFields_cons target record e ts te ft hrec h1
        obtain ⟨w, fm1, hfm, b0, b1, b2, b3, b4, b5⟩ :=
          recordedFields_cons matchS record e ts te fm hrec h2
        obtain ⟨f1, hs1, hat1⟩ := field_read target record e v a0 a1 a2 a3 a4
        obtain ⟨f2, hs2, hat2⟩ := field_read matchS record e w b0 b1 b2 b3 b4
        rw [← hdrop] at a5 b5
        obtain ⟨c1, c2, r1, r2, r3, r4⟩ := ih (idx + 1) ft1 fm1 a5 b5
        have hlens : ¬ ((len target : Int) < e ∨ (len matchS : Int) < e) := by omega
        subst hft; subst hfm
        have hstep : ∀ min : Bool,
            compareTimeLoop target matchS timeEnd min idx (record :: ts) =
              if (v : Int) < (w : Int) then .ok min
              else if (v : Int) > (w : Int) then .ok (!min)
              else compareTimeLoop target matchS timeEnd min (idx + 1) ts := by
          intro min
          simp only [compareTimeLoop, if_neg hrec, hget, if_neg hlens, hs1, hat1, hs2, hat2,
            bind, Except.bind]
        by_cases hvw : v < w
        · have h3 : (v : Int) < (w : Int) := by omega
          refine ⟨true, false, ?_, ?_, ?_, ?_⟩
          · rw [hstep true, if_pos h3]
          · rw [LexLe_cons]
            exact ⟨fun _ => Or.inl hvw, fun _ => rfl⟩
          · rw [hstep false, if_pos h3]
          · rw [LexLe_cons]
            constructor
            · intro h; exact absurd h (by simp)
            · rintro (h | ⟨h, _⟩) <;> omega
        · by_cases hwv : w < v
          · have h3 : ¬ (v : Int) < (w : Int) := by omega
            have h4 : (v : Int) > (w : Int) := by omega
            refine ⟨false, true, ?_, ?_, ?_, ?_⟩
            · rw [hstep true, if_neg h3, if_pos h4]
              rfl
            · rw [LexLe_cons]
              constructor
              · intro h; exact absurd h (by simp)
              · rintro (h | ⟨h, _⟩) <;> omega
            · rw [hstep false, if_neg h3, if_pos h4]
              rfl
            · rw [LexLe_cons]
              exact ⟨fun _ => Or.inl hwv, fun _ => rfl⟩
          · have h3 : ¬ (v : Int) < (w : Int) := by omega
            have h4 : ¬ (v : Int) > (w : Int) := by omega
            have heq : v = w := by omega
            subst heq
            refine ⟨c1, c2, ?_, ?_, ?_, ?_⟩
            · rw [hstep true, if_neg h3, if_neg h4]
              exact r1
            · rw [LexLe_cons, r2]
              exact ⟨fun h => Or.inr ⟨rfl, h⟩, fun h => by
                rcases h with h | ⟨_, h⟩
                · omega
                · exact h⟩
            · rw [hstep false, if_neg h3, if_neg h4]
              exact r3
            · rw [LexLe_cons, r4]
              exact ⟨fun h => Or.inr ⟨rfl, h⟩, fun h => by
                rcases h with h | ⟨_, h⟩
                · omega
                · exact h⟩

/-- C26. When target and match are long enough to hold every recorded time field and
hold decimal digits in those fields (byte offsets, as `goMagicIndex` records them;
field values below `2 ^ 63`, as those of a year, month, day, hour, minute or second
are), with the tuples `ft` and `fm` of field values in the order year, month, day,
hour, minute, second: `compareTime(target, match, timeStart, timeEnd, true)` returns
true if and only if `ft` is lexicographically less than or equal to `fm`, and
`compareTime(..., false)` returns true if and only if `fm` is lexicographically less
than or equal to `ft`, that is `ft` greater than or equal to `fm`. -/
theorem compareTime_lex (target matchS : Str) (timeStart timeEnd : List Int)
    (ft fm : List Nat) (h1 : recordedFields target timeStart timeEnd = some ft)
    (h2 : recordedFields matchS timeStart timeEnd = some fm) :
    ∃ b1 b2,
      compareTime target matchS timeStart timeEnd true = .ok b1 ∧
      (b1 = true ↔ LexLe ft fm) ∧
      compareTime target matchS timeStart timeEnd false = .ok b2 ∧
      (b2 = true ↔ LexLe fm ft) :=
  compareTimeLoop_lex target matchS timeEnd timeStart 0 ft fm h1 h2

/-- C26 at the day `20240307` against the day `20240308`, and at the table names
`日2024` and `日2023` with the year recorded at the byte offsets `[3, 7)` behind a
character of three bytes. -/
theorem compareTime_lex_witness :
    recordedFields "20240307".toList dayStart dayEnd = some [2024, 3, 7] ∧
    recordedFields "20240308".toList dayStart dayEnd = some [2024, 3, 8] ∧
    compareTime "20240307".toList "20240308".toList dayStart dayEnd true = .ok true ∧
    compareTime "20240307".toList "20240308".toList dayStart dayEnd false = .ok false ∧
    (∃ b1 b2,
      compareTime "20240307".toList "20240308".toList dayStart dayEnd true = .ok b1 ∧
      (b1 = true ↔ LexLe [2024, 3, 7] [2024, 3, 8]) ∧
      compareTime "20240307".toList "20240308".toList dayStart dayEnd false = .ok b2 ∧
      (b2 = true ↔ LexLe [2024, 3, 8] [2024, 3, 7])) ∧
    compareTime "日2024".toList "日2023".toList yearStart yearEnd false = .ok true ∧
    compareTime "日2024".toList "日2023".toList yearStart yearEnd true = .ok false ∧
    (∃ b1 b2,
      compareTime "日2024".toList "日2023".toList yearStart yearEnd true = .ok b1 ∧
      (b1 = true ↔ LexLe [2024] [2023]) ∧
      compareTime "日2024".toList "日2023".toList yearStart yearEnd false = .ok b2 ∧
      (b2 = true ↔ LexLe [2023] [2024])) :=
  ⟨rfl, rfl, rfl, rfl,
    compareTime_lex "20240307".toList "20240308".toList dayStart dayEnd [2024, 3, 7]
      [2024, 3, 8] rfl rfl,
    rfl, rfl,
    compareTime_lex "日2024".toList "日2023".toList yearStart yearEnd [2024] [2023] rfl rfl⟩

end timeorder

end sql

namespace reader

section record

variable {σ : Type}

/-- The first line of bytes that hold the delimiter is not empty. -/
theorem throughDelim_ne_nil (a : Byte) (u : List Byte) (h : a ∈ u) :
    throughDelim a u ≠ [] := by
  intro hnil
  have hu : u ≠ [] := List.ne_nil_of_mem h
  have hl : (throughDelim a u).length = 0 := by rw [hnil]; rfl
  simp only [throughDelim, List.length_take] at hl
  have := List.length_pos.2 hu
  omega

/-- What is left behind the first line is no longer than the bytes it is cut from. -/
theorem afterDelim_length_le (a : Byte) (u : List Byte) :
    (afterDelim a u).length ≤ u.length := by
  simp only [afterDelim, List.length_drop]
  omega

/-- The last of the first `n + 1` lines behind the first line is the last of the first
`n + 2` lines. -/
theorem linesOf_succ_getLast (a : Byte) (n : Nat) (u : List Byte) :
    (linesOf a (n + 2) u).getLast? = (linesOf a (n + 1) (afterDelim a u)).getLast? := by
  show (throughDelim a u :: (throughDelim a (afterDelim a u)
    :: linesOf a n (afterDelim a (afterDelim a u)))).getLast? = _
  rw [List.getLast?_cons_cons]
  rfl

/-- The loop of `ReadPattern` on a non-empty accumulator, when the unread bytes start
with `k` physical lines that do not match the head pattern followed by one that does:
the loop returns the accumulator and those `k` lines as one logical line and leaves the
matching line in the accumulator. -/
theorem ReadPatternLoop_record (env : Env σ) (P : List Byte → Bool)
    (hP : env.multiLineRegexp = some P)
    (henc : env.encodingWay = "" ∨ env.encodingWay = "utf-8") (fuel : Nat) :
    ∀ (k n maxTimes : Nat) (b : BufReader σ) (rest head : List Byte),
      b.stopped = false → Cursors b → 0 < b.buf.length → b.err = none →
      Delivers env.rd b.rd rest → b.mutiLineCache ≠ [] →
      k + 1 ≤ (window b ++ rest).count newline →
      (window b ++ rest).length < fuel → k < n →
      (∀ l ∈ linesOf newline k (window b ++ rest), P l = false) →
      (linesOf newline (k + 1) (window b ++ rest)).getLast? = some head → P head = true →
      (b.mutiLineCache ++ linesOf newline k (window b ++ rest)).flatten.length
        ≤ MaxHeadPatternBufferSize →
      ∃ b' rest',
        ReadPatternLoop env fuel n maxTimes b
          = .ok ((b.mutiLineCache ++ linesOf newline k (window b ++ rest)).flatten, none, b',
              .headMatched) ∧
        b'.mutiLineCache = [head] ∧
        (linesOf newline (k + 1) (window b ++ rest)).flatten ++ (window b' ++ rest')
          = window b ++ rest ∧
        Delivers env.rd b'.rd rest' ∧ Cursors b' ∧ b'.stopped = false ∧ b'.err = none ∧
        b'.buf.length = b.buf.length := by
  intro k
  induction k with
  | zero =>
    intro n maxTimes b rest head hs hc hL he hd hacc hcount hfuel hn _ hhead hmatch _
    have hmem : newline ∈ window b ++ rest := List.count_pos_iff.1 (by omega)
    obtain ⟨b1, rest1, hread, hwin1, hd1, hc1, hlen1, herr1, hst1, _, _⟩ :=
      ReadString_delivers env newline b rest fuel henc hs hc hL (Or.inl he) hd hmem hfuel
    obtain ⟨n1, rfl⟩ : ∃ n1, n = n1 + 1 := ⟨n - 1, by omega⟩
    have hround := ReadPatternLoop_round env P hP fuel n1 maxTimes b b1 _ none hread
      (throughDelim_ne_nil newline _ hmem)
    have hh : head = throughDelim newline (window b ++ rest) := by
      have h1 : (linesOf newline 1 (window b ++ rest)).getLast?
          = some (throughDelim newline (window b ++ rest)) := rfl
      rw [h1] at hhead
      exact (Option.some.inj hhead).symm
    subst hh
    rw [if_pos ⟨hacc, hmatch⟩] at hround
    refine ⟨{ b1 with mutiLineCache := [throughDelim newline (window b ++ rest)] }, rest1,
      ?_, rfl, ?_, hd1, hc1, hst1.trans hs, herr1.trans he, hlen1⟩
    · rw [hround]
      simp only [linesOf, List.append_nil]
    · show (linesOf newline 1 (window b ++ rest)).flatten ++ (window b1 ++ rest1) = _
      rw [hwin1]
      simp only [linesOf, List.flatten_cons, List.flatten_nil, List.append_nil]
      exact through_append_after newline _
  | succ k ih =>
    intro n maxTimes b rest head hs hc hL he hd hacc hcount hfuel hn hnon hhead hmatch hcap
    have hmem : newline ∈ window b ++ rest := List.count_pos_iff.1 (by omega)
    obtain ⟨b1, rest1, hread, hwin1, hd1, hc1, hlen1, herr1, hst1, _, _⟩ :=
      ReadString_delivers env newline b rest fuel henc hs hc hL (Or.inl he) hd hmem hfuel
    obtain ⟨n1, rfl⟩ : ∃ n1, n = n1 + 1 := ⟨n - 1, by omega⟩
    have hround := ReadPatternLoop_round env P hP fuel n1 maxTimes b b1 _ none hread
      (throughDelim_ne_nil newline _ hmem)
    have hlines : linesOf newline (k + 1) (window b ++ rest)
        = throughDelim newline (window b ++ rest)
          :: linesOf newline k (afterDelim newline (window b ++ rest)) := rfl
    have hP1 : P (throughDelim newline (window b ++ rest)) = false :=
      hnon _ (by rw [hlines]; exact List.mem_cons_self _ _)
    have hcap1 : ¬ (b.mutiLineCache ≠ [] ∧
        (b.mutiLineCache ++ [throughDelim newline (window b ++ rest)]).flatten.length
          > MaxHeadPatternBufferSize) := by
      rintro ⟨_, hgt⟩
      rw [hlines] at hcap
      simp only [List.flatten_append, List.flatten_cons, List.flatten_nil, List.append_nil,
        List.length_append] at hcap hgt
      omega
    rw [if_neg (fun h => by rw [hP1] at h; exact absurd h.2 (by decide)), if_neg hcap1]
      at hround
    have hwin2 : window ({ b1 with mutiLineCache := b.mutiLineCache
        ++ [throughDelim newline (window b ++ rest)] } : BufReader σ) ++ rest1
        = afterDelim newline (window b ++ rest) := hwin1
    have hcnt := count_afterDelim newline (window b ++ rest) hmem
    have hle := afterDelim_length_le newline (window b ++ rest)
    obtain ⟨b', rest', hrun, hml, hcat, hd', hc', hs', he', hl'⟩ :=
      ih n1 (if b.mutiLineCache = [] then maxTimes else 0)
        ({ b1 with mutiLineCache := b.mutiLineCache
          ++ [throughDelim newline (window b ++ rest)] } : BufReader σ) rest1 head
        (hst1.trans hs) hc1 (by rw [hlen1]; exact hL) (herr1.trans he) hd1
        (by simp)
        (by rw [hwin2]; omega) (by rw [hwin2]; omega) (by omega)
        (by
          rw [hwin2]
          intro l hl
          exact hnon l (by rw [hlines]; exact List.mem_cons_of_mem _ hl))
        (by
          rw [hwin2, ← linesOf_succ_getLast]
          exact hhead)
        hmatch
        (by
          rw [hwin2]
          rw [hlines] at hcap
          simpa [List.append_assoc] using hcap)
    rw [hwin2] at hrun hcat
    refine ⟨b', rest', ?_, hml, ?_, hd', hc', hs', he', hl'.trans hlen1⟩
    · rw [hround, hrun, hlines]
      simp only [List.append_assoc, List.singleton_append]
    · have h2 : linesOf newline (k + 1 + 1) (window b ++ rest)
          = throughDelim newline (window b ++ rest)
            :: linesOf newline (k + 1) (afterDelim newline (window b ++ rest)) := rfl
      rw [h2, List.flatten_cons, List.append_assoc, hcat]
      exact through_append_after newline _

/-- C3, amended. In multi-line mode with head pattern `P` and text that is not
re-encoded, for every sequence `rest` of bytes that the File Source delivers to a reader
that is not stopped, has its cursors within a buffer of positive size and no pending
error, with `window b ++ rest` the unread bytes. On a non-empty accumulator whose lines
after the first do not match `P`, when the unread bytes start with `k` physical lines
that do not match `P` followed by a physical line `head` that matches `P` (the
accumulator with the `k` lines within the cap of 20 MiB), `ReadPattern` returns on the
head-pattern match, without error, the logical line made of the lines of the accumulator
followed by exactly those `k` physical lines, of which lines none after the first
matches `P`. On an empty accumulator the first physical line is taken untested, and the
logical line is that line followed by the `k` physical lines behind it that do not match
`P`. In both cases the accumulator holds exactly `head` afterwards, so the next logical
line begins with a line matching `P`, and the File Source goes on delivering the bytes
behind `head`. Whatever `ReadPattern` returns, no line after the first of the accumulator
it leaves matches `P`; and every logical line it returns on a head-pattern match is made
of a first line, the first line of the accumulator if it had one, and later lines of
which none matches `P`, and leaves exactly one line, which matches `P`, in the
accumulator. The fuel covers the unread bytes. -/
theorem ReadPattern_returns_record {σ : Type} (env : Env σ) (P : List Byte → Bool)
    (hP : env.multiLineRegexp = some P)
    (henc : env.encodingWay = "" ∨ env.encodingWay = "utf-8")
    (b : BufReader σ) (rest head : List Byte) (fuel k : Nat)
    (hs : b.stopped = false) (hc : Cursors b) (hL : 0 < b.buf.length) (he : b.err = none)
    (hd : Delivers env.rd b.rd rest)
    (hinv : ∀ l ∈ b.mutiLineCache.tail, P l = false)
    (hfuel : (window b ++ rest).length < fuel) (hmatch : P head = true) :
    (b.mutiLineCache ≠ [] →
      k + 1 ≤ (window b ++ rest).count newline →
      (∀ l ∈ linesOf newline k (window b ++ rest), P l = false) →
      (linesOf newline (k + 1) (window b ++ rest)).getLast? = some head →
      (b.mutiLineCache ++ linesOf newline k (window b ++ rest)).flatten.length
        ≤ MaxHeadPatternBufferSize →
      ∃ b' rest',
        ReadPattern env fuel b
          = .ok ((b.mutiLineCache ++ linesOf newline k (window b ++ rest)).flatten, none, b',
              .headMatched) ∧
        (∀ l ∈ (b.mutiLineCache ++ linesOf newline k (window b ++ rest)).tail, P l = false) ∧
        b'.mutiLineCache = [head] ∧
        (linesOf newline (k + 1) (window b ++ rest)).flatten ++ (window b' ++ rest')
          = window b ++ rest ∧
        Delivers env.rd b'.rd rest' ∧ Cursors b' ∧ b'.stopped = false ∧ b'.err = none ∧
        b'.buf.length = b.buf.length) ∧
    (b.mutiLineCache = [] →
      k + 2 ≤ (window b ++ rest).count newline →
      (∀ l ∈ (linesOf newline (k + 1) (window b ++ rest)).tail, P l = false) →
      (linesOf newline (k + 2) (window b ++ rest)).getLast? = some head →
      (linesOf newline (k + 1) (window b ++ rest)).flatten.length
        ≤ MaxHeadPatternBufferSize →
      ∃ b' rest',
        ReadPattern env fuel b
          = .ok ((linesOf newline (k + 1) (window b ++ rest)).flatten, none, b',
              .headMatched) ∧
        b'.mutiLineCache = [head] ∧
        (linesOf newline (k + 2) (window b ++ rest)).flatten ++ (window b' ++ rest')
          = window b ++ rest ∧
        Delivers env.rd b'.rd rest' ∧ Cursors b' ∧ b'.stopped = false ∧ b'.err = none ∧
        b'.buf.length = b.buf.length) ∧
    (∀ (line : List Byte) (err : Option Error) (b' : BufReader σ) (site : ReturnSite),
      ReadPattern env fuel b = .ok (line, err, b', site) →
      (∀ l ∈ b'.mutiLineCache.tail, P l = false) ∧
      (site = .headMatched →
        ∃ (first : List Byte) (later : List (List Byte)) (head1 : List Byte),
          line = (first :: later).flatten ∧ (∀ l ∈ later, P l = false) ∧
          (∀ c, b.mutiLineCache.head? = some c → first = c) ∧
          b'.mutiLineCache = [head1] ∧ P head1 = true)) := by
  have hcl : (window b ++ rest).count newline ≤ (window b ++ rest).length :=
    List.count_le_length _ _
  refine ⟨?_, ?_, ?_⟩
  rotate_left 2
  · intro line err b' site h
    exact ReadPatternLoop_boundary env P hP fuel fuel 0 b b' line err site hinv h
  · intro hacc hcount hnon hhead hcap
    obtain ⟨b', rest', hrun, hml, hcat, hd', hc', hs', he', hl'⟩ :=
      ReadPatternLoop_record env P hP henc fuel k fuel 0 b rest head hs hc hL he hd hacc
        hcount hfuel (by omega) hnon hhead hmatch hcap
    refine ⟨b', rest', hrun, ?_, hml, hcat, hd', hc', hs', he', hl'⟩
    intro l hl
    cases hcache : b.mutiLineCache with
    | nil => exact absurd hcache hacc
    | cons c t =>
      rw [hcache] at hl hinv
      simp only [List.cons_append, List.tail_cons, List.mem_append] at hl hinv
      rcases hl with h | h
      · exact hinv l h
      · exact hnon l h
  · intro hacc hcount hnon hhead hcap
    have hmem : newline ∈ window b ++ rest := List.count_pos_iff.1 (by omega)
    obtain ⟨b1, rest1, hread, hwin1, hd1, hc1, hlen1, herr1, hst1, _, _⟩ :=
      ReadString_delivers env newline b rest fuel henc hs hc hL (Or.inl he) hd hmem hfuel
    obtain ⟨n1, hn1⟩ : ∃ n1, fuel = n1 + 1 := ⟨fuel - 1, by omega⟩
    have hround := ReadPatternLoop_round env P hP fuel n1 0 b b1 _ none hread
      (throughDelim_ne_nil newline _ hmem)
    rw [if_neg (fun h => h.1 hacc), if_neg (fun h => h.1 hacc), if_pos hacc, hacc,
      List.nil_append] at hround
    have hlines : linesOf newline (k + 1) (window b ++ rest)
        = throughDelim newline (window b ++ rest)
          :: linesOf newline k (afterDelim newline (window b ++ rest)) := rfl
    have hwin2 : window ({ b1 with mutiLineCache :=
        [throughDelim newline (window b ++ rest)] } : BufReader σ) ++ rest1
        = afterDelim newline (window b ++ rest) := hwin1
    have hcnt := count_afterDelim newline (window b ++ rest) hmem
    have hle := afterDelim_length_le newline (window b ++ rest)
    obtain ⟨b', rest', hrun, hml, hcat, hd', hc', hs', he', hl'⟩ :=
      ReadPatternLoop_record env P hP henc fuel k n1 0
        ({ b1 with mutiLineCache := [throughDelim newline (window b ++ rest)] } : BufReader σ)
        rest1 head (hst1.trans hs) hc1 (by rw [hlen1]; exact hL) (herr1.trans he) hd1
        (by simp)
        (by rw [hwin2]; omega) (by rw [hwin2]; omega) (by omega)
        (by
          rw [hwin2]
          intro l hl
          exact hnon l (by rw [hlines]; exact hl))
        (by
          rw [hwin2, ← linesOf_succ_getLast]
          exact hhead)
        hmatch
        (by
          rw [hwin2]
          rw [hlines] at hcap
          exact hcap)
    rw [hwin2] at hrun hcat
    refine ⟨b', rest', ?_, hml, ?_, hd', hc', hs', he', hl'.trans hlen1⟩
    · have hstart : ReadPattern env fuel b = ReadPatternLoop env fuel (n1 + 1) 0 b := by
        unfold ReadPattern
        rw [← hn1]
      rw [hstart, hround, hrun, hlines]
      rfl
    · have h2 : linesOf newline (k + 2) (window b ++ rest)
          = throughDelim newline (window b ++ rest)
            :: linesOf newline (k + 1) (afterDelim newline (window b ++ rest)) := rfl
      rw [h2, List.flatten_cons, List.append_assoc, hcat]
      exact through_append_after newline _

/-- C3, amended, in scenario S3. From the empty accumulator `ReadPattern` returns the
first two physical lines and leaves the third, which matches the head pattern, in the
accumulator, with nothing left unread; from an accumulator that holds two lines it
returns these two when the next physical line matches the head pattern. -/
theorem ReadPattern_returns_record_witness :
    (∃ b' rest',
      ReadPattern dateEnv 60 s3Reader
        = .ok (bytesOf "2024-01-01 start\n stack line\n", none, b', .headMatched) ∧
      b'.mutiLineCache = [bytesOf "2024-01-02 next\n"] ∧
      window b' ++ rest' = []) ∧
    (∃ b' : BufReader (List Byte),
      ReadPattern dateEnv 60 s3Accumulated
        = .ok (bytesOf "2024-01-01 start\n stack line\n", none, b', .headMatched) ∧
      b'.mutiLineCache = [bytesOf "2024-01-01 start\n"]) := by
  constructor
  · obtain ⟨b', rest', hrun, hml, hcat, _⟩ :=
      (ReadPattern_returns_record dateEnv datePattern rfl (Or.inl rfl) s3Reader
        (bytesOf "2024-01-01 start\n stack line\n2024-01-02 next\n")
        (bytesOf "2024-01-02 next\n") 60 1 rfl ⟨by decide, by decide⟩ (by decide) rfl
        (chunkSource_delivers 5 (by decide) 60 _ (by decide))
        (by decide) (by decide) (by decide)).2.1 rfl (by decide) (by decide) (by decide)
        (by decide)
    refine ⟨b', rest', hrun, hml, ?_⟩
    have hall : (linesOf newline 3 (window s3Reader
        ++ bytesOf "2024-01-01 start\n stack line\n2024-01-02 next\n")).flatten
        = window s3Reader ++ bytesOf "2024-01-01 start\n stack line\n2024-01-02 next\n" := by
      decide
    rw [hall] at hcat
    exact List.append_cancel_left (by rw [List.append_nil]; exact hcat)
  · obtain ⟨b', _, hrun, _, hml, _⟩ :=
      (ReadPattern_returns_record dateEnv datePattern rfl (Or.inl rfl) s3Accumulated
        (bytesOf "2024-01-01 start\n stack line\n2024-01-02 next\n")
        (bytesOf "2024-01-01 start\n") 60 0 rfl ⟨by decide, by decide⟩ (by decide) rfl
        (chunkSource_delivers 5 (by decide) 60 _ (by decide))
        (by decide) (by decide) (by decide)).1 (by decide) (by decide) (by decide)
        (by decide) (by decide)
    exact ⟨b', hrun, hml⟩

end record

end reader

end Logkit
